import Mathlib

/-!
Wedge tessellation of paths (`src/gpu/tessellate/PathWedgeTessellator.cpp`).

A shallow embedding of the contour parser, the wedge writer and the `prepare` loop of the
wedge tessellator, followed by theorems about them.

Conventions of the embedding:

* `float` values are exact rationals (`ℚ`) wherever a theorem is about control flow, counts,
  order or layout. Where the value of a `float` computation is the subject (the midpoint of a
  contour, the halving of a curve), the code is embedded a second time in namespace `binary32`,
  with every operation rounded to the nearest binary32 value and with infinities and NaN.
* C pointers into the verb, point and weight arrays of a path are offsets into the lists of the
  `SkPath` record; a read past the end of an array yields `none`.
* `int` counters are natural numbers (a path never holds `2^31` verbs).
-/

namespace skgpu

/-! ## Points and paths -/

/-- A point with `float` coordinates `fX`, `fY` (`SkPoint`). -/
structure SkPoint where
  fX : ℚ
  fY : ℚ
deriving DecidableEq, Repr

namespace SkPoint

/-- Component-wise sum (`SkPoint::operator+`, `operator+=`). -/
def add (a b : SkPoint) : SkPoint := ⟨a.fX + b.fX, a.fY + b.fY⟩

/-- Component-wise scaling (`SkPoint::operator*(float)`). -/
def scale (a : SkPoint) (k : ℚ) : SkPoint := ⟨a.fX * k, a.fY * k⟩

instance : Add SkPoint := ⟨add⟩

instance : Zero SkPoint := ⟨⟨0, 0⟩⟩

end SkPoint

/-- The verbs of a path (`SkPath::Verb` / `SkPathVerb`). -/
inductive SkPathVerb where
  | kMove | kLine | kQuad | kConic | kCubic | kClose
deriving DecidableEq, Repr

/-- A path as its three parallel arrays (`SkPathPriv::VerbData`, `PointData`,
`ConicWeightData`). -/
structure SkPath where
  fVerbs : List SkPathVerb
  fPts : List SkPoint
  fConicWeights : List ℚ
deriving DecidableEq, Repr

/-! ## MidpointContourParser -/

/-- The state of `MidpointContourParser`. The three pointers `fVerbs`, `fPoints`, `fWeights` are
offsets into the arrays of `fPath`. `fMidpoint` and `fMidpointWeight` are uninitialised in the
source until a Move seeds them; they start at zero here. -/
structure MidpointContourParser where
  fPath : SkPath
  fVerbs : Nat
  fNumRemainingVerbs : Nat
  fVerbsIdx : Nat
  fPoints : Nat
  fPtsIdx : Nat
  fWeights : Nat
  fWtsIdx : Nat
  fMidpoint : SkPoint
  fMidpointWeight : Nat
deriving DecidableEq, Repr

namespace MidpointContourParser

/-- The constructor `MidpointContourParser(const SkPath&)`. -/
def mk0 (path : SkPath) : MidpointContourParser :=
  { fPath := path, fVerbs := 0, fNumRemainingVerbs := path.fVerbs.length, fVerbsIdx := 0,
    fPoints := 0, fPtsIdx := 0, fWeights := 0, fWtsIdx := 0,
    fMidpoint := 0, fMidpointWeight := 0 }

/-- The private `advance()`: rebases the three pointers on the current indices. -/
def advance (s : MidpointContourParser) : MidpointContourParser :=
  { s with
    fVerbs := s.fVerbs + s.fVerbsIdx
    fNumRemainingVerbs := s.fNumRemainingVerbs - s.fVerbsIdx
    fVerbsIdx := 0
    fPoints := s.fPoints + s.fPtsIdx
    fPtsIdx := 0
    fWeights := s.fWeights + s.fWtsIdx
    fWtsIdx := 0 }

/-- The read `fVerbs[i]`. -/
def verbAt (s : MidpointContourParser) (i : Nat) : Option SkPathVerb :=
  s.fPath.fVerbs[s.fVerbs + i]?

/-- The read `fPoints[i]`. -/
def pointAt (s : MidpointContourParser) (i : Nat) : Option SkPoint :=
  s.fPath.fPts[s.fPoints + i]?

/-- The tail of the loop body of `parseNextContour`, reached by the `break`s of the geometry
verbs: `fMidpoint += fPoints[fPtsIdx - 1]; ++fMidpointWeight;`. The caller then sets
`hasGeometry` and runs the loop increment. -/
def accumulate (s : MidpointContourParser) : Option MidpointContourParser :=
  match s.pointAt (s.fPtsIdx - 1) with
  | none => none
  | some pt => some { s with fMidpoint := s.fMidpoint + pt, fMidpointWeight := s.fMidpointWeight + 1 }

/-- The loop increment `++fVerbsIdx`. -/
def nextVerb (s : MidpointContourParser) : MidpointContourParser :=
  { s with fVerbsIdx := s.fVerbsIdx + 1 }

/-- The `for` loop of `parseNextContour`, with the local `hasGeometry` as an argument. The first
argument bounds the number of iterations; `none` is a read outside the path arrays (or an
exhausted bound, which `parseNextContour` never meets: every iteration consumes one verb). -/
def parseLoop : Nat → Bool → MidpointContourParser → Option (Bool × MidpointContourParser)
  | 0, hasGeometry, s =>
    if s.fVerbsIdx < s.fNumRemainingVerbs then none else some (hasGeometry, s)
  | fuel + 1, hasGeometry, s =>
    if s.fVerbsIdx < s.fNumRemainingVerbs then
      match s.verbAt s.fVerbsIdx with
      | none => none
      | some SkPathVerb.kMove =>
        if !hasGeometry then
          match s.pointAt s.fPtsIdx with
          | none => none
          | some pt =>
            let s1 := { s with fMidpoint := pt, fMidpointWeight := 1 }
            let s2 := s1.advance
            let s3 := { s2 with fPtsIdx := s2.fPtsIdx + 1 }
            parseLoop fuel hasGeometry s3.nextVerb
        else some (true, s)
      | some SkPathVerb.kClose => parseLoop fuel hasGeometry s.nextVerb
      | some SkPathVerb.kLine =>
        match accumulate { s with fPtsIdx := s.fPtsIdx + 1 } with
        | none => none
        | some s1 => parseLoop fuel true s1.nextVerb
      | some SkPathVerb.kConic =>
        match accumulate { s with fWtsIdx := s.fWtsIdx + 1, fPtsIdx := s.fPtsIdx + 2 } with
        | none => none
        | some s1 => parseLoop fuel true s1.nextVerb
      | some SkPathVerb.kQuad =>
        match accumulate { s with fPtsIdx := s.fPtsIdx + 2 } with
        | none => none
        | some s1 => parseLoop fuel true s1.nextVerb
      | some SkPathVerb.kCubic =>
        match accumulate { s with fPtsIdx := s.fPtsIdx + 3 } with
        | none => none
        | some s1 => parseLoop fuel true s1.nextVerb
    else some (hasGeometry, s)

/-- The method `parseNextContour()`: the returned flag and the state it leaves. -/
def parseNextContour (s : MidpointContourParser) : Option (Bool × MidpointContourParser) :=
  parseLoop (s.fNumRemainingVerbs - s.fVerbsIdx) false s

/-- The method `currentMidpoint()`: `fMidpoint * (1.f / fMidpointWeight)`, in exact
arithmetic: the point that the patches of the contour are said to carry. Its value as the
machine computes it is `binary32.MidpointContourParser.currentMidpoint`. -/
def currentMidpoint (s : MidpointContourParser) : SkPoint :=
  s.fMidpoint.scale (1 / (s.fMidpointWeight : ℚ))

end MidpointContourParser

/-! ## Curves, matrices and the collaborators of the wedge writer -/

/-- Three control points: the argument `const SkPoint p[3]` of the quadratic and conic writers. -/
structure QuadPts where
  p0 : SkPoint
  p1 : SkPoint
  p2 : SkPoint
deriving DecidableEq, Repr

/-- Four control points: the argument `const SkPoint p[4]` of the cubic writer. -/
structure CubicPts where
  p0 : SkPoint
  p1 : SkPoint
  p2 : SkPoint
  p3 : SkPoint
deriving DecidableEq, Repr

/-- A conic: three control points and a weight (`SkConic`, fields `fPts`, `fW`). -/
structure SkConic where
  fPts : QuadPts
  fW : ℚ
deriving DecidableEq, Repr

/-- An affine `SkMatrix`. Both consumers in this file (`PathXform` and
`wangs_formula::VectorXform`) reject perspective, so the third row is not carried. -/
structure SkMatrix where
  scaleX : ℚ
  skewX : ℚ
  transX : ℚ
  skewY : ℚ
  scaleY : ℚ
  transY : ℚ
deriving DecidableEq, Repr

namespace SkMatrix

/-- The identity matrix (`SkMatrix::I()`). -/
def I : SkMatrix := ⟨1, 0, 0, 0, 1, 0⟩

/-- The product `a * b` (`SkMatrix::setConcat(a, b)`): apply `b`, then `a`. -/
def setConcat (a b : SkMatrix) : SkMatrix :=
  { scaleX := a.scaleX * b.scaleX + a.skewX * b.skewY
    skewX := a.scaleX * b.skewX + a.skewX * b.scaleY
    transX := a.scaleX * b.transX + a.skewX * b.transY + a.transX
    skewY := a.skewY * b.scaleX + a.scaleY * b.skewY
    scaleY := a.skewY * b.skewX + a.scaleY * b.scaleY
    transY := a.skewY * b.transX + a.scaleY * b.transY + a.transY }

/-- The image of a point (`PathXform::mapPoint`, `SkMatrix::mapXY`). -/
def mapPoint (m : SkMatrix) (p : SkPoint) : SkPoint :=
  ⟨m.scaleX * p.fX + m.skewX * p.fY + m.transX, m.skewY * p.fX + m.scaleY * p.fY + m.transY⟩

/-- The image of a vector: the upper-left 2x2 block only (`wangs_formula::VectorXform`). -/
def mapVector (m : SkMatrix) (v : SkPoint) : SkPoint :=
  ⟨m.scaleX * v.fX + m.skewX * v.fY, m.skewY * v.fX + m.scaleY * v.fY⟩

end SkMatrix

/-- The tessellation precision constant `kTessellationPrecision` of `Tessellation.h`. -/
def kTessellationPrecision : ℚ := 4

/-- The segment estimators and the conic chop that `WedgeWriter` calls and that live in other
files (`WangsFormula.h`, `SkGeometry.h`). They are parameters of the writer: each takes the
arguments of its call site, the matrix being the one held in `fTotalVectorXform`. -/
structure Estimators where
  quadratic_pow4 : ℚ → QuadPts → SkMatrix → ℚ
  conic_pow2 : ℚ → QuadPts → ℚ → SkMatrix → ℚ
  cubic_pow4 : ℚ → CubicPts → SkMatrix → ℚ
  chopAt : SkConic → ℚ → Option (SkConic × SkConic)

/-- The midpoint `(a + b) / 2` of two points, in exact arithmetic. -/
def SkPoint.half (a b : SkPoint) : SkPoint := ⟨(a.fX + b.fX) / 2, (a.fY + b.fY) / 2⟩

/-- Modelled from the spec: `SkChopQuadAtHalf` (declared in `SkGeometry.h`) is the De Casteljau
halving of a quadratic at `t = 0.5`. Returns the five points `chops[0..4]` as the two quadratics
`chops` and `chops + 2`, which share `chops[2]`. The halving is exact here; with the rounding of
the `float` coordinates it is `binary32.SkChopQuadAtHalf`. -/
def SkChopQuadAtHalf (p : QuadPts) : QuadPts × QuadPts :=
  let a := SkPoint.half p.p0 p.p1
  let b := SkPoint.half p.p1 p.p2
  let m := SkPoint.half a b
  (⟨p.p0, a, m⟩, ⟨m, b, p.p2⟩)

/-- Modelled from the spec: `SkChopCubicAtHalf` (declared in `SkGeometry.h`) is the De Casteljau
halving of a cubic at `t = 0.5`. Returns the seven points `chops[0..6]` as the two cubics
`chops` and `chops + 3`, which share `chops[3]`. The halving is exact here; with the rounding of
the `float` coordinates it is `binary32.SkChopCubicAtHalf`. -/
def SkChopCubicAtHalf (p : CubicPts) : CubicPts × CubicPts :=
  let ab := SkPoint.half p.p0 p.p1
  let bc := SkPoint.half p.p1 p.p2
  let cd := SkPoint.half p.p2 p.p3
  let abc := SkPoint.half ab bc
  let bcd := SkPoint.half bc cd
  let m := SkPoint.half abc bcd
  (⟨p.p0, ab, abc, m⟩, ⟨m, bcd, cd, p.p3⟩)

/-- The shader capabilities read by this file (`GrShaderCaps`). -/
structure GrShaderCaps where
  tessellationSupport : Bool
  infinitySupport : Bool
  maxTessellationSegments : Nat
deriving DecidableEq, Repr

/-- The curve-type tags `GrTessellationShader::kCubicCurveType` and `kConicCurveType`. -/
inductive CurveType where
  | kCubicCurveType | kConicCurveType
deriving DecidableEq, Repr

/-! ## Patches and vertex chunks -/

/-- The call on `fPathXform` that writes the first four control points of a patch. -/
inductive PatchGeometry where
  | mapLineToCubic (p0 p1 : SkPoint)
  | mapQuadToCubic (p : QuadPts)
  | mapConicToPatch (p : QuadPts) (w : ℚ)
  | map4Points (p : CubicPts)
deriving DecidableEq, Repr

/-- One patch as written through a `VertexWriter`: the `PathXform` call with the matrix it
applies, then the midpoint, then the curve type when `VertexWriter::If` lets it through. -/
structure Patch where
  fPathXform : SkMatrix
  fGeometry : PatchGeometry
  fMidpoint : SkPoint
  fCurveType : Option CurveType
deriving DecidableEq, Repr

/-- A vertex chunk (`GrVertexChunk`): buffer handle, base offset and the patches written to
it; `fCount` is their number. -/
structure GrVertexChunk where
  fBuffer : Nat
  fBase : Nat
  fPatches : List Patch
deriving DecidableEq, Repr

/-- The field `fCount` of a chunk, kept equal to the number of patches written. -/
def GrVertexChunk.fCount (c : GrVertexChunk) : Nat := c.fPatches.length

/-- Modelled from the spec: `GrVertexChunkBuilder` (its file is not part of the sources) hands
out room for one patch at a time, asking the draw target for a new chunk (`allocate(sizeBytes)
-> chunk`) when the current one is full. `fTarget k n` is the answer of the target to the
`k`-th request, for at least `n` patches: buffer handle, base offset and capacity, or `none`
when it has no room. -/
structure GrVertexChunkBuilder where
  fTarget : Nat → Nat → Option (Nat × Nat × Nat)
  fNumRequests : Nat
  fChunks : List GrVertexChunk
  fStride : Nat
  fMinVerticesPerChunk : Nat
  fCurrChunkVertexCapacity : Nat
  fCurrChunkVertexCount : Nat

namespace GrVertexChunkBuilder

/-- Modelled from the spec: `allocChunk(minCount)` asks the target for a chunk of at least
`max minCount fMinVerticesPerChunk` patches; on failure the builder is left without room. -/
def allocChunk (b : GrVertexChunkBuilder) (minCount : Nat) : GrVertexChunkBuilder × Bool :=
  let b1 := { b with fNumRequests := b.fNumRequests + 1, fCurrChunkVertexCount := 0 }
  match b.fTarget b.fNumRequests (max minCount b.fMinVerticesPerChunk) with
  | none => ({ b1 with fCurrChunkVertexCapacity := 0 }, false)
  | some (buffer, base, capacity) =>
    if capacity < minCount then ({ b1 with fCurrChunkVertexCapacity := 0 }, false)
    else ({ b1 with fChunks := b1.fChunks ++ [⟨buffer, base, []⟩],
                    fCurrChunkVertexCapacity := capacity }, true)

/-- Adds a patch to the chunk being filled (the writes through the returned `VertexWriter`). -/
def push (chunks : List GrVertexChunk) (patch : Patch) : List GrVertexChunk :=
  match chunks.getLast? with
  | none => chunks
  | some c => chunks.dropLast ++ [{ c with fPatches := c.fPatches ++ [patch] }]

/-- Modelled from the spec: `appendVertex()` followed by the body of the `if` that tests its
`VertexWriter`: when there is room (possibly after `allocChunk(1)`) the patch is written,
otherwise nothing is. -/
def appendVertex (b : GrVertexChunkBuilder) (patch : Patch) : GrVertexChunkBuilder :=
  if b.fCurrChunkVertexCapacity < b.fCurrChunkVertexCount + 1 then
    match b.allocChunk 1 with
    | (b1, false) => b1
    | (b1, true) =>
      { b1 with fChunks := push b1.fChunks patch,
                fCurrChunkVertexCount := b1.fCurrChunkVertexCount + 1 }
  else
    { b with fChunks := push b.fChunks patch,
             fCurrChunkVertexCount := b.fCurrChunkVertexCount + 1 }

/-- All patches written so far, in order. -/
def patches (b : GrVertexChunkBuilder) : List Patch :=
  b.fChunks.flatMap GrVertexChunk.fPatches

end GrVertexChunkBuilder

/-! ## Outcomes of code that recurses or reads through pointers -/

/-- How a run of the embedded code ends. `returned s`: the call returns, leaving state `s`.
`unfinished s`: the bound on nested calls (or on loop iterations) was reached with state `s`
written so far; a call for which no bound is enough never returns. `fault`: a read outside the
path arrays. -/
inductive Run (σ : Type) where
  | returned (s : σ)
  | unfinished (s : σ)
  | fault

namespace Run

/-- Sequencing: the second step runs only when the first returned. -/
def andThen {σ : Type} (r : Run σ) (f : σ → Run σ) : Run σ :=
  match r with
  | returned s => f s
  | unfinished s => unfinished s
  | fault => fault

/-- The state left behind, when there is one. -/
def state? {σ : Type} : Run σ → Option σ
  | returned s => some s
  | unfinished s => some s
  | fault => none

/-- Whether the run returned. -/
def isReturned {σ : Type} : Run σ → Bool
  | returned _ => true
  | _ => false

end Run

/-! ## WedgeWriter -/

/-- The state of `WedgeWriter`. -/
structure WedgeWriter where
  fChunker : GrVertexChunkBuilder
  fTotalVectorXform : SkMatrix
  fPathXform : SkMatrix
  fMaxSegments_pow2 : ℚ
  fMaxSegments_pow4 : ℚ
  fNumFixedSegments_pow4 : ℚ

namespace WedgeWriter

/-- The constructor: `fMaxSegments_pow2(maxSegments * maxSegments)`,
`fMaxSegments_pow4(fMaxSegments_pow2 * fMaxSegments_pow2)`, `fNumFixedSegments_pow4 = 1`.
`target` answers the chunk requests and `vertexChunkArray` is the array the chunks go to. -/
def mk0 (target : Nat → Nat → Option (Nat × Nat × Nat)) (vertexChunkArray : List GrVertexChunk)
    (patchStride : Nat) (initialPatchAllocCount : Nat) (maxSegments : Nat) : WedgeWriter :=
  { fChunker :=
      { fTarget := target, fNumRequests := 0, fChunks := vertexChunkArray, fStride := patchStride,
        fMinVerticesPerChunk := initialPatchAllocCount, fCurrChunkVertexCapacity := 0,
        fCurrChunkVertexCount := 0 }
    fTotalVectorXform := SkMatrix.I
    fPathXform := SkMatrix.I
    fMaxSegments_pow2 := ((maxSegments * maxSegments : Nat) : ℚ)
    fMaxSegments_pow4 := ((maxSegments * maxSegments : Nat) : ℚ) * ((maxSegments * maxSegments : Nat) : ℚ)
    fNumFixedSegments_pow4 := 1 }

/-- The method `setMatrices(shaderMatrix, pathMatrix)`. -/
def setMatrices (w : WedgeWriter) (shaderMatrix pathMatrix : SkMatrix) : WedgeWriter :=
  let totalMatrix := SkMatrix.setConcat shaderMatrix pathMatrix
  { w with fTotalVectorXform := totalMatrix, fPathXform := pathMatrix }

/-- The value `VertexWriter::If(!shaderCaps.infinitySupport(), type)` lets through. -/
def curveTypeIf (shaderCaps : GrShaderCaps) (type : CurveType) : Option CurveType :=
  if !shaderCaps.infinitySupport then some type else none

/-- The method `writeFlatWedge(shaderCaps, p0, p1, midpoint)`. -/
def writeFlatWedge (w : WedgeWriter) (shaderCaps : GrShaderCaps) (p0 p1 midpoint : SkPoint) :
    WedgeWriter :=
  { w with
    fChunker := w.fChunker.appendVertex
      ({ fPathXform := w.fPathXform, fGeometry := PatchGeometry.mapLineToCubic p0 p1,
         fMidpoint := midpoint,
         fCurveType := curveTypeIf shaderCaps CurveType.kCubicCurveType }) }

/-- The methods `writeQuadraticWedge(shaderCaps, p, midpoint)` and, in its first branch,
`chopAndWriteQuadraticWedges`. The first argument bounds the depth of nested calls. -/
def writeQuadraticWedge (E : Estimators) :
    Nat → WedgeWriter → GrShaderCaps → QuadPts → SkPoint → Run WedgeWriter
  | 0, w, _, _, _ => Run.unfinished w
  | fuel + 1, w, shaderCaps, p, midpoint =>
    let numSegments_pow4 := E.quadratic_pow4 kTessellationPrecision p w.fTotalVectorXform
    if numSegments_pow4 > w.fMaxSegments_pow4 then
      let chops := SkChopQuadAtHalf p
      match writeQuadraticWedge E fuel w shaderCaps chops.1 midpoint with
      | Run.returned w1 => writeQuadraticWedge E fuel w1 shaderCaps chops.2 midpoint
      | Run.unfinished w1 => Run.unfinished w1
      | Run.fault => Run.fault
    else
      Run.returned
        { w with
          fChunker := w.fChunker.appendVertex
            ({ fPathXform := w.fPathXform, fGeometry := PatchGeometry.mapQuadToCubic p,
               fMidpoint := midpoint,
               fCurveType := curveTypeIf shaderCaps CurveType.kCubicCurveType })
          fNumFixedSegments_pow4 := max numSegments_pow4 w.fNumFixedSegments_pow4 }

/-- The methods `writeConicWedge(shaderCaps, p, w, midpoint)` and, in its first branch,
`chopAndWriteConicWedges`, which returns at once when `chopAt(.5, chops)` fails. -/
def writeConicWedge (E : Estimators) :
    Nat → WedgeWriter → GrShaderCaps → QuadPts → ℚ → SkPoint → Run WedgeWriter
  | 0, w, _, _, _, _ => Run.unfinished w
  | fuel + 1, w, shaderCaps, p, wt, midpoint =>
    let numSegments_pow2 := E.conic_pow2 kTessellationPrecision p wt w.fTotalVectorXform
    if numSegments_pow2 > w.fMaxSegments_pow2 then
      match E.chopAt ⟨p, wt⟩ (1 / 2) with
      | none => Run.returned w
      | some chops =>
        match writeConicWedge E fuel w shaderCaps chops.1.fPts chops.1.fW midpoint with
        | Run.returned w1 => writeConicWedge E fuel w1 shaderCaps chops.2.fPts chops.2.fW midpoint
        | Run.unfinished w1 => Run.unfinished w1
        | Run.fault => Run.fault
    else
      Run.returned
        { w with
          fChunker := w.fChunker.appendVertex
            ({ fPathXform := w.fPathXform, fGeometry := PatchGeometry.mapConicToPatch p wt,
               fMidpoint := midpoint,
               fCurveType := curveTypeIf shaderCaps CurveType.kConicCurveType })
          fNumFixedSegments_pow4 := max (numSegments_pow2 * numSegments_pow2) w.fNumFixedSegments_pow4 }

/-- The methods `writeCubicWedge(shaderCaps, p, midpoint)` and, in its first branch,
`chopAndWriteCubicWedges`. -/
def writeCubicWedge (E : Estimators) :
    Nat → WedgeWriter → GrShaderCaps → CubicPts → SkPoint → Run WedgeWriter
  | 0, w, _, _, _ => Run.unfinished w
  | fuel + 1, w, shaderCaps, p, midpoint =>
    let numSegments_pow4 := E.cubic_pow4 kTessellationPrecision p w.fTotalVectorXform
    if numSegments_pow4 > w.fMaxSegments_pow4 then
      let chops := SkChopCubicAtHalf p
      match writeCubicWedge E fuel w shaderCaps chops.1 midpoint with
      | Run.returned w1 => writeCubicWedge E fuel w1 shaderCaps chops.2 midpoint
      | Run.unfinished w1 => Run.unfinished w1
      | Run.fault => Run.fault
    else
      Run.returned
        { w with
          fChunker := w.fChunker.appendVertex
            ({ fPathXform := w.fPathXform, fGeometry := PatchGeometry.map4Points p,
               fMidpoint := midpoint,
               fCurveType := curveTypeIf shaderCaps CurveType.kCubicCurveType })
          fNumFixedSegments_pow4 := max numSegments_pow4 w.fNumFixedSegments_pow4 }

/-- The accessor `int numFixedSegments_pow4() const`: the `float` field converted to `int`,
which drops the fractional part. -/
def numFixedSegments_pow4 (w : WedgeWriter) : ℤ :=
  if 0 ≤ w.fNumFixedSegments_pow4 then Rat.floor w.fNumFixedSegments_pow4
  else Rat.ceil w.fNumFixedSegments_pow4

/-- All patches written so far, in order. -/
def patches (w : WedgeWriter) : List Patch := w.fChunker.patches

end WedgeWriter

/-! ## Iterating a contour -/

/-- One step of the range-for over `SkPathPriv::Iterate`: the verb of the tuple
`(verb, pts, w)` together with the points `pts[0..]` (and the weight `*w`) its case may read. -/
inductive PathElem where
  | kMove (pts0 : SkPoint)
  | kClose
  | kLine (pts0 pts1 : SkPoint)
  | kQuad (pts : QuadPts)
  | kConic (pts : QuadPts) (w : ℚ)
  | kCubic (pts : CubicPts)
deriving DecidableEq, Repr

/-- Modelled from the spec: `SkPathPriv::Iterate` (its header is not part of the sources) walks
a verb range and hands out each primitive with its own control points, the first of which is
the end point of the primitive before it. `ptsCur` and `wtsCur` are the point and weight
cursors; a Move reads the point under the cursor, every other verb starts one point back. -/
def iterate (fPts : List SkPoint) (fConicWeights : List ℚ) :
    List SkPathVerb → Nat → Nat → Option (List PathElem)
  | [], _, _ => some []
  | SkPathVerb.kMove :: vs, ptsCur, wtsCur =>
    match fPts[ptsCur]? with
    | some p0 => (iterate fPts fConicWeights vs (ptsCur + 1) wtsCur).map (PathElem.kMove p0 :: ·)
    | none => none
  | SkPathVerb.kClose :: vs, ptsCur, wtsCur =>
    (iterate fPts fConicWeights vs ptsCur wtsCur).map (PathElem.kClose :: ·)
  | SkPathVerb.kLine :: vs, ptsCur, wtsCur =>
    if ptsCur = 0 then none else
    match fPts[ptsCur - 1]?, fPts[ptsCur]? with
    | some p0, some p1 =>
      (iterate fPts fConicWeights vs (ptsCur + 1) wtsCur).map (PathElem.kLine p0 p1 :: ·)
    | _, _ => none
  | SkPathVerb.kQuad :: vs, ptsCur, wtsCur =>
    if ptsCur = 0 then none else
    match fPts[ptsCur - 1]?, fPts[ptsCur]?, fPts[ptsCur + 1]? with
    | some p0, some p1, some p2 =>
      (iterate fPts fConicWeights vs (ptsCur + 2) wtsCur).map (PathElem.kQuad ⟨p0, p1, p2⟩ :: ·)
    | _, _, _ => none
  | SkPathVerb.kConic :: vs, ptsCur, wtsCur =>
    if ptsCur = 0 then none else
    match fPts[ptsCur - 1]?, fPts[ptsCur]?, fPts[ptsCur + 1]?, fConicWeights[wtsCur]? with
    | some p0, some p1, some p2, some w =>
      (iterate fPts fConicWeights vs (ptsCur + 2) (wtsCur + 1)).map
        (PathElem.kConic ⟨p0, p1, p2⟩ w :: ·)
    | _, _, _, _ => none
  | SkPathVerb.kCubic :: vs, ptsCur, wtsCur =>
    if ptsCur = 0 then none else
    match fPts[ptsCur - 1]?, fPts[ptsCur]?, fPts[ptsCur + 1]?, fPts[ptsCur + 2]? with
    | some p0, some p1, some p2, some p3 =>
      (iterate fPts fConicWeights vs (ptsCur + 3) wtsCur).map
        (PathElem.kCubic ⟨p0, p1, p2, p3⟩ :: ·)
    | _, _, _, _ => none

/-- The method `currentContour()`: `Iterate(fVerbs, fVerbs + fVerbsIdx, fPoints, fWeights)`. -/
def MidpointContourParser.currentContour (s : MidpointContourParser) : Option (List PathElem) :=
  iterate s.fPath.fPts s.fPath.fConicWeights ((s.fPath.fVerbs.drop s.fVerbs).take s.fVerbsIdx)
    s.fPoints s.fWeights

/-! ## PathWedgeTessellator::prepare -/

/-- The locals of the loop over one contour in `prepare`. -/
structure ContourLocals where
  wedgeWriter : WedgeWriter
  startPoint : SkPoint
  lastPoint : SkPoint

/-- The body of `for (auto [verb, pts, w] : parser.currentContour())`: the `switch` on the
verb. -/
def writeElem (E : Estimators) (fuel : Nat) (shaderCaps : GrShaderCaps) (midpoint : SkPoint)
    (c : ContourLocals) : PathElem → Run ContourLocals
  | PathElem.kMove pts0 => Run.returned { c with startPoint := pts0, lastPoint := pts0 }
  | PathElem.kClose => Run.returned c
  | PathElem.kLine pts0 pts1 =>
    Run.returned { c with
      wedgeWriter := c.wedgeWriter.writeFlatWedge shaderCaps pts0 pts1 midpoint
      lastPoint := pts1 }
  | PathElem.kQuad pts =>
    match WedgeWriter.writeQuadraticWedge E fuel c.wedgeWriter shaderCaps pts midpoint with
    | Run.returned w => Run.returned { c with wedgeWriter := w, lastPoint := pts.p2 }
    | Run.unfinished w => Run.unfinished { c with wedgeWriter := w }
    | Run.fault => Run.fault
  | PathElem.kConic pts w =>
    match WedgeWriter.writeConicWedge E fuel c.wedgeWriter shaderCaps pts w midpoint with
    | Run.returned w => Run.returned { c with wedgeWriter := w, lastPoint := pts.p2 }
    | Run.unfinished w => Run.unfinished { c with wedgeWriter := w }
    | Run.fault => Run.fault
  | PathElem.kCubic pts =>
    match WedgeWriter.writeCubicWedge E fuel c.wedgeWriter shaderCaps pts midpoint with
    | Run.returned w => Run.returned { c with wedgeWriter := w, lastPoint := pts.p3 }
    | Run.unfinished w => Run.unfinished { c with wedgeWriter := w }
    | Run.fault => Run.fault

/-- The loop `for (auto [verb, pts, w] : parser.currentContour())`. -/
def writeElems (E : Estimators) (fuel : Nat) (shaderCaps : GrShaderCaps) (midpoint : SkPoint) :
    List PathElem → ContourLocals → Run ContourLocals
  | [], c => Run.returned c
  | e :: es, c =>
    match writeElem E fuel shaderCaps midpoint c e with
    | Run.returned c1 => writeElems E fuel shaderCaps midpoint es c1
    | Run.unfinished c1 => Run.unfinished c1
    | Run.fault => Run.fault

/-- The statement after the loop: `if (lastPoint != startPoint) writeFlatWedge(shaderCaps,
lastPoint, startPoint, midpoint)`. -/
def closeContour (shaderCaps : GrShaderCaps) (midpoint : SkPoint) (c : ContourLocals) :
    WedgeWriter :=
  if c.lastPoint ≠ c.startPoint then
    c.wedgeWriter.writeFlatWedge shaderCaps c.lastPoint c.startPoint midpoint
  else c.wedgeWriter

/-- The body of `while (parser.parseNextContour())` in `prepare`, for the parser state `parser`
left by a call that returned true. -/
def prepareContour (E : Estimators) (fuel : Nat) (shaderCaps : GrShaderCaps)
    (parser : MidpointContourParser) (wedgeWriter : WedgeWriter) : Run WedgeWriter :=
  let midpoint := wedgeWriter.fPathXform.mapPoint parser.currentMidpoint
  let startPoint : SkPoint := ⟨0, 0⟩
  let lastPoint := startPoint
  match parser.currentContour with
  | none => Run.fault
  | some elems =>
    match writeElems E fuel shaderCaps midpoint elems ⟨wedgeWriter, startPoint, lastPoint⟩ with
    | Run.returned c => Run.returned (closeContour shaderCaps midpoint c)
    | Run.unfinished c => Run.unfinished c.wedgeWriter
    | Run.fault => Run.fault

/-- The loop `while (parser.parseNextContour()) { ... }` of `prepare`. The first argument
bounds the number of iterations; the number of verbs of the path is always enough. -/
def contourLoop (E : Estimators) (fuel : Nat) (shaderCaps : GrShaderCaps) :
    Nat → MidpointContourParser → WedgeWriter → Run WedgeWriter
  | 0, parser, wedgeWriter =>
    match parser.parseNextContour with
    | none => Run.fault
    | some (false, _) => Run.returned wedgeWriter
    | some (true, _) => Run.unfinished wedgeWriter
  | n + 1, parser, wedgeWriter =>
    match parser.parseNextContour with
    | none => Run.fault
    | some (false, _) => Run.returned wedgeWriter
    | some (true, parser1) =>
      match prepareContour E fuel shaderCaps parser1 wedgeWriter with
      | Run.returned w1 => contourLoop E fuel shaderCaps n parser1 w1
      | Run.unfinished w1 => Run.unfinished w1
      | Run.fault => Run.fault

/-- The loop `for (auto [pathMatrix, path] : pathDrawList)` of `prepare`. -/
def pathLoop (E : Estimators) (fuel : Nat) (shaderCaps : GrShaderCaps) (viewMatrix : SkMatrix) :
    List (SkMatrix × SkPath) → WedgeWriter → Run WedgeWriter
  | [], wedgeWriter => Run.returned wedgeWriter
  | (pathMatrix, path) :: rest, wedgeWriter =>
    let w1 := wedgeWriter.setMatrices viewMatrix pathMatrix
    match contourLoop E fuel shaderCaps path.fVerbs.length (MidpointContourParser.mk0 path) w1 with
    | Run.returned w2 => pathLoop E fuel shaderCaps viewMatrix rest w2
    | Run.unfinished w2 => Run.unfinished w2
    | Run.fault => Run.fault

/-- The part of `GrPathTessellationShader` that `prepare` reads. The last two fields stand for
the static members `kMaxFixedCountSegments` and `NumCurveTrianglesAtResolveLevel`, whose header
is not part of the sources. -/
structure GrPathTessellationShader where
  willUseTessellationShaders : Bool
  viewMatrix : SkMatrix
  vertexStride : Nat
  instanceStride : Nat
  kMaxFixedCountSegments : Nat
  NumCurveTrianglesAtResolveLevel : Nat → Nat

/-- The buffer types passed to `findOrMakeStaticBuffer` (`GrGpuBufferType`). -/
inductive GrGpuBufferType where
  | kVertex | kIndex
deriving DecidableEq, Repr

/-- The two static unique keys declared by `GR_DECLARE_STATIC_UNIQUE_KEY`. -/
inductive StaticUniqueKey where
  | gFixedCountVertexBufferKey | gFixedCountIndexBufferKey
deriving DecidableEq, Repr

/-- The two size functions of `GrPathTessellationShader` named in `prepare`. -/
inductive StaticBufferSize where
  | SizeOfVertexBufferForMiddleOutWedges | SizeOfIndexBufferForMiddleOutWedges
deriving DecidableEq, Repr

/-- The two initializers of `GrPathTessellationShader` named in `prepare`. -/
inductive StaticBufferInitializer where
  | InitializeVertexBufferForMiddleOutWedges | InitializeIndexBufferForMiddleOutWedges
deriving DecidableEq, Repr

/-- The four arguments of one call of `findOrMakeStaticBuffer`. -/
structure StaticBufferRequest where
  type : GrGpuBufferType
  size : StaticBufferSize
  key : StaticUniqueKey
  initializer : StaticBufferInitializer
deriving DecidableEq, Repr

/-- The draw target as `prepare` sees it (`GrMeshDrawTarget`): the shader caps, the answers to
chunk requests, the answers of the resource provider to static-buffer requests (a buffer handle
or null), and the requests made so far. -/
structure GrMeshDrawTarget where
  shaderCaps : GrShaderCaps
  makeVertexSpaceAtLeast : Nat → Nat → Option (Nat × Nat × Nat)
  findOrMakeStaticBuffer : StaticBufferRequest → Option Nat
  fStaticBufferRequests : List StaticBufferRequest

/-- The fields of `PathWedgeTessellator`. -/
structure PathWedgeTessellator where
  fShader : GrPathTessellationShader
  fVertexChunkArray : List GrVertexChunk
  fFixedIndexCount : Nat
  fFixedCountVertexBuffer : Option Nat
  fFixedCountIndexBuffer : Option Nat

/-- Modelled from the spec: `MaxCombinedFanEdgesInPathDrawList` (declared in `Tessellation.h`)
is the theoretical wedge count of a batch, its combined number of verbs: every contour opens
with a Move, which emits nothing and so pays for the wedge that closes the contour. -/
def MaxCombinedFanEdgesInPathDrawList (totalCombinedPathVerbCnt : Nat) : Nat :=
  totalCombinedPathVerbCnt

namespace wangs_formula

/-- The search behind `nextlog16`: the first `L` at or after the given one with `x ≤ 16 ^ L`. -/
def nextlog16From (x : ℚ) : Nat → Nat → Nat
  | 0, L => L
  | steps + 1, L => if x ≤ (16 : ℚ) ^ L then L else nextlog16From x steps (L + 1)

/-- Modelled from the spec: `wangs_formula::nextlog16(x)` (declared in `WangsFormula.h`) is the
log-scale level `ceil(log16(x))`, and `0` for `x ≤ 1`. -/
def nextlog16 (x : ℚ) : Nat := nextlog16From x (Rat.ceil x).toNat 0

/-- Modelled from the spec: the factor `(d (d - 1) / 8 * precision) ^ 2` of Wang's formula for a
curve of degree `d`, the formula being `n = sqrt(d (d - 1) / 8 * precision * max |v|)` over the
second differences `v` of the control points (`WangsFormula.h`, `length_term_pow2`). -/
def length_term_pow2 (degree : Nat) (precision : ℚ) : ℚ :=
  (((degree : ℚ) * ((degree : ℚ) - 1)) / 8 * precision) ^ 2

/-- The squared length of a vector. -/
def length_pow2 (v : SkPoint) : ℚ := v.fX * v.fX + v.fY * v.fY

/-- The second difference `a - 2 b + c` of three consecutive control points. -/
def secondDifference (a b c : SkPoint) : SkPoint :=
  ⟨a.fX - 2 * b.fX + c.fX, a.fY - 2 * b.fY + c.fY⟩

/-- Modelled from the spec: Wang's formula for a quadratic, raised to the fourth power
(`wangs_formula::quadratic_pow4`, declared in `WangsFormula.h`). -/
def quadratic_pow4 (precision : ℚ) (p : QuadPts) (vectorXform : SkMatrix) : ℚ :=
  length_pow2 (vectorXform.mapVector (secondDifference p.p0 p.p1 p.p2)) *
    length_term_pow2 2 precision

/-- Modelled from the spec: Wang's formula for a cubic, raised to the fourth power
(`wangs_formula::cubic_pow4`, declared in `WangsFormula.h`). -/
def cubic_pow4 (precision : ℚ) (p : CubicPts) (vectorXform : SkMatrix) : ℚ :=
  max (length_pow2 (vectorXform.mapVector (secondDifference p.p0 p.p1 p.p2)))
      (length_pow2 (vectorXform.mapVector (secondDifference p.p1 p.p2 p.p3))) *
    length_term_pow2 3 precision

end wangs_formula

/-- The estimators with Wang's formula for quadratics and cubics; the conic estimator and the
conic chop, which need square roots, stay parameters. -/
def wangsEstimators (conic_pow2 : ℚ → QuadPts → ℚ → SkMatrix → ℚ)
    (chopAt : SkConic → ℚ → Option (SkConic × SkConic)) : Estimators :=
  { quadratic_pow4 := wangs_formula.quadratic_pow4
    conic_pow2 := conic_pow2
    cubic_pow4 := wangs_formula.cubic_pow4
    chopAt := chopAt }

namespace PathWedgeTessellator

/-- The first half of `prepare`, up to the end of the loop over the paths: the wedge writer it
leaves, or `none` when `wedgeAllocCount` is zero and `prepare` returns at once. -/
def prepareWedges (E : Estimators) (fuel : Nat) (t : PathWedgeTessellator)
    (target : GrMeshDrawTarget) (pathDrawList : List (SkMatrix × SkPath))
    (totalCombinedPathVerbCnt : Nat) : Option (Run WedgeWriter) :=
  let shaderCaps := target.shaderCaps
  let maxWedges := MaxCombinedFanEdgesInPathDrawList totalCombinedPathVerbCnt
  let wedgeAllocCount := (maxWedges * 5 + 3) / 4
  if wedgeAllocCount = 0 then none
  else
    let patchStride :=
      if t.fShader.willUseTessellationShaders then t.fShader.vertexStride * 5
      else t.fShader.instanceStride
    let maxSegments :=
      if t.fShader.willUseTessellationShaders then shaderCaps.maxTessellationSegments
      else t.fShader.kMaxFixedCountSegments
    let wedgeWriter := WedgeWriter.mk0 target.makeVertexSpaceAtLeast t.fVertexChunkArray
      patchStride wedgeAllocCount maxSegments
    some (pathLoop E fuel shaderCaps t.fShader.viewMatrix pathDrawList wedgeWriter)

/-- The argument `prepare` passes to `nextlog16`: the `int` returned by
`numFixedSegments_pow4()`, converted back to `float`. -/
def nextlog16Argument (wedgeWriter : WedgeWriter) : ℚ :=
  (wedgeWriter.numFixedSegments_pow4 : ℚ)

/-- The second half of `prepare`: the block `if (!fShader->willUseTessellationShaders())`. -/
def prepareFixedCount (t : PathWedgeTessellator) (target : GrMeshDrawTarget)
    (wedgeWriter : WedgeWriter) : PathWedgeTessellator × GrMeshDrawTarget :=
  if !t.fShader.willUseTessellationShaders then
    let fixedResolveLevel := wangs_formula.nextlog16 (nextlog16Argument wedgeWriter)
    let numCurveTriangles := t.fShader.NumCurveTrianglesAtResolveLevel fixedResolveLevel
    let vertexRequest : StaticBufferRequest :=
      ⟨GrGpuBufferType.kVertex, StaticBufferSize.SizeOfVertexBufferForMiddleOutWedges,
        StaticUniqueKey.gFixedCountVertexBufferKey,
        StaticBufferInitializer.InitializeVertexBufferForMiddleOutWedges⟩
    let indexRequest : StaticBufferRequest :=
      ⟨GrGpuBufferType.kIndex, StaticBufferSize.SizeOfIndexBufferForMiddleOutWedges,
        StaticUniqueKey.gFixedCountIndexBufferKey,
        StaticBufferInitializer.InitializeIndexBufferForMiddleOutWedges⟩
    ({ t with
        fFixedIndexCount := numCurveTriangles * 3 + 3
        fFixedCountVertexBuffer := target.findOrMakeStaticBuffer vertexRequest
        fFixedCountIndexBuffer := target.findOrMakeStaticBuffer indexRequest },
     { target with
        fStaticBufferRequests := target.fStaticBufferRequests ++ [vertexRequest, indexRequest] })
  else (t, target)

/-- The method `prepare(target, pathDrawList, totalCombinedPathVerbCnt)`: the tessellator and
the target it leaves. The chunks the writer filled are those of `fVertexChunkArray`. -/
def prepare (E : Estimators) (fuel : Nat) (t : PathWedgeTessellator) (target : GrMeshDrawTarget)
    (pathDrawList : List (SkMatrix × SkPath)) (totalCombinedPathVerbCnt : Nat) :
    Run (PathWedgeTessellator × GrMeshDrawTarget) :=
  match prepareWedges E fuel t target pathDrawList totalCombinedPathVerbCnt with
  | none => Run.returned (t, target)
  | some (Run.returned wedgeWriter) =>
    Run.returned
      (prepareFixedCount { t with fVertexChunkArray := wedgeWriter.fChunker.fChunks } target
        wedgeWriter)
  | some (Run.unfinished wedgeWriter) =>
    Run.unfinished ({ t with fVertexChunkArray := wedgeWriter.fChunker.fChunks }, target)
  | some Run.fault => Run.fault

end PathWedgeTessellator

/-! ## Well-formed paths

A path as the builder of `SkPath` lays it out: a sequence of contours, each a Move followed by
primitives, with exactly the points and weights the verbs need. -/

/-- A primitive that follows the Move of a contour, with the points and weight it owns. -/
inductive Prim where
  | line (p1 : SkPoint)
  | quad (p1 p2 : SkPoint)
  | conic (p1 p2 : SkPoint) (w : ℚ)
  | cubic (p1 p2 p3 : SkPoint)
  | close
deriving DecidableEq, Repr

namespace Prim

/-- The verb of a primitive. -/
def verb : Prim → SkPathVerb
  | line _ => SkPathVerb.kLine
  | quad _ _ => SkPathVerb.kQuad
  | conic _ _ _ => SkPathVerb.kConic
  | cubic _ _ _ => SkPathVerb.kCubic
  | close => SkPathVerb.kClose

/-- The points a primitive adds to the point array. -/
def points : Prim → List SkPoint
  | line p1 => [p1]
  | quad p1 p2 => [p1, p2]
  | conic p1 p2 _ => [p1, p2]
  | cubic p1 p2 p3 => [p1, p2, p3]
  | close => []

/-- The weights a primitive adds to the weight array. -/
def weights : Prim → List ℚ
  | conic _ _ w => [w]
  | _ => []

/-- The end point of a Line, Quad, Conic or Cubic; a Close has none. -/
def endPoint? : Prim → Option SkPoint
  | line p1 => some p1
  | quad _ p2 => some p2
  | conic _ p2 _ => some p2
  | cubic _ _ p3 => some p3
  | close => none

/-- Whether the primitive is a Line, Quad, Conic or Cubic. -/
def isGeometry (pr : Prim) : Bool := pr.endPoint?.isSome

end Prim

/-- A contour: its Move point and the primitives after the Move. -/
structure Contour where
  start : SkPoint
  prims : List Prim
deriving DecidableEq, Repr

namespace Contour

/-- The verbs of a contour: a Move, then one verb per primitive. -/
def verbs (c : Contour) : List SkPathVerb := SkPathVerb.kMove :: c.prims.map Prim.verb

/-- The points of a contour, in array order. -/
def points (c : Contour) : List SkPoint := c.start :: c.prims.flatMap Prim.points

/-- The conic weights of a contour, in array order. -/
def weights (c : Contour) : List ℚ := c.prims.flatMap Prim.weights

/-- The end points of the Line, Quad, Conic and Cubic primitives of a contour, in order. -/
def endPoints (c : Contour) : List SkPoint := c.prims.filterMap Prim.endPoint?

/-- Whether the contour has a Line, Quad, Conic or Cubic. -/
def hasGeometry (c : Contour) : Bool := c.prims.any Prim.isGeometry

/-- The end point of the last Line, Quad, Conic or Cubic, or the Move point when there is
none. -/
def lastPoint (c : Contour) : SkPoint := c.endPoints.getLast?.getD c.start

end Contour

/-- The path made of the given contours. -/
def pathOf (cs : List Contour) : SkPath :=
  { fVerbs := cs.flatMap Contour.verbs
    fPts := cs.flatMap Contour.points
    fConicWeights := cs.flatMap Contour.weights }

/-- The parser state stands at the boundary between the contours `done` and `rest` of the path
`pathOf (done ++ rest)`: the three cursors are at the first verb, point and weight of `rest`. -/
structure MidpointContourParser.AtBoundary (s : MidpointContourParser)
    (done rest : List Contour) : Prop where
  path : s.fPath = pathOf (done ++ rest)
  verbs : s.fVerbs + s.fVerbsIdx = (done.flatMap Contour.verbs).length
  points : s.fPoints + s.fPtsIdx = (done.flatMap Contour.points).length
  weights : s.fWeights + s.fWtsIdx = (done.flatMap Contour.weights).length
  remaining : s.fVerbs + s.fNumRemainingVerbs = ((done ++ rest).flatMap Contour.verbs).length

/-- The parser state has just yielded the contour `c` of `pathOf (done ++ c :: rest)`: its
pointers are at the Move of `c` and its indices at the end of `c`. -/
structure MidpointContourParser.Yielded (s : MidpointContourParser)
    (done : List Contour) (c : Contour) (rest : List Contour) : Prop where
  path : s.fPath = pathOf (done ++ c :: rest)
  verbs : s.fVerbs = (done.flatMap Contour.verbs).length
  verbsIdx : s.fVerbsIdx = c.verbs.length
  points : s.fPoints = (done.flatMap Contour.points).length
  ptsIdx : s.fPtsIdx = c.points.length
  weights : s.fWeights = (done.flatMap Contour.weights).length
  wtsIdx : s.fWtsIdx = c.weights.length
  remaining : s.fVerbs + s.fNumRemainingVerbs = ((done ++ c :: rest).flatMap Contour.verbs).length

/-- The sample points of the midpoint of a contour: the end point of every Line, Quad, Conic and
Cubic added to the Move point, in order. -/
def Contour.midpointSum (c : Contour) : SkPoint := c.endPoints.foldl (· + ·) c.start

namespace MidpointContourParser

/-- The parser state after one iteration of the loop of `parseNextContour` over the primitive
`pr` (a verb other than Move). -/
def over1 (s : MidpointContourParser) (pr : Prim) : MidpointContourParser :=
  { s with
    fVerbsIdx := s.fVerbsIdx + 1
    fPtsIdx := s.fPtsIdx + pr.points.length
    fWtsIdx := s.fWtsIdx + pr.weights.length
    fMidpoint := match pr.endPoint? with
      | some e => s.fMidpoint + e
      | none => s.fMidpoint
    fMidpointWeight := s.fMidpointWeight + (if pr.isGeometry then 1 else 0) }

/-- The parser state after the iteration of the loop of `parseNextContour` that seeds the
midpoint at a Move whose point is `pt`. -/
def seeded (s : MidpointContourParser) (pt : SkPoint) : MidpointContourParser :=
  { s with
    fVerbs := s.fVerbs + s.fVerbsIdx
    fNumRemainingVerbs := s.fNumRemainingVerbs - s.fVerbsIdx
    fVerbsIdx := 1
    fPoints := s.fPoints + s.fPtsIdx
    fPtsIdx := 1
    fWeights := s.fWeights + s.fWtsIdx
    fWtsIdx := 0
    fMidpoint := pt
    fMidpointWeight := 1 }

end MidpointContourParser

/-! ## Vocabulary for the writer -/

/-- The target always has room for the patches asked of it, and the builder has a chunk to write
to whenever it counts free room in one. -/
def GrVertexChunkBuilder.Roomy (b : GrVertexChunkBuilder) : Prop :=
  (∀ k n, ∃ buffer base capacity, b.fTarget k n = some (buffer, base, capacity) ∧ n ≤ capacity) ∧
  (b.fCurrChunkVertexCount < b.fCurrChunkVertexCapacity → b.fChunks ≠ [])

namespace WedgeWriter

/-- The patch `writeQuadraticWedge` writes for a quadratic within budget. -/
def quadPatch (pathXform : SkMatrix) (shaderCaps : GrShaderCaps) (midpoint : SkPoint) (q : QuadPts) :
    Patch :=
  ⟨pathXform, PatchGeometry.mapQuadToCubic q, midpoint,
    curveTypeIf shaderCaps CurveType.kCubicCurveType⟩

/-- The patch `writeConicWedge` writes for a conic within budget. -/
def conicPatch (pathXform : SkMatrix) (shaderCaps : GrShaderCaps) (midpoint : SkPoint) (q : SkConic) :
    Patch :=
  ⟨pathXform, PatchGeometry.mapConicToPatch q.fPts q.fW, midpoint,
    curveTypeIf shaderCaps CurveType.kConicCurveType⟩

/-- The patch `writeCubicWedge` writes for a cubic within budget. -/
def cubicPatch (pathXform : SkMatrix) (shaderCaps : GrShaderCaps) (midpoint : SkPoint) (q : CubicPts) :
    Patch :=
  ⟨pathXform, PatchGeometry.map4Points q, midpoint,
    curveTypeIf shaderCaps CurveType.kCubicCurveType⟩

/-- The patch `writeFlatWedge` writes. -/
def flatPatch (pathXform : SkMatrix) (shaderCaps : GrShaderCaps) (midpoint : SkPoint)
    (p0 p1 : SkPoint) : Patch :=
  ⟨pathXform, PatchGeometry.mapLineToCubic p0 p1, midpoint,
    curveTypeIf shaderCaps CurveType.kCubicCurveType⟩

/-- The writer after the given patches went through `appendVertex` in turn and the tracked
maximum was raised by the given estimates. -/
def after (w : WedgeWriter) (ps : List Patch) (estimates : List ℚ) : WedgeWriter :=
  { w with
    fChunker := ps.foldl GrVertexChunkBuilder.appendVertex w.fChunker
    fNumFixedSegments_pow4 := estimates.foldl (fun x e => max e x) w.fNumFixedSegments_pow4 }

end WedgeWriter

/-! ## Vocabulary for the contour loop of `prepare` -/

/-- A primitive as the iteration of its contour hands it out, `last` being the end point of the
primitive before it (the Move point for the first). -/
def Prim.elem (last : SkPoint) : Prim → PathElem
  | Prim.line p1 => PathElem.kLine last p1
  | Prim.quad p1 p2 => PathElem.kQuad ⟨last, p1, p2⟩
  | Prim.conic p1 p2 w => PathElem.kConic ⟨last, p1, p2⟩ w
  | Prim.cubic p1 p2 p3 => PathElem.kCubic ⟨last, p1, p2, p3⟩
  | Prim.close => PathElem.kClose

/-- The primitives of a contour as the iteration hands them out, from the point `last`. -/
def primElems : SkPoint → List Prim → List PathElem
  | _, [] => []
  | last, pr :: prs => pr.elem last :: primElems (pr.endPoint?.getD last) prs

/-- A contour as the iteration hands it out: the Move, then the primitives. -/
def Contour.elems (c : Contour) : List PathElem :=
  PathElem.kMove c.start :: primElems c.start c.prims

/-- The curve of the element is within the budget (`max2` in squared form for conics, `max4`
in fourth-power form for quadratics and cubics) under the total matrix, so that the writer does
not chop it; Moves, Closes and Lines are never chopped. -/
def PathElem.withinBudget (E : Estimators) (totalMatrix : SkMatrix) (max2 max4 : ℚ) :
    PathElem → Prop
  | PathElem.kQuad pts => E.quadratic_pow4 kTessellationPrecision pts totalMatrix ≤ max4
  | PathElem.kConic pts wt => E.conic_pow2 kTessellationPrecision pts wt totalMatrix ≤ max2
  | PathElem.kCubic pts => E.cubic_pow4 kTessellationPrecision pts totalMatrix ≤ max4
  | _ => True

/-- The wedge of an element that is not chopped; Moves and Closes have none. -/
def PathElem.wedge? (pathXform : SkMatrix) (shaderCaps : GrShaderCaps) (midpoint : SkPoint) :
    PathElem → Option Patch
  | PathElem.kMove _ => none
  | PathElem.kClose => none
  | PathElem.kLine p0 p1 => some (WedgeWriter.flatPatch pathXform shaderCaps midpoint p0 p1)
  | PathElem.kQuad pts => some (WedgeWriter.quadPatch pathXform shaderCaps midpoint pts)
  | PathElem.kConic pts wt => some (WedgeWriter.conicPatch pathXform shaderCaps midpoint ⟨pts, wt⟩)
  | PathElem.kCubic pts => some (WedgeWriter.cubicPatch pathXform shaderCaps midpoint pts)

/-- The estimate by which an element that is not chopped raises the tracked maximum. -/
def PathElem.estimate? (E : Estimators) (totalMatrix : SkMatrix) : PathElem → Option ℚ
  | PathElem.kQuad pts => some (E.quadratic_pow4 kTessellationPrecision pts totalMatrix)
  | PathElem.kConic pts wt =>
    some (E.conic_pow2 kTessellationPrecision pts wt totalMatrix
      * E.conic_pow2 kTessellationPrecision pts wt totalMatrix)
  | PathElem.kCubic pts => some (E.cubic_pow4 kTessellationPrecision pts totalMatrix)
  | _ => none

/-- The midpoint of a contour: the mean of its Move point and the end points of its Lines,
Quads, Conics and Cubics. -/
def Contour.midpoint (c : Contour) : SkPoint :=
  c.midpointSum.scale (1 / (((c.endPoints.length + 1 : Nat)) : ℚ))

/-- The closing wedge of a contour, from its last point to its Move point, when they differ. -/
def Contour.closingWedges (c : Contour) (pathXform : SkMatrix) (shaderCaps : GrShaderCaps) :
    List Patch :=
  if c.lastPoint ≠ c.start then
    [WedgeWriter.flatPatch pathXform shaderCaps (pathXform.mapPoint c.midpoint) c.lastPoint c.start]
  else []

/-- The wedges of a contour none of whose primitives is chopped: one per Line, Quad, Conic and
Cubic, then the closing wedge when there is one. -/
def Contour.wedges (c : Contour) (pathXform : SkMatrix) (shaderCaps : GrShaderCaps) :
    List Patch :=
  c.elems.filterMap (PathElem.wedge? pathXform shaderCaps (pathXform.mapPoint c.midpoint))
    ++ c.closingWedges pathXform shaderCaps

/-- The patches in the chunks of a tessellator. -/
def PathWedgeTessellator.patches (t : PathWedgeTessellator) : List Patch :=
  t.fVertexChunkArray.flatMap GrVertexChunk.fPatches

/-- The patches `prepare` leaves in the chunks of the tessellator, when it returns. -/
def PathWedgeTessellator.preparedPatches (E : Estimators) (fuel : Nat) (t : PathWedgeTessellator)
    (target : GrMeshDrawTarget) (pathDrawList : List (SkMatrix × SkPath))
    (totalCombinedPathVerbCnt : Nat) : Option (List Patch) :=
  match t.prepare E fuel target pathDrawList totalCombinedPathVerbCnt with
  | Run.returned r => some r.1.patches
  | _ => none

/-- The locals `startPoint` and `lastPoint` after the `switch` of `prepare` ran on an element. -/
def PathElem.points (e : PathElem) (startPoint lastPoint : SkPoint) : SkPoint × SkPoint :=
  match e with
  | PathElem.kMove pts0 => (pts0, pts0)
  | PathElem.kClose => (startPoint, lastPoint)
  | PathElem.kLine _ pts1 => (startPoint, pts1)
  | PathElem.kQuad pts => (startPoint, pts.p2)
  | PathElem.kConic pts _ => (startPoint, pts.p2)
  | PathElem.kCubic pts => (startPoint, pts.p3)

/-- The per-patch maximum `prepare` gives its writer: the local `maxSegments`. -/
def PathWedgeTessellator.maxSegments (t : PathWedgeTessellator) (target : GrMeshDrawTarget) :
    Nat :=
  if t.fShader.willUseTessellationShaders then target.shaderCaps.maxTessellationSegments
  else t.fShader.kMaxFixedCountSegments

/-- The wedges of a batch of well-formed paths none of whose primitives is chopped: for every
path in turn, the wedges of its contours, written under the matrix of the path. -/
def batchWedges (shaderCaps : GrShaderCaps) (batch : List (SkMatrix × List Contour)) :
    List Patch :=
  batch.flatMap fun mp => mp.2.flatMap fun c => c.wedges mp.1 shaderCaps

/-- The draw list of a batch of well-formed paths. -/
def drawListOf (batch : List (SkMatrix × List Contour)) : List (SkMatrix × SkPath) :=
  batch.map fun mp => (mp.1, pathOf mp.2)

/-- The writer keeps its matrices and its budget, and a target with room keeps its room. -/
structure WedgeWriter.Kept (w w1 : WedgeWriter) : Prop where
  total : w1.fTotalVectorXform = w.fTotalVectorXform
  path : w1.fPathXform = w.fPathXform
  pow2 : w1.fMaxSegments_pow2 = w.fMaxSegments_pow2
  pow4 : w1.fMaxSegments_pow4 = w.fMaxSegments_pow4
  roomy : w.fChunker.Roomy → w1.fChunker.Roomy
  patches : ∃ new, w1.patches = w.patches ++ new

/-- The wedge writer `prepare` holds when its loop over the paths has returned. -/
def PathWedgeTessellator.preparedWriter (E : Estimators) (fuel : Nat) (t : PathWedgeTessellator)
    (target : GrMeshDrawTarget) (pathDrawList : List (SkMatrix × SkPath))
    (totalCombinedPathVerbCnt : Nat) : Option WedgeWriter :=
  match t.prepareWedges E fuel target pathDrawList totalCombinedPathVerbCnt with
  | some (Run.returned w) => some w
  | _ => none

/-- The estimate of an emitted patch in fourth-power form under a total matrix: the estimate
of a quadratic or cubic, the square of the estimate of a conic; a flat wedge has none. -/
def Patch.estimate_pow4? (E : Estimators) (totalMatrix : SkMatrix) (patch : Patch) : Option ℚ :=
  match patch.fGeometry with
  | PatchGeometry.mapLineToCubic _ _ => none
  | PatchGeometry.mapQuadToCubic q =>
    some (E.quadratic_pow4 kTessellationPrecision q totalMatrix)
  | PatchGeometry.mapConicToPatch q w =>
    some (E.conic_pow2 kTessellationPrecision q w totalMatrix
      * E.conic_pow2 kTessellationPrecision q w totalMatrix)
  | PatchGeometry.map4Points q => some (E.cubic_pow4 kTessellationPrecision q totalMatrix)

/-- A call on the public interface of a `WedgeWriter`. -/
inductive WriterCall where
  | setMatrices (shaderMatrix pathMatrix : SkMatrix)
  | writeFlatWedge (p0 p1 midpoint : SkPoint)
  | writeQuadraticWedge (p : QuadPts) (midpoint : SkPoint)
  | writeConicWedge (p : QuadPts) (w : ℚ) (midpoint : SkPoint)
  | writeCubicWedge (p : CubicPts) (midpoint : SkPoint)

namespace WedgeWriter

/-- One call on a writer. -/
def call (E : Estimators) (fuel : Nat) (shaderCaps : GrShaderCaps) (w : WedgeWriter) :
    WriterCall → Run WedgeWriter
  | WriterCall.setMatrices shaderMatrix pathMatrix =>
    Run.returned (w.setMatrices shaderMatrix pathMatrix)
  | WriterCall.writeFlatWedge p0 p1 midpoint =>
    Run.returned (w.writeFlatWedge shaderCaps p0 p1 midpoint)
  | WriterCall.writeQuadraticWedge p midpoint => writeQuadraticWedge E fuel w shaderCaps p midpoint
  | WriterCall.writeConicWedge p wt midpoint => writeConicWedge E fuel w shaderCaps p wt midpoint
  | WriterCall.writeCubicWedge p midpoint => writeCubicWedge E fuel w shaderCaps p midpoint

/-- A sequence of calls on one writer; a call that does not return ends the sequence. -/
def calls (E : Estimators) (fuel : Nat) (shaderCaps : GrShaderCaps) :
    List WriterCall → WedgeWriter → Run WedgeWriter
  | [], w => Run.returned w
  | c :: cs, w =>
    match w.call E fuel shaderCaps c with
    | Run.returned w1 => calls E fuel shaderCaps cs w1
    | Run.unfinished w1 => Run.unfinished w1
    | Run.fault => Run.fault

/-- The patches added between two states of a writer, each with the total matrix in force
when it was written. -/
def newPatches (w w1 : WedgeWriter) : List (SkMatrix × Patch) :=
  (w1.patches.drop w.patches.length).map fun patch => (w.fTotalVectorXform, patch)

/-- The patches emitted by a sequence of calls on one writer, in order, each with the total
matrix in force when it was written. -/
def emitted (E : Estimators) (fuel : Nat) (shaderCaps : GrShaderCaps) :
    List WriterCall → WedgeWriter → List (SkMatrix × Patch)
  | [], _ => []
  | c :: cs, w =>
    match w.call E fuel shaderCaps c with
    | Run.returned w1 => newPatches w w1 ++ emitted E fuel shaderCaps cs w1
    | Run.unfinished w1 => newPatches w w1
    | Run.fault => []

/-- The maximum of 1 and the fourth-power estimates of the given emitted patches. -/
def maxEstimate (E : Estimators) (ps : List (SkMatrix × Patch)) : ℚ :=
  (ps.filterMap fun mp => mp.2.estimate_pow4? E mp.1).foldl (fun x e => max e x) 1

end WedgeWriter

/-! ## Vocabulary for the chop recursion -/

/-- The sub-curves of a quadratic after `d` levels of halving, in curve order. -/
def quadDescendants : Nat → QuadPts → List QuadPts
  | 0, p => [p]
  | d + 1, p =>
    quadDescendants d (SkChopQuadAtHalf p).1 ++ quadDescendants d (SkChopQuadAtHalf p).2

/-- The sub-curves of a cubic after `d` levels of halving, in curve order. -/
def cubicDescendants : Nat → CubicPts → List CubicPts
  | 0, p => [p]
  | d + 1, p =>
    cubicDescendants d (SkChopCubicAtHalf p).1 ++ cubicDescendants d (SkChopCubicAtHalf p).2

/-- The sub-curves of a conic after `d` levels of `chopAt(.5)`, in curve order; a conic whose
chop fails has none. -/
def conicDescendants (E : Estimators) : Nat → SkConic → List SkConic
  | 0, c => [c]
  | d + 1, c =>
    match E.chopAt c (1 / 2) with
    | none => []
    | some chops => conicDescendants E d chops.1 ++ conicDescendants E d chops.2

/-! ## Vocabulary for sequences of parser calls -/

/-- Whether a verb is a Line, Quad, Conic or Cubic. -/
def SkPathVerb.isGeometry : SkPathVerb → Bool
  | SkPathVerb.kLine => true
  | SkPathVerb.kQuad => true
  | SkPathVerb.kConic => true
  | SkPathVerb.kCubic => true
  | _ => false

/-- Whether an iterated element is a Line, Quad, Conic or Cubic. -/
def PathElem.isGeometry : PathElem → Bool
  | PathElem.kLine _ _ => true
  | PathElem.kQuad _ => true
  | PathElem.kConic _ _ => true
  | PathElem.kCubic _ => true
  | _ => false

namespace MidpointContourParser

/-- The parser state `s1` is reached from `s0` by successive calls of `parseNextContour`,
whatever they returned. -/
inductive ReachedFrom (s0 : MidpointContourParser) : MidpointContourParser → Prop where
  | start : ReachedFrom s0 s0
  | call {s s1 : MidpointContourParser} {flag : Bool} :
    ReachedFrom s0 s → s.parseNextContour = some (flag, s1) → ReachedFrom s0 s1

/-- The verbs at or after the current verb position `fVerbs + fVerbsIdx`. -/
def remainingVerbs (s : MidpointContourParser) : List SkPathVerb :=
  s.fPath.fVerbs.drop (s.fVerbs + s.fVerbsIdx)

/-- The verb range `[fVerbs, fVerbs + fVerbsIdx)` that `currentContour()` iterates. -/
def currentVerbs (s : MidpointContourParser) : List SkPathVerb :=
  (s.fPath.fVerbs.drop s.fVerbs).take s.fVerbsIdx

/-- The usage loop of the parser, `while (parser.parseNextContour()) { ... parser.currentContour()
... }`: the contours exposed by `currentContour()` after the successive calls that return true,
in call order. The first argument bounds the number of iterations. -/
def contours : Nat → MidpointContourParser → Option (List (List PathElem))
  | 0, s =>
    match s.parseNextContour with
    | some (false, _) => some []
    | _ => none
  | n + 1, s =>
    match s.parseNextContour with
    | none => none
    | some (false, _) => some []
    | some (true, s1) =>
      match s1.currentContour with
      | none => none
      | some es => (contours n s1).map (es :: ·)

end MidpointContourParser

/-! ## Vocabulary for the layout of a patch -/

/-- One item of vertex data, as written through a `VertexWriter`: a point, the weight of a conic
followed by infinity (which takes the place of a fourth control point), or a curve type. -/
inductive VertexItem where
  | point (p : SkPoint)
  | weightAndInfinity (w : ℚ)
  | curveType (t : CurveType)
deriving DecidableEq, Repr

/-- The point `a + (b - a) * t` between two points. -/
def SkPoint.lerp (a b : SkPoint) (t : ℚ) : SkPoint :=
  ⟨a.fX + (b.fX - a.fX) * t, a.fY + (b.fY - a.fY) * t⟩

/-- Modelled from the spec: `PathXform` (its header is not part of the sources) maps the control
points of a primitive by the path matrix into a uniform cubic patch representation, promoting
lines and quadratics to cubics; a conic is written as its three mapped points followed by its
weight and infinity in the place of the fourth control point. -/
def PatchGeometry.controlPoints (m : SkMatrix) : PatchGeometry → List VertexItem
  | PatchGeometry.mapLineToCubic p0 p1 =>
    [VertexItem.point (m.mapPoint p0),
     VertexItem.point (SkPoint.lerp (m.mapPoint p0) (m.mapPoint p1) (1 / 3)),
     VertexItem.point (SkPoint.lerp (m.mapPoint p0) (m.mapPoint p1) (2 / 3)),
     VertexItem.point (m.mapPoint p1)]
  | PatchGeometry.mapQuadToCubic q =>
    [VertexItem.point (m.mapPoint q.p0),
     VertexItem.point (SkPoint.lerp (m.mapPoint q.p0) (m.mapPoint q.p1) (2 / 3)),
     VertexItem.point (SkPoint.lerp (m.mapPoint q.p2) (m.mapPoint q.p1) (2 / 3)),
     VertexItem.point (m.mapPoint q.p2)]
  | PatchGeometry.mapConicToPatch q w =>
    [VertexItem.point (m.mapPoint q.p0), VertexItem.point (m.mapPoint q.p1),
     VertexItem.point (m.mapPoint q.p2), VertexItem.weightAndInfinity w]
  | PatchGeometry.map4Points q =>
    [VertexItem.point (m.mapPoint q.p0), VertexItem.point (m.mapPoint q.p1),
     VertexItem.point (m.mapPoint q.p2), VertexItem.point (m.mapPoint q.p3)]

/-- The vertex data of a patch, in the order of the writes: the control points written by the
`PathXform` call, then `<< midpoint`, then the curve type when `VertexWriter::If` lets it
through. -/
def Patch.vertexData (patch : Patch) : List VertexItem :=
  patch.fGeometry.controlPoints patch.fPathXform ++ [VertexItem.point patch.fMidpoint]
    ++ (match patch.fCurveType with
        | some t => [VertexItem.curveType t]
        | none => [])

/-- The patch is one the writer writes under the given path matrix, shader caps and midpoint:
a flat wedge, or the patch of a quadratic, conic or cubic. -/
def Patch.IsWedge (pathXform : SkMatrix) (shaderCaps : GrShaderCaps) (midpoint : SkPoint)
    (patch : Patch) : Prop :=
  (∃ p0 p1, patch = WedgeWriter.flatPatch pathXform shaderCaps midpoint p0 p1) ∨
  (∃ q, patch = WedgeWriter.quadPatch pathXform shaderCaps midpoint q) ∨
  (∃ q, patch = WedgeWriter.conicPatch pathXform shaderCaps midpoint q) ∨
  (∃ q, patch = WedgeWriter.cubicPatch pathXform shaderCaps midpoint q)

/-- The layout of the vertex data of a patch: four control points (none of them a curve type),
then the midpoint, then the curve type `type` if and only if the shader caps lack infinity
support. -/
def Patch.HasLayout (shaderCaps : GrShaderCaps) (midpoint : SkPoint) (type : CurveType)
    (patch : Patch) : Prop :=
  ∃ controlPoints : List VertexItem, controlPoints.length = 4 ∧
    (∀ c ∈ controlPoints, ∀ t, c ≠ VertexItem.curveType t) ∧
    patch.vertexData = controlPoints ++ [VertexItem.point midpoint]
      ++ (if shaderCaps.infinitySupport then [] else [VertexItem.curveType type])

/-! ## PathWedgeTessellator::Make -/

/-- The part of `GrCaps` that `Make` reads. -/
structure GrCaps where
  shaderCaps : GrShaderCaps
  minPathVerbsForHwTessellation : Int

/-- The part of `GrPipeline` that `Make` reads. -/
structure GrPipeline where
  usesLocalCoords : Bool

/-- The two shader factories of `GrPathTessellationShader` that `Make` chooses between. -/
inductive ShaderFactory where
  | MakeHardwareTessellationShader
  | MakeMiddleOutFixedCountShader
deriving DecidableEq, Repr

/-- The choice of shader in `PathWedgeTessellator::Make(arena, viewMatrix, color, numPathVerbs,
pipeline, caps)`: the factory whose shader the new tessellator gets. -/
def PathWedgeTessellator.Make (numPathVerbs : Int) (pipeline : GrPipeline) (caps : GrCaps) :
    ShaderFactory :=
  if caps.shaderCaps.tessellationSupport &&
      caps.shaderCaps.infinitySupport &&
      !pipeline.usesLocalCoords &&
      decide (numPathVerbs ≥ caps.minPathVerbsForHwTessellation) then
    ShaderFactory.MakeHardwareTessellationShader
  else
    ShaderFactory.MakeMiddleOutFixedCountShader

/-! ## Vocabulary for comparing two runs -/

/-- The outcome of a run, with the state it leaves seen through `f`. -/
def Run.map {σ τ : Type} (f : σ → τ) : Run σ → Run τ
  | Run.returned s => Run.returned (f s)
  | Run.unfinished s => Run.unfinished (f s)
  | Run.fault => Run.fault

/-- Every field of a writer but its chunk builder: the two matrices, the two budgets and the
tracked maximum. -/
def WedgeWriter.core (w : WedgeWriter) : SkMatrix × SkMatrix × ℚ × ℚ × ℚ :=
  (w.fTotalVectorXform, w.fPathXform, w.fMaxSegments_pow2, w.fMaxSegments_pow4,
    w.fNumFixedSegments_pow4)

/-- The two budgets and the tracked maximum of a writer. -/
def WedgeWriter.tracked (w : WedgeWriter) : ℚ × ℚ × ℚ :=
  (w.fMaxSegments_pow2, w.fMaxSegments_pow4, w.fNumFixedSegments_pow4)

/-- The locals of the loop over a contour, the chunk builder of the writer left out. -/
def ContourLocals.core (c : ContourLocals) :
    (SkMatrix × SkMatrix × ℚ × ℚ × ℚ) × SkPoint × SkPoint :=
  (c.wedgeWriter.core, c.startPoint, c.lastPoint)

/-- The path has only Move, Line and Close verbs. -/
def SkPath.IsFlat (path : SkPath) : Prop :=
  ∀ v ∈ path.fVerbs, v = SkPathVerb.kMove ∨ v = SkPathVerb.kLine ∨ v = SkPathVerb.kClose

/-! ## The allocation count and `draw` -/

/-- The value an `int` holds when the exact result of an arithmetic step is `x`: the 32-bit
two's-complement wrap of `x`. -/
def wrapInt32 (x : Int) : Int := (x + 2147483648) % 4294967296 - 2147483648

/-- The local `int wedgeAllocCount = (maxWedges * 5 + 3) / 4` of `prepare`, in `int`
arithmetic: each step wraps to 32 bits and the division truncates toward zero. -/
def PathWedgeTessellator.wedgeAllocCount (maxWedges : Int) : Int :=
  Int.tdiv (wrapInt32 (wrapInt32 (maxWedges * 5) + 3)) 4

/-- A call recorded by the flush state (`GrOpFlushState`): `bindBuffers(indexBuffer,
instanceBuffer, vertexBuffer)`, `draw(vertexCount, baseVertex)` or
`drawIndexedInstanced(indexCount, baseIndex, instanceCount, baseInstance, baseVertex)`. A null
buffer is `none`. -/
inductive FlushCall where
  | bindBuffers (indexBuffer instanceBuffer vertexBuffer : Option Nat)
  | draw (vertexCount baseVertex : Nat)
  | drawIndexedInstanced (indexCount baseIndex instanceCount baseInstance baseVertex : Nat)
deriving DecidableEq, Repr

/-- The method `draw(flushState)`: the calls it adds to those the flush state has recorded,
one iteration of its range-for per chunk of `fVertexChunkArray`. -/
def PathWedgeTessellator.draw (t : PathWedgeTessellator) (flushState : List FlushCall) :
    List FlushCall :=
  if t.fShader.willUseTessellationShaders then
    t.fVertexChunkArray.foldl
      (fun fs chunk =>
        (fs ++ [FlushCall.bindBuffers none none (some chunk.fBuffer)])
          ++ [FlushCall.draw (chunk.fCount * 5) (chunk.fBase * 5)])
      flushState
  else
    t.fVertexChunkArray.foldl
      (fun fs chunk =>
        (fs ++ [FlushCall.bindBuffers t.fFixedCountIndexBuffer (some chunk.fBuffer)
                  t.fFixedCountVertexBuffer])
          ++ [FlushCall.drawIndexedInstanced t.fFixedIndexCount 0 chunk.fCount chunk.fBase 0])
      flushState

/-- Whether a recorded call is a draw. -/
def FlushCall.isDraw : FlushCall → Bool
  | FlushCall.bindBuffers _ _ _ => false
  | _ => true

/-! ## Paths with exact arrays -/

/-- The number of points a verb adds to the point array. -/
def SkPathVerb.numPoints : SkPathVerb → Nat
  | SkPathVerb.kMove => 1
  | SkPathVerb.kLine => 1
  | SkPathVerb.kQuad => 2
  | SkPathVerb.kConic => 2
  | SkPathVerb.kCubic => 3
  | SkPathVerb.kClose => 0

/-- The number of weights a verb adds to the conic-weight array. -/
def SkPathVerb.numWeights : SkPathVerb → Nat
  | SkPathVerb.kConic => 1
  | _ => 0

/-- The verb array starts with a Move, and the point and conic-weight arrays hold exactly the
points and weights the verbs require. -/
def SkPath.HasExactArrays (path : SkPath) : Prop :=
  path.fVerbs.head? = some SkPathVerb.kMove ∧
  path.fPts.length = (path.fVerbs.map SkPathVerb.numPoints).sum ∧
  path.fConicWeights.length = (path.fVerbs.map SkPathVerb.numWeights).sum

/-- The invariant of a writer made with per-patch maximum `M`: its budgets are `M ^ 2` and
`M ^ 4` and its tracked maximum lies between 1 and `M ^ 4`. -/
structure WedgeWriter.Bounded (M : Nat) (w : WedgeWriter) : Prop where
  pow2 : w.fMaxSegments_pow2 = (M : ℚ) ^ 2
  pow4 : w.fMaxSegments_pow4 = (M : ℚ) ^ 4
  lower : 1 ≤ w.fNumFixedSegments_pow4
  upper : w.fNumFixedSegments_pow4 ≤ (M : ℚ) ^ 4

/-! ## Chains of patches -/

/-- The first control point of the curve a patch is made from. -/
def PatchGeometry.startPoint : PatchGeometry → SkPoint
  | PatchGeometry.mapLineToCubic p0 _ => p0
  | PatchGeometry.mapQuadToCubic q => q.p0
  | PatchGeometry.mapConicToPatch q _ => q.p0
  | PatchGeometry.map4Points q => q.p0

/-- The last control point of the curve a patch is made from. -/
def PatchGeometry.endPoint : PatchGeometry → SkPoint
  | PatchGeometry.mapLineToCubic _ p1 => p1
  | PatchGeometry.mapQuadToCubic q => q.p2
  | PatchGeometry.mapConicToPatch q _ => q.p2
  | PatchGeometry.map4Points q => q.p3

/-- The patches lead from `a` to `b`: the first starts at `a`, each starts at the end point of
the one before, and the last ends at `b`; no patch at all leads from `a` to `a`. -/
def Patch.Chain : SkPoint → List Patch → SkPoint → Prop
  | a, [], b => a = b
  | a, patch :: rest, b =>
    patch.fGeometry.startPoint = a ∧ Patch.Chain patch.fGeometry.endPoint rest b

/-- The halves `chopAt(.5)` hands out join up: the first starts where the conic starts, the
second starts where the first ends and ends where the conic ends. -/
def Estimators.ChopJoins (E : Estimators) : Prop :=
  ∀ k a b, E.chopAt k (1 / 2) = some (a, b) →
    a.fPts.p0 = k.fPts.p0 ∧ a.fPts.p2 = b.fPts.p0 ∧ b.fPts.p2 = k.fPts.p2

/-- No chop fails: `chopAt(.5)` succeeds on every conic whose estimate under the matrix `m` is
over the budget `B`. -/
def Estimators.ChopSucceeds (E : Estimators) (m : SkMatrix) (B : ℚ) : Prop :=
  ∀ q wt, E.conic_pow2 kTessellationPrecision q wt m > B → E.chopAt ⟨q, wt⟩ (1 / 2) ≠ none

/-! ## Binary32 arithmetic

The coordinates of `SkPoint` are `float`s. The definitions above compute with them as exact
rationals, which is what the claims about control flow, counts and order need. The definitions
below compute as the machine does: every operation is rounded to the nearest binary32 value. -/

/-- A binary32 value (`float`): a finite number, an infinity or a NaN. The sign of a zero is
not kept. -/
inductive Binary32 where
  | finite (x : ℚ)
  | inf (negative : Bool)
  | nan
deriving DecidableEq, Repr

namespace Binary32

/-- The binary exponent of `x ≥ 1`: the first `e` at or after the given one with
`x < 2 ^ (e + 1)`. -/
def exponentUp (x : ℚ) : Nat → Nat → Nat
  | 0, e => e
  | steps + 1, e => if x < 2 ^ (e + 1) then e else exponentUp x steps (e + 1)

/-- The binary exponent of `0 < x < 1`, negated: the first `k` at or after the given one with
`1 / 2 ^ k ≤ x`. -/
def exponentDown (x : ℚ) : Nat → Nat → Nat
  | 0, k => k
  | steps + 1, k => if 1 / 2 ^ k ≤ x then k else exponentDown x steps (k + 1)

/-- The spacing of the binary32 values around `x > 0`: `2 ^ (e - 23)` for `x` in
`[2 ^ e, 2 ^ (e + 1))` (24 significant bits), and `2 ^ (-149)` below `2 ^ (-126)`, where the
values are subnormal. -/
def ulp (x : ℚ) : ℚ :=
  if 1 ≤ x then 2 ^ exponentUp x (Rat.ceil x).toNat 0 / 2 ^ 23
  else 1 / 2 ^ (exponentDown x 125 1 + 23)

/-- The integer nearest to `y`, the even one of the two when `y` is half-way. -/
def roundHalfEven (y : ℚ) : Int :=
  if y - Rat.floor y < 1 / 2 then Rat.floor y
  else if 1 / 2 < y - Rat.floor y then Rat.floor y + 1
  else if Rat.floor y % 2 = 0 then Rat.floor y
  else Rat.floor y + 1

/-- The binary32 value of an exact result `x` (round to nearest, ties to even): the nearest
multiple of the spacing at `x`, and an infinity when that is `2 ^ 128` or beyond. -/
def round (x : ℚ) : Binary32 :=
  if x = 0 then finite 0
  else if 2 ^ 128 ≤ abs ((roundHalfEven (x / ulp (abs x)) : ℚ) * ulp (abs x)) then
    inf (decide (x < 0))
  else finite ((roundHalfEven (x / ulp (abs x)) : ℚ) * ulp (abs x))

/-- The sum of two binary32 values (`operator+` on `float`). -/
def add : Binary32 → Binary32 → Binary32
  | finite a, finite b => round (a + b)
  | finite _, inf s => inf s
  | inf s, finite _ => inf s
  | inf s, inf t => if s = t then inf s else nan
  | _, _ => nan

/-- The difference of two binary32 values (`operator-` on `float`). -/
def sub : Binary32 → Binary32 → Binary32
  | finite a, finite b => round (a - b)
  | finite _, inf s => inf (!s)
  | inf s, finite _ => inf s
  | inf s, inf t => if s = t then nan else inf s
  | _, _ => nan

/-- The product of two binary32 values (`operator*` on `float`). -/
def mul : Binary32 → Binary32 → Binary32
  | finite a, finite b => round (a * b)
  | finite a, inf s => if a = 0 then nan else inf (xor s (decide (a < 0)))
  | inf s, finite b => if b = 0 then nan else inf (xor s (decide (b < 0)))
  | inf s, inf t => inf (xor s t)
  | _, _ => nan

/-- The quotient of two binary32 values (`operator/` on `float`); a zero divisor counts as
`+0`. -/
def div : Binary32 → Binary32 → Binary32
  | finite a, finite b =>
    if b = 0 then (if a = 0 then nan else inf (decide (a < 0))) else round (a / b)
  | finite _, inf _ => finite 0
  | inf s, finite b => inf (xor s (decide (b < 0)))
  | _, _ => nan

/-- The conversion of an `int` to `float`. -/
def ofInt (n : Int) : Binary32 := round n

/-- The number a finite binary32 value stands for. -/
def toRat? : Binary32 → Option ℚ
  | finite x => some x
  | _ => none

/-- The rational `x` is a binary32 value: rounding leaves it as it is. -/
def IsExact (x : ℚ) : Prop := round x = finite x

end Binary32

namespace binary32

/-- `SkPoint` as its arithmetic leaves it: two binary32 coordinates. -/
structure SkPoint where
  fX : Binary32
  fY : Binary32
deriving DecidableEq, Repr

/-- A point read from the point array of a path, whose coordinates are binary32 values. -/
def SkPoint.ofPoint (p : skgpu.SkPoint) : SkPoint := ⟨Binary32.finite p.fX, Binary32.finite p.fY⟩

/-- The operator `fMidpoint += pt` (`SkPoint::operator+=`): one binary32 addition per
coordinate. -/
def SkPoint.addPoint (a : SkPoint) (pt : skgpu.SkPoint) : SkPoint :=
  ⟨a.fX.add (Binary32.finite pt.fX), a.fY.add (Binary32.finite pt.fY)⟩

/-- The operator `point * scale` (`SkPoint::operator*(float)`): one binary32 multiplication per
coordinate. -/
def SkPoint.scale (a : SkPoint) (k : Binary32) : SkPoint := ⟨a.fX.mul k, a.fY.mul k⟩

/-- The state of `MidpointContourParser`, with `fMidpoint` as the machine holds it. The three
pointers are offsets into the arrays of `fPath`; `fMidpoint` and `fMidpointWeight` are
uninitialised in the source until a Move seeds them and start at zero here. -/
structure MidpointContourParser where
  fPath : SkPath
  fVerbs : Nat
  fNumRemainingVerbs : Nat
  fVerbsIdx : Nat
  fPoints : Nat
  fPtsIdx : Nat
  fWeights : Nat
  fWtsIdx : Nat
  fMidpoint : SkPoint
  fMidpointWeight : Nat
deriving DecidableEq, Repr

namespace MidpointContourParser

/-- The constructor `MidpointContourParser(const SkPath&)`. -/
def mk0 (path : SkPath) : MidpointContourParser :=
  { fPath := path, fVerbs := 0, fNumRemainingVerbs := path.fVerbs.length, fVerbsIdx := 0,
    fPoints := 0, fPtsIdx := 0, fWeights := 0, fWtsIdx := 0,
    fMidpoint := ⟨Binary32.finite 0, Binary32.finite 0⟩, fMidpointWeight := 0 }

/-- The private `advance()`: rebases the three pointers on the current indices. -/
def advance (s : MidpointContourParser) : MidpointContourParser :=
  { s with
    fVerbs := s.fVerbs + s.fVerbsIdx
    fNumRemainingVerbs := s.fNumRemainingVerbs - s.fVerbsIdx
    fVerbsIdx := 0
    fPoints := s.fPoints + s.fPtsIdx
    fPtsIdx := 0
    fWeights := s.fWeights + s.fWtsIdx
    fWtsIdx := 0 }

/-- The read `fVerbs[i]`. -/
def verbAt (s : MidpointContourParser) (i : Nat) : Option SkPathVerb :=
  s.fPath.fVerbs[s.fVerbs + i]?

/-- The read `fPoints[i]`. -/
def pointAt (s : MidpointContourParser) (i : Nat) : Option skgpu.SkPoint :=
  s.fPath.fPts[s.fPoints + i]?

/-- The tail of the loop body of `parseNextContour`, reached by the `break`s of the geometry
verbs: `fMidpoint += fPoints[fPtsIdx - 1]; ++fMidpointWeight;`. -/
def accumulate (s : MidpointContourParser) : Option MidpointContourParser :=
  match s.pointAt (s.fPtsIdx - 1) with
  | none => none
  | some pt =>
    some { s with fMidpoint := s.fMidpoint.addPoint pt, fMidpointWeight := s.fMidpointWeight + 1 }

/-- The loop increment `++fVerbsIdx`. -/
def nextVerb (s : MidpointContourParser) : MidpointContourParser :=
  { s with fVerbsIdx := s.fVerbsIdx + 1 }

/-- The `for` loop of `parseNextContour`, with the local `hasGeometry` as an argument. The first
argument bounds the number of iterations; `none` is a read outside the path arrays (or an
exhausted bound, which `parseNextContour` never meets: every iteration consumes one verb). -/
def parseLoop : Nat → Bool → MidpointContourParser → Option (Bool × MidpointContourParser)
  | 0, hasGeometry, s =>
    if s.fVerbsIdx < s.fNumRemainingVerbs then none else some (hasGeometry, s)
  | fuel + 1, hasGeometry, s =>
    if s.fVerbsIdx < s.fNumRemainingVerbs then
      match s.verbAt s.fVerbsIdx with
      | none => none
      | some SkPathVerb.kMove =>
        if !hasGeometry then
          match s.pointAt s.fPtsIdx with
          | none => none
          | some pt =>
            let s1 := { s with fMidpoint := SkPoint.ofPoint pt, fMidpointWeight := 1 }
            let s2 := s1.advance
            let s3 := { s2 with fPtsIdx := s2.fPtsIdx + 1 }
            parseLoop fuel hasGeometry s3.nextVerb
        else some (true, s)
      | some SkPathVerb.kClose => parseLoop fuel hasGeometry s.nextVerb
      | some SkPathVerb.kLine =>
        match accumulate { s with fPtsIdx := s.fPtsIdx + 1 } with
        | none => none
        | some s1 => parseLoop fuel true s1.nextVerb
      | some SkPathVerb.kConic =>
        match accumulate { s with fWtsIdx := s.fWtsIdx + 1, fPtsIdx := s.fPtsIdx + 2 } with
        | none => none
        | some s1 => parseLoop fuel true s1.nextVerb
      | some SkPathVerb.kQuad =>
        match accumulate { s with fPtsIdx := s.fPtsIdx + 2 } with
        | none => none
        | some s1 => parseLoop fuel true s1.nextVerb
      | some SkPathVerb.kCubic =>
        match accumulate { s with fPtsIdx := s.fPtsIdx + 3 } with
        | none => none
        | some s1 => parseLoop fuel true s1.nextVerb
    else some (hasGeometry, s)

/-- The method `parseNextContour()`: the returned flag and the state it leaves. -/
def parseNextContour (s : MidpointContourParser) : Option (Bool × MidpointContourParser) :=
  parseLoop (s.fNumRemainingVerbs - s.fVerbsIdx) false s

/-- The method `currentMidpoint()`: `fMidpoint * (1.f / fMidpointWeight)`, the `int` weight
converted to `float`, the quotient and the two products rounded. -/
def currentMidpoint (s : MidpointContourParser) : SkPoint :=
  s.fMidpoint.scale ((Binary32.finite 1).div (Binary32.ofInt s.fMidpointWeight))

/-- The cursors of the parser, as a state of the parser in exact arithmetic (whose midpoint
is left at zero). -/
def cursors (s : MidpointContourParser) : skgpu.MidpointContourParser :=
  { fPath := s.fPath, fVerbs := s.fVerbs, fNumRemainingVerbs := s.fNumRemainingVerbs,
    fVerbsIdx := s.fVerbsIdx, fPoints := s.fPoints, fPtsIdx := s.fPtsIdx,
    fWeights := s.fWeights, fWtsIdx := s.fWtsIdx, fMidpoint := 0,
    fMidpointWeight := s.fMidpointWeight }

/-- The parser state after one iteration of the loop of `parseNextContour` over the primitive
`pr` (a verb other than Move). -/
def over1 (s : MidpointContourParser) (pr : Prim) : MidpointContourParser :=
  { s with
    fVerbsIdx := s.fVerbsIdx + 1
    fPtsIdx := s.fPtsIdx + pr.points.length
    fWtsIdx := s.fWtsIdx + pr.weights.length
    fMidpoint := match pr.endPoint? with
      | some e => s.fMidpoint.addPoint e
      | none => s.fMidpoint
    fMidpointWeight := s.fMidpointWeight + (if pr.isGeometry then 1 else 0) }

/-- The parser state after the iteration of the loop of `parseNextContour` that seeds the
midpoint at a Move whose point is `pt`. -/
def seeded (s : MidpointContourParser) (pt : skgpu.SkPoint) : MidpointContourParser :=
  { s with
    fVerbs := s.fVerbs + s.fVerbsIdx
    fNumRemainingVerbs := s.fNumRemainingVerbs - s.fVerbsIdx
    fVerbsIdx := 1
    fPoints := s.fPoints + s.fPtsIdx
    fPtsIdx := 1
    fWeights := s.fWeights + s.fWtsIdx
    fWtsIdx := 0
    fMidpoint := SkPoint.ofPoint pt
    fMidpointWeight := 1 }

end MidpointContourParser

end binary32

/-- The midpoint accumulator of a contour in binary32: the Move point, then the end point of
every Line, Quad, Conic and Cubic added in verb order, each sum rounded. -/
def Contour.midpointSum32 (c : Contour) : binary32.SkPoint :=
  c.endPoints.foldl binary32.SkPoint.addPoint (binary32.SkPoint.ofPoint c.start)

/-- None of the operations behind the midpoint of the contour rounds: the partial sums of the
sample points, the point count, its reciprocal and the two quotients are binary32 values. -/
structure Contour.MidpointIsExact (c : Contour) : Prop where
  sumX : ∀ k, 1 ≤ k → k ≤ c.endPoints.length →
    Binary32.IsExact (c.start.fX + ((c.endPoints.take k).map SkPoint.fX).sum)
  sumY : ∀ k, 1 ≤ k → k ≤ c.endPoints.length →
    Binary32.IsExact (c.start.fY + ((c.endPoints.take k).map SkPoint.fY).sum)
  count : Binary32.IsExact (((c.endPoints.length + 1 : Nat) : Int) : ℚ)
  reciprocal : Binary32.IsExact (1 / ((((c.endPoints.length + 1 : Nat) : Int) : ℚ)))
  meanX : Binary32.IsExact ((c.start.fX + (c.endPoints.map SkPoint.fX).sum)
    * (1 / ((((c.endPoints.length + 1 : Nat) : Int) : ℚ))))
  meanY : Binary32.IsExact ((c.start.fY + (c.endPoints.map SkPoint.fY).sum)
    * (1 / ((((c.endPoints.length + 1 : Nat) : Int) : ℚ))))

/-! ## The chops in binary32 -/

namespace binary32

/-- The interpolation `a + (b - a) * 0.5f` of two `float`s, the difference, the product and
the sum rounded. -/
def interpHalf (a b : ℚ) : Binary32 :=
  (Binary32.finite a).add
    (((Binary32.finite b).sub (Binary32.finite a)).mul (Binary32.finite (1 / 2)))

/-- The point half-way from `a` to `b`, each coordinate interpolated in binary32; `none` when
a coordinate comes out infinite or NaN. -/
def half? (a b : skgpu.SkPoint) : Option skgpu.SkPoint :=
  match (interpHalf a.fX b.fX).toRat?, (interpHalf a.fY b.fY).toRat? with
  | some x, some y => some ⟨x, y⟩
  | _, _ => none

/-- Modelled from the spec: `SkChopQuadAtHalf` (declared in `SkGeometry.h`) is the De Casteljau
halving of a quadratic at `t = 0.5`, here with the three interpolations rounded to binary32 as
the `SkPoint chops[5]` of the caller holds them. Returns the two quadratics `chops` and
`chops + 2`, or `none` when a coordinate is not finite. -/
def SkChopQuadAtHalf (p : QuadPts) : Option (QuadPts × QuadPts) :=
  match half? p.p0 p.p1, half? p.p1 p.p2 with
  | some a, some b =>
    match half? a b with
    | some m => some (⟨p.p0, a, m⟩, ⟨m, b, p.p2⟩)
    | none => none
  | _, _ => none

/-- Modelled from the spec: `SkChopCubicAtHalf` (declared in `SkGeometry.h`) is the De Casteljau
halving of a cubic at `t = 0.5`, here with the six interpolations rounded to binary32 as the
`SkPoint chops[7]` of the caller holds them. Returns the two cubics `chops` and `chops + 3`, or
`none` when a coordinate is not finite. -/
def SkChopCubicAtHalf (p : CubicPts) : Option (CubicPts × CubicPts) :=
  match half? p.p0 p.p1, half? p.p1 p.p2, half? p.p2 p.p3 with
  | some ab, some bc, some cd =>
    match half? ab bc, half? bc cd with
    | some abc, some bcd =>
      match half? abc bcd with
      | some m => some (⟨p.p0, ab, abc, m⟩, ⟨m, bcd, cd, p.p3⟩)
      | none => none
    | _, _ => none
  | _, _, _ => none

/-- The methods `writeQuadraticWedge(shaderCaps, p, midpoint)` and, in its first branch,
`chopAndWriteQuadraticWedges`, with the chop computed in binary32. The first argument bounds
the depth of nested calls. `Run.fault` stands for a chop that left a coordinate infinite or
NaN, which the points of this file do not hold. -/
def writeQuadraticWedge (E : Estimators) :
    Nat → WedgeWriter → GrShaderCaps → QuadPts → skgpu.SkPoint → Run WedgeWriter
  | 0, w, _, _, _ => Run.unfinished w
  | fuel + 1, w, shaderCaps, p, midpoint =>
    let numSegments_pow4 := E.quadratic_pow4 kTessellationPrecision p w.fTotalVectorXform
    if numSegments_pow4 > w.fMaxSegments_pow4 then
      match SkChopQuadAtHalf p with
      | none => Run.fault
      | some chops =>
        match writeQuadraticWedge E fuel w shaderCaps chops.1 midpoint with
        | Run.returned w1 => writeQuadraticWedge E fuel w1 shaderCaps chops.2 midpoint
        | Run.unfinished w1 => Run.unfinished w1
        | Run.fault => Run.fault
    else
      Run.returned
        { w with
          fChunker := w.fChunker.appendVertex
            ({ fPathXform := w.fPathXform, fGeometry := PatchGeometry.mapQuadToCubic p,
               fMidpoint := midpoint,
               fCurveType := WedgeWriter.curveTypeIf shaderCaps CurveType.kCubicCurveType })
          fNumFixedSegments_pow4 := max numSegments_pow4 w.fNumFixedSegments_pow4 }

/-- The methods `writeCubicWedge(shaderCaps, p, midpoint)` and, in its first branch,
`chopAndWriteCubicWedges`, with the chop computed in binary32. `Run.fault` stands for a chop
that left a coordinate infinite or NaN. -/
def writeCubicWedge (E : Estimators) :
    Nat → WedgeWriter → GrShaderCaps → CubicPts → skgpu.SkPoint → Run WedgeWriter
  | 0, w, _, _, _ => Run.unfinished w
  | fuel + 1, w, shaderCaps, p, midpoint =>
    let numSegments_pow4 := E.cubic_pow4 kTessellationPrecision p w.fTotalVectorXform
    if numSegments_pow4 > w.fMaxSegments_pow4 then
      match SkChopCubicAtHalf p with
      | none => Run.fault
      | some chops =>
        match writeCubicWedge E fuel w shaderCaps chops.1 midpoint with
        | Run.returned w1 => writeCubicWedge E fuel w1 shaderCaps chops.2 midpoint
        | Run.unfinished w1 => Run.unfinished w1
        | Run.fault => Run.fault
    else
      Run.returned
        { w with
          fChunker := w.fChunker.appendVertex
            ({ fPathXform := w.fPathXform, fGeometry := PatchGeometry.map4Points p,
               fMidpoint := midpoint,
               fCurveType := WedgeWriter.curveTypeIf shaderCaps CurveType.kCubicCurveType })
          fNumFixedSegments_pow4 := max numSegments_pow4 w.fNumFixedSegments_pow4 }

end binary32

/-! ## Sample inputs -/

namespace Sample

/-- A target that always has room: the `k`-th request gets buffer `k` with the capacity asked. -/
def roomyTarget : Nat → Nat → Option (Nat × Nat × Nat) := fun k n => some (k, 0, n)

/-- A target without room. -/
def fullTarget : Nat → Nat → Option (Nat × Nat × Nat) := fun _ _ => none

/-- Shader caps without tessellation and without infinity support. -/
def caps : GrShaderCaps := ⟨false, false, 64⟩

/-- Wang's formula for quadratics and cubics, conics estimated at 0 and never chopped. -/
def estimators : Estimators := wangsEstimators (fun _ _ _ _ => 0) (fun _ _ => none)

/-- Estimators that report 17 (fourth-power form) and 5 (squared form) for every curve, over the
budgets 16 and 4 of a writer with per-patch maximum 2, with a conic chop that always succeeds. -/
def overEstimators : Estimators :=
  ⟨fun _ _ _ => 17, fun _ _ _ _ => 5, fun _ _ _ => 17, fun c _ => some (c, c)⟩

/-- Wang's formula for quadratics and cubics, every conic estimated at 5 (over the squared
budget 4 of a writer with per-patch maximum 2) and a conic chop that always fails. -/
def failingChopEstimators : Estimators := wangsEstimators (fun _ _ _ _ => 5) (fun _ _ => none)

/-- A fresh writer with per-patch maximum 2 on the target with room. -/
def writer : WedgeWriter := WedgeWriter.mk0 roomyTarget [] 1 4 2

/-- A fresh writer with per-patch maximum 2 on the target without room. -/
def writerNoRoom : WedgeWriter := WedgeWriter.mk0 fullTarget [] 1 4 2

/-- A fixed-count shader with the view matrix the identity, 32 segments at most and
`2^level - 1` curve triangles at a resolve level. -/
def fixedCountShader : GrPathTessellationShader := ⟨false, SkMatrix.I, 1, 1, 32, fun l => 2 ^ l - 1⟩

/-- A fresh tessellator with the fixed-count shader. -/
def tessellator : PathWedgeTessellator := ⟨fixedCountShader, [], 0, none, none⟩

/-- A draw target with room for every chunk and every static buffer. -/
def target : GrMeshDrawTarget := ⟨caps, roomyTarget, fun _ => some 7, []⟩

/-- A draw target without room for any chunk. -/
def targetNoRoom : GrMeshDrawTarget := ⟨caps, fullTarget, fun _ => some 7, []⟩

/-- The open contour `M(0,0) L(1,0)`. -/
def openContour : Contour := ⟨⟨0, 0⟩, [Prim.line ⟨1, 0⟩]⟩

/-- The contour `M(0,0) L(1,0) L(0,0)`: no Close verb, and it ends on its Move point. -/
def returningContour : Contour := ⟨⟨0, 0⟩, [Prim.line ⟨1, 0⟩, Prim.line ⟨0, 0⟩]⟩

/-- The path `M(0,0) Q(0,0)(4,1/2)`: under the identity, Wang's formula gives its quadratic the
fourth-power estimate `4^2 + (1/2)^2 = 65/4`. -/
def quadContour : Contour := ⟨⟨0, 0⟩, [Prim.quad ⟨0, 0⟩ ⟨4, 1 / 2⟩]⟩

/-- The path of `test_winding_merged_to_zero`: `M(20,80) M(70,-1/1000000) L(70,0) L(60,-30)
L(40,20) M(50,50) L(50,-50) L(10,50)`. -/
def mergedToZero : List Contour :=
  [⟨⟨20, 80⟩, []⟩,
   ⟨⟨70, -1 / 1000000⟩, [Prim.line ⟨70, 0⟩, Prim.line ⟨60, -30⟩, Prim.line ⟨40, 20⟩]⟩,
   ⟨⟨50, 50⟩, [Prim.line ⟨50, -50⟩, Prim.line ⟨10, 50⟩]⟩]

/-- The two squares of `test_hole`: `M(20,20) L(80,20) L(80,80) L(20,80)` and
`M(30,30) L(30,70) L(70,70) L(70,30)`, neither with a Close verb. -/
def hole : List Contour :=
  [⟨⟨20, 20⟩, [Prim.line ⟨80, 20⟩, Prim.line ⟨80, 80⟩, Prim.line ⟨20, 80⟩]⟩,
   ⟨⟨30, 30⟩, [Prim.line ⟨30, 70⟩, Prim.line ⟨70, 70⟩, Prim.line ⟨70, 30⟩]⟩]

/-- A target with room for one patch: its first answer is a chunk of capacity 1, and it has
nothing after that. -/
def oneRoomTarget : Nat → Nat → Option (Nat × Nat × Nat) :=
  fun k _ => if k = 0 then some (0, 0, 1) else none

/-- A fresh writer with per-patch maximum 2 on the target with room for one patch. -/
def writerOneRoom : WedgeWriter := WedgeWriter.mk0 oneRoomTarget [] 1 4 2

/-- A draw target with room for one patch. -/
def targetOneRoom : GrMeshDrawTarget := ⟨caps, oneRoomTarget, fun _ => some 7, []⟩

/-- The path `M(0,0) L(1,0) Q(1,1)(0,1) Close` as its raw arrays. -/
def rawPath : SkPath :=
  ⟨[SkPathVerb.kMove, SkPathVerb.kLine, SkPathVerb.kQuad, SkPathVerb.kClose],
    [⟨0, 0⟩, ⟨1, 0⟩, ⟨1, 1⟩, ⟨0, 1⟩], []⟩

end Sample

/-! ## Theorems -/

namespace MidpointContourParser

theorem getElem?_of_drop_eq_cons {α : Type} {l : List α} {n : Nat} {a : α} {t : List α}
    (h : l.drop n = a :: t) : l[n]? = some a := by
  have := List.getElem?_drop (L := l) (i := n) (j := 0)
  simp [h] at this
  exact this.symm

theorem lt_length_of_drop_eq_cons {α : Type} {l : List α} {n : Nat} {a : α} {t : List α}
    (h : l.drop n = a :: t) : n < l.length := by
  by_contra hge
  rw [List.drop_of_length_le (by omega)] at h
  cases h

theorem getElem?_of_drop_eq_append {α : Type} {l : List α} {n i : Nat} {u t : List α}
    (h : l.drop n = u ++ t) (hi : i < u.length) : l[n + i]? = u[i]? := by
  have := List.getElem?_drop (L := l) (i := n) (j := i)
  rw [← this, h, List.getElem?_append_left hi]

theorem parseLoop_prim (s : MidpointContourParser) (pr : Prim) (k : Nat) (hg : Bool)
    (restV : List SkPathVerb) (restP : List SkPoint)
    (hv : s.fPath.fVerbs.drop (s.fVerbs + s.fVerbsIdx) = pr.verb :: restV)
    (hp : s.fPath.fPts.drop (s.fPoints + s.fPtsIdx) = pr.points ++ restP)
    (hn : s.fVerbs + s.fNumRemainingVerbs = s.fPath.fVerbs.length) :
    parseLoop (k + 1) hg s = parseLoop k (hg || pr.isGeometry) (s.over1 pr) := by
  have hlt : s.fVerbsIdx < s.fNumRemainingVerbs := by
    have := lt_length_of_drop_eq_cons hv
    omega
  have hverb : s.verbAt s.fVerbsIdx = some pr.verb := getElem?_of_drop_eq_cons hv
  cases pr with
  | close =>
    simp [parseLoop, hlt, hverb, Prim.verb, over1, nextVerb, Prim.points, Prim.weights,
      Prim.endPoint?, Prim.isGeometry]
  | line p1 =>
    have h0 : s.fPath.fPts[s.fPoints + s.fPtsIdx]? = some p1 := by
      have := getElem?_of_drop_eq_append (i := 0) hp (by simp [Prim.points])
      simpa [Prim.points] using this
    simp [parseLoop, hlt, hverb, Prim.verb, over1, nextVerb, Prim.points, Prim.weights,
      Prim.endPoint?, Prim.isGeometry, accumulate, pointAt, h0]
  | quad p1 p2 =>
    have h0 : s.fPath.fPts[s.fPoints + (s.fPtsIdx + 1)]? = some p2 := by
      have := getElem?_of_drop_eq_append (i := 1) hp (by simp [Prim.points])
      simpa [Prim.points, Nat.add_assoc] using this
    simp [parseLoop, hlt, hverb, Prim.verb, over1, nextVerb, Prim.points, Prim.weights,
      Prim.endPoint?, Prim.isGeometry, accumulate, pointAt, h0]
  | conic p1 p2 w =>
    have h0 : s.fPath.fPts[s.fPoints + (s.fPtsIdx + 1)]? = some p2 := by
      have := getElem?_of_drop_eq_append (i := 1) hp (by simp [Prim.points])
      simpa [Prim.points, Nat.add_assoc] using this
    simp [parseLoop, hlt, hverb, Prim.verb, over1, nextVerb, Prim.points, Prim.weights,
      Prim.endPoint?, Prim.isGeometry, accumulate, pointAt, h0]
  | cubic p1 p2 p3 =>
    have h0 : s.fPath.fPts[s.fPoints + (s.fPtsIdx + 2)]? = some p3 := by
      have := getElem?_of_drop_eq_append (i := 2) hp (by simp [Prim.points])
      simpa [Prim.points, Nat.add_assoc] using this
    simp [parseLoop, hlt, hverb, Prim.verb, over1, nextVerb, Prim.points, Prim.weights,
      Prim.endPoint?, Prim.isGeometry, accumulate, pointAt, h0]

theorem parseLoop_move (s : MidpointContourParser) (pt : SkPoint) (k : Nat)
    (restV : List SkPathVerb) (restP : List SkPoint)
    (hv : s.fPath.fVerbs.drop (s.fVerbs + s.fVerbsIdx) = SkPathVerb.kMove :: restV)
    (hp : s.fPath.fPts.drop (s.fPoints + s.fPtsIdx) = pt :: restP)
    (hn : s.fVerbs + s.fNumRemainingVerbs = s.fPath.fVerbs.length) :
    parseLoop (k + 1) false s = parseLoop k false (s.seeded pt) := by
  have hlt : s.fVerbsIdx < s.fNumRemainingVerbs := by
    have := lt_length_of_drop_eq_cons hv
    omega
  have hverb : s.verbAt s.fVerbsIdx = some SkPathVerb.kMove := getElem?_of_drop_eq_cons hv
  have hpt : s.pointAt s.fPtsIdx = some pt := getElem?_of_drop_eq_cons hp
  simp [parseLoop, hlt, hverb, hpt, seeded, advance, nextVerb]

theorem parseLoop_move_geometry (s : MidpointContourParser) (k : Nat)
    (restV : List SkPathVerb)
    (hv : s.fPath.fVerbs.drop (s.fVerbs + s.fVerbsIdx) = SkPathVerb.kMove :: restV)
    (hn : s.fVerbs + s.fNumRemainingVerbs = s.fPath.fVerbs.length) :
    parseLoop (k + 1) true s = some (true, s) := by
  have hlt : s.fVerbsIdx < s.fNumRemainingVerbs := by
    have := lt_length_of_drop_eq_cons hv
    omega
  have hverb : s.verbAt s.fVerbsIdx = some SkPathVerb.kMove := getElem?_of_drop_eq_cons hv
  simp [parseLoop, hlt, hverb]

theorem parseLoop_end (s : MidpointContourParser) (k : Nat) (hg : Bool)
    (hend : s.fPath.fVerbs.length ≤ s.fVerbs + s.fVerbsIdx)
    (hn : s.fVerbs + s.fNumRemainingVerbs = s.fPath.fVerbs.length) :
    parseLoop k hg s = some (hg, s) := by
  have hge : ¬ s.fVerbsIdx < s.fNumRemainingVerbs := by omega
  cases k <;> simp [parseLoop, hge]

/-- The parser state after the loop of `parseNextContour` ran over the primitives `prims`. -/
theorem over_fields (prims : List Prim) (s : MidpointContourParser) :
    (prims.foldl over1 s).fPath = s.fPath ∧
    (prims.foldl over1 s).fVerbs = s.fVerbs ∧
    (prims.foldl over1 s).fNumRemainingVerbs = s.fNumRemainingVerbs ∧
    (prims.foldl over1 s).fVerbsIdx = s.fVerbsIdx + prims.length ∧
    (prims.foldl over1 s).fPoints = s.fPoints ∧
    (prims.foldl over1 s).fPtsIdx = s.fPtsIdx + (prims.flatMap Prim.points).length ∧
    (prims.foldl over1 s).fWeights = s.fWeights ∧
    (prims.foldl over1 s).fWtsIdx = s.fWtsIdx + (prims.flatMap Prim.weights).length ∧
    (prims.foldl over1 s).fMidpoint = (prims.filterMap Prim.endPoint?).foldl (· + ·) s.fMidpoint ∧
    (prims.foldl over1 s).fMidpointWeight
      = s.fMidpointWeight + (prims.filterMap Prim.endPoint?).length := by
  induction prims generalizing s with
  | nil => simp
  | cons pr prims ih =>
    obtain ⟨h1, h2, h3, h4, h5, h6, h7, h8, h9, h10⟩ := ih (s.over1 pr)
    simp only [List.foldl_cons]
    refine ⟨by rw [h1]; rfl, by rw [h2]; rfl, by rw [h3]; rfl, ?_, by rw [h5]; rfl, ?_,
      by rw [h7]; rfl, ?_, ?_, ?_⟩
    · rw [h4]; simp [over1]; omega
    · rw [h6]; simp [over1]; omega
    · rw [h8]; simp [over1]; omega
    · rw [h9]
      cases pr <;> simp [over1, Prim.endPoint?]
    · rw [h10]
      cases pr <;> simp [over1, Prim.endPoint?, Prim.isGeometry] <;> omega

theorem parseLoop_prims (prims : List Prim) (s : MidpointContourParser) (k : Nat) (hg : Bool)
    (restV : List SkPathVerb) (restP : List SkPoint)
    (hv : s.fPath.fVerbs.drop (s.fVerbs + s.fVerbsIdx) = prims.map Prim.verb ++ restV)
    (hp : s.fPath.fPts.drop (s.fPoints + s.fPtsIdx) = prims.flatMap Prim.points ++ restP)
    (hn : s.fVerbs + s.fNumRemainingVerbs = s.fPath.fVerbs.length) :
    parseLoop (prims.length + k) hg s
      = parseLoop k (hg || prims.any Prim.isGeometry) (prims.foldl over1 s) := by
  induction prims generalizing s hg with
  | nil => simp
  | cons pr prims ih =>
    have hstep := parseLoop_prim s pr (prims.length + k) hg (prims.map Prim.verb ++ restV)
      (prims.flatMap Prim.points ++ restP) (by simpa using hv)
      (by simpa [List.flatMap_cons, List.append_assoc] using hp) hn
    have hv1 : (s.over1 pr).fPath.fVerbs.drop ((s.over1 pr).fVerbs + (s.over1 pr).fVerbsIdx)
        = prims.map Prim.verb ++ restV := by
      have : (s.over1 pr).fVerbs + (s.over1 pr).fVerbsIdx = (s.fVerbs + s.fVerbsIdx) + 1 := by
        simp [over1]; omega
      rw [this, ← List.drop_drop]
      show List.drop 1 (List.drop (s.fVerbs + s.fVerbsIdx) s.fPath.fVerbs) = _
      rw [hv]; simp
    have hp1 : (s.over1 pr).fPath.fPts.drop ((s.over1 pr).fPoints + (s.over1 pr).fPtsIdx)
        = prims.flatMap Prim.points ++ restP := by
      have : (s.over1 pr).fPoints + (s.over1 pr).fPtsIdx
          = (s.fPoints + s.fPtsIdx) + pr.points.length := by
        simp [over1]; omega
      rw [this, ← List.drop_drop]
      show List.drop pr.points.length (List.drop (s.fPoints + s.fPtsIdx) s.fPath.fPts) = _
      rw [hp]; simp [List.flatMap_cons, List.append_assoc]
    have hn1 : (s.over1 pr).fVerbs + (s.over1 pr).fNumRemainingVerbs
        = (s.over1 pr).fPath.fVerbs.length := hn
    have := ih (s.over1 pr) (hg || pr.isGeometry) hv1 hp1 hn1
    have hlen : (pr :: prims).length + k = (prims.length + k) + 1 := by simp; omega
    rw [hlen, hstep, this]
    simp [Bool.or_assoc]

theorem AtBoundary.drop_verbs {s : MidpointContourParser} {done rest : List Contour}
    (h : s.AtBoundary done rest) :
    s.fPath.fVerbs.drop (s.fVerbs + s.fVerbsIdx) = rest.flatMap Contour.verbs := by
  rw [h.path, h.verbs]
  simp [pathOf, List.flatMap_append]

theorem AtBoundary.drop_points {s : MidpointContourParser} {done rest : List Contour}
    (h : s.AtBoundary done rest) :
    s.fPath.fPts.drop (s.fPoints + s.fPtsIdx) = rest.flatMap Contour.points := by
  rw [h.path, h.points]
  simp [pathOf, List.flatMap_append]

theorem AtBoundary.drop_weights {s : MidpointContourParser} {done rest : List Contour}
    (h : s.AtBoundary done rest) :
    s.fPath.fConicWeights.drop (s.fWeights + s.fWtsIdx) = rest.flatMap Contour.weights := by
  rw [h.path, h.weights]
  simp [pathOf, List.flatMap_append]

theorem AtBoundary.length_verbs {s : MidpointContourParser} {done rest : List Contour}
    (h : s.AtBoundary done rest) :
    s.fVerbs + s.fNumRemainingVerbs = s.fPath.fVerbs.length := by
  rw [h.remaining, h.path]
  rfl

theorem Yielded.atBoundary {s : MidpointContourParser} {done rest : List Contour} {c : Contour}
    (h : s.Yielded done c rest) : s.AtBoundary (done ++ [c]) rest where
  path := by rw [h.path]; simp
  verbs := by rw [h.verbs, h.verbsIdx]; simp [List.flatMap_append]
  points := by rw [h.points, h.ptsIdx]; simp [List.flatMap_append]
  weights := by rw [h.weights, h.wtsIdx]; simp [List.flatMap_append]
  remaining := by rw [h.remaining]; simp

/-- One contour: from the boundary before `c`, the loop of `parseNextContour` seeds the midpoint
at the Move of `c` and runs over its primitives. -/
theorem parseLoop_contour (s : MidpointContourParser) (done rest : List Contour) (c : Contour)
    (k : Nat) (h : s.AtBoundary done (c :: rest)) :
    parseLoop (c.verbs.length + k) false s
        = parseLoop k c.hasGeometry (c.prims.foldl over1 (s.seeded c.start)) ∧
      (c.prims.foldl over1 (s.seeded c.start)).Yielded done c rest ∧
      (c.prims.foldl over1 (s.seeded c.start)).fMidpoint = c.midpointSum ∧
      (c.prims.foldl over1 (s.seeded c.start)).fMidpointWeight = c.endPoints.length + 1 := by
  have hv := h.drop_verbs
  have hp := h.drop_points
  have hn := h.length_verbs
  have hv0 : s.fPath.fVerbs.drop (s.fVerbs + s.fVerbsIdx)
      = SkPathVerb.kMove :: (c.prims.map Prim.verb ++ rest.flatMap Contour.verbs) := by
    rw [hv]; simp [Contour.verbs]
  have hp0 : s.fPath.fPts.drop (s.fPoints + s.fPtsIdx)
      = c.start :: (c.prims.flatMap Prim.points ++ rest.flatMap Contour.points) := by
    rw [hp]; simp [Contour.points]
  have hlt := lt_length_of_drop_eq_cons hv0
  have hmove := parseLoop_move s c.start (c.prims.length + k) _ _ hv0 hp0 hn
  have hv1 : (s.seeded c.start).fPath.fVerbs.drop
      ((s.seeded c.start).fVerbs + (s.seeded c.start).fVerbsIdx)
      = c.prims.map Prim.verb ++ rest.flatMap Contour.verbs := by
    show List.drop (s.fVerbs + s.fVerbsIdx + 1) s.fPath.fVerbs = _
    rw [← List.drop_drop, hv0]; simp
  have hp1 : (s.seeded c.start).fPath.fPts.drop
      ((s.seeded c.start).fPoints + (s.seeded c.start).fPtsIdx)
      = c.prims.flatMap Prim.points ++ rest.flatMap Contour.points := by
    show List.drop (s.fPoints + s.fPtsIdx + 1) s.fPath.fPts = _
    rw [← List.drop_drop, hp0]; simp
  have hn1 : (s.seeded c.start).fVerbs + (s.seeded c.start).fNumRemainingVerbs
      = (s.seeded c.start).fPath.fVerbs.length := by
    show s.fVerbs + s.fVerbsIdx + (s.fNumRemainingVerbs - s.fVerbsIdx) = s.fPath.fVerbs.length
    omega
  have hprims := parseLoop_prims c.prims (s.seeded c.start) k false _ _ hv1 hp1 hn1
  obtain ⟨f1, f2, f3, f4, f5, f6, f7, f8, f9, f10⟩ := over_fields c.prims (s.seeded c.start)
  refine ⟨?_, ?_, ?_, ?_⟩
  · have hlen : c.verbs.length + k = (c.prims.length + k) + 1 := by
      simp [Contour.verbs]; omega
    rw [hlen, hmove, hprims]
    simp [Contour.hasGeometry]
  · refine ⟨?_, ?_, ?_, ?_, ?_, ?_, ?_, ?_⟩
    · rw [f1]; exact h.path
    · rw [f2]; exact h.verbs
    · rw [f4]; simp [seeded, Contour.verbs]; omega
    · rw [f5]; exact h.points
    · rw [f6]; simp [seeded, Contour.points]; omega
    · rw [f7]; exact h.weights
    · rw [f8]; simp [seeded, Contour.weights]
    · rw [f2, f3]
      show s.fVerbs + s.fVerbsIdx + (s.fNumRemainingVerbs - s.fVerbsIdx) = _
      rw [← h.remaining]; omega
  · rw [f9]; rfl
  · rw [f10]; simp [seeded, Contour.endPoints]; omega

/-- Contours without geometry are run through without a return. -/
theorem parseLoop_junk (junk : List Contour) (s : MidpointContourParser)
    (done tail : List Contour) (k : Nat) (h : s.AtBoundary done (junk ++ tail))
    (hjunk : ∀ j ∈ junk, j.hasGeometry = false) :
    ∃ s1, parseLoop ((junk.flatMap Contour.verbs).length + k) false s = parseLoop k false s1 ∧
      s1.AtBoundary (done ++ junk) tail := by
  induction junk generalizing s done with
  | nil => exact ⟨s, by simp, by simpa using h⟩
  | cons j junk ih =>
    have hj : j.hasGeometry = false := hjunk j (by simp)
    obtain ⟨h1, h2, -, -⟩ := parseLoop_contour s done (junk ++ tail) j
      ((junk.flatMap Contour.verbs).length + k) (by simpa using h)
    have hb := h2.atBoundary
    obtain ⟨s1, hs1, hb1⟩ := ih (j.prims.foldl over1 (s.seeded j.start)) (done ++ [j]) hb
      (fun x hx => hjunk x (by simp [hx]))
    refine ⟨s1, ?_, by simpa using hb1⟩
    rw [← hs1, ← hj, ← h1]
    congr 1
    simp [List.flatMap_cons]; omega

theorem AtBoundary.fuel {s : MidpointContourParser} {done rest : List Contour}
    (h : s.AtBoundary done rest) :
    s.fNumRemainingVerbs - s.fVerbsIdx = (rest.flatMap Contour.verbs).length := by
  have h1 := h.verbs
  have h2 := h.remaining
  rw [List.flatMap_append, List.length_append] at h2
  omega

/-- A call of `parseNextContour` at a boundary followed by contours without geometry and then a
contour `c` with geometry returns true and leaves the parser on `c`, with the midpoint
accumulator holding the sample points of `c`. -/
theorem parseNextContour_yield (s : MidpointContourParser) (done junk rest : List Contour)
    (c : Contour) (h : s.AtBoundary done (junk ++ c :: rest))
    (hjunk : ∀ j ∈ junk, j.hasGeometry = false) (hc : c.hasGeometry = true) :
    ∃ s1, s.parseNextContour = some (true, s1) ∧ s1.Yielded (done ++ junk) c rest ∧
      s1.fMidpoint = c.midpointSum ∧ s1.fMidpointWeight = c.endPoints.length + 1 := by
  unfold parseNextContour
  rw [h.fuel]
  obtain ⟨s1, hs1, hb1⟩ := parseLoop_junk junk s done (c :: rest)
    (c.verbs.length + (rest.flatMap Contour.verbs).length) h hjunk
  obtain ⟨h1, h2, h3, h4⟩ := parseLoop_contour s1 (done ++ junk) rest c
    (rest.flatMap Contour.verbs).length hb1
  refine ⟨c.prims.foldl over1 (s1.seeded c.start), ?_, h2, h3, h4⟩
  have hlen : ((junk ++ c :: rest).flatMap Contour.verbs).length
      = (junk.flatMap Contour.verbs).length
        + (c.verbs.length + (rest.flatMap Contour.verbs).length) := by
    simp [List.flatMap_append, List.flatMap_cons]
  rw [hlen, hs1, h1, hc]
  have hb2 := h2.atBoundary
  cases rest with
  | nil =>
    apply parseLoop_end _ _ _ _ hb2.length_verbs
    have := hb2.drop_verbs
    simp at this
    omega
  | cons c2 rest2 =>
    have hv := hb2.drop_verbs
    have hlen2 : ((c2 :: rest2).flatMap Contour.verbs).length
        = (c2.prims.length + (rest2.flatMap Contour.verbs).length) + 1 := by
      simp only [List.flatMap_cons, Contour.verbs, List.length_append, List.length_cons,
        List.length_map]
      omega
    rw [hlen2]
    exact parseLoop_move_geometry _ _ (c2.prims.map Prim.verb ++ rest2.flatMap Contour.verbs)
      (by rw [hv]; simp [List.flatMap_cons, Contour.verbs]) hb2.length_verbs

/-- A call of `parseNextContour` at a boundary followed only by contours without geometry
returns false. -/
theorem parseNextContour_done (s : MidpointContourParser) (done junk : List Contour)
    (h : s.AtBoundary done junk) (hjunk : ∀ j ∈ junk, j.hasGeometry = false) :
    ∃ s1, s.parseNextContour = some (false, s1) := by
  unfold parseNextContour
  rw [h.fuel]
  obtain ⟨s1, hs1, hb1⟩ := parseLoop_junk junk s done [] 0 (by simpa using h) hjunk
  refine ⟨s1, ?_⟩
  have := hs1
  simp only [Nat.add_zero] at this
  rw [this]
  apply parseLoop_end _ _ _ _ hb1.length_verbs
  have := hb1.drop_verbs
  simp at this
  omega

theorem atBoundary_mk0 (cs : List Contour) : (mk0 (pathOf cs)).AtBoundary [] cs where
  path := rfl
  verbs := rfl
  points := rfl
  weights := rfl
  remaining := by simp [mk0, pathOf]

theorem foldl_add_eq (es : List SkPoint) (m : SkPoint) :
    es.foldl (· + ·) m = ⟨m.fX + (es.map SkPoint.fX).sum, m.fY + (es.map SkPoint.fY).sum⟩ := by
  induction es generalizing m with
  | nil => simp
  | cons e es ih =>
    rw [List.foldl_cons, ih]
    show (⟨(m.fX + e.fX) + _, (m.fY + e.fY) + _⟩ : SkPoint) = _
    simp [add_assoc]

end MidpointContourParser

namespace GrVertexChunkBuilder

theorem flatMap_push (chunks : List GrVertexChunk) (patch : Patch) :
    (push chunks patch).flatMap GrVertexChunk.fPatches = chunks.flatMap GrVertexChunk.fPatches ∨
    (push chunks patch).flatMap GrVertexChunk.fPatches
      = chunks.flatMap GrVertexChunk.fPatches ++ [patch] := by
  unfold push
  cases hl : chunks.getLast? with
  | none => left; rfl
  | some c =>
    right
    have hne : chunks ≠ [] := by
      intro h; rw [h] at hl; simp at hl
    have hc : chunks = chunks.dropLast ++ [c] := by
      have h1 := List.dropLast_append_getLast hne
      have h2 : chunks.getLast hne = c := by
        rw [List.getLast?_eq_getLast _ hne] at hl
        exact Option.some.inj hl
      rw [h2] at h1
      exact h1.symm
    simp only [List.flatMap_append, List.flatMap_cons, List.flatMap_nil, List.append_nil]
    conv_rhs => rw [hc]
    simp [List.flatMap_append]

/-- A call of `appendVertex` leaves the patches written so far in place and adds at most the
new patch, at the end. -/
theorem patches_appendVertex (b : GrVertexChunkBuilder) (patch : Patch) :
    (b.appendVertex patch).patches = b.patches ∨
    (b.appendVertex patch).patches = b.patches ++ [patch] := by
  unfold appendVertex patches
  split
  · unfold allocChunk
    cases ht : b.fTarget b.fNumRequests (max 1 b.fMinVerticesPerChunk) with
    | none => left; simp
    | some r =>
      obtain ⟨buffer, base, capacity⟩ := r
      by_cases hcap : capacity < 1
      · left; simp [hcap]
      · simp only [hcap, if_false]
        rcases flatMap_push (b.fChunks ++ [⟨buffer, base, []⟩]) patch with h | h
        · left; simpa [List.flatMap_append] using h
        · right; simpa [List.flatMap_append] using h
  · exact flatMap_push b.fChunks patch

theorem flatMap_push_of_ne_nil (chunks : List GrVertexChunk) (patch : Patch)
    (hne : chunks ≠ []) :
    (push chunks patch).flatMap GrVertexChunk.fPatches
      = chunks.flatMap GrVertexChunk.fPatches ++ [patch] ∧ push chunks patch ≠ [] := by
  have hc := List.dropLast_append_getLast hne
  have hl : chunks.getLast? = some (chunks.getLast hne) := List.getLast?_eq_getLast _ hne
  unfold push
  rw [hl]
  constructor
  · simp only [List.flatMap_append, List.flatMap_cons, List.flatMap_nil, List.append_nil]
    conv_rhs => rw [← hc]
    simp [List.flatMap_append]
  · simp

/-- With room, a call of `appendVertex` adds exactly the new patch, at the end. -/
theorem Roomy.appendVertex {b : GrVertexChunkBuilder} (h : b.Roomy) (patch : Patch) :
    (b.appendVertex patch).patches = b.patches ++ [patch] ∧ (b.appendVertex patch).Roomy := by
  obtain ⟨ht, hc⟩ := h
  unfold GrVertexChunkBuilder.appendVertex patches
  by_cases hfull : b.fCurrChunkVertexCapacity < b.fCurrChunkVertexCount + 1
  · simp only [hfull, if_true]
    obtain ⟨buffer, base, capacity, hreq, hcap⟩ := ht b.fNumRequests (max 1 b.fMinVerticesPerChunk)
    have hcap1 : ¬ capacity < 1 := by
      have : 1 ≤ max 1 b.fMinVerticesPerChunk := le_max_left _ _
      omega
    unfold allocChunk
    simp only [hreq, hcap1, if_false]
    obtain ⟨h1, h2⟩ := flatMap_push_of_ne_nil (b.fChunks ++ [⟨buffer, base, []⟩]) patch (by simp)
    refine ⟨by simpa [List.flatMap_append] using h1, ht, fun _ => h2⟩
  · simp only [hfull, if_false]
    have hne : b.fChunks ≠ [] := hc (by omega)
    obtain ⟨h1, h2⟩ := flatMap_push_of_ne_nil b.fChunks patch hne
    exact ⟨h1, ht, fun _ => h2⟩

theorem Roomy.foldl_appendVertex {b : GrVertexChunkBuilder} (h : b.Roomy) (ps : List Patch) :
    (ps.foldl GrVertexChunkBuilder.appendVertex b).patches = b.patches ++ ps ∧
    (ps.foldl GrVertexChunkBuilder.appendVertex b).Roomy := by
  induction ps generalizing b with
  | nil => simpa using h
  | cons a ps ih =>
    obtain ⟨h1, h2⟩ := h.appendVertex a
    obtain ⟨h3, h4⟩ := ih h2
    exact ⟨by rw [List.foldl_cons, h3, h1]; simp, h4⟩

theorem patches_foldl_appendVertex (b : GrVertexChunkBuilder) (ps : List Patch) :
    ∃ new, (ps.foldl GrVertexChunkBuilder.appendVertex b).patches = b.patches ++ new ∧
      new.Sublist ps := by
  induction ps generalizing b with
  | nil => exact ⟨[], by simp, List.Sublist.refl _⟩
  | cons a ps ih =>
    obtain ⟨new, h1, h2⟩ := ih (b.appendVertex a)
    rcases patches_appendVertex b a with h | h
    · exact ⟨new, by rw [List.foldl_cons, h1, h], h2.cons a⟩
    · exact ⟨a :: new, by rw [List.foldl_cons, h1, h]; simp, h2.cons₂ a⟩

end GrVertexChunkBuilder

namespace WedgeWriter

/-- The leaf patch of a quadratic, conic or cubic write, as the three writers build it. -/
theorem patches_leaf (w : WedgeWriter) (patch : Patch) (x : ℚ) :
    ({ w with fChunker := w.fChunker.appendVertex patch, fNumFixedSegments_pow4 := x }
        : WedgeWriter).patches = w.patches ∨
    ({ w with fChunker := w.fChunker.appendVertex patch, fNumFixedSegments_pow4 := x }
        : WedgeWriter).patches = w.patches ++ [patch] :=
  GrVertexChunkBuilder.patches_appendVertex w.fChunker patch

/-- What a call of `writeQuadraticWedge` leaves, returned or not: the matrices and the budget
are untouched, and the patches written so far are followed by new ones, each the patch of a
quadratic whose estimate under the total matrix is within the budget. -/
theorem writeQuadraticWedge_state (E : Estimators) (fuel : Nat) (w : WedgeWriter)
    (shaderCaps : GrShaderCaps) (p : QuadPts) (midpoint : SkPoint) (w1 : WedgeWriter)
    (h : (writeQuadraticWedge E fuel w shaderCaps p midpoint).state? = some w1) :
    w1.fTotalVectorXform = w.fTotalVectorXform ∧ w1.fPathXform = w.fPathXform ∧
    w1.fMaxSegments_pow2 = w.fMaxSegments_pow2 ∧ w1.fMaxSegments_pow4 = w.fMaxSegments_pow4 ∧
    ∃ new, w1.patches = w.patches ++ new ∧ ∀ patch ∈ new, ∃ q : QuadPts,
      patch = ⟨w.fPathXform, PatchGeometry.mapQuadToCubic q, midpoint,
        curveTypeIf shaderCaps CurveType.kCubicCurveType⟩ ∧
      E.quadratic_pow4 kTessellationPrecision q w.fTotalVectorXform ≤ w.fMaxSegments_pow4 := by
  induction fuel generalizing w p w1 with
  | zero =>
    simp [writeQuadraticWedge, Run.state?] at h
    subst h
    exact ⟨rfl, rfl, rfl, rfl, [], by simp, by simp⟩
  | succ fuel ih =>
    rw [writeQuadraticWedge] at h
    by_cases hover : E.quadratic_pow4 kTessellationPrecision p w.fTotalVectorXform
        > w.fMaxSegments_pow4
    · simp only [hover, if_true] at h
      cases h1 : writeQuadraticWedge E fuel w shaderCaps (SkChopQuadAtHalf p).1 midpoint with
      | fault => rw [h1] at h; simp [Run.state?] at h
      | unfinished wa =>
        rw [h1] at h
        simp [Run.state?] at h
        subst h
        exact ih w _ wa (by rw [h1]; rfl)
      | returned wa =>
        rw [h1] at h
        simp only at h
        obtain ⟨a1, a2, a3, a4, newa, a5, a6⟩ := ih w _ wa (by rw [h1]; rfl)
        obtain ⟨b1, b2, b3, b4, newb, b5, b6⟩ := ih wa _ w1 h
        refine ⟨b1.trans a1, b2.trans a2, b3.trans a3, b4.trans a4, newa ++ newb, ?_, ?_⟩
        · rw [b5, a5, List.append_assoc]
        · intro patch hp
          rcases List.mem_append.mp hp with hp | hp
          · exact a6 patch hp
          · obtain ⟨q, hq1, hq2⟩ := b6 patch hp
            exact ⟨q, by rw [hq1, a2], by rw [← a1, ← a4]; exact hq2⟩
    · simp only [hover, if_false, Run.state?, Option.some.injEq] at h
      subst h
      refine ⟨rfl, rfl, rfl, rfl, ?_⟩
      rcases patches_leaf w _ _ with hp | hp
      · exact ⟨[], by rw [hp]; simp, by simp⟩
      · refine ⟨[_], hp, ?_⟩
        intro patch hmem
        simp only [List.mem_singleton] at hmem
        exact ⟨p, hmem, not_lt.mp hover⟩

/-- What a call of `writeCubicWedge` leaves, returned or not: as for quadratics. -/
theorem writeCubicWedge_state (E : Estimators) (fuel : Nat) (w : WedgeWriter)
    (shaderCaps : GrShaderCaps) (p : CubicPts) (midpoint : SkPoint) (w1 : WedgeWriter)
    (h : (writeCubicWedge E fuel w shaderCaps p midpoint).state? = some w1) :
    w1.fTotalVectorXform = w.fTotalVectorXform ∧ w1.fPathXform = w.fPathXform ∧
    w1.fMaxSegments_pow2 = w.fMaxSegments_pow2 ∧ w1.fMaxSegments_pow4 = w.fMaxSegments_pow4 ∧
    ∃ new, w1.patches = w.patches ++ new ∧ ∀ patch ∈ new, ∃ q : CubicPts,
      patch = ⟨w.fPathXform, PatchGeometry.map4Points q, midpoint,
        curveTypeIf shaderCaps CurveType.kCubicCurveType⟩ ∧
      E.cubic_pow4 kTessellationPrecision q w.fTotalVectorXform ≤ w.fMaxSegments_pow4 := by
  induction fuel generalizing w p w1 with
  | zero =>
    simp [writeCubicWedge, Run.state?] at h
    subst h
    exact ⟨rfl, rfl, rfl, rfl, [], by simp, by simp⟩
  | succ fuel ih =>
    rw [writeCubicWedge] at h
    by_cases hover : E.cubic_pow4 kTessellationPrecision p w.fTotalVectorXform
        > w.fMaxSegments_pow4
    · simp only [hover, if_true] at h
      cases h1 : writeCubicWedge E fuel w shaderCaps (SkChopCubicAtHalf p).1 midpoint with
      | fault => rw [h1] at h; simp [Run.state?] at h
      | unfinished wa =>
        rw [h1] at h
        simp [Run.state?] at h
        subst h
        exact ih w _ wa (by rw [h1]; rfl)
      | returned wa =>
        rw [h1] at h
        simp only at h
        obtain ⟨a1, a2, a3, a4, newa, a5, a6⟩ := ih w _ wa (by rw [h1]; rfl)
        obtain ⟨b1, b2, b3, b4, newb, b5, b6⟩ := ih wa _ w1 h
        refine ⟨b1.trans a1, b2.trans a2, b3.trans a3, b4.trans a4, newa ++ newb, ?_, ?_⟩
        · rw [b5, a5, List.append_assoc]
        · intro patch hp
          rcases List.mem_append.mp hp with hp | hp
          · exact a6 patch hp
          · obtain ⟨q, hq1, hq2⟩ := b6 patch hp
            exact ⟨q, by rw [hq1, a2], by rw [← a1, ← a4]; exact hq2⟩
    · simp only [hover, if_false, Run.state?, Option.some.injEq] at h
      subst h
      refine ⟨rfl, rfl, rfl, rfl, ?_⟩
      rcases patches_leaf w _ _ with hp | hp
      · exact ⟨[], by rw [hp]; simp, by simp⟩
      · refine ⟨[_], hp, ?_⟩
        intro patch hmem
        simp only [List.mem_singleton] at hmem
        exact ⟨p, hmem, not_lt.mp hover⟩

/-- What a call of `writeConicWedge` leaves, returned or not: as for quadratics, with the
estimate in its squared form and the conic curve type. -/
theorem writeConicWedge_state (E : Estimators) (fuel : Nat) (w : WedgeWriter)
    (shaderCaps : GrShaderCaps) (p : QuadPts) (wt : ℚ) (midpoint : SkPoint) (w1 : WedgeWriter)
    (h : (writeConicWedge E fuel w shaderCaps p wt midpoint).state? = some w1) :
    w1.fTotalVectorXform = w.fTotalVectorXform ∧ w1.fPathXform = w.fPathXform ∧
    w1.fMaxSegments_pow2 = w.fMaxSegments_pow2 ∧ w1.fMaxSegments_pow4 = w.fMaxSegments_pow4 ∧
    ∃ new, w1.patches = w.patches ++ new ∧ ∀ patch ∈ new, ∃ (q : QuadPts) (qw : ℚ),
      patch = ⟨w.fPathXform, PatchGeometry.mapConicToPatch q qw, midpoint,
        curveTypeIf shaderCaps CurveType.kConicCurveType⟩ ∧
      E.conic_pow2 kTessellationPrecision q qw w.fTotalVectorXform ≤ w.fMaxSegments_pow2 := by
  induction fuel generalizing w p wt w1 with
  | zero =>
    simp [writeConicWedge, Run.state?] at h
    subst h
    exact ⟨rfl, rfl, rfl, rfl, [], by simp, by simp⟩
  | succ fuel ih =>
    rw [writeConicWedge] at h
    by_cases hover : E.conic_pow2 kTessellationPrecision p wt w.fTotalVectorXform
        > w.fMaxSegments_pow2
    · simp only [hover, if_true] at h
      cases hc : E.chopAt ⟨p, wt⟩ (1 / 2) with
      | none =>
        rw [hc] at h
        simp [Run.state?] at h
        subst h
        exact ⟨rfl, rfl, rfl, rfl, [], by simp, by simp⟩
      | some chops =>
        rw [hc] at h
        simp only at h
        cases h1 : writeConicWedge E fuel w shaderCaps chops.1.fPts chops.1.fW midpoint with
        | fault => rw [h1] at h; simp [Run.state?] at h
        | unfinished wa =>
          rw [h1] at h
          simp [Run.state?] at h
          subst h
          exact ih w _ _ wa (by rw [h1]; rfl)
        | returned wa =>
          rw [h1] at h
          simp only at h
          obtain ⟨a1, a2, a3, a4, newa, a5, a6⟩ := ih w _ _ wa (by rw [h1]; rfl)
          obtain ⟨b1, b2, b3, b4, newb, b5, b6⟩ := ih wa _ _ w1 h
          refine ⟨b1.trans a1, b2.trans a2, b3.trans a3, b4.trans a4, newa ++ newb, ?_, ?_⟩
          · rw [b5, a5, List.append_assoc]
          · intro patch hp
            rcases List.mem_append.mp hp with hp | hp
            · exact a6 patch hp
            · obtain ⟨q, qw, hq1, hq2⟩ := b6 patch hp
              exact ⟨q, qw, by rw [hq1, a2], by rw [← a1, ← a3]; exact hq2⟩
    · simp only [hover, if_false, Run.state?, Option.some.injEq] at h
      subst h
      refine ⟨rfl, rfl, rfl, rfl, ?_⟩
      rcases patches_leaf w _ _ with hp | hp
      · exact ⟨[], by rw [hp]; simp, by simp⟩
      · refine ⟨[_], hp, ?_⟩
        intro patch hmem
        simp only [List.mem_singleton] at hmem
        exact ⟨p, wt, hmem, not_lt.mp hover⟩

theorem writeQuadraticWedge_ne_fault (E : Estimators) (fuel : Nat) (w : WedgeWriter)
    (shaderCaps : GrShaderCaps) (p : QuadPts) (midpoint : SkPoint) :
    writeQuadraticWedge E fuel w shaderCaps p midpoint ≠ Run.fault := by
  induction fuel generalizing w p with
  | zero => simp [writeQuadraticWedge]
  | succ fuel ih =>
    rw [writeQuadraticWedge]
    split
    · cases h1 : writeQuadraticWedge E fuel w shaderCaps (SkChopQuadAtHalf p).1 midpoint with
      | fault => exact absurd h1 (ih _ _)
      | unfinished wa => simp [h1]
      | returned wa => simpa [h1] using ih _ _
    · simp

theorem writeCubicWedge_ne_fault (E : Estimators) (fuel : Nat) (w : WedgeWriter)
    (shaderCaps : GrShaderCaps) (p : CubicPts) (midpoint : SkPoint) :
    writeCubicWedge E fuel w shaderCaps p midpoint ≠ Run.fault := by
  induction fuel generalizing w p with
  | zero => simp [writeCubicWedge]
  | succ fuel ih =>
    rw [writeCubicWedge]
    split
    · cases h1 : writeCubicWedge E fuel w shaderCaps (SkChopCubicAtHalf p).1 midpoint with
      | fault => exact absurd h1 (ih _ _)
      | unfinished wa => simp [h1]
      | returned wa => simpa [h1] using ih _ _
    · simp

theorem writeConicWedge_ne_fault (E : Estimators) (fuel : Nat) (w : WedgeWriter)
    (shaderCaps : GrShaderCaps) (p : QuadPts) (wt : ℚ) (midpoint : SkPoint) :
    writeConicWedge E fuel w shaderCaps p wt midpoint ≠ Run.fault := by
  induction fuel generalizing w p wt with
  | zero => simp [writeConicWedge]
  | succ fuel ih =>
    rw [writeConicWedge]
    split
    · split
      · simp
      · split
        · exact ih _ _ _
        · simp
        · rename_i h; exact absurd h (ih _ _ _)
    · simp

theorem mk0_budget (target : Nat → Nat → Option (Nat × Nat × Nat))
    (vertexChunkArray : List GrVertexChunk) (patchStride initialPatchAllocCount M : Nat) :
    (mk0 target vertexChunkArray patchStride initialPatchAllocCount M).fMaxSegments_pow2
        = (M : ℚ) ^ 2 ∧
    (mk0 target vertexChunkArray patchStride initialPatchAllocCount M).fMaxSegments_pow4
        = (M : ℚ) ^ 4 := by
  constructor
  · simp only [mk0]; push_cast; ring
  · simp only [mk0]; push_cast; ring

/-- C2: for a writer with per-patch maximum `M`, whatever a call of `writeQuadraticWedge`,
`writeConicWedge` or `writeCubicWedge` has appended to the output, whether the call returned or
is still chopping, is a curve patch whose estimate under the current total matrix is within the
budget: at most `M^4` (fourth-power form) for quadratics and cubics, at most `M^2` (squared
form) for conics. No call ends in an error. -/
theorem C2_emitted_patches_within_budget (E : Estimators) (M fuel : Nat) (w : WedgeWriter)
    (shaderCaps : GrShaderCaps) (midpoint : SkPoint)
    (hM2 : w.fMaxSegments_pow2 = (M : ℚ) ^ 2) (hM4 : w.fMaxSegments_pow4 = (M : ℚ) ^ 4) :
    (∀ (p : QuadPts) (w1 : WedgeWriter),
      (writeQuadraticWedge E fuel w shaderCaps p midpoint).state? = some w1 →
      ∃ new, w1.patches = w.patches ++ new ∧ ∀ patch ∈ new, ∃ q : QuadPts,
        patch.fGeometry = PatchGeometry.mapQuadToCubic q ∧
        E.quadratic_pow4 kTessellationPrecision q w.fTotalVectorXform ≤ (M : ℚ) ^ 4) ∧
    (∀ (p : QuadPts) (wt : ℚ) (w1 : WedgeWriter),
      (writeConicWedge E fuel w shaderCaps p wt midpoint).state? = some w1 →
      ∃ new, w1.patches = w.patches ++ new ∧ ∀ patch ∈ new, ∃ (q : QuadPts) (qw : ℚ),
        patch.fGeometry = PatchGeometry.mapConicToPatch q qw ∧
        E.conic_pow2 kTessellationPrecision q qw w.fTotalVectorXform ≤ (M : ℚ) ^ 2) ∧
    (∀ (p : CubicPts) (w1 : WedgeWriter),
      (writeCubicWedge E fuel w shaderCaps p midpoint).state? = some w1 →
      ∃ new, w1.patches = w.patches ++ new ∧ ∀ patch ∈ new, ∃ q : CubicPts,
        patch.fGeometry = PatchGeometry.map4Points q ∧
        E.cubic_pow4 kTessellationPrecision q w.fTotalVectorXform ≤ (M : ℚ) ^ 4) ∧
    (∀ p : QuadPts, writeQuadraticWedge E fuel w shaderCaps p midpoint ≠ Run.fault) ∧
    (∀ (p : QuadPts) (wt : ℚ), writeConicWedge E fuel w shaderCaps p wt midpoint ≠ Run.fault) ∧
    (∀ p : CubicPts, writeCubicWedge E fuel w shaderCaps p midpoint ≠ Run.fault) := by
  refine ⟨?_, ?_, ?_, fun p => writeQuadraticWedge_ne_fault E fuel w shaderCaps p midpoint,
    fun p wt => writeConicWedge_ne_fault E fuel w shaderCaps p wt midpoint,
    fun p => writeCubicWedge_ne_fault E fuel w shaderCaps p midpoint⟩
  · intro p w1 h
    obtain ⟨-, -, -, -, new, h5, h6⟩ := writeQuadraticWedge_state E fuel w shaderCaps p midpoint w1 h
    refine ⟨new, h5, fun patch hp => ?_⟩
    obtain ⟨q, hq1, hq2⟩ := h6 patch hp
    exact ⟨q, by rw [hq1], by rw [← hM4]; exact hq2⟩
  · intro p wt w1 h
    obtain ⟨-, -, -, -, new, h5, h6⟩ :=
      writeConicWedge_state E fuel w shaderCaps p wt midpoint w1 h
    refine ⟨new, h5, fun patch hp => ?_⟩
    obtain ⟨q, qw, hq1, hq2⟩ := h6 patch hp
    exact ⟨q, qw, by rw [hq1], by rw [← hM2]; exact hq2⟩
  · intro p w1 h
    obtain ⟨-, -, -, -, new, h5, h6⟩ := writeCubicWedge_state E fuel w shaderCaps p midpoint w1 h
    refine ⟨new, h5, fun patch hp => ?_⟩
    obtain ⟨q, hq1, hq2⟩ := h6 patch hp
    exact ⟨q, by rw [hq1], by rw [← hM4]; exact hq2⟩

/-- C2 at a sample writer (`M = 2`) and a quadratic whose estimate, 64, needs two levels of
chopping. -/
theorem C2_emitted_patches_within_budget_sample :
    Sample.writer.fMaxSegments_pow2 = ((2 : Nat) : ℚ) ^ 2 ∧
    Sample.writer.fMaxSegments_pow4 = ((2 : Nat) : ℚ) ^ 4 ∧
    ∀ w1 : WedgeWriter,
      (writeQuadraticWedge Sample.estimators 3 Sample.writer Sample.caps
        ⟨⟨0, 0⟩, ⟨0, 0⟩, ⟨8, 0⟩⟩ ⟨1, 1⟩).state? = some w1 →
      ∃ new, w1.patches = Sample.writer.patches ++ new ∧ ∀ patch ∈ new, ∃ q : QuadPts,
        patch.fGeometry = PatchGeometry.mapQuadToCubic q ∧
        Sample.estimators.quadratic_pow4 kTessellationPrecision q
          Sample.writer.fTotalVectorXform ≤ ((2 : Nat) : ℚ) ^ 4 :=
  ⟨(mk0_budget _ _ _ _ 2).1, (mk0_budget _ _ _ _ 2).2,
    (C2_emitted_patches_within_budget Sample.estimators 2 3 Sample.writer Sample.caps ⟨1, 1⟩
      (mk0_budget _ _ _ _ 2).1 (mk0_budget _ _ _ _ 2).2).1 ⟨⟨0, 0⟩, ⟨0, 0⟩, ⟨8, 0⟩⟩⟩

theorem after_nil (w : WedgeWriter) : w.after [] [] = w := rfl

theorem after_after (w : WedgeWriter) (ps qs : List Patch) (es fs : List ℚ) :
    (w.after ps es).after qs fs = w.after (ps ++ qs) (es ++ fs) := by
  simp [after, List.foldl_append]

/-- The leaves of a call of `writeQuadraticWedge`: the call leaves the writer as if the
quadratics `leaves`, all within budget, had been written one after the other. -/
theorem writeQuadraticWedge_leaves (E : Estimators) (fuel : Nat) (w : WedgeWriter)
    (shaderCaps : GrShaderCaps) (p : QuadPts) (midpoint : SkPoint) (w1 : WedgeWriter)
    (h : (writeQuadraticWedge E fuel w shaderCaps p midpoint).state? = some w1) :
    ∃ leaves : List QuadPts,
      w1 = w.after (leaves.map (quadPatch w.fPathXform shaderCaps midpoint))
        (leaves.map fun q => E.quadratic_pow4 kTessellationPrecision q w.fTotalVectorXform) ∧
      ∀ q ∈ leaves,
        E.quadratic_pow4 kTessellationPrecision q w.fTotalVectorXform ≤ w.fMaxSegments_pow4 := by
  induction fuel generalizing w p w1 with
  | zero =>
    simp [writeQuadraticWedge, Run.state?] at h
    subst h
    exact ⟨[], rfl, by simp⟩
  | succ fuel ih =>
    rw [writeQuadraticWedge] at h
    by_cases hover : E.quadratic_pow4 kTessellationPrecision p w.fTotalVectorXform
        > w.fMaxSegments_pow4
    · simp only [hover, if_true] at h
      cases h1 : writeQuadraticWedge E fuel w shaderCaps (SkChopQuadAtHalf p).1 midpoint with
      | fault => rw [h1] at h; simp [Run.state?] at h
      | unfinished wa =>
        rw [h1] at h
        simp [Run.state?] at h
        subst h
        exact ih w _ wa (by rw [h1]; rfl)
      | returned wa =>
        rw [h1] at h
        simp only at h
        obtain ⟨la, a1, a2⟩ := ih w _ wa (by rw [h1]; rfl)
        obtain ⟨lb, b1, b2⟩ := ih wa _ w1 h
        refine ⟨la ++ lb, ?_, ?_⟩
        · rw [b1, a1, after_after]
          simp [after, quadPatch]
        · intro q hq
          rcases List.mem_append.mp hq with hq | hq
          · exact a2 q hq
          · have := b2 q hq
            rw [a1] at this
            exact this
    · simp only [hover, if_false, Run.state?, Option.some.injEq] at h
      subst h
      exact ⟨[p], rfl, by simpa using not_lt.mp hover⟩

/-- The leaves of a call of `writeCubicWedge`. -/
theorem writeCubicWedge_leaves (E : Estimators) (fuel : Nat) (w : WedgeWriter)
    (shaderCaps : GrShaderCaps) (p : CubicPts) (midpoint : SkPoint) (w1 : WedgeWriter)
    (h : (writeCubicWedge E fuel w shaderCaps p midpoint).state? = some w1) :
    ∃ leaves : List CubicPts,
      w1 = w.after (leaves.map (cubicPatch w.fPathXform shaderCaps midpoint))
        (leaves.map fun q => E.cubic_pow4 kTessellationPrecision q w.fTotalVectorXform) ∧
      ∀ q ∈ leaves,
        E.cubic_pow4 kTessellationPrecision q w.fTotalVectorXform ≤ w.fMaxSegments_pow4 := by
  induction fuel generalizing w p w1 with
  | zero =>
    simp [writeCubicWedge, Run.state?] at h
    subst h
    exact ⟨[], rfl, by simp⟩
  | succ fuel ih =>
    rw [writeCubicWedge] at h
    by_cases hover : E.cubic_pow4 kTessellationPrecision p w.fTotalVectorXform
        > w.fMaxSegments_pow4
    · simp only [hover, if_true] at h
      cases h1 : writeCubicWedge E fuel w shaderCaps (SkChopCubicAtHalf p).1 midpoint with
      | fault => rw [h1] at h; simp [Run.state?] at h
      | unfinished wa =>
        rw [h1] at h
        simp [Run.state?] at h
        subst h
        exact ih w _ wa (by rw [h1]; rfl)
      | returned wa =>
        rw [h1] at h
        simp only at h
        obtain ⟨la, a1, a2⟩ := ih w _ wa (by rw [h1]; rfl)
        obtain ⟨lb, b1, b2⟩ := ih wa _ w1 h
        refine ⟨la ++ lb, ?_, ?_⟩
        · rw [b1, a1, after_after]
          simp [after, cubicPatch]
        · intro q hq
          rcases List.mem_append.mp hq with hq | hq
          · exact a2 q hq
          · have := b2 q hq
            rw [a1] at this
            exact this
    · simp only [hover, if_false, Run.state?, Option.some.injEq] at h
      subst h
      exact ⟨[p], rfl, by simpa using not_lt.mp hover⟩

/-- The leaves of a call of `writeConicWedge`; the tracked maximum is raised by the squares of
their estimates. -/
theorem writeConicWedge_leaves (E : Estimators) (fuel : Nat) (w : WedgeWriter)
    (shaderCaps : GrShaderCaps) (p : QuadPts) (wt : ℚ) (midpoint : SkPoint) (w1 : WedgeWriter)
    (h : (writeConicWedge E fuel w shaderCaps p wt midpoint).state? = some w1) :
    ∃ leaves : List SkConic,
      w1 = w.after (leaves.map (conicPatch w.fPathXform shaderCaps midpoint))
        (leaves.map fun q =>
          E.conic_pow2 kTessellationPrecision q.fPts q.fW w.fTotalVectorXform
            * E.conic_pow2 kTessellationPrecision q.fPts q.fW w.fTotalVectorXform) ∧
      ∀ q ∈ leaves,
        E.conic_pow2 kTessellationPrecision q.fPts q.fW w.fTotalVectorXform
          ≤ w.fMaxSegments_pow2 := by
  induction fuel generalizing w p wt w1 with
  | zero =>
    simp [writeConicWedge, Run.state?] at h
    subst h
    exact ⟨[], rfl, by simp⟩
  | succ fuel ih =>
    rw [writeConicWedge] at h
    by_cases hover : E.conic_pow2 kTessellationPrecision p wt w.fTotalVectorXform
        > w.fMaxSegments_pow2
    · simp only [hover, if_true] at h
      cases hc : E.chopAt ⟨p, wt⟩ (1 / 2) with
      | none =>
        rw [hc] at h
        simp [Run.state?] at h
        subst h
        exact ⟨[], rfl, by simp⟩
      | some chops =>
        rw [hc] at h
        simp only at h
        cases h1 : writeConicWedge E fuel w shaderCaps chops.1.fPts chops.1.fW midpoint with
        | fault => rw [h1] at h; simp [Run.state?] at h
        | unfinished wa =>
          rw [h1] at h
          simp [Run.state?] at h
          subst h
          exact ih w _ _ wa (by rw [h1]; rfl)
        | returned wa =>
          rw [h1] at h
          simp only at h
          obtain ⟨la, a1, a2⟩ := ih w _ _ wa (by rw [h1]; rfl)
          obtain ⟨lb, b1, b2⟩ := ih wa _ _ w1 h
          refine ⟨la ++ lb, ?_, ?_⟩
          · rw [b1, a1, after_after]
            simp [after, conicPatch]
          · intro q hq
            rcases List.mem_append.mp hq with hq | hq
            · exact a2 q hq
            · have := b2 q hq
              rw [a1] at this
              exact this
    · simp only [hover, if_false, Run.state?, Option.some.injEq] at h
      subst h
      exact ⟨[⟨p, wt⟩], rfl, by simpa using not_lt.mp hover⟩

theorem roomy_mk0 (target : Nat → Nat → Option (Nat × Nat × Nat))
    (vertexChunkArray : List GrVertexChunk) (patchStride initialPatchAllocCount M : Nat)
    (h : ∀ k n, ∃ buffer base capacity, target k n = some (buffer, base, capacity) ∧ n ≤ capacity) :
    (mk0 target vertexChunkArray patchStride initialPatchAllocCount M).fChunker.Roomy :=
  ⟨h, fun hlt => absurd hlt (by simp [mk0])⟩

theorem roomy_after {w : WedgeWriter} (h : w.fChunker.Roomy) (ps : List Patch) (es : List ℚ) :
    (w.after ps es).patches = w.patches ++ ps ∧ (w.after ps es).fChunker.Roomy :=
  h.foldl_appendVertex ps

theorem roomy_writeFlatWedge {w : WedgeWriter} (h : w.fChunker.Roomy) (shaderCaps : GrShaderCaps)
    (p0 p1 midpoint : SkPoint) :
    (w.writeFlatWedge shaderCaps p0 p1 midpoint).patches
        = w.patches ++ [flatPatch w.fPathXform shaderCaps midpoint p0 p1] ∧
      (w.writeFlatWedge shaderCaps p0 p1 midpoint).fChunker.Roomy :=
  h.appendVertex _

end WedgeWriter

/-! ### Iterating a yielded contour -/

theorem drop_add_of_drop_eq_append {α : Type} {l u t : List α} {n : Nat}
    (h : l.drop n = u ++ t) : l.drop (n + u.length) = t := by
  rw [← List.drop_drop, h]
  simp

theorem iterate_prims (fPts : List SkPoint) (fConicWeights : List ℚ) (prims : List Prim)
    (ptsCur wtsCur : Nat) (last : SkPoint) (restP : List SkPoint) (restW : List ℚ)
    (h0 : 0 < ptsCur) (hlast : fPts[ptsCur - 1]? = some last)
    (hp : fPts.drop ptsCur = prims.flatMap Prim.points ++ restP)
    (hw : fConicWeights.drop wtsCur = prims.flatMap Prim.weights ++ restW) :
    iterate fPts fConicWeights (prims.map Prim.verb) ptsCur wtsCur
      = some (primElems last prims) := by
  induction prims generalizing ptsCur wtsCur last with
  | nil => simp [iterate, primElems]
  | cons pr prims ih =>
    have hne : ptsCur ≠ 0 := by omega
    have hp' : fPts.drop ptsCur = pr.points ++ (prims.flatMap Prim.points ++ restP) := by
      rw [hp]; simp [List.flatMap_cons]
    have hw' : fConicWeights.drop wtsCur
        = pr.weights ++ (prims.flatMap Prim.weights ++ restW) := by
      rw [hw]; simp [List.flatMap_cons]
    have hpn := drop_add_of_drop_eq_append hp'
    have hwn := drop_add_of_drop_eq_append hw'
    cases pr with
    | close =>
      have := ih ptsCur wtsCur last h0 hlast (by simpa [Prim.points] using hpn)
        (by simpa [Prim.weights] using hwn)
      simp [iterate, primElems, Prim.verb, Prim.elem, Prim.endPoint?, this]
    | line p1 =>
      have e0 : fPts[ptsCur]? = some p1 := by
        have := MidpointContourParser.getElem?_of_drop_eq_append (i := 0) hp'
          (by simp [Prim.points])
        simpa [Prim.points] using this
      have := ih (ptsCur + 1) wtsCur p1 (by omega) (by simpa using e0)
        (by simpa [Prim.points] using hpn) (by simpa [Prim.weights] using hwn)
      simp [iterate, primElems, Prim.verb, Prim.elem, Prim.endPoint?, this, hne, hlast, e0]
    | quad p1 p2 =>
      have e0 : fPts[ptsCur]? = some p1 := by
        have := MidpointContourParser.getElem?_of_drop_eq_append (i := 0) hp'
          (by simp [Prim.points])
        simpa [Prim.points] using this
      have e1 : fPts[ptsCur + 1]? = some p2 := by
        have := MidpointContourParser.getElem?_of_drop_eq_append (i := 1) hp'
          (by simp [Prim.points])
        simpa [Prim.points] using this
      have := ih (ptsCur + 2) wtsCur p2 (by omega) (by simpa using e1)
        (by simpa [Prim.points] using hpn) (by simpa [Prim.weights] using hwn)
      simp [iterate, primElems, Prim.verb, Prim.elem, Prim.endPoint?, this, hne, hlast, e0, e1]
    | conic p1 p2 wt =>
      have e0 : fPts[ptsCur]? = some p1 := by
        have := MidpointContourParser.getElem?_of_drop_eq_append (i := 0) hp'
          (by simp [Prim.points])
        simpa [Prim.points] using this
      have e1 : fPts[ptsCur + 1]? = some p2 := by
        have := MidpointContourParser.getElem?_of_drop_eq_append (i := 1) hp'
          (by simp [Prim.points])
        simpa [Prim.points] using this
      have ew : fConicWeights[wtsCur]? = some wt := by
        have := MidpointContourParser.getElem?_of_drop_eq_append (i := 0) hw'
          (by simp [Prim.weights])
        simpa [Prim.weights] using this
      have := ih (ptsCur + 2) (wtsCur + 1) p2 (by omega) (by simpa using e1)
        (by simpa [Prim.points] using hpn) (by simpa [Prim.weights] using hwn)
      simp [iterate, primElems, Prim.verb, Prim.elem, Prim.endPoint?, this, hne, hlast, e0, e1,
        ew]
    | cubic p1 p2 p3 =>
      have e0 : fPts[ptsCur]? = some p1 := by
        have := MidpointContourParser.getElem?_of_drop_eq_append (i := 0) hp'
          (by simp [Prim.points])
        simpa [Prim.points] using this
      have e1 : fPts[ptsCur + 1]? = some p2 := by
        have := MidpointContourParser.getElem?_of_drop_eq_append (i := 1) hp'
          (by simp [Prim.points])
        simpa [Prim.points] using this
      have e2 : fPts[ptsCur + 2]? = some p3 := by
        have := MidpointContourParser.getElem?_of_drop_eq_append (i := 2) hp'
          (by simp [Prim.points])
        simpa [Prim.points] using this
      have := ih (ptsCur + 3) wtsCur p3 (by omega) (by simpa using e2)
        (by simpa [Prim.points] using hpn) (by simpa [Prim.weights] using hwn)
      simp [iterate, primElems, Prim.verb, Prim.elem, Prim.endPoint?, this, hne, hlast, e0, e1,
        e2]

/-- After a call of `parseNextContour` that yielded the contour `c`, `currentContour()` iterates
exactly the Move and the primitives of `c`, each with its own control points and weight. -/
theorem currentContour_yielded (s : MidpointContourParser) (done rest : List Contour)
    (c : Contour) (h : s.Yielded done c rest) : s.currentContour = some c.elems := by
  unfold MidpointContourParser.currentContour
  have hv : (s.fPath.fVerbs.drop s.fVerbs).take s.fVerbsIdx = c.verbs := by
    rw [h.path, h.verbs, h.verbsIdx]
    simp [pathOf, List.flatMap_append, List.flatMap_cons]
  have hp : s.fPath.fPts.drop s.fPoints
      = c.start :: (c.prims.flatMap Prim.points ++ rest.flatMap Contour.points) := by
    rw [h.path, h.points]
    simp [pathOf, List.flatMap_append, List.flatMap_cons, Contour.points]
  have hw : s.fPath.fConicWeights.drop s.fWeights
      = c.prims.flatMap Prim.weights ++ rest.flatMap Contour.weights := by
    rw [h.path, h.weights]
    simp [pathOf, List.flatMap_append, List.flatMap_cons, Contour.weights]
  have e0 : s.fPath.fPts[s.fPoints]? = some c.start :=
    MidpointContourParser.getElem?_of_drop_eq_cons hp
  have hp1 : s.fPath.fPts.drop (s.fPoints + 1)
      = c.prims.flatMap Prim.points ++ rest.flatMap Contour.points := by
    rw [← List.drop_drop, hp]; simp
  have := iterate_prims s.fPath.fPts s.fPath.fConicWeights c.prims (s.fPoints + 1) s.fWeights
    c.start _ _ (by omega) (by simpa using e0) hp1 hw
  rw [hv]
  simp [Contour.verbs, iterate, e0, this, Contour.elems]

/-! ### The loop over the elements of a contour -/

theorem WedgeWriter.Kept.refl (w : WedgeWriter) : w.Kept w :=
  ⟨rfl, rfl, rfl, rfl, id, [], by simp⟩

theorem WedgeWriter.Kept.trans {w w1 w2 : WedgeWriter} (h1 : w.Kept w1) (h2 : w1.Kept w2) :
    w.Kept w2 := by
  obtain ⟨n1, e1⟩ := h1.patches
  obtain ⟨n2, e2⟩ := h2.patches
  exact ⟨h2.total.trans h1.total, h2.path.trans h1.path, h2.pow2.trans h1.pow2,
    h2.pow4.trans h1.pow4, fun h => h2.roomy (h1.roomy h), n1 ++ n2,
    by rw [e2, e1, List.append_assoc]⟩

theorem WedgeWriter.kept_after (w : WedgeWriter) (ps : List Patch) (es : List ℚ) :
    w.Kept (w.after ps es) := by
  obtain ⟨new, h1, -⟩ := GrVertexChunkBuilder.patches_foldl_appendVertex w.fChunker ps
  exact ⟨rfl, rfl, rfl, rfl, fun h => (WedgeWriter.roomy_after h ps es).2, new, h1⟩

theorem writeElem_kept (E : Estimators) (fuel : Nat) (shaderCaps : GrShaderCaps)
    (midpoint : SkPoint) (c : ContourLocals) (e : PathElem) (c1 : ContourLocals)
    (h : (writeElem E fuel shaderCaps midpoint c e).state? = some c1) :
    c.wedgeWriter.Kept c1.wedgeWriter := by
  cases e with
  | kMove p =>
    simp [writeElem, Run.state?] at h; subst h; exact WedgeWriter.Kept.refl _
  | kClose =>
    simp [writeElem, Run.state?] at h; subst h; exact WedgeWriter.Kept.refl _
  | kLine p0 p1 =>
    simp [writeElem, Run.state?] at h; subst h
    exact WedgeWriter.kept_after c.wedgeWriter [_] []
  | kQuad pts =>
    rw [writeElem] at h
    cases hr : WedgeWriter.writeQuadraticWedge E fuel c.wedgeWriter shaderCaps pts midpoint with
    | fault => rw [hr] at h; simp [Run.state?] at h
    | unfinished w1 =>
      rw [hr] at h; simp [Run.state?] at h; subst h
      obtain ⟨l, hl, -⟩ := WedgeWriter.writeQuadraticWedge_leaves E fuel c.wedgeWriter shaderCaps
        pts midpoint w1 (by rw [hr]; rfl)
      simpa [hl] using WedgeWriter.kept_after c.wedgeWriter _ _
    | returned w1 =>
      rw [hr] at h; simp [Run.state?] at h; subst h
      obtain ⟨l, hl, -⟩ := WedgeWriter.writeQuadraticWedge_leaves E fuel c.wedgeWriter shaderCaps
        pts midpoint w1 (by rw [hr]; rfl)
      simpa [hl] using WedgeWriter.kept_after c.wedgeWriter _ _
  | kConic pts wt =>
    rw [writeElem] at h
    cases hr : WedgeWriter.writeConicWedge E fuel c.wedgeWriter shaderCaps pts wt midpoint with
    | fault => rw [hr] at h; simp [Run.state?] at h
    | unfinished w1 =>
      rw [hr] at h; simp [Run.state?] at h; subst h
      obtain ⟨l, hl, -⟩ := WedgeWriter.writeConicWedge_leaves E fuel c.wedgeWriter shaderCaps
        pts wt midpoint w1 (by rw [hr]; rfl)
      simpa [hl] using WedgeWriter.kept_after c.wedgeWriter _ _
    | returned w1 =>
      rw [hr] at h; simp [Run.state?] at h; subst h
      obtain ⟨l, hl, -⟩ := WedgeWriter.writeConicWedge_leaves E fuel c.wedgeWriter shaderCaps
        pts wt midpoint w1 (by rw [hr]; rfl)
      simpa [hl] using WedgeWriter.kept_after c.wedgeWriter _ _
  | kCubic pts =>
    rw [writeElem] at h
    cases hr : WedgeWriter.writeCubicWedge E fuel c.wedgeWriter shaderCaps pts midpoint with
    | fault => rw [hr] at h; simp [Run.state?] at h
    | unfinished w1 =>
      rw [hr] at h; simp [Run.state?] at h; subst h
      obtain ⟨l, hl, -⟩ := WedgeWriter.writeCubicWedge_leaves E fuel c.wedgeWriter shaderCaps
        pts midpoint w1 (by rw [hr]; rfl)
      simpa [hl] using WedgeWriter.kept_after c.wedgeWriter _ _
    | returned w1 =>
      rw [hr] at h; simp [Run.state?] at h; subst h
      obtain ⟨l, hl, -⟩ := WedgeWriter.writeCubicWedge_leaves E fuel c.wedgeWriter shaderCaps
        pts midpoint w1 (by rw [hr]; rfl)
      simpa [hl] using WedgeWriter.kept_after c.wedgeWriter _ _

theorem writeElem_points (E : Estimators) (fuel : Nat) (shaderCaps : GrShaderCaps)
    (midpoint : SkPoint) (c : ContourLocals) (e : PathElem) (c1 : ContourLocals)
    (h : writeElem E fuel shaderCaps midpoint c e = Run.returned c1) :
    (c1.startPoint, c1.lastPoint) = e.points c.startPoint c.lastPoint := by
  cases e with
  | kMove p => simp [writeElem] at h; subst h; rfl
  | kClose => simp [writeElem] at h; subst h; rfl
  | kLine p0 p1 => simp [writeElem] at h; subst h; rfl
  | kQuad pts =>
    rw [writeElem] at h
    split at h <;> simp at h
    subst h; rfl
  | kConic pts wt =>
    rw [writeElem] at h
    split at h <;> simp at h
    subst h; rfl
  | kCubic pts =>
    rw [writeElem] at h
    split at h <;> simp at h
    subst h; rfl

theorem writeElems_kept (E : Estimators) (fuel : Nat) (shaderCaps : GrShaderCaps)
    (midpoint : SkPoint) (es : List PathElem) (c c1 : ContourLocals)
    (h : (writeElems E fuel shaderCaps midpoint es c).state? = some c1) :
    c.wedgeWriter.Kept c1.wedgeWriter := by
  induction es generalizing c with
  | nil =>
    simp [writeElems, Run.state?] at h; subst h; exact WedgeWriter.Kept.refl _
  | cons e es ih =>
    rw [writeElems] at h
    cases hr : writeElem E fuel shaderCaps midpoint c e with
    | fault => rw [hr] at h; simp [Run.state?] at h
    | unfinished ca =>
      rw [hr] at h; simp [Run.state?] at h; subst h
      exact writeElem_kept E fuel shaderCaps midpoint c e ca (by rw [hr]; rfl)
    | returned ca =>
      rw [hr] at h
      exact (writeElem_kept E fuel shaderCaps midpoint c e ca (by rw [hr]; rfl)).trans (ih ca h)

/-- The locals after the loop over the primitives of a contour returned: `startPoint` is
untouched and `lastPoint` is the end point of the last Line, Quad, Conic or Cubic. -/
theorem writeElems_primElems_points (E : Estimators) (fuel : Nat) (shaderCaps : GrShaderCaps)
    (midpoint : SkPoint) (prims : List Prim) (c c1 : ContourLocals)
    (h : writeElems E fuel shaderCaps midpoint (primElems c.lastPoint prims) c
      = Run.returned c1) :
    c1.startPoint = c.startPoint ∧
    c1.lastPoint = (prims.filterMap Prim.endPoint?).getLast?.getD c.lastPoint := by
  induction prims generalizing c with
  | nil => simp [primElems, writeElems] at h; subst h; simp
  | cons pr prims ih =>
    rw [primElems, writeElems] at h
    cases hr : writeElem E fuel shaderCaps midpoint c (pr.elem c.lastPoint) with
    | fault => rw [hr] at h; simp at h
    | unfinished ca => rw [hr] at h; simp at h
    | returned ca =>
      rw [hr] at h
      simp only at h
      have hpts := writeElem_points E fuel shaderCaps midpoint c _ ca hr
      have hlast : ca.lastPoint = pr.endPoint?.getD c.lastPoint := by
        cases pr <;> simp [Prim.elem, PathElem.points, Prim.endPoint?] at hpts ⊢ <;> exact hpts.2
      have hstart : ca.startPoint = c.startPoint := by
        cases pr <;> simp [Prim.elem, PathElem.points] at hpts <;> exact hpts.1
      rw [← hlast] at h
      obtain ⟨h1, h2⟩ := ih ca h
      refine ⟨h1.trans hstart, ?_⟩
      rw [h2, hlast]
      cases hpr : pr.endPoint? with
      | none => simp [List.filterMap_cons, hpr]
      | some e =>
        simp only [List.filterMap_cons, hpr, Option.getD_some]
        cases hl : (prims.filterMap Prim.endPoint?) with
        | nil => simp
        | cons a l =>
          rw [List.getLast?_cons_cons, List.getLast?_eq_getLast _ (List.cons_ne_nil a l)]
          simp

/-- The locals after the loop over a whole contour returned: its Move point and its last
point. -/
theorem writeElems_elems_points (E : Estimators) (fuel : Nat) (shaderCaps : GrShaderCaps)
    (midpoint : SkPoint) (c : Contour) (w : WedgeWriter) (p q : SkPoint) (c1 : ContourLocals)
    (h : writeElems E fuel shaderCaps midpoint c.elems ⟨w, p, q⟩ = Run.returned c1) :
    c1.startPoint = c.start ∧ c1.lastPoint = c.lastPoint := by
  rw [Contour.elems, writeElems] at h
  simp only [writeElem] at h
  have := writeElems_primElems_points E fuel shaderCaps midpoint c.prims
    ⟨w, c.start, c.start⟩ c1 h
  simpa [Contour.lastPoint, Contour.endPoints] using this

/-! ### One iteration of the loop over the contours -/

theorem currentMidpoint_yielded (s1 : MidpointContourParser) (c : Contour)
    (h3 : s1.fMidpoint = c.midpointSum) (h4 : s1.fMidpointWeight = c.endPoints.length + 1) :
    s1.currentMidpoint = c.midpoint := by
  unfold MidpointContourParser.currentMidpoint Contour.midpoint
  rw [h3, h4]

/-- One iteration of `while (parser.parseNextContour())` on a contour `c` with geometry: the
parser yields `c`; when the loop over its elements returns with locals `cl`, the iteration
returns, having appended after the patches of `cl` the closing wedges of `c`, if the target
has room. -/
theorem prepareContour_of_yield (E : Estimators) (fuel : Nat) (shaderCaps : GrShaderCaps)
    (s : MidpointContourParser) (w : WedgeWriter) (done junk rest : List Contour) (c : Contour)
    (h : s.AtBoundary done (junk ++ c :: rest)) (hjunk : ∀ j ∈ junk, j.hasGeometry = false)
    (hc : c.hasGeometry = true) (hroom : w.fChunker.Roomy) :
    ∃ s1, s.parseNextContour = some (true, s1) ∧ s1.Yielded (done ++ junk) c rest ∧
      s1.currentMidpoint = c.midpoint ∧
      ∀ cl, writeElems E fuel shaderCaps (w.fPathXform.mapPoint s1.currentMidpoint) c.elems
          ⟨w, ⟨0, 0⟩, ⟨0, 0⟩⟩ = Run.returned cl →
        ∃ w2, prepareContour E fuel shaderCaps s1 w = Run.returned w2 ∧
          w2.patches = cl.wedgeWriter.patches ++ c.closingWedges w.fPathXform shaderCaps ∧
          w.Kept w2 := by
  obtain ⟨s1, h1, h2, h3, h4⟩ :=
    MidpointContourParser.parseNextContour_yield s done junk rest c h hjunk hc
  have hmid := currentMidpoint_yielded s1 c h3 h4
  refine ⟨s1, h1, h2, hmid, ?_⟩
  intro cl hcl
  have hcur := currentContour_yielded s1 _ _ c h2
  have hkept := writeElems_kept E fuel shaderCaps _ c.elems _ cl (by rw [hcl]; rfl)
  obtain ⟨hst, hla⟩ := writeElems_elems_points E fuel shaderCaps _ c w _ _ cl hcl
  refine ⟨closeContour shaderCaps (w.fPathXform.mapPoint s1.currentMidpoint) cl, ?_, ?_, ?_⟩
  · simp only [prepareContour, hcur, hcl]
  · unfold closeContour Contour.closingWedges
    rw [hst, hla]
    by_cases hne : c.lastPoint ≠ c.start
    · rw [if_pos hne, if_pos hne]
      have := (WedgeWriter.roomy_writeFlatWedge (hkept.roomy hroom) shaderCaps c.lastPoint
        c.start (w.fPathXform.mapPoint s1.currentMidpoint)).1
      rw [this, hkept.path, hmid]
    · rw [if_neg hne, if_neg hne]; simp
  · unfold closeContour
    split
    · exact hkept.trans (WedgeWriter.kept_after cl.wedgeWriter [_] [])
    · exact hkept

/-- C3 (amended): in one iteration of the contour loop of `prepare`, on a target with room,
once the loop over the primitives of a contour has returned, exactly the following is appended:
one flat wedge from the end point of the last Line, Quad, Conic or Cubic to the Move point,
carrying the mapped midpoint of the contour, when these two points differ, and nothing when they
are equal. Close verbs play no part: the last point is taken over the Lines, Quads, Conics and
Cubics alone. -/
theorem C3_closing_wedge_iff_last_differs (E : Estimators) (fuel : Nat)
    (shaderCaps : GrShaderCaps) (s : MidpointContourParser) (w : WedgeWriter)
    (done junk rest : List Contour) (c : Contour)
    (h : s.AtBoundary done (junk ++ c :: rest)) (hjunk : ∀ j ∈ junk, j.hasGeometry = false)
    (hc : c.hasGeometry = true) (hroom : w.fChunker.Roomy) :
    ∃ s1, s.parseNextContour = some (true, s1) ∧
      ∀ cl, writeElems E fuel shaderCaps (w.fPathXform.mapPoint s1.currentMidpoint) c.elems
          ⟨w, ⟨0, 0⟩, ⟨0, 0⟩⟩ = Run.returned cl →
        ∃ w2, prepareContour E fuel shaderCaps s1 w = Run.returned w2 ∧
          (c.lastPoint ≠ c.start →
            w2.patches = cl.wedgeWriter.patches ++
              [WedgeWriter.flatPatch w.fPathXform shaderCaps (w.fPathXform.mapPoint c.midpoint)
                c.lastPoint c.start]) ∧
          (c.lastPoint = c.start → w2.patches = cl.wedgeWriter.patches) ∧
          c.lastPoint = (Contour.mk c.start (c.prims.filter Prim.isGeometry)).lastPoint := by
  obtain ⟨s1, h1, -, -, h4⟩ :=
    prepareContour_of_yield E fuel shaderCaps s w done junk rest c h hjunk hc hroom
  refine ⟨s1, h1, fun cl hcl => ?_⟩
  obtain ⟨w2, e1, e2, -⟩ := h4 cl hcl
  refine ⟨w2, e1, ?_, ?_, ?_⟩
  · intro hne
    rw [e2]; simp [Contour.closingWedges, hne]
  · intro heq
    rw [e2]; simp [Contour.closingWedges, heq]
  · simp only [Contour.lastPoint, Contour.endPoints]
    congr 2
    induction c.prims with
    | nil => rfl
    | cons pr prs ih =>
      cases pr <;> simp [List.filter_cons, Prim.isGeometry, Prim.endPoint?, ih]

theorem Sample.writer_roomy : Sample.writer.fChunker.Roomy :=
  WedgeWriter.roomy_mk0 _ _ _ _ _ fun k n => ⟨k, 0, n, rfl, le_refl n⟩

/-- C3 (amended) on the open contour `M(0,0) L(1,0)` and a target with room: the closing wedge
from `(1,0)` to `(0,0)` is appended. -/
theorem C3_closing_wedge_open_contour :
    Sample.openContour.hasGeometry = true ∧ Sample.writer.fChunker.Roomy ∧
    ∃ s1, (MidpointContourParser.mk0 (pathOf [Sample.openContour])).parseNextContour
        = some (true, s1) ∧
      ∀ cl, writeElems Sample.estimators 1 Sample.caps
          (Sample.writer.fPathXform.mapPoint s1.currentMidpoint) Sample.openContour.elems
          ⟨Sample.writer, ⟨0, 0⟩, ⟨0, 0⟩⟩ = Run.returned cl →
        ∃ w2, prepareContour Sample.estimators 1 Sample.caps s1 Sample.writer = Run.returned w2 ∧
          w2.patches = cl.wedgeWriter.patches ++
            [WedgeWriter.flatPatch Sample.writer.fPathXform Sample.caps
              (Sample.writer.fPathXform.mapPoint Sample.openContour.midpoint) ⟨1, 0⟩ ⟨0, 0⟩] := by
  refine ⟨by decide, Sample.writer_roomy, ?_⟩
  obtain ⟨s1, h1, h2⟩ := C3_closing_wedge_iff_last_differs Sample.estimators 1 Sample.caps
    (MidpointContourParser.mk0 (pathOf [Sample.openContour])) Sample.writer [] [] []
    Sample.openContour (MidpointContourParser.atBoundary_mk0 _) (by simp) (by decide)
    Sample.writer_roomy
  refine ⟨s1, h1, fun cl hcl => ?_⟩
  obtain ⟨w2, e1, e2, -, -⟩ := h2 cl hcl
  exact ⟨w2, e1, e2 (by decide)⟩

/-- C3 as stated fails when the target has no room: on the contour `M(0,0) L(1,0)` the last
point differs from the Move point, and `prepare` returns without any patch written, so without
a closing wedge. -/
theorem C3_no_closing_wedge_without_room :
    Sample.openContour.lastPoint ≠ Sample.openContour.start ∧
    PathWedgeTessellator.preparedPatches Sample.estimators 1 Sample.tessellator
      Sample.targetNoRoom [(SkMatrix.I, pathOf [Sample.openContour])] 2 = some [] := by
  decide!

theorem getLast?_endPoints_of_no_close (prims : List Prim) (h : Prim.close ∉ prims) :
    (prims.filterMap Prim.endPoint?).getLast? = prims.getLast?.bind Prim.endPoint? := by
  induction prims with
  | nil => rfl
  | cons pr prs ih =>
    have hpr : pr ≠ Prim.close := fun e => h (by simp [e])
    have ih' := ih (fun hm => h (by simp [hm]))
    cases prs with
    | nil => cases pr <;> simp [Prim.endPoint?] at hpr ⊢
    | cons q qs =>
      have hq : q ≠ Prim.close := fun e => h (by simp [e])
      rw [List.getLast?_cons_cons, ← ih']
      cases pr <;> cases q <;> simp [Prim.endPoint?, List.getLast?_cons_cons] at hpr hq ⊢

/-- C4 (amended): a contour without a Close verb ends on the end point `e` of its last
primitive. In one iteration of the contour loop of `prepare`, on a target with room, once the
loop over its primitives has returned, exactly one flat closing wedge from `e` to the Move point
is appended when `e` differs from the Move point, and none when `e` is the Move point. -/
theorem C4_closing_wedge_without_close_verb (E : Estimators) (fuel : Nat)
    (shaderCaps : GrShaderCaps) (s : MidpointContourParser) (w : WedgeWriter)
    (done junk rest : List Contour) (c : Contour)
    (h : s.AtBoundary done (junk ++ c :: rest)) (hjunk : ∀ j ∈ junk, j.hasGeometry = false)
    (hc : c.hasGeometry = true) (hroom : w.fChunker.Roomy) (hnoClose : Prim.close ∉ c.prims) :
    ∃ s1 e, s.parseNextContour = some (true, s1) ∧
      c.prims.getLast?.bind Prim.endPoint? = some e ∧
      ∀ cl, writeElems E fuel shaderCaps (w.fPathXform.mapPoint s1.currentMidpoint) c.elems
          ⟨w, ⟨0, 0⟩, ⟨0, 0⟩⟩ = Run.returned cl →
        ∃ w2, prepareContour E fuel shaderCaps s1 w = Run.returned w2 ∧
          (e ≠ c.start →
            w2.patches = cl.wedgeWriter.patches ++
              [WedgeWriter.flatPatch w.fPathXform shaderCaps (w.fPathXform.mapPoint c.midpoint)
                e c.start]) ∧
          (e = c.start → w2.patches = cl.wedgeWriter.patches) := by
  obtain ⟨s1, h1, -, -, h4⟩ :=
    prepareContour_of_yield E fuel shaderCaps s w done junk rest c h hjunk hc hroom
  have hlast := getLast?_endPoints_of_no_close c.prims hnoClose
  have hne : c.prims ≠ [] := by
    intro hnil
    simp [Contour.hasGeometry, hnil] at hc
  obtain ⟨pr, hpr⟩ : ∃ pr, c.prims.getLast? = some pr :=
    ⟨c.prims.getLast hne, List.getLast?_eq_getLast _ hne⟩
  have hmem : pr ∈ c.prims := List.mem_of_getLast?_eq_some hpr
  obtain ⟨e, he⟩ : ∃ e, pr.endPoint? = some e := by
    cases pr with
    | close => exact absurd hmem hnoClose
    | line p1 => exact ⟨_, rfl⟩
    | quad p1 p2 => exact ⟨_, rfl⟩
    | conic p1 p2 wt => exact ⟨_, rfl⟩
    | cubic p1 p2 p3 => exact ⟨_, rfl⟩
  have hbind : c.prims.getLast?.bind Prim.endPoint? = some e := by rw [hpr]; exact he
  have hlp : c.lastPoint = e := by
    simp [Contour.lastPoint, Contour.endPoints, hlast, hbind]
  refine ⟨s1, e, h1, hbind, fun cl hcl => ?_⟩
  obtain ⟨w2, e1, e2, -⟩ := h4 cl hcl
  refine ⟨w2, e1, ?_, ?_⟩
  · intro hd
    rw [e2]; simp [Contour.closingWedges, hlp, hd]
  · intro hd
    rw [e2]; simp [Contour.closingWedges, hlp, hd]

/-- C4 (amended) on the open contour `M(0,0) L(1,0)`, which has no Close verb: one closing
wedge from `(1,0)` to `(0,0)`. -/
theorem C4_closing_wedge_open_contour :
    Sample.openContour.hasGeometry = true ∧ Sample.writer.fChunker.Roomy ∧
    Prim.close ∉ Sample.openContour.prims ∧
    ∃ s1 e, (MidpointContourParser.mk0 (pathOf [Sample.openContour])).parseNextContour
        = some (true, s1) ∧
      Sample.openContour.prims.getLast?.bind Prim.endPoint? = some e ∧
      ∀ cl, writeElems Sample.estimators 1 Sample.caps
          (Sample.writer.fPathXform.mapPoint s1.currentMidpoint) Sample.openContour.elems
          ⟨Sample.writer, ⟨0, 0⟩, ⟨0, 0⟩⟩ = Run.returned cl →
        ∃ w2, prepareContour Sample.estimators 1 Sample.caps s1 Sample.writer = Run.returned w2 ∧
          (e ≠ Sample.openContour.start →
            w2.patches = cl.wedgeWriter.patches ++
              [WedgeWriter.flatPatch Sample.writer.fPathXform Sample.caps
                (Sample.writer.fPathXform.mapPoint Sample.openContour.midpoint)
                e Sample.openContour.start]) ∧
          (e = Sample.openContour.start → w2.patches = cl.wedgeWriter.patches) :=
  ⟨by decide, Sample.writer_roomy, by decide,
    C4_closing_wedge_without_close_verb Sample.estimators 1 Sample.caps
      (MidpointContourParser.mk0 (pathOf [Sample.openContour])) Sample.writer [] [] []
      Sample.openContour (MidpointContourParser.atBoundary_mk0 _) (by simp) (by decide)
      Sample.writer_roomy (by decide)⟩

/-- C4 as stated fails on `M(0,0) L(1,0) L(0,0)`: the contour has no Close verb, the target has
room, and `prepare` emits the two Line wedges and no closing wedge. -/
theorem C4_no_closing_wedge_on_returning_contour :
    Prim.close ∉ Sample.returningContour.prims ∧
    PathWedgeTessellator.preparedPatches Sample.estimators 1 Sample.tessellator
      Sample.target [(SkMatrix.I, pathOf [Sample.returningContour])] 3
      = some [⟨SkMatrix.I, PatchGeometry.mapLineToCubic ⟨0, 0⟩ ⟨1, 0⟩, ⟨1 / 3, 0⟩,
                some CurveType.kCubicCurveType⟩,
              ⟨SkMatrix.I, PatchGeometry.mapLineToCubic ⟨1, 0⟩ ⟨0, 0⟩, ⟨1 / 3, 0⟩,
                some CurveType.kCubicCurveType⟩] := by
  decide!

/-! ### Contours none of whose primitives is chopped -/

theorem writeElem_of_withinBudget (E : Estimators) (fuel : Nat) (shaderCaps : GrShaderCaps)
    (midpoint : SkPoint) (c : ContourLocals) (e : PathElem)
    (h : e.withinBudget E c.wedgeWriter.fTotalVectorXform c.wedgeWriter.fMaxSegments_pow2
      c.wedgeWriter.fMaxSegments_pow4) :
    writeElem E (fuel + 1) shaderCaps midpoint c e = Run.returned
      ⟨c.wedgeWriter.after (e.wedge? c.wedgeWriter.fPathXform shaderCaps midpoint).toList
          (e.estimate? E c.wedgeWriter.fTotalVectorXform).toList,
        (e.points c.startPoint c.lastPoint).1, (e.points c.startPoint c.lastPoint).2⟩ := by
  cases e with
  | kMove p => rfl
  | kClose => rfl
  | kLine p0 p1 => rfl
  | kQuad pts =>
    have hle : ¬ E.quadratic_pow4 kTessellationPrecision pts c.wedgeWriter.fTotalVectorXform
        > c.wedgeWriter.fMaxSegments_pow4 := not_lt.mpr h
    simp only [writeElem, WedgeWriter.writeQuadraticWedge, hle, if_false]
    rfl
  | kConic pts wt =>
    have hle : ¬ E.conic_pow2 kTessellationPrecision pts wt c.wedgeWriter.fTotalVectorXform
        > c.wedgeWriter.fMaxSegments_pow2 := not_lt.mpr h
    simp only [writeElem, WedgeWriter.writeConicWedge, hle, if_false]
    rfl
  | kCubic pts =>
    have hle : ¬ E.cubic_pow4 kTessellationPrecision pts c.wedgeWriter.fTotalVectorXform
        > c.wedgeWriter.fMaxSegments_pow4 := not_lt.mpr h
    simp only [writeElem, WedgeWriter.writeCubicWedge, hle, if_false]
    rfl

theorem writeElems_of_withinBudget (E : Estimators) (fuel : Nat) (shaderCaps : GrShaderCaps)
    (midpoint : SkPoint) (es : List PathElem) (c : ContourLocals)
    (h : ∀ e ∈ es, e.withinBudget E c.wedgeWriter.fTotalVectorXform
      c.wedgeWriter.fMaxSegments_pow2 c.wedgeWriter.fMaxSegments_pow4) :
    ∃ cl, writeElems E (fuel + 1) shaderCaps midpoint es c = Run.returned cl ∧
      cl.wedgeWriter = c.wedgeWriter.after
        (es.filterMap (PathElem.wedge? c.wedgeWriter.fPathXform shaderCaps midpoint))
        (es.filterMap (PathElem.estimate? E c.wedgeWriter.fTotalVectorXform)) := by
  induction es generalizing c with
  | nil => exact ⟨c, rfl, rfl⟩
  | cons e es ih =>
    have he := writeElem_of_withinBudget E fuel shaderCaps midpoint c e (h e (by simp))
    obtain ⟨cl, h1, h2⟩ := ih
      ⟨c.wedgeWriter.after (e.wedge? c.wedgeWriter.fPathXform shaderCaps midpoint).toList
          (e.estimate? E c.wedgeWriter.fTotalVectorXform).toList,
        (e.points c.startPoint c.lastPoint).1, (e.points c.startPoint c.lastPoint).2⟩
      (fun x hx => h x (by simp [hx]))
    refine ⟨cl, by rw [writeElems, he]; exact h1, ?_⟩
    rw [h2, WedgeWriter.after_after]
    simp only [WedgeWriter.after, List.filterMap_cons]
    cases e.wedge? c.wedgeWriter.fPathXform shaderCaps midpoint <;>
      cases e.estimate? E c.wedgeWriter.fTotalVectorXform <;> rfl

theorem length_wedges_primElems (pathXform : SkMatrix) (shaderCaps : GrShaderCaps)
    (midpoint : SkPoint) (prims : List Prim) (last : SkPoint) :
    ((primElems last prims).filterMap (PathElem.wedge? pathXform shaderCaps midpoint)).length
      = (prims.filterMap Prim.endPoint?).length := by
  induction prims generalizing last with
  | nil => rfl
  | cons pr prs ih =>
    cases pr <;>
      simp [primElems, Prim.elem, PathElem.wedge?, Prim.endPoint?, List.filterMap_cons, ih]

/-- The number of wedges of a contour that is not chopped: one per Line, Quad, Conic and Cubic,
and one more when its last point differs from its Move point. -/
theorem Contour.length_wedges (c : Contour) (pathXform : SkMatrix) (shaderCaps : GrShaderCaps) :
    (c.wedges pathXform shaderCaps).length
      = c.endPoints.length + (if c.lastPoint ≠ c.start then 1 else 0) := by
  unfold Contour.wedges Contour.closingWedges Contour.elems
  rw [List.length_append, List.filterMap_cons]
  simp only [PathElem.wedge?]
  rw [length_wedges_primElems]
  split <;> simp [Contour.endPoints]

theorem Contour.wedges_of_no_geometry (c : Contour) (pathXform : SkMatrix)
    (shaderCaps : GrShaderCaps) (h : c.hasGeometry = false) :
    c.wedges pathXform shaderCaps = [] := by
  have hlen := c.length_wedges pathXform shaderCaps
  have hend : c.endPoints = [] := by
    unfold Contour.endPoints
    unfold Contour.hasGeometry at h
    rw [List.filterMap_eq_nil_iff]
    intro pr hpr
    have := List.any_eq_false.mp h pr hpr
    simpa [Prim.isGeometry] using this
  have hlast : c.lastPoint = c.start := by simp [Contour.lastPoint, hend]
  rw [hend, hlast] at hlen
  simpa using hlen

/-- One iteration of the contour loop on a contour that is not chopped, with room: the
iteration returns and has appended exactly the wedges of the contour. -/
theorem prepareContour_of_withinBudget (E : Estimators) (fuel : Nat) (shaderCaps : GrShaderCaps)
    (s : MidpointContourParser) (w : WedgeWriter) (done junk rest : List Contour) (c : Contour)
    (h : s.AtBoundary done (junk ++ c :: rest)) (hjunk : ∀ j ∈ junk, j.hasGeometry = false)
    (hc : c.hasGeometry = true) (hroom : w.fChunker.Roomy)
    (hb : ∀ e ∈ c.elems, e.withinBudget E w.fTotalVectorXform w.fMaxSegments_pow2
      w.fMaxSegments_pow4) :
    ∃ s1 w2, s.parseNextContour = some (true, s1) ∧ s1.AtBoundary (done ++ junk ++ [c]) rest ∧
      prepareContour E (fuel + 1) shaderCaps s1 w = Run.returned w2 ∧
      w2.patches = w.patches ++ c.wedges w.fPathXform shaderCaps ∧ w.Kept w2 := by
  obtain ⟨s1, h1, h2, h3, h4⟩ :=
    prepareContour_of_yield E (fuel + 1) shaderCaps s w done junk rest c h hjunk hc hroom
  obtain ⟨cl, hcl, hw⟩ := writeElems_of_withinBudget E fuel shaderCaps
    (w.fPathXform.mapPoint s1.currentMidpoint) c.elems ⟨w, ⟨0, 0⟩, ⟨0, 0⟩⟩ hb
  obtain ⟨w2, e1, e2, e3⟩ := h4 cl hcl
  refine ⟨s1, w2, h1, h2.atBoundary, e1, ?_, e3⟩
  rw [e2, hw, (WedgeWriter.roomy_after hroom _ _).1, h3, Contour.wedges, List.append_assoc]

theorem split_at_geometry (cs : List Contour) :
    (∀ c ∈ cs, c.hasGeometry = false) ∨
    ∃ junk c rest, cs = junk ++ c :: rest ∧ (∀ j ∈ junk, j.hasGeometry = false) ∧
      c.hasGeometry = true := by
  induction cs with
  | nil => left; simp
  | cons a cs ih =>
    by_cases ha : a.hasGeometry = true
    · right; exact ⟨[], a, cs, rfl, by simp, ha⟩
    · have ha' : a.hasGeometry = false := by simpa using ha
      rcases ih with h | ⟨junk, c, rest, h1, h2, h3⟩
      · left
        intro c hc
        rcases List.mem_cons.mp hc with rfl | hc
        · exact ha'
        · exact h c hc
      · right
        refine ⟨a :: junk, c, rest, by rw [h1]; rfl, ?_, h3⟩
        intro j hj
        rcases List.mem_cons.mp hj with rfl | hj
        · exact ha'
        · exact h2 j hj

theorem flatMap_wedges_of_no_geometry (cs : List Contour) (pathXform : SkMatrix)
    (shaderCaps : GrShaderCaps) (h : ∀ c ∈ cs, c.hasGeometry = false) :
    cs.flatMap (fun c => c.wedges pathXform shaderCaps) = [] := by
  rw [List.flatMap_eq_nil_iff]
  intro c hc
  exact Contour.wedges_of_no_geometry c pathXform shaderCaps (h c hc)

/-- The contour loop of `prepare` on the rest of a well-formed path none of whose primitives is
chopped, with room: the loop returns and has appended the wedges of every contour, in order. -/
theorem contourLoop_of_withinBudget (E : Estimators) (fuel : Nat) (shaderCaps : GrShaderCaps)
    (n : Nat) (rest : List Contour) (s : MidpointContourParser) (w : WedgeWriter)
    (done : List Contour) (h : s.AtBoundary done rest) (hroom : w.fChunker.Roomy)
    (hb : ∀ c ∈ rest, ∀ e ∈ c.elems, e.withinBudget E w.fTotalVectorXform w.fMaxSegments_pow2
      w.fMaxSegments_pow4)
    (hn : (rest.filter Contour.hasGeometry).length ≤ n) :
    ∃ w1, contourLoop E (fuel + 1) shaderCaps n s w = Run.returned w1 ∧
      w1.patches = w.patches ++ rest.flatMap (fun c => c.wedges w.fPathXform shaderCaps) ∧
      w.Kept w1 := by
  induction n generalizing rest s w done with
  | zero =>
    have hall : ∀ c ∈ rest, c.hasGeometry = false := by
      intro c hc
      by_contra hg
      have : c ∈ rest.filter Contour.hasGeometry := List.mem_filter.mpr ⟨hc, by simpa using hg⟩
      have hlen : (rest.filter Contour.hasGeometry).length = 0 := by omega
      rw [List.length_eq_zero] at hlen
      rw [hlen] at this
      cases this
    obtain ⟨s1, hs1⟩ := MidpointContourParser.parseNextContour_done s done rest h hall
    refine ⟨w, by simp [contourLoop, hs1], ?_, WedgeWriter.Kept.refl w⟩
    rw [flatMap_wedges_of_no_geometry rest _ _ hall]; simp
  | succ n ih =>
    rcases split_at_geometry rest with hall | ⟨junk, c, rest1, hsplit, hjunk, hc⟩
    · obtain ⟨s1, hs1⟩ := MidpointContourParser.parseNextContour_done s done rest h hall
      refine ⟨w, by simp [contourLoop, hs1], ?_, WedgeWriter.Kept.refl w⟩
      rw [flatMap_wedges_of_no_geometry rest _ _ hall]; simp
    · subst hsplit
      obtain ⟨s1, w2, h1, h2, h3, h4, h5⟩ := prepareContour_of_withinBudget E fuel shaderCaps s w
        done junk rest1 c h hjunk hc hroom (hb c (by simp))
      have hb1 : ∀ c1 ∈ rest1, ∀ e ∈ c1.elems, e.withinBudget E w2.fTotalVectorXform
          w2.fMaxSegments_pow2 w2.fMaxSegments_pow4 := by
        intro c1 hc1 e he
        rw [h5.total, h5.pow2, h5.pow4]
        exact hb c1 (by simp [hc1]) e he
      have hn1 : (rest1.filter Contour.hasGeometry).length ≤ n := by
        have hj : junk.filter Contour.hasGeometry = [] := by
          rw [List.filter_eq_nil_iff]
          intro j hj
          simp [hjunk j hj]
        rw [List.filter_append, hj, List.nil_append, List.filter_cons_of_pos hc] at hn
        simpa using hn
      obtain ⟨w1, e1, e2, e3⟩ := ih rest1 s1 w2 (done ++ junk ++ [c]) h2 (h5.roomy hroom) hb1 hn1
      refine ⟨w1, by simp [contourLoop, h1, h3, e1], ?_, h5.trans e3⟩
      rw [e2, h4, h5.path, List.flatMap_append, List.flatMap_cons,
        flatMap_wedges_of_no_geometry junk _ _ hjunk]
      simp

theorem length_filter_hasGeometry_le (cs : List Contour) :
    (cs.filter Contour.hasGeometry).length ≤ (pathOf cs).fVerbs.length := by
  induction cs with
  | nil => simp
  | cons c cs ih =>
    have h1 : ((c :: cs).filter Contour.hasGeometry).length
        ≤ (cs.filter Contour.hasGeometry).length + 1 := by
      rw [List.filter_cons]; split <;> simp
    have h2 : (pathOf (c :: cs)).fVerbs.length
        = c.prims.length + 1 + (pathOf cs).fVerbs.length := by
      simp [pathOf, List.flatMap_cons, Contour.verbs]; omega
    omega

/-- The path loop of `prepare` on a batch of well-formed paths none of whose primitives is
chopped, with room: the loop returns and has appended the wedges of the batch. -/
theorem pathLoop_of_withinBudget (E : Estimators) (fuel : Nat) (shaderCaps : GrShaderCaps)
    (viewMatrix : SkMatrix) (batch : List (SkMatrix × List Contour)) (w : WedgeWriter)
    (hroom : w.fChunker.Roomy)
    (hb : ∀ mp ∈ batch, ∀ c ∈ mp.2, ∀ e ∈ c.elems,
      e.withinBudget E (SkMatrix.setConcat viewMatrix mp.1) w.fMaxSegments_pow2
        w.fMaxSegments_pow4) :
    ∃ w1, pathLoop E (fuel + 1) shaderCaps viewMatrix (drawListOf batch) w = Run.returned w1 ∧
      w1.patches = w.patches ++ batchWedges shaderCaps batch ∧
      w1.fChunker.Roomy ∧ w1.fMaxSegments_pow2 = w.fMaxSegments_pow2 ∧
      w1.fMaxSegments_pow4 = w.fMaxSegments_pow4 := by
  induction batch generalizing w with
  | nil => exact ⟨w, rfl, by simp [batchWedges], hroom, rfl, rfl⟩
  | cons mp batch ih =>
    obtain ⟨m, cs⟩ := mp
    obtain ⟨w2, e1, e2, e3⟩ := contourLoop_of_withinBudget E fuel shaderCaps
      (pathOf cs).fVerbs.length cs (MidpointContourParser.mk0 (pathOf cs))
      (w.setMatrices viewMatrix m) [] (MidpointContourParser.atBoundary_mk0 cs) hroom
      (fun c hc e he => hb (m, cs) (by simp) c hc e he) (length_filter_hasGeometry_le cs)
    obtain ⟨w1, f1, f2, f3, f4, f5⟩ := ih w2 (e3.roomy hroom) (by
      intro mp hmp c hc e he
      rw [e3.pow2, e3.pow4]
      exact hb mp (by simp [hmp]) c hc e he)
    refine ⟨w1, ?_, ?_, f3, f4.trans e3.pow2, f5.trans e3.pow4⟩
    · simp only [drawListOf, List.map_cons, pathLoop, e1]
      exact f1
    · rw [f2, e2]
      simp [batchWedges, WedgeWriter.setMatrices, WedgeWriter.patches]

theorem prepareFixedCount_patches (t : PathWedgeTessellator) (target : GrMeshDrawTarget)
    (w : WedgeWriter) :
    (PathWedgeTessellator.prepareFixedCount t target w).1.fVertexChunkArray
      = t.fVertexChunkArray := by
  unfold PathWedgeTessellator.prepareFixedCount
  split <;> rfl

/-- The method `prepare` on a batch of well-formed paths none of whose primitives is chopped,
with room: it returns and leaves the wedges of the batch after the patches already in the
chunks. -/
theorem preparedPatches_of_withinBudget (E : Estimators) (fuel : Nat) (t : PathWedgeTessellator)
    (target : GrMeshDrawTarget) (batch : List (SkMatrix × List Contour))
    (totalCombinedPathVerbCnt : Nat) (htotal : 0 < totalCombinedPathVerbCnt)
    (hroom : ∀ k n, ∃ buffer base capacity,
      target.makeVertexSpaceAtLeast k n = some (buffer, base, capacity) ∧ n ≤ capacity)
    (hb : ∀ mp ∈ batch, ∀ c ∈ mp.2, ∀ e ∈ c.elems,
      e.withinBudget E (SkMatrix.setConcat t.fShader.viewMatrix mp.1)
        ((t.maxSegments target : ℚ) ^ 2) ((t.maxSegments target : ℚ) ^ 4)) :
    t.preparedPatches E (fuel + 1) target (drawListOf batch) totalCombinedPathVerbCnt
      = some (t.patches ++ batchWedges target.shaderCaps batch) := by
  have halloc : ¬ (MaxCombinedFanEdgesInPathDrawList totalCombinedPathVerbCnt * 5 + 3) / 4 = 0 := by
    unfold MaxCombinedFanEdgesInPathDrawList
    omega
  obtain ⟨b2, b4⟩ := WedgeWriter.mk0_budget target.makeVertexSpaceAtLeast t.fVertexChunkArray
    (if t.fShader.willUseTessellationShaders then t.fShader.vertexStride * 5
      else t.fShader.instanceStride)
    ((MaxCombinedFanEdgesInPathDrawList totalCombinedPathVerbCnt * 5 + 3) / 4)
    (t.maxSegments target)
  obtain ⟨w1, e1, e2, -, -, -⟩ := pathLoop_of_withinBudget E fuel target.shaderCaps
    t.fShader.viewMatrix batch
    (WedgeWriter.mk0 target.makeVertexSpaceAtLeast t.fVertexChunkArray
      (if t.fShader.willUseTessellationShaders then t.fShader.vertexStride * 5
        else t.fShader.instanceStride)
      ((MaxCombinedFanEdgesInPathDrawList totalCombinedPathVerbCnt * 5 + 3) / 4)
      (t.maxSegments target))
    (WedgeWriter.roomy_mk0 _ _ _ _ _ hroom) (by rw [b2, b4]; exact hb)
  have hw : PathWedgeTessellator.prepareWedges E (fuel + 1) t target (drawListOf batch)
      totalCombinedPathVerbCnt = some (Run.returned w1) := by
    unfold PathWedgeTessellator.prepareWedges
    simp only [halloc, if_false]
    rw [← e1]
    rfl
  unfold PathWedgeTessellator.preparedPatches PathWedgeTessellator.prepare
  rw [hw]
  simp only [PathWedgeTessellator.patches, prepareFixedCount_patches]
  rw [show w1.fChunker.fChunks.flatMap GrVertexChunk.fPatches = w1.patches from rfl, e2]
  rfl

theorem length_flatMap_wedges (cs : List Contour) (pathXform : SkMatrix)
    (shaderCaps : GrShaderCaps) :
    (cs.flatMap fun c => c.wedges pathXform shaderCaps).length
      = (cs.map fun c => c.endPoints.length).sum
        + (cs.filter fun c => decide (c.lastPoint ≠ c.start)).length := by
  induction cs with
  | nil => rfl
  | cons c cs ih =>
    rw [List.flatMap_cons, List.length_append, ih, Contour.length_wedges, List.map_cons,
      List.sum_cons, List.filter_cons]
    by_cases h : c.lastPoint ≠ c.start
    · simp [h]; omega
    · simp [h]; omega

/-- C5 (amended): for a well-formed path with `V` Line, Quad, Conic and Cubic verbs, none of
which is chopped (every curve is within the budget under the total matrix), `prepare`, on a
target with room and starting from empty chunks, returns having emitted exactly `V` wedges plus
one for every contour whose last point differs from its Move point. Move and Close verbs emit
nothing. -/
theorem C5_wedge_count_without_chops (E : Estimators) (fuel : Nat) (t : PathWedgeTessellator)
    (target : GrMeshDrawTarget) (pathMatrix : SkMatrix) (cs : List Contour)
    (totalCombinedPathVerbCnt : Nat) (htotal : 0 < totalCombinedPathVerbCnt)
    (hempty : t.fVertexChunkArray = [])
    (hroom : ∀ k n, ∃ buffer base capacity,
      target.makeVertexSpaceAtLeast k n = some (buffer, base, capacity) ∧ n ≤ capacity)
    (hb : ∀ c ∈ cs, ∀ e ∈ c.elems,
      e.withinBudget E (SkMatrix.setConcat t.fShader.viewMatrix pathMatrix)
        ((t.maxSegments target : ℚ) ^ 2) ((t.maxSegments target : ℚ) ^ 4)) :
    ∃ ps, t.preparedPatches E (fuel + 1) target [(pathMatrix, pathOf cs)]
        totalCombinedPathVerbCnt = some ps ∧
      ps.length = (cs.map fun c => c.endPoints.length).sum
        + (cs.filter fun c => decide (c.lastPoint ≠ c.start)).length := by
  have h := preparedPatches_of_withinBudget E fuel t target [(pathMatrix, cs)]
    totalCombinedPathVerbCnt htotal hroom (by
      intro mp hmp
      simp only [List.mem_singleton] at hmp
      subst hmp
      exact hb)
  refine ⟨_, h, ?_⟩
  simp only [PathWedgeTessellator.patches, hempty, List.flatMap_nil, List.nil_append, batchWedges,
    List.flatMap_cons, List.append_nil]
  exact length_flatMap_wedges cs pathMatrix target.shaderCaps

/-- C5 (amended) on the two squares of `test_hole`: six Line verbs and two open contours, so
eight wedges. -/
theorem C5_wedge_count_hole :
    (0 < 8) ∧ Sample.tessellator.fVertexChunkArray = [] ∧
    ∃ ps, Sample.tessellator.preparedPatches Sample.estimators 1 Sample.target
        [(SkMatrix.I, pathOf Sample.hole)] 8 = some ps ∧ ps.length = 6 + 2 := by
  refine ⟨by decide, rfl, ?_⟩
  obtain ⟨ps, h1, h2⟩ := C5_wedge_count_without_chops Sample.estimators 0 Sample.tessellator
    Sample.target SkMatrix.I Sample.hole 8 (by decide) rfl
    (fun k n => ⟨k, 0, n, rfl, le_refl n⟩) (by
      intro c hc e he
      simp only [Sample.hole, List.mem_cons, List.mem_singleton, List.not_mem_nil, or_false] at hc
      rcases hc with rfl | rfl <;>
        simp [Contour.elems, primElems, Prim.elem, Prim.endPoint?] at he <;>
        rcases he with rfl | rfl | rfl | rfl <;> trivial)
  refine ⟨ps, h1, ?_⟩
  rw [h2]
  decide!

/-- C5 as stated fails on the two squares of `test_hole`: the path has `V = 6` verbs other than
Move, none is chopped and the target has room, and `prepare` emits 8 wedges, neither `V` nor
`V + 1`. -/
theorem C5_hole_emits_eight_wedges :
    ((pathOf Sample.hole).fVerbs.filter fun v => decide (v ≠ SkPathVerb.kMove)).length = 6 ∧
    (Sample.tessellator.preparedPatches Sample.estimators 1 Sample.target
        [(SkMatrix.I, pathOf Sample.hole)] 8).map List.length = some 8 := by
  decide!

/-! ### The resolve level of a fixed-count batch -/

/-- C6, the code at a failing input: for the batch of the one path `M(0,0) Q(0,0)(4,1/2)` under
identity matrices in fixed-count mode, `prepare` emits the quadratic as one patch, whose
fourth-power estimate is `65/4`, and the closing wedge; the tracked maximum is `65/4`, but the argument `prepare`
passes to `nextlog16` is the `int` 16 returned by `numFixedSegments_pow4()`, the level it
derives is 1, and `16 ^ 1` is below the estimate of the emitted patch. -/
theorem C6_nextlog16_argument_is_truncated :
    (Sample.tessellator.preparedWriter Sample.estimators 1 Sample.target
        [(SkMatrix.I, pathOf [Sample.quadContour])] 2).map
      (fun w => (w.patches, w.fNumFixedSegments_pow4,
        PathWedgeTessellator.nextlog16Argument w,
        wangs_formula.nextlog16 (PathWedgeTessellator.nextlog16Argument w)))
      = some ([⟨SkMatrix.I, PatchGeometry.mapQuadToCubic ⟨⟨0, 0⟩, ⟨0, 0⟩, ⟨4, 1 / 2⟩⟩,
                ⟨2, 1 / 4⟩, some CurveType.kCubicCurveType⟩,
               ⟨SkMatrix.I, PatchGeometry.mapLineToCubic ⟨4, 1 / 2⟩ ⟨0, 0⟩,
                ⟨2, 1 / 4⟩, some CurveType.kCubicCurveType⟩], 65 / 4, 16, 1) ∧
    Sample.estimators.quadratic_pow4 kTessellationPrecision ⟨⟨0, 0⟩, ⟨0, 0⟩, ⟨4, 1 / 2⟩⟩
      (SkMatrix.setConcat SkMatrix.I SkMatrix.I) = 65 / 4 ∧
    ¬ ((65 / 4 : ℚ) ≤ 16 ^ 1) := by
  decide!

/-! ### The tracked maximum over a sequence of calls -/

namespace WedgeWriter

theorem newPatches_after {w : WedgeWriter} (h : w.fChunker.Roomy) (ps : List Patch)
    (es : List ℚ) :
    newPatches w (w.after ps es) = ps.map fun patch => (w.fTotalVectorXform, patch) := by
  unfold newPatches
  rw [(roomy_after h ps es).1]
  simp

/-- One call on a writer whose target has room: the tracked maximum is raised by exactly the
estimates of the curve patches the call emitted. -/
theorem call_tracked (E : Estimators) (fuel : Nat) (shaderCaps : GrShaderCaps) (w : WedgeWriter)
    (c : WriterCall) (w1 : WedgeWriter) (hroom : w.fChunker.Roomy)
    (h : (w.call E fuel shaderCaps c).state? = some w1) :
    w1.fChunker.Roomy ∧
    w1.fNumFixedSegments_pow4
      = ((newPatches w w1).filterMap fun mp => mp.2.estimate_pow4? E mp.1).foldl
          (fun x e => max e x) w.fNumFixedSegments_pow4 := by
  cases c with
  | setMatrices a b =>
    simp only [call, Run.state?, Option.some.injEq] at h
    subst h
    refine ⟨hroom, ?_⟩
    simp [newPatches, setMatrices, patches]
  | writeFlatWedge p0 p1 midpoint =>
    simp only [call, Run.state?, Option.some.injEq] at h
    subst h
    have hw : w.writeFlatWedge shaderCaps p0 p1 midpoint
        = w.after [flatPatch w.fPathXform shaderCaps midpoint p0 p1] [] := rfl
    rw [hw, newPatches_after hroom]
    exact ⟨(roomy_after hroom _ _).2, by simp [after, flatPatch, Patch.estimate_pow4?]⟩
  | writeQuadraticWedge p midpoint =>
    obtain ⟨l, hl, -⟩ := writeQuadraticWedge_leaves E fuel w shaderCaps p midpoint w1 h
    subst hl
    rw [newPatches_after hroom]
    refine ⟨(roomy_after hroom _ _).2, ?_⟩
    simp only [after, List.filterMap_map]
    congr 1
    clear h
    induction l with
    | nil => rfl
    | cons q l ih => rw [List.map_cons, List.filterMap_cons, ← ih]; rfl
  | writeConicWedge p wt midpoint =>
    obtain ⟨l, hl, -⟩ := writeConicWedge_leaves E fuel w shaderCaps p wt midpoint w1 h
    subst hl
    rw [newPatches_after hroom]
    refine ⟨(roomy_after hroom _ _).2, ?_⟩
    simp only [after, List.filterMap_map]
    congr 1
    clear h
    induction l with
    | nil => rfl
    | cons q l ih => rw [List.map_cons, List.filterMap_cons, ← ih]; rfl
  | writeCubicWedge p midpoint =>
    obtain ⟨l, hl, -⟩ := writeCubicWedge_leaves E fuel w shaderCaps p midpoint w1 h
    subst hl
    rw [newPatches_after hroom]
    refine ⟨(roomy_after hroom _ _).2, ?_⟩
    simp only [after, List.filterMap_map]
    congr 1
    clear h
    induction l with
    | nil => rfl
    | cons q l ih => rw [List.map_cons, List.filterMap_cons, ← ih]; rfl

/-- A sequence of calls on a writer whose target has room: the tracked maximum is raised by
exactly the estimates of the curve patches the calls emitted. -/
theorem calls_tracked (E : Estimators) (fuel : Nat) (shaderCaps : GrShaderCaps)
    (cs : List WriterCall) (w w1 : WedgeWriter) (hroom : w.fChunker.Roomy)
    (h : (calls E fuel shaderCaps cs w).state? = some w1) :
    w1.fNumFixedSegments_pow4
      = ((emitted E fuel shaderCaps cs w).filterMap fun mp => mp.2.estimate_pow4? E mp.1).foldl
          (fun x e => max e x) w.fNumFixedSegments_pow4 := by
  induction cs generalizing w with
  | nil =>
    simp only [calls, Run.state?, Option.some.injEq] at h
    subst h
    rfl
  | cons c cs ih =>
    rw [calls] at h
    rw [emitted]
    cases hc : w.call E fuel shaderCaps c with
    | fault => rw [hc] at h; simp [Run.state?] at h
    | unfinished wa =>
      rw [hc] at h
      simp only [Run.state?, Option.some.injEq] at h
      subst h
      exact (call_tracked E fuel shaderCaps w c wa hroom (by rw [hc]; rfl)).2
    | returned wa =>
      rw [hc] at h
      simp only at h
      obtain ⟨hr, ht⟩ := call_tracked E fuel shaderCaps w c wa hroom (by rw [hc]; rfl)
      rw [ih wa hr h, ht]
      simp [List.filterMap_append, List.foldl_append]

end WedgeWriter

/-- C7 (amended): after any sequence of `setMatrices` and `write*Wedge` calls on one writer whose
target has room for every patch, returned or cut short, the tracked field
`fNumFixedSegments_pow4` equals the maximum of 1, of the fourth-power estimates of all emitted
quadratic and cubic patches and of the squares of the squared-form estimates of all emitted
conic patches, each under the total matrix in force when it was written. Flat wedges and
chopped parents add nothing and `setMatrices` does not reset the field. -/
theorem C7_tracked_maximum_over_emitted (E : Estimators) (fuel : Nat)
    (shaderCaps : GrShaderCaps) (target : Nat → Nat → Option (Nat × Nat × Nat))
    (vertexChunkArray : List GrVertexChunk) (patchStride initialPatchAllocCount M : Nat)
    (cs : List WriterCall)
    (hroom : ∀ k n, ∃ buffer base capacity,
      target k n = some (buffer, base, capacity) ∧ n ≤ capacity) :
    ∀ w1, (WedgeWriter.calls E fuel shaderCaps cs
        (WedgeWriter.mk0 target vertexChunkArray patchStride initialPatchAllocCount M)).state?
          = some w1 →
      w1.fNumFixedSegments_pow4 = WedgeWriter.maxEstimate E
        (WedgeWriter.emitted E fuel shaderCaps cs
          (WedgeWriter.mk0 target vertexChunkArray patchStride initialPatchAllocCount M)) := by
  intro w1 h
  exact WedgeWriter.calls_tracked E fuel shaderCaps cs _ w1
    (WedgeWriter.roomy_mk0 _ _ _ _ _ hroom) h

/-- C7 (amended) on a sample sequence: a quadratic of estimate 4, new matrices, a flat wedge and
a quadratic of estimate 64 that is chopped into quarters of estimate 1/4: the tracked maximum
is 4. -/
theorem C7_tracked_maximum_sample :
    (∀ k n, ∃ buffer base capacity,
      Sample.roomyTarget k n = some (buffer, base, capacity) ∧ n ≤ capacity) ∧
    (∀ w1, (WedgeWriter.calls Sample.estimators 4 Sample.caps
        [WriterCall.writeQuadraticWedge ⟨⟨0, 0⟩, ⟨0, 0⟩, ⟨2, 0⟩⟩ ⟨1, 1⟩,
         WriterCall.setMatrices SkMatrix.I SkMatrix.I,
         WriterCall.writeFlatWedge ⟨0, 0⟩ ⟨100, 0⟩ ⟨1, 1⟩,
         WriterCall.writeQuadraticWedge ⟨⟨0, 0⟩, ⟨0, 0⟩, ⟨8, 0⟩⟩ ⟨1, 1⟩]
        (WedgeWriter.mk0 Sample.roomyTarget [] 1 4 2)).state? = some w1 →
      w1.fNumFixedSegments_pow4 = WedgeWriter.maxEstimate Sample.estimators
        (WedgeWriter.emitted Sample.estimators 4 Sample.caps
          [WriterCall.writeQuadraticWedge ⟨⟨0, 0⟩, ⟨0, 0⟩, ⟨2, 0⟩⟩ ⟨1, 1⟩,
           WriterCall.setMatrices SkMatrix.I SkMatrix.I,
           WriterCall.writeFlatWedge ⟨0, 0⟩ ⟨100, 0⟩ ⟨1, 1⟩,
           WriterCall.writeQuadraticWedge ⟨⟨0, 0⟩, ⟨0, 0⟩, ⟨8, 0⟩⟩ ⟨1, 1⟩]
          (WedgeWriter.mk0 Sample.roomyTarget [] 1 4 2))) ∧
    WedgeWriter.maxEstimate Sample.estimators
        (WedgeWriter.emitted Sample.estimators 4 Sample.caps
          [WriterCall.writeQuadraticWedge ⟨⟨0, 0⟩, ⟨0, 0⟩, ⟨2, 0⟩⟩ ⟨1, 1⟩,
           WriterCall.setMatrices SkMatrix.I SkMatrix.I,
           WriterCall.writeFlatWedge ⟨0, 0⟩ ⟨100, 0⟩ ⟨1, 1⟩,
           WriterCall.writeQuadraticWedge ⟨⟨0, 0⟩, ⟨0, 0⟩, ⟨8, 0⟩⟩ ⟨1, 1⟩]
          (WedgeWriter.mk0 Sample.roomyTarget [] 1 4 2)) = 4 :=
  ⟨fun k n => ⟨k, 0, n, rfl, le_refl n⟩,
    C7_tracked_maximum_over_emitted Sample.estimators 4 Sample.caps Sample.roomyTarget [] 1 4 2 _
      (fun k n => ⟨k, 0, n, rfl, le_refl n⟩),
    by decide!⟩

/-- C7 as stated fails when the target has no room: a quadratic of estimate 4, within the
budget 16, raises the tracked maximum to 4 although no patch is emitted, so that the maximum
of 1 and the estimates of the emitted patches is 1. -/
theorem C7_tracked_maximum_counts_unwritten_patch :
    (WedgeWriter.calls Sample.estimators 4 Sample.caps
        [WriterCall.writeQuadraticWedge ⟨⟨0, 0⟩, ⟨0, 0⟩, ⟨2, 0⟩⟩ ⟨1, 1⟩]
        Sample.writerNoRoom).state?.map
      (fun w => (w.patches, w.fNumFixedSegments_pow4)) = some ([], 4) ∧
    WedgeWriter.maxEstimate Sample.estimators
      (WedgeWriter.emitted Sample.estimators 4 Sample.caps
        [WriterCall.writeQuadraticWedge ⟨⟨0, 0⟩, ⟨0, 0⟩, ⟨2, 0⟩⟩ ⟨1, 1⟩]
        Sample.writerNoRoom) = 1 := by
  decide!

/-! ### Termination of the chop recursion -/

namespace WedgeWriter

/-- If every sub-curve of a quadratic at chop depth `d` is within budget, the call returns
within `d` nested chops. -/
theorem writeQuadraticWedge_returns (E : Estimators) (d : Nat) (w : WedgeWriter)
    (shaderCaps : GrShaderCaps) (p : QuadPts) (midpoint : SkPoint)
    (h : ∀ q ∈ quadDescendants d p,
      E.quadratic_pow4 kTessellationPrecision q w.fTotalVectorXform ≤ w.fMaxSegments_pow4) :
    ∃ w1, writeQuadraticWedge E (d + 1) w shaderCaps p midpoint = Run.returned w1 := by
  induction d generalizing w p with
  | zero =>
    have hp := h p (by simp [quadDescendants])
    rw [writeQuadraticWedge]
    simp only [gt_iff_lt, not_lt.mpr hp, if_false]
    exact ⟨_, rfl⟩
  | succ d ih =>
    rw [writeQuadraticWedge]
    by_cases hover : E.quadratic_pow4 kTessellationPrecision p w.fTotalVectorXform
        > w.fMaxSegments_pow4
    · simp only [hover, if_true]
      obtain ⟨wa, ha⟩ := ih w (SkChopQuadAtHalf p).1
        (fun q hq => h q (by simp [quadDescendants, hq]))
      obtain ⟨l, hl, -⟩ := writeQuadraticWedge_leaves E (d + 1) w shaderCaps _ midpoint wa
        (by rw [ha]; rfl)
      obtain ⟨w1, h1⟩ := ih wa (SkChopQuadAtHalf p).2 (fun q hq => by
        rw [hl]
        exact h q (by simp [quadDescendants, hq]))
      exact ⟨w1, by rw [ha]; exact h1⟩
    · simp only [hover, if_false]
      exact ⟨_, rfl⟩

/-- If every sub-curve of a cubic at chop depth `d` is within budget, the call returns within
`d` nested chops. -/
theorem writeCubicWedge_returns (E : Estimators) (d : Nat) (w : WedgeWriter)
    (shaderCaps : GrShaderCaps) (p : CubicPts) (midpoint : SkPoint)
    (h : ∀ q ∈ cubicDescendants d p,
      E.cubic_pow4 kTessellationPrecision q w.fTotalVectorXform ≤ w.fMaxSegments_pow4) :
    ∃ w1, writeCubicWedge E (d + 1) w shaderCaps p midpoint = Run.returned w1 := by
  induction d generalizing w p with
  | zero =>
    have hp := h p (by simp [cubicDescendants])
    rw [writeCubicWedge]
    simp only [gt_iff_lt, not_lt.mpr hp, if_false]
    exact ⟨_, rfl⟩
  | succ d ih =>
    rw [writeCubicWedge]
    by_cases hover : E.cubic_pow4 kTessellationPrecision p w.fTotalVectorXform
        > w.fMaxSegments_pow4
    · simp only [hover, if_true]
      obtain ⟨wa, ha⟩ := ih w (SkChopCubicAtHalf p).1
        (fun q hq => h q (by simp [cubicDescendants, hq]))
      obtain ⟨l, hl, -⟩ := writeCubicWedge_leaves E (d + 1) w shaderCaps _ midpoint wa
        (by rw [ha]; rfl)
      obtain ⟨w1, h1⟩ := ih wa (SkChopCubicAtHalf p).2 (fun q hq => by
        rw [hl]
        exact h q (by simp [cubicDescendants, hq]))
      exact ⟨w1, by rw [ha]; exact h1⟩
    · simp only [hover, if_false]
      exact ⟨_, rfl⟩

/-- If every sub-curve of a conic at chop depth `d` is within budget (a conic whose chop fails
has no sub-curve), the call returns within `d` nested chops. -/
theorem writeConicWedge_returns (E : Estimators) (d : Nat) (w : WedgeWriter)
    (shaderCaps : GrShaderCaps) (c : SkConic) (midpoint : SkPoint)
    (h : ∀ q ∈ conicDescendants E d c,
      E.conic_pow2 kTessellationPrecision q.fPts q.fW w.fTotalVectorXform
        ≤ w.fMaxSegments_pow2) :
    ∃ w1, writeConicWedge E (d + 1) w shaderCaps c.fPts c.fW midpoint = Run.returned w1 := by
  induction d generalizing w c with
  | zero =>
    have hp := h c (by simp [conicDescendants])
    rw [writeConicWedge]
    simp only [gt_iff_lt, not_lt.mpr hp, if_false]
    exact ⟨_, rfl⟩
  | succ d ih =>
    rw [writeConicWedge]
    by_cases hover : E.conic_pow2 kTessellationPrecision c.fPts c.fW w.fTotalVectorXform
        > w.fMaxSegments_pow2
    · simp only [hover, if_true]
      cases hc : E.chopAt ⟨c.fPts, c.fW⟩ (1 / 2) with
      | none => exact ⟨w, rfl⟩
      | some chops =>
        have hdesc : conicDescendants E (d + 1) c
            = conicDescendants E d chops.1 ++ conicDescendants E d chops.2 := by
          rw [conicDescendants]
          have : c = ⟨c.fPts, c.fW⟩ := rfl
          rw [this, hc]
        obtain ⟨wa, ha⟩ := ih w chops.1 (fun q hq => h q (by rw [hdesc]; simp [hq]))
        obtain ⟨l, hl, -⟩ := writeConicWedge_leaves E (d + 1) w shaderCaps _ _ midpoint wa
          (by rw [ha]; rfl)
        obtain ⟨w1, h1⟩ := ih wa chops.2 (fun q hq => by
          rw [hl]
          exact h q (by rw [hdesc]; simp [hq]))
        exact ⟨w1, by simp only [ha]; exact h1⟩
    · simp only [hover, if_false]
      exact ⟨_, rfl⟩

/-- With estimators that report over budget for every quadratic, the call never returns. -/
theorem writeQuadraticWedge_unfinished (E : Estimators) (fuel : Nat) (w : WedgeWriter)
    (shaderCaps : GrShaderCaps) (p : QuadPts) (midpoint : SkPoint)
    (h : ∀ q, E.quadratic_pow4 kTessellationPrecision q w.fTotalVectorXform
      > w.fMaxSegments_pow4) :
    writeQuadraticWedge E fuel w shaderCaps p midpoint = Run.unfinished w := by
  induction fuel generalizing p with
  | zero => rfl
  | succ fuel ih =>
    rw [writeQuadraticWedge]
    simp only [h p, if_true, ih]

/-- With estimators that report over budget for every cubic, the call never returns. -/
theorem writeCubicWedge_unfinished (E : Estimators) (fuel : Nat) (w : WedgeWriter)
    (shaderCaps : GrShaderCaps) (p : CubicPts) (midpoint : SkPoint)
    (h : ∀ q, E.cubic_pow4 kTessellationPrecision q w.fTotalVectorXform
      > w.fMaxSegments_pow4) :
    writeCubicWedge E fuel w shaderCaps p midpoint = Run.unfinished w := by
  induction fuel generalizing p with
  | zero => rfl
  | succ fuel ih =>
    rw [writeCubicWedge]
    simp only [h p, if_true, ih]

/-- With estimators that report over budget for every conic and a chop that always succeeds,
the call never returns. -/
theorem writeConicWedge_unfinished (E : Estimators) (fuel : Nat) (w : WedgeWriter)
    (shaderCaps : GrShaderCaps) (p : QuadPts) (wt : ℚ) (midpoint : SkPoint)
    (h : ∀ q qw, E.conic_pow2 kTessellationPrecision q qw w.fTotalVectorXform
      > w.fMaxSegments_pow2)
    (hchop : ∀ c, ∃ chops, E.chopAt c (1 / 2) = some chops) :
    writeConicWedge E fuel w shaderCaps p wt midpoint = Run.unfinished w := by
  induction fuel generalizing p wt with
  | zero => rfl
  | succ fuel ih =>
    rw [writeConicWedge]
    obtain ⟨chops, hc⟩ := hchop ⟨p, wt⟩
    simp only [h p wt, if_true, hc, ih]

end WedgeWriter

/-- C9 (amended): the writer has no depth cap of its own; what bounds the recursion is the
estimator. If every sub-curve at chop depth `d` of a quadratic, of a conic and of a cubic is
within budget (a conic whose chop fails has no sub-curve), then `writeQuadraticWedge`,
`writeConicWedge` and `writeCubicWedge` return within `d` nested chops. -/
theorem C9_returns_when_subcurves_within_budget (E : Estimators) (d : Nat) (w : WedgeWriter)
    (shaderCaps : GrShaderCaps) (p : QuadPts) (c : SkConic) (k : CubicPts) (midpoint : SkPoint)
    (hp : ∀ q ∈ quadDescendants d p,
      E.quadratic_pow4 kTessellationPrecision q w.fTotalVectorXform ≤ w.fMaxSegments_pow4)
    (hc : ∀ q ∈ conicDescendants E d c,
      E.conic_pow2 kTessellationPrecision q.fPts q.fW w.fTotalVectorXform
        ≤ w.fMaxSegments_pow2)
    (hk : ∀ q ∈ cubicDescendants d k,
      E.cubic_pow4 kTessellationPrecision q w.fTotalVectorXform ≤ w.fMaxSegments_pow4) :
    (∃ w1, WedgeWriter.writeQuadraticWedge E (d + 1) w shaderCaps p midpoint = Run.returned w1) ∧
    (∃ w1, WedgeWriter.writeConicWedge E (d + 1) w shaderCaps c.fPts c.fW midpoint
      = Run.returned w1) ∧
    (∃ w1, WedgeWriter.writeCubicWedge E (d + 1) w shaderCaps k midpoint = Run.returned w1) :=
  ⟨WedgeWriter.writeQuadraticWedge_returns E d w shaderCaps p midpoint hp,
    WedgeWriter.writeConicWedge_returns E d w shaderCaps c midpoint hc,
    WedgeWriter.writeCubicWedge_returns E d w shaderCaps k midpoint hk⟩

/-- C9 (amended) on a sample writer (budget 16): a quadratic of estimate 64, whose sub-curves at
depth 2 have estimate 1/4, a conic of estimate 0 and a cubic of estimate 9 are written within
two nested chops. -/
theorem C9_returns_sample :
    (∀ q ∈ quadDescendants 2 ⟨⟨0, 0⟩, ⟨0, 0⟩, ⟨8, 0⟩⟩,
      Sample.estimators.quadratic_pow4 kTessellationPrecision q Sample.writer.fTotalVectorXform
        ≤ Sample.writer.fMaxSegments_pow4) ∧
    (∃ w1, WedgeWriter.writeQuadraticWedge Sample.estimators (2 + 1) Sample.writer Sample.caps
      ⟨⟨0, 0⟩, ⟨0, 0⟩, ⟨8, 0⟩⟩ ⟨1, 0⟩ = Run.returned w1) ∧
    (∃ w1, WedgeWriter.writeCubicWedge Sample.estimators (2 + 1) Sample.writer Sample.caps
      ⟨⟨0, 0⟩, ⟨0, 0⟩, ⟨0, 0⟩, ⟨1, 0⟩⟩ ⟨1, 0⟩ = Run.returned w1) := by
  have hq : ∀ q ∈ quadDescendants 2 ⟨⟨0, 0⟩, ⟨0, 0⟩, ⟨8, 0⟩⟩,
      Sample.estimators.quadratic_pow4 kTessellationPrecision q Sample.writer.fTotalVectorXform
        ≤ Sample.writer.fMaxSegments_pow4 := by decide!
  have h := C9_returns_when_subcurves_within_budget Sample.estimators 2 Sample.writer
    Sample.caps ⟨⟨0, 0⟩, ⟨0, 0⟩, ⟨8, 0⟩⟩ ⟨⟨⟨0, 0⟩, ⟨1, 1⟩, ⟨2, 0⟩⟩, 1⟩
    ⟨⟨0, 0⟩, ⟨0, 0⟩, ⟨0, 0⟩, ⟨1, 0⟩⟩ ⟨1, 0⟩ hq (by decide!) (by decide!)
  exact ⟨hq, h.1, h.2.2⟩

/-- C9 as stated fails: with an estimator that reports an over-budget value for every curve
(and a conic chop that always succeeds), no bound on the depth of nested chops is enough for
`writeQuadraticWedge`, `writeConicWedge` or `writeCubicWedge` to return. -/
theorem C9_no_depth_cap :
    (¬ ∃ fuel, (WedgeWriter.writeQuadraticWedge Sample.overEstimators fuel Sample.writer
        Sample.caps ⟨⟨0, 0⟩, ⟨1, 1⟩, ⟨2, 0⟩⟩ ⟨1, 0⟩).isReturned = true) ∧
    (¬ ∃ fuel, (WedgeWriter.writeConicWedge Sample.overEstimators fuel Sample.writer
        Sample.caps ⟨⟨0, 0⟩, ⟨1, 1⟩, ⟨2, 0⟩⟩ 1 ⟨1, 0⟩).isReturned = true) ∧
    (¬ ∃ fuel, (WedgeWriter.writeCubicWedge Sample.overEstimators fuel Sample.writer
        Sample.caps ⟨⟨0, 0⟩, ⟨1, 1⟩, ⟨2, 1⟩, ⟨3, 0⟩⟩ ⟨1, 0⟩).isReturned = true) := by
  have h4 : ∀ x : ℚ, x = 17 → x > Sample.writer.fMaxSegments_pow4 := by
    intro x hx
    have hb : Sample.writer.fMaxSegments_pow4 = ((2 : Nat) : ℚ) ^ 4 :=
      (WedgeWriter.mk0_budget _ _ _ _ 2).2
    rw [hb, hx]
    norm_num
  have h2 : ∀ x : ℚ, x = 5 → x > Sample.writer.fMaxSegments_pow2 := by
    intro x hx
    have hb : Sample.writer.fMaxSegments_pow2 = ((2 : Nat) : ℚ) ^ 2 :=
      (WedgeWriter.mk0_budget _ _ _ _ 2).1
    rw [hb, hx]
    norm_num
  refine ⟨?_, ?_, ?_⟩
  · rintro ⟨fuel, hf⟩
    rw [WedgeWriter.writeQuadraticWedge_unfinished _ _ _ _ _ _ (fun q => h4 _ rfl)] at hf
    simp [Run.isReturned] at hf
  · rintro ⟨fuel, hf⟩
    rw [WedgeWriter.writeConicWedge_unfinished _ _ _ _ _ _ _ (fun q qw => h2 _ rfl)
      (fun c => ⟨(c, c), rfl⟩)] at hf
    simp [Run.isReturned] at hf
  · rintro ⟨fuel, hf⟩
    rw [WedgeWriter.writeCubicWedge_unfinished _ _ _ _ _ _ (fun q => h4 _ rfl)] at hf
    simp [Run.isReturned] at hf

/-! ### Wang's formula under halving -/

namespace wangs_formula

theorem length_term_pow2_nonneg (degree : Nat) (precision : ℚ) :
    0 ≤ length_term_pow2 degree precision := sq_nonneg _

theorem length_pow2_nonneg (v : SkPoint) : 0 ≤ length_pow2 v := by
  unfold length_pow2
  nlinarith [mul_self_nonneg v.fX, mul_self_nonneg v.fY]

theorem quadratic_pow4_nonneg (precision : ℚ) (p : QuadPts) (m : SkMatrix) :
    0 ≤ quadratic_pow4 precision p m :=
  mul_nonneg (length_pow2_nonneg _) (length_term_pow2_nonneg _ _)

theorem cubic_pow4_nonneg (precision : ℚ) (p : CubicPts) (m : SkMatrix) :
    0 ≤ cubic_pow4 precision p m :=
  mul_nonneg (le_max_of_le_left (length_pow2_nonneg _)) (length_term_pow2_nonneg _ _)

end wangs_formula

namespace wangs_formula

end wangs_formula

namespace MidpointContourParser

theorem any_isGeometry_verbs (c : Contour) :
    c.verbs.any SkPathVerb.isGeometry = c.hasGeometry := by
  unfold Contour.verbs Contour.hasGeometry
  rw [List.any_cons]
  simp only [SkPathVerb.isGeometry, Bool.false_or]
  induction c.prims with
  | nil => rfl
  | cons pr prs ih =>
    rw [List.map_cons, List.any_cons, List.any_cons, ih]
    cases pr <;> rfl

theorem any_isGeometry_flatMap_verbs (cs : List Contour) :
    (cs.flatMap Contour.verbs).any SkPathVerb.isGeometry = cs.any Contour.hasGeometry := by
  induction cs with
  | nil => rfl
  | cons c cs ih => rw [List.flatMap_cons, List.any_append, ih, any_isGeometry_verbs, List.any_cons]

/-- A call at a boundary followed only by contours without geometry returns false and leaves
the parser at the end of the path. -/
theorem parseNextContour_done_atBoundary (s : MidpointContourParser) (done junk : List Contour)
    (h : s.AtBoundary done junk) (hjunk : ∀ j ∈ junk, j.hasGeometry = false) :
    ∃ s1, s.parseNextContour = some (false, s1) ∧ s1.AtBoundary (done ++ junk) [] := by
  unfold parseNextContour
  rw [h.fuel]
  obtain ⟨s1, hs1, hb1⟩ := parseLoop_junk junk s done [] 0 (by simpa using h) hjunk
  refine ⟨s1, ?_, hb1⟩
  have := hs1
  simp only [Nat.add_zero] at this
  rw [this]
  apply parseLoop_end _ _ _ _ hb1.length_verbs
  have := hb1.drop_verbs
  simp at this
  omega

/-- A call at any boundary of a well-formed path: it returns true exactly when a contour with
geometry remains, and leaves the parser at a boundary of the same path, the end of the path
when it returns false. -/
theorem parseNextContour_atBoundary (s : MidpointContourParser) (done rest : List Contour)
    (h : s.AtBoundary done rest) :
    ∃ s1 done1 rest1, s.parseNextContour = some (rest.any Contour.hasGeometry, s1) ∧
      s1.AtBoundary done1 rest1 ∧ done1 ++ rest1 = done ++ rest ∧
      (rest.any Contour.hasGeometry = false → rest1 = []) := by
  rcases split_at_geometry rest with hall | ⟨junk, c, rest1, hsplit, hjunk, hc⟩
  · have hany : rest.any Contour.hasGeometry = false := by
      rw [List.any_eq_false]
      intro c hc
      simp [hall c hc]
    obtain ⟨s1, h1, h2⟩ := parseNextContour_done_atBoundary s done rest h hall
    exact ⟨s1, done ++ rest, [], by rw [hany]; exact h1, h2, by simp, fun _ => rfl⟩
  · subst hsplit
    have hany : (junk ++ c :: rest1).any Contour.hasGeometry = true := by
      rw [List.any_eq_true]
      exact ⟨c, by simp, hc⟩
    obtain ⟨s1, h1, h2, -, -⟩ := parseNextContour_yield s done junk rest1 c h hjunk hc
    refine ⟨s1, done ++ junk ++ [c], rest1, by rw [hany]; exact h1, h2.atBoundary, by simp, ?_⟩
    intro hf
    rw [hany] at hf
    cases hf

/-- Every state reached from a boundary of a well-formed path is at a boundary of that path. -/
theorem ReachedFrom.stays_at_boundary {s0 s : MidpointContourParser} {done rest : List Contour}
    (h0 : s0.AtBoundary done rest) (h : ReachedFrom s0 s) :
    ∃ done1 rest1, s.AtBoundary done1 rest1 ∧ done1 ++ rest1 = done ++ rest ∧
      (rest = [] → rest1 = []) := by
  induction h with
  | start => exact ⟨done, rest, h0, rfl, id⟩
  | call _ hcall ih =>
    obtain ⟨d1, r1, hb, he, hnil⟩ := ih
    obtain ⟨s2, d2, r2, hp, hb2, he2, hf⟩ := parseNextContour_atBoundary _ d1 r1 hb
    rw [hp] at hcall
    simp only [Option.some.injEq, Prod.mk.injEq] at hcall
    obtain ⟨hflag, hs⟩ := hcall
    subst hs
    refine ⟨d2, r2, hb2, he2.trans he, fun hr => ?_⟩
    apply hf
    rw [hnil hr]
    rfl

/-- C11: for every parser state reached by successive calls on a well-formed path,
`parseNextContour` returns true if and only if a Line, Quad, Conic or Cubic verb remains at or
after the current verb position; once it has returned false, every later call returns false. -/
theorem C11_returns_true_iff_geometry_remains (cs : List Contour) (s : MidpointContourParser)
    (h : ReachedFrom (mk0 (pathOf cs)) s) :
    ∃ s1, s.parseNextContour = some (s.remainingVerbs.any SkPathVerb.isGeometry, s1) ∧
      (s.remainingVerbs.any SkPathVerb.isGeometry = false →
        ∀ s2, ReachedFrom s1 s2 → ∃ s3, s2.parseNextContour = some (false, s3)) := by
  obtain ⟨done, rest, hb, -, -⟩ := h.stays_at_boundary (atBoundary_mk0 cs)
  obtain ⟨s1, d1, r1, hp, hb1, -, hf⟩ := parseNextContour_atBoundary s done rest hb
  have hrem : s.remainingVerbs.any SkPathVerb.isGeometry = rest.any Contour.hasGeometry := by
    unfold remainingVerbs
    rw [hb.drop_verbs, any_isGeometry_flatMap_verbs]
  refine ⟨s1, by rw [hrem]; exact hp, ?_⟩
  intro hfalse s2 h2
  rw [hrem] at hfalse
  have hr1 := hf hfalse
  subst hr1
  obtain ⟨d2, r2, hb2, -, hnil⟩ := h2.stays_at_boundary hb1
  have hr2 := hnil rfl
  subst hr2
  obtain ⟨s3, -, -, hp3, -, -, -⟩ := parseNextContour_atBoundary s2 d2 [] hb2
  exact ⟨s3, hp3⟩

/-- C11 on the empty path and on the path `M(0,0) Close M(1,1)`, which has no Line, Quad, Conic
or Cubic: the first call returns false. -/
theorem C11_returns_false_without_geometry :
    ReachedFrom (mk0 (pathOf [])) (mk0 (pathOf [])) ∧
    (∃ s1, (mk0 (pathOf [])).parseNextContour = some (false, s1)) ∧
    (∃ s1, (mk0 (pathOf [⟨⟨0, 0⟩, [Prim.close]⟩, ⟨⟨1, 1⟩, []⟩])).parseNextContour
      = some (false, s1)) := by
  refine ⟨ReachedFrom.start, ?_, ?_⟩
  · obtain ⟨s1, h1, -⟩ := C11_returns_true_iff_geometry_remains [] _ ReachedFrom.start
    exact ⟨s1, h1⟩
  · obtain ⟨s1, h1, -⟩ := C11_returns_true_iff_geometry_remains
      [⟨⟨0, 0⟩, [Prim.close]⟩, ⟨⟨1, 1⟩, []⟩] _ ReachedFrom.start
    exact ⟨s1, h1⟩

end MidpointContourParser

namespace MidpointContourParser

theorem filter_isGeometry_primElems_of_no_geometry (prims : List Prim) (last : SkPoint)
    (h : prims.any Prim.isGeometry = false) :
    (primElems last prims).filter PathElem.isGeometry = [] := by
  induction prims generalizing last with
  | nil => rfl
  | cons pr prs ih =>
    rw [List.any_cons, Bool.or_eq_false_iff] at h
    obtain ⟨h1, h2⟩ := h
    cases pr with
    | close =>
      rw [primElems, List.filter_cons_of_neg (by simp [Prim.elem, PathElem.isGeometry])]
      exact ih _ h2
    | line p1 => simp [Prim.isGeometry, Prim.endPoint?] at h1
    | quad p1 p2 => simp [Prim.isGeometry, Prim.endPoint?] at h1
    | conic p1 p2 w => simp [Prim.isGeometry, Prim.endPoint?] at h1
    | cubic p1 p2 p3 => simp [Prim.isGeometry, Prim.endPoint?] at h1

/-- The contours exposed from a boundary of a well-formed path: the contours with geometry
that remain, each with its own Move, primitives, control points and weights. -/
theorem contours_atBoundary (n : Nat) (rest : List Contour) (s : MidpointContourParser)
    (done : List Contour) (h : s.AtBoundary done rest)
    (hn : (rest.filter Contour.hasGeometry).length ≤ n) :
    s.contours n = some ((rest.filter Contour.hasGeometry).map Contour.elems) := by
  induction n generalizing rest s done with
  | zero =>
    have hnil : rest.filter Contour.hasGeometry = [] := List.length_eq_zero.mp (by omega)
    have hall : ∀ c ∈ rest, c.hasGeometry = false := by
      intro c hc
      have := List.filter_eq_nil_iff.mp hnil c hc
      simpa using this
    obtain ⟨s1, h1, -⟩ := parseNextContour_done_atBoundary s done rest h hall
    simp [contours, h1, hnil]
  | succ n ih =>
    rcases split_at_geometry rest with hall | ⟨junk, c, rest1, hsplit, hjunk, hc⟩
    · have hnil : rest.filter Contour.hasGeometry = [] := by
        rw [List.filter_eq_nil_iff]
        intro c hc
        simp [hall c hc]
      obtain ⟨s1, h1, -⟩ := parseNextContour_done_atBoundary s done rest h hall
      simp [contours, h1, hnil]
    · subst hsplit
      have hj : junk.filter Contour.hasGeometry = [] := by
        rw [List.filter_eq_nil_iff]
        intro j hj
        simp [hjunk j hj]
      obtain ⟨s1, h1, h2, -, -⟩ := parseNextContour_yield s done junk rest1 c h hjunk hc
      have hcur := currentContour_yielded s1 _ _ c h2
      have hn1 : (rest1.filter Contour.hasGeometry).length ≤ n := by
        rw [List.filter_append, hj, List.nil_append, List.filter_cons_of_pos hc] at hn
        simpa using hn
      have := ih rest1 s1 (done ++ junk ++ [c]) h2.atBoundary hn1
      simp [contours, h1, hcur, this, List.filter_append, hj, List.filter_cons_of_pos hc]

/-- C12: for every well-formed path, the contours exposed by `currentContour()` after the
successive calls of `parseNextContour` that return true are, in call order, exactly the
contours of the path that have a Line, Quad, Conic or Cubic, each with its own control points
and weights; concatenated, they list the Lines, Quads, Conics and Cubics of the path once each
and in path order, with the control points and conic weight they have in the path. -/
theorem C12_contours_cover_geometry_in_order (cs : List Contour) :
    (mk0 (pathOf cs)).contours (pathOf cs).fVerbs.length
      = some ((cs.filter Contour.hasGeometry).map Contour.elems) ∧
    (((cs.filter Contour.hasGeometry).map Contour.elems).flatten).filter PathElem.isGeometry
      = (cs.flatMap fun c => primElems c.start c.prims).filter PathElem.isGeometry := by
  refine ⟨contours_atBoundary _ cs _ [] (atBoundary_mk0 cs) (length_filter_hasGeometry_le cs), ?_⟩
  induction cs with
  | nil => rfl
  | cons c cs ih =>
    rw [List.flatMap_cons, List.filter_append, ← ih]
    by_cases hc : c.hasGeometry = true
    · rw [List.filter_cons_of_pos hc, List.map_cons, List.flatten_cons, List.filter_append]
      congr 1
    · have hc' : c.hasGeometry = false := by simpa using hc
      rw [List.filter_cons_of_neg hc,
        filter_isGeometry_primElems_of_no_geometry c.prims c.start hc']
      rfl

theorem Yielded.currentVerbs {s : MidpointContourParser} {done rest : List Contour}
    {c : Contour} (h : s.Yielded done c rest) : s.currentVerbs = c.verbs := by
  unfold MidpointContourParser.currentVerbs
  rw [h.path, h.verbs, h.verbsIdx]
  simp [pathOf, List.flatMap_append, List.flatMap_cons]

/-- C13: for every well-formed path and every call of `parseNextContour` that returns true, the
verb range exposed by `currentContour()` starts with a Move, holds no other Move, holds a Line,
Quad, Conic or Cubic, and ends at the end of the path or right before a Move. -/
theorem C13_exposed_range_is_maximal_contour (cs : List Contour) (s s1 : MidpointContourParser)
    (h : ReachedFrom (mk0 (pathOf cs)) s) (hcall : s.parseNextContour = some (true, s1)) :
    ∃ tail, s1.currentVerbs = SkPathVerb.kMove :: tail ∧ SkPathVerb.kMove ∉ tail ∧
      tail.any SkPathVerb.isGeometry = true ∧
      (s1.remainingVerbs = [] ∨ s1.remainingVerbs.head? = some SkPathVerb.kMove) := by
  obtain ⟨done, rest, hb, -, -⟩ := h.stays_at_boundary (atBoundary_mk0 cs)
  rcases split_at_geometry rest with hall | ⟨junk, c, rest1, hsplit, hjunk, hc⟩
  · obtain ⟨s2, h2, -⟩ := parseNextContour_done_atBoundary s done rest hb hall
    rw [h2] at hcall
    simp at hcall
  · subst hsplit
    obtain ⟨s2, h2, hy, -, -⟩ := parseNextContour_yield s done junk rest1 c hb hjunk hc
    rw [h2] at hcall
    have hs : s2 = s1 := by
      have := Option.some.inj hcall
      exact (Prod.mk.inj this).2
    subst hs
    have hv : s2.currentVerbs = c.verbs := hy.currentVerbs
    have hrem : s2.remainingVerbs = rest1.flatMap Contour.verbs := hy.atBoundary.drop_verbs
    refine ⟨c.prims.map Prim.verb, hv, ?_, ?_, ?_⟩
    · intro hm
      obtain ⟨pr, -, hpr⟩ := List.mem_map.mp hm
      cases pr <;> simp [Prim.verb] at hpr
    · have := any_isGeometry_verbs c
      rw [hc] at this
      simpa [Contour.verbs, SkPathVerb.isGeometry] using this
    · rw [hrem]
      cases rest1 with
      | nil => left; rfl
      | cons c2 r2 => right; simp [List.flatMap_cons, Contour.verbs]

/-- C13 on the path of `test_winding_merged_to_zero`: the first call that returns true exposes
`M L L L`, the contour of the second Move, and stops before the third Move. -/
theorem C13_exposed_range_merged_to_zero :
    ∃ s1, ReachedFrom (mk0 (pathOf Sample.mergedToZero)) (mk0 (pathOf Sample.mergedToZero)) ∧
      (mk0 (pathOf Sample.mergedToZero)).parseNextContour = some (true, s1) ∧
      s1.currentVerbs = [SkPathVerb.kMove, SkPathVerb.kLine, SkPathVerb.kLine, SkPathVerb.kLine] ∧
      s1.remainingVerbs.head? = some SkPathVerb.kMove := by
  obtain ⟨s1, h1, hy, -, -⟩ := parseNextContour_yield (mk0 (pathOf Sample.mergedToZero)) []
    [⟨⟨20, 80⟩, []⟩]
    [⟨⟨50, 50⟩, [Prim.line ⟨50, -50⟩, Prim.line ⟨10, 50⟩]⟩]
    ⟨⟨70, -1 / 1000000⟩, [Prim.line ⟨70, 0⟩, Prim.line ⟨60, -30⟩, Prim.line ⟨40, 20⟩]⟩
    (atBoundary_mk0 Sample.mergedToZero) (by decide) (by decide)
  obtain ⟨tail, e1, -, -, e4⟩ := C13_exposed_range_is_maximal_contour Sample.mergedToZero _ s1
    ReachedFrom.start h1
  refine ⟨s1, ReachedFrom.start, h1, ?_, ?_⟩
  · rw [hy.currentVerbs]
    rfl
  · have hrem : s1.remainingVerbs = _ := hy.atBoundary.drop_verbs
    rw [hrem]
    decide

end MidpointContourParser

/-! ### The patches of one contour -/

/-- Whatever one `switch` of the contour loop leaves, returned or not: the patches written so
far, followed by wedges written under the path matrix of the writer, the shader caps and the
midpoint of the contour. -/
theorem writeElem_wedges (E : Estimators) (fuel : Nat) (shaderCaps : GrShaderCaps)
    (midpoint : SkPoint) (c : ContourLocals) (e : PathElem) (c1 : ContourLocals)
    (h : (writeElem E fuel shaderCaps midpoint c e).state? = some c1) :
    ∃ new, c1.wedgeWriter.patches = c.wedgeWriter.patches ++ new ∧
      ∀ patch ∈ new, patch.IsWedge c.wedgeWriter.fPathXform shaderCaps midpoint := by
  cases e with
  | kMove p =>
    simp [writeElem, Run.state?] at h; subst h; exact ⟨[], by simp, by simp⟩
  | kClose =>
    simp [writeElem, Run.state?] at h; subst h; exact ⟨[], by simp, by simp⟩
  | kLine p0 p1 =>
    simp [writeElem, Run.state?] at h; subst h
    rcases GrVertexChunkBuilder.patches_appendVertex c.wedgeWriter.fChunker
      (WedgeWriter.flatPatch c.wedgeWriter.fPathXform shaderCaps midpoint p0 p1) with hp | hp
    · exact ⟨[], by simpa using hp, by simp⟩
    · refine ⟨[_], hp, ?_⟩
      intro patch hm
      simp only [List.mem_singleton] at hm
      exact Or.inl ⟨p0, p1, hm⟩
  | kQuad pts =>
    rw [writeElem] at h
    have key : ∀ w1, (WedgeWriter.writeQuadraticWedge E fuel c.wedgeWriter shaderCaps pts
        midpoint).state? = some w1 → ∃ new, w1.patches = c.wedgeWriter.patches ++ new ∧
        ∀ patch ∈ new, patch.IsWedge c.wedgeWriter.fPathXform shaderCaps midpoint := by
      intro w1 hw
      obtain ⟨-, -, -, -, new, h5, h6⟩ :=
        WedgeWriter.writeQuadraticWedge_state E fuel _ shaderCaps pts midpoint w1 hw
      refine ⟨new, h5, fun patch hp => ?_⟩
      obtain ⟨q, hq, -⟩ := h6 patch hp
      exact Or.inr (Or.inl ⟨q, hq⟩)
    cases hr : WedgeWriter.writeQuadraticWedge E fuel c.wedgeWriter shaderCaps pts midpoint with
    | fault => rw [hr] at h; simp [Run.state?] at h
    | unfinished w1 =>
      rw [hr] at h; simp [Run.state?] at h; subst h
      exact key w1 (by rw [hr]; rfl)
    | returned w1 =>
      rw [hr] at h; simp [Run.state?] at h; subst h
      exact key w1 (by rw [hr]; rfl)
  | kConic pts wt =>
    rw [writeElem] at h
    have key : ∀ w1, (WedgeWriter.writeConicWedge E fuel c.wedgeWriter shaderCaps pts wt
        midpoint).state? = some w1 → ∃ new, w1.patches = c.wedgeWriter.patches ++ new ∧
        ∀ patch ∈ new, patch.IsWedge c.wedgeWriter.fPathXform shaderCaps midpoint := by
      intro w1 hw
      obtain ⟨-, -, -, -, new, h5, h6⟩ :=
        WedgeWriter.writeConicWedge_state E fuel _ shaderCaps pts wt midpoint w1 hw
      refine ⟨new, h5, fun patch hp => ?_⟩
      obtain ⟨q, qw, hq, -⟩ := h6 patch hp
      exact Or.inr (Or.inr (Or.inl ⟨⟨q, qw⟩, hq⟩))
    cases hr : WedgeWriter.writeConicWedge E fuel c.wedgeWriter shaderCaps pts wt midpoint with
    | fault => rw [hr] at h; simp [Run.state?] at h
    | unfinished w1 =>
      rw [hr] at h; simp [Run.state?] at h; subst h
      exact key w1 (by rw [hr]; rfl)
    | returned w1 =>
      rw [hr] at h; simp [Run.state?] at h; subst h
      exact key w1 (by rw [hr]; rfl)
  | kCubic pts =>
    rw [writeElem] at h
    have key : ∀ w1, (WedgeWriter.writeCubicWedge E fuel c.wedgeWriter shaderCaps pts
        midpoint).state? = some w1 → ∃ new, w1.patches = c.wedgeWriter.patches ++ new ∧
        ∀ patch ∈ new, patch.IsWedge c.wedgeWriter.fPathXform shaderCaps midpoint := by
      intro w1 hw
      obtain ⟨-, -, -, -, new, h5, h6⟩ :=
        WedgeWriter.writeCubicWedge_state E fuel _ shaderCaps pts midpoint w1 hw
      refine ⟨new, h5, fun patch hp => ?_⟩
      obtain ⟨q, hq, -⟩ := h6 patch hp
      exact Or.inr (Or.inr (Or.inr ⟨q, hq⟩))
    cases hr : WedgeWriter.writeCubicWedge E fuel c.wedgeWriter shaderCaps pts midpoint with
    | fault => rw [hr] at h; simp [Run.state?] at h
    | unfinished w1 =>
      rw [hr] at h; simp [Run.state?] at h; subst h
      exact key w1 (by rw [hr]; rfl)
    | returned w1 =>
      rw [hr] at h; simp [Run.state?] at h; subst h
      exact key w1 (by rw [hr]; rfl)

theorem writeElems_wedges (E : Estimators) (fuel : Nat) (shaderCaps : GrShaderCaps)
    (midpoint : SkPoint) (es : List PathElem) (c c1 : ContourLocals)
    (h : (writeElems E fuel shaderCaps midpoint es c).state? = some c1) :
    ∃ new, c1.wedgeWriter.patches = c.wedgeWriter.patches ++ new ∧
      ∀ patch ∈ new, patch.IsWedge c.wedgeWriter.fPathXform shaderCaps midpoint := by
  induction es generalizing c with
  | nil =>
    simp [writeElems, Run.state?] at h; subst h; exact ⟨[], by simp, by simp⟩
  | cons e es ih =>
    rw [writeElems] at h
    cases hr : writeElem E fuel shaderCaps midpoint c e with
    | fault => rw [hr] at h; simp [Run.state?] at h
    | unfinished ca =>
      rw [hr] at h; simp [Run.state?] at h; subst h
      exact writeElem_wedges E fuel shaderCaps midpoint c e ca (by rw [hr]; rfl)
    | returned ca =>
      rw [hr] at h
      obtain ⟨na, a1, a2⟩ := writeElem_wedges E fuel shaderCaps midpoint c e ca (by rw [hr]; rfl)
      have hk := writeElem_kept E fuel shaderCaps midpoint c e ca (by rw [hr]; rfl)
      obtain ⟨nb, b1, b2⟩ := ih ca h
      refine ⟨na ++ nb, by rw [b1, a1, List.append_assoc], ?_⟩
      intro patch hp
      rcases List.mem_append.mp hp with hp | hp
      · exact a2 patch hp
      · have := b2 patch hp
        rw [hk.path] at this
        exact this

/-- Whatever one iteration of the contour loop of `prepare` leaves, returned or not: the
patches written so far, followed by wedges written under the path matrix of the writer and the
mapped midpoint of the parser. -/
theorem prepareContour_wedges (E : Estimators) (fuel : Nat) (shaderCaps : GrShaderCaps)
    (parser : MidpointContourParser) (w w2 : WedgeWriter)
    (h : (prepareContour E fuel shaderCaps parser w).state? = some w2) :
    ∃ new, w2.patches = w.patches ++ new ∧
      ∀ patch ∈ new, patch.IsWedge w.fPathXform shaderCaps
        (w.fPathXform.mapPoint parser.currentMidpoint) := by
  unfold prepareContour at h
  cases hcur : parser.currentContour with
  | none => rw [hcur] at h; simp [Run.state?] at h
  | some elems =>
    rw [hcur] at h
    simp only at h
    cases hr : writeElems E fuel shaderCaps (w.fPathXform.mapPoint parser.currentMidpoint) elems
        ⟨w, ⟨0, 0⟩, ⟨0, 0⟩⟩ with
    | fault => rw [hr] at h; simp [Run.state?] at h
    | unfinished cl =>
      rw [hr] at h; simp [Run.state?] at h; subst h
      exact writeElems_wedges E fuel shaderCaps _ elems _ cl (by rw [hr]; rfl)
    | returned cl =>
      rw [hr] at h; simp [Run.state?] at h; subst h
      obtain ⟨new, h1, h2⟩ := writeElems_wedges E fuel shaderCaps _ elems _ cl (by rw [hr]; rfl)
      have hk := writeElems_kept E fuel shaderCaps _ elems _ cl (by rw [hr]; rfl)
      unfold closeContour
      split
      · rcases GrVertexChunkBuilder.patches_appendVertex cl.wedgeWriter.fChunker
          (WedgeWriter.flatPatch cl.wedgeWriter.fPathXform shaderCaps
            (w.fPathXform.mapPoint parser.currentMidpoint) cl.lastPoint cl.startPoint)
          with hp | hp
        · exact ⟨new, by rw [← h1]; exact hp, h2⟩
        · refine ⟨new ++ [_], by rw [← List.append_assoc, ← h1]; exact hp, ?_⟩
          intro patch hm
          rcases List.mem_append.mp hm with hm | hm
          · exact h2 patch hm
          · simp only [List.mem_singleton] at hm
            rw [hk.path] at hm
            exact Or.inl ⟨_, _, hm⟩
      · exact ⟨new, h1, h2⟩

theorem Patch.IsWedge.midpoint {pathXform : SkMatrix} {shaderCaps : GrShaderCaps}
    {midpoint : SkPoint} {patch : Patch} (h : patch.IsWedge pathXform shaderCaps midpoint) :
    patch.fMidpoint = midpoint ∧ patch.fPathXform = pathXform := by
  rcases h with ⟨p0, p1, h⟩ | ⟨q, h⟩ | ⟨q, h⟩ | ⟨q, h⟩ <;> subst h <;> exact ⟨rfl, rfl⟩

/-- C14: all wedges one iteration of the contour loop of `prepare` emits for a contour, line
wedges, curve wedges, the sub-curves of chopped curves and the closing wedge alike, whether the
iteration returned or is still chopping, carry the same midpoint: the path matrix applied to
`currentMidpoint()` of the parser. -/
theorem C14_wedges_share_contour_midpoint (E : Estimators) (fuel : Nat)
    (shaderCaps : GrShaderCaps) (parser : MidpointContourParser) (w w2 : WedgeWriter)
    (h : (prepareContour E fuel shaderCaps parser w).state? = some w2) :
    ∃ new, w2.patches = w.patches ++ new ∧
      ∀ patch ∈ new, patch.fMidpoint = w.fPathXform.mapPoint parser.currentMidpoint := by
  obtain ⟨new, h1, h2⟩ := prepareContour_wedges E fuel shaderCaps parser w w2 h
  exact ⟨new, h1, fun patch hp => (h2 patch hp).midpoint.1⟩

/-- C14 on the open contour `M(0,0) L(1,0)`: the iteration of the contour loop returns and
its wedges carry the mapped midpoint of the parser. -/
theorem C14_wedges_share_midpoint_open_contour :
    ∃ s1 w2, (MidpointContourParser.mk0 (pathOf [Sample.openContour])).parseNextContour
        = some (true, s1) ∧
      (prepareContour Sample.estimators 1 Sample.caps s1 Sample.writer).state? = some w2 ∧
      ∃ new, w2.patches = Sample.writer.patches ++ new ∧
        ∀ patch ∈ new,
          patch.fMidpoint = Sample.writer.fPathXform.mapPoint s1.currentMidpoint := by
  obtain ⟨s1, w2, h1, -, h3, -, -⟩ := prepareContour_of_withinBudget Sample.estimators 0
    Sample.caps (MidpointContourParser.mk0 (pathOf [Sample.openContour])) Sample.writer [] [] []
    Sample.openContour (MidpointContourParser.atBoundary_mk0 _) (by simp) (by decide)
    Sample.writer_roomy (by
      intro e he
      simp [Sample.openContour, Contour.elems, primElems, Prim.elem] at he
      rcases he with rfl | rfl <;> trivial)
  have hs : (prepareContour Sample.estimators 1 Sample.caps s1 Sample.writer).state?
      = some w2 := by rw [h3]; rfl
  exact ⟨s1, w2, h1, hs,
    C14_wedges_share_contour_midpoint Sample.estimators 1 Sample.caps s1 Sample.writer w2 hs⟩

/-! ### A conic whose chop fails -/

/-- C15: when the estimate of a conic is over budget and its `chopAt(.5)` fails,
`writeConicWedge` returns with the writer exactly as it was (no patch emitted, tracked maximum
and earlier patches unchanged), and the loop over the elements of the contour goes on with the
remaining elements, `lastPoint` set to the end point of the conic. -/
theorem C15_failed_conic_chop_drops_patch (E : Estimators) (fuel : Nat) (w : WedgeWriter)
    (shaderCaps : GrShaderCaps) (p : QuadPts) (wt : ℚ) (midpoint : SkPoint)
    (hover : E.conic_pow2 kTessellationPrecision p wt w.fTotalVectorXform > w.fMaxSegments_pow2)
    (hchop : E.chopAt ⟨p, wt⟩ (1 / 2) = none) :
    WedgeWriter.writeConicWedge E (fuel + 1) w shaderCaps p wt midpoint = Run.returned w ∧
    ∀ (es : List PathElem) (startPoint lastPoint : SkPoint),
      writeElems E (fuel + 1) shaderCaps midpoint (PathElem.kConic p wt :: es)
          ⟨w, startPoint, lastPoint⟩
        = writeElems E (fuel + 1) shaderCaps midpoint es ⟨w, startPoint, p.p2⟩ := by
  have hw : WedgeWriter.writeConicWedge E (fuel + 1) w shaderCaps p wt midpoint
      = Run.returned w := by
    rw [WedgeWriter.writeConicWedge]
    simp only [hover, if_true, hchop]
  refine ⟨hw, ?_⟩
  intro es startPoint lastPoint
  rw [writeElems, writeElem]
  simp only [hw]

/-- C15 on a sample writer (squared budget 4) with a conic estimated at 5 whose chop fails. -/
theorem C15_failed_conic_chop_sample :
    Sample.failingChopEstimators.conic_pow2 kTessellationPrecision ⟨⟨0, 0⟩, ⟨1, 1⟩, ⟨2, 0⟩⟩ 1
      Sample.writer.fTotalVectorXform > Sample.writer.fMaxSegments_pow2 ∧
    Sample.failingChopEstimators.chopAt ⟨⟨⟨0, 0⟩, ⟨1, 1⟩, ⟨2, 0⟩⟩, 1⟩ (1 / 2) = none ∧
    WedgeWriter.writeConicWedge Sample.failingChopEstimators (0 + 1) Sample.writer Sample.caps
      ⟨⟨0, 0⟩, ⟨1, 1⟩, ⟨2, 0⟩⟩ 1 ⟨1, 0⟩ = Run.returned Sample.writer :=
  ⟨by decide!, rfl,
    (C15_failed_conic_chop_drops_patch Sample.failingChopEstimators 0 Sample.writer Sample.caps
      ⟨⟨0, 0⟩, ⟨1, 1⟩, ⟨2, 0⟩⟩ 1 ⟨1, 0⟩ (by decide!) rfl).1⟩

/-! ### The choice of shader -/

/-- C16: `Make` selects the hardware-tessellation shader if and only if the shader caps report
tessellation support and infinity support, the pipeline does not use local coords and
`numPathVerbs >= caps.minPathVerbsForHwTessellation()`; in every other case it selects the
middle-out fixed-count shader. -/
theorem C16_hardware_shader_iff_four_conditions (numPathVerbs : Int) (pipeline : GrPipeline)
    (caps : GrCaps) :
    (PathWedgeTessellator.Make numPathVerbs pipeline caps
        = ShaderFactory.MakeHardwareTessellationShader ↔
      caps.shaderCaps.tessellationSupport = true ∧ caps.shaderCaps.infinitySupport = true ∧
      pipeline.usesLocalCoords = false ∧
      numPathVerbs ≥ caps.minPathVerbsForHwTessellation) ∧
    (PathWedgeTessellator.Make numPathVerbs pipeline caps
        ≠ ShaderFactory.MakeHardwareTessellationShader →
      PathWedgeTessellator.Make numPathVerbs pipeline caps
        = ShaderFactory.MakeMiddleOutFixedCountShader) := by
  unfold PathWedgeTessellator.Make
  constructor
  · constructor
    · intro h
      split at h
      · rename_i hc
        simpa [Bool.and_eq_true, and_assoc] using hc
      · cases h
    · rintro ⟨h1, h2, h3, h4⟩
      simp [h1, h2, h3, h4]
  · intro h
    split
    · rename_i hc
      simp [hc] at h
    · rfl

/-! ### The empty allocation -/

/-- C17: when the computed wedge allocation count is zero, `prepare` is a no-op in either
strategy: it returns the tessellator and the target as they were, with no vertex chunk appended,
no static buffer requested and `fFixedIndexCount` and both buffer handles unchanged. The count
is zero exactly when the total combined verb count is zero. -/
theorem C17_prepare_is_noop_without_allocation (E : Estimators) (fuel : Nat)
    (t : PathWedgeTessellator) (target : GrMeshDrawTarget)
    (pathDrawList : List (SkMatrix × SkPath)) (totalCombinedPathVerbCnt : Nat)
    (h : (MaxCombinedFanEdgesInPathDrawList totalCombinedPathVerbCnt * 5 + 3) / 4 = 0) :
    t.prepare E fuel target pathDrawList totalCombinedPathVerbCnt = Run.returned (t, target) ∧
    totalCombinedPathVerbCnt = 0 := by
  constructor
  · unfold PathWedgeTessellator.prepare PathWedgeTessellator.prepareWedges
    simp only [h, if_true]
  · unfold MaxCombinedFanEdgesInPathDrawList at h
    omega

/-- C17 on a batch announced with no verb, in fixed-count mode. -/
theorem C17_prepare_is_noop_sample :
    (MaxCombinedFanEdgesInPathDrawList 0 * 5 + 3) / 4 = 0 ∧
    Sample.tessellator.prepare Sample.estimators 1 Sample.target [] 0
      = Run.returned (Sample.tessellator, Sample.target) :=
  ⟨by decide,
    (C17_prepare_is_noop_without_allocation Sample.estimators 1 Sample.tessellator Sample.target
      [] 0 (by decide)).1⟩

/-! ### The layout of a patch -/

theorem PatchGeometry.controlPoints_spec (m : SkMatrix) (g : PatchGeometry) :
    (g.controlPoints m).length = 4 ∧ ∀ c ∈ g.controlPoints m, ∀ t, c ≠ VertexItem.curveType t := by
  cases g <;> simp [PatchGeometry.controlPoints]

theorem hasLayout_of_fields (shaderCaps : GrShaderCaps) (midpoint : SkPoint) (type : CurveType)
    (patch : Patch) (hm : patch.fMidpoint = midpoint)
    (ht : patch.fCurveType = WedgeWriter.curveTypeIf shaderCaps type) :
    patch.HasLayout shaderCaps midpoint type := by
  refine ⟨patch.fGeometry.controlPoints patch.fPathXform,
    (PatchGeometry.controlPoints_spec _ _).1, (PatchGeometry.controlPoints_spec _ _).2, ?_⟩
  unfold Patch.vertexData
  rw [hm, ht]
  unfold WedgeWriter.curveTypeIf
  cases shaderCaps.infinitySupport <;> simp

/-- C18: every patch the writer emits, through `writeFlatWedge`, `writeQuadraticWedge`,
`writeConicWedge` or `writeCubicWedge` (sub-curves of chopped curves included, whether the call
returned or is still chopping), consists of four control points followed by the midpoint,
followed by a curve type if and only if the shader caps lack infinity support; the curve type
is `kConicCurveType` for the patches of `writeConicWedge` and `kCubicCurveType` for all
others. -/
theorem C18_patch_layout (E : Estimators) (fuel : Nat) (w : WedgeWriter)
    (shaderCaps : GrShaderCaps) (midpoint : SkPoint) :
    (∀ p0 p1 : SkPoint, ∃ new,
      (w.writeFlatWedge shaderCaps p0 p1 midpoint).patches = w.patches ++ new ∧
      ∀ patch ∈ new, patch.HasLayout shaderCaps midpoint CurveType.kCubicCurveType) ∧
    (∀ (p : QuadPts) (w1 : WedgeWriter),
      (WedgeWriter.writeQuadraticWedge E fuel w shaderCaps p midpoint).state? = some w1 →
      ∃ new, w1.patches = w.patches ++ new ∧
        ∀ patch ∈ new, patch.HasLayout shaderCaps midpoint CurveType.kCubicCurveType) ∧
    (∀ (p : QuadPts) (wt : ℚ) (w1 : WedgeWriter),
      (WedgeWriter.writeConicWedge E fuel w shaderCaps p wt midpoint).state? = some w1 →
      ∃ new, w1.patches = w.patches ++ new ∧
        ∀ patch ∈ new, patch.HasLayout shaderCaps midpoint CurveType.kConicCurveType) ∧
    (∀ (p : CubicPts) (w1 : WedgeWriter),
      (WedgeWriter.writeCubicWedge E fuel w shaderCaps p midpoint).state? = some w1 →
      ∃ new, w1.patches = w.patches ++ new ∧
        ∀ patch ∈ new, patch.HasLayout shaderCaps midpoint CurveType.kCubicCurveType) := by
  refine ⟨?_, ?_, ?_, ?_⟩
  · intro p0 p1
    rcases GrVertexChunkBuilder.patches_appendVertex w.fChunker
      (WedgeWriter.flatPatch w.fPathXform shaderCaps midpoint p0 p1) with hp | hp
    · exact ⟨[], by simpa using hp, by simp⟩
    · refine ⟨[_], hp, ?_⟩
      intro patch hm
      simp only [List.mem_singleton] at hm
      subst hm
      exact hasLayout_of_fields _ _ _ _ rfl rfl
  · intro p w1 h
    obtain ⟨-, -, -, -, new, h5, h6⟩ :=
      WedgeWriter.writeQuadraticWedge_state E fuel w shaderCaps p midpoint w1 h
    refine ⟨new, h5, fun patch hp => ?_⟩
    obtain ⟨q, hq, -⟩ := h6 patch hp
    subst hq
    exact hasLayout_of_fields _ _ _ _ rfl rfl
  · intro p wt w1 h
    obtain ⟨-, -, -, -, new, h5, h6⟩ :=
      WedgeWriter.writeConicWedge_state E fuel w shaderCaps p wt midpoint w1 h
    refine ⟨new, h5, fun patch hp => ?_⟩
    obtain ⟨q, qw, hq, -⟩ := h6 patch hp
    subst hq
    exact hasLayout_of_fields _ _ _ _ rfl rfl
  · intro p w1 h
    obtain ⟨-, -, -, -, new, h5, h6⟩ :=
      WedgeWriter.writeCubicWedge_state E fuel w shaderCaps p midpoint w1 h
    refine ⟨new, h5, fun patch hp => ?_⟩
    obtain ⟨q, hq, -⟩ := h6 patch hp
    subst hq
    exact hasLayout_of_fields _ _ _ _ rfl rfl

/-! ### The static buffers of the fixed-count strategy -/

theorem prepare_returned_fixedCount (E : Estimators) (fuel : Nat) (t : PathWedgeTessellator)
    (target : GrMeshDrawTarget) (pathDrawList : List (SkMatrix × SkPath))
    (totalCombinedPathVerbCnt : Nat) (hn : 0 < totalCombinedPathVerbCnt)
    (r : PathWedgeTessellator × GrMeshDrawTarget)
    (h : t.prepare E fuel target pathDrawList totalCombinedPathVerbCnt = Run.returned r) :
    ∃ w, t.preparedWriter E fuel target pathDrawList totalCombinedPathVerbCnt = some w ∧
      r = PathWedgeTessellator.prepareFixedCount
        { t with fVertexChunkArray := w.fChunker.fChunks } target w := by
  unfold PathWedgeTessellator.prepare at h
  unfold PathWedgeTessellator.preparedWriter
  cases hw : t.prepareWedges E fuel target pathDrawList totalCombinedPathVerbCnt with
  | none =>
    exfalso
    unfold PathWedgeTessellator.prepareWedges at hw
    have halloc : ¬ (MaxCombinedFanEdgesInPathDrawList totalCombinedPathVerbCnt * 5 + 3) / 4
        = 0 := by
      unfold MaxCombinedFanEdgesInPathDrawList
      omega
    simp [halloc] at hw
  | some run =>
    rw [hw] at h
    cases run with
    | returned w =>
      simp only [Run.returned.injEq] at h
      exact ⟨w, rfl, h.symm⟩
    | unfinished w => simp at h
    | fault => simp at h

/-- C20: in fixed-count mode, for any two batches with a non-zero allocation count on which
`prepare` returns, the calls of `findOrMakeStaticBuffer` are the same: first `(kVertex,
SizeOfVertexBufferForMiddleOutWedges(), gFixedCountVertexBufferKey,
InitializeVertexBufferForMiddleOutWedges)`, then `(kIndex, SizeOfIndexBufferForMiddleOutWedges(),
gFixedCountIndexBufferKey, InitializeIndexBufferForMiddleOutWedges)`, whatever the paths, the
matrices and the resolve level; the two buffer handles are the answers of the target to these
requests and the shader is untouched, so that among the fixed-count outputs only
`fFixedIndexCount` depends on the batch. -/
theorem C20_static_buffer_requests_are_batch_independent (E : Estimators) (fuel1 fuel2 : Nat)
    (t : PathWedgeTessellator) (target : GrMeshDrawTarget)
    (batch1 batch2 : List (SkMatrix × SkPath)) (n1 n2 : Nat)
    (hfixed : t.fShader.willUseTessellationShaders = false) (hn1 : 0 < n1) (hn2 : 0 < n2) :
    ∀ r1 r2, t.prepare E fuel1 target batch1 n1 = Run.returned r1 →
      t.prepare E fuel2 target batch2 n2 = Run.returned r2 →
      r1.2.fStaticBufferRequests = target.fStaticBufferRequests ++
        [⟨GrGpuBufferType.kVertex, StaticBufferSize.SizeOfVertexBufferForMiddleOutWedges,
            StaticUniqueKey.gFixedCountVertexBufferKey,
            StaticBufferInitializer.InitializeVertexBufferForMiddleOutWedges⟩,
          ⟨GrGpuBufferType.kIndex, StaticBufferSize.SizeOfIndexBufferForMiddleOutWedges,
            StaticUniqueKey.gFixedCountIndexBufferKey,
            StaticBufferInitializer.InitializeIndexBufferForMiddleOutWedges⟩] ∧
      r2.2.fStaticBufferRequests = r1.2.fStaticBufferRequests ∧
      r2.1.fFixedCountVertexBuffer = r1.1.fFixedCountVertexBuffer ∧
      r2.1.fFixedCountIndexBuffer = r1.1.fFixedCountIndexBuffer ∧
      r2.1.fShader = r1.1.fShader := by
  intro r1 r2 h1 h2
  obtain ⟨w1, -, e1⟩ := prepare_returned_fixedCount E fuel1 t target batch1 n1 hn1 r1 h1
  obtain ⟨w2, -, e2⟩ := prepare_returned_fixedCount E fuel2 t target batch2 n2 hn2 r2 h2
  subst e1 e2
  simp [PathWedgeTessellator.prepareFixedCount, hfixed]

/-- C20 on two sample batches in fixed-count mode, the open contour `M(0,0) L(1,0)` and the
quadratic `M(0,0) Q(0,0)(4,1/2)`: `prepare` returns on both with the same two requests and the
same buffer handles, and with the index counts 3 and 6. -/
theorem C20_static_buffer_requests_sample :
    Sample.tessellator.fShader.willUseTessellationShaders = false ∧ (0 < 2) ∧
    ∃ r1 r2, Sample.tessellator.prepare Sample.estimators 1 Sample.target
        [(SkMatrix.I, pathOf [Sample.openContour])] 2 = Run.returned r1 ∧
      Sample.tessellator.prepare Sample.estimators 1 Sample.target
        [(SkMatrix.I, pathOf [Sample.quadContour])] 2 = Run.returned r2 ∧
      r2.2.fStaticBufferRequests = r1.2.fStaticBufferRequests ∧
      r2.1.fFixedCountVertexBuffer = r1.1.fFixedCountVertexBuffer ∧
      r2.1.fFixedCountIndexBuffer = r1.1.fFixedCountIndexBuffer ∧
      r1.1.fFixedIndexCount = 3 ∧ r2.1.fFixedIndexCount = 6 := by
  refine ⟨rfl, by decide, ?_⟩
  have e1 : (Sample.tessellator.prepare Sample.estimators 1 Sample.target
      [(SkMatrix.I, pathOf [Sample.openContour])] 2).isReturned = true ∧
      ((Sample.tessellator.prepare Sample.estimators 1 Sample.target
        [(SkMatrix.I, pathOf [Sample.openContour])] 2).state?.map
          fun r => r.1.fFixedIndexCount) = some 3 := by decide!
  have e2 : (Sample.tessellator.prepare Sample.estimators 1 Sample.target
      [(SkMatrix.I, pathOf [Sample.quadContour])] 2).isReturned = true ∧
      ((Sample.tessellator.prepare Sample.estimators 1 Sample.target
        [(SkMatrix.I, pathOf [Sample.quadContour])] 2).state?.map
          fun r => r.1.fFixedIndexCount) = some 6 := by decide!
  cases h1 : Sample.tessellator.prepare Sample.estimators 1 Sample.target
      [(SkMatrix.I, pathOf [Sample.openContour])] 2 with
  | unfinished r => rw [h1] at e1; exact absurd e1.1 (by simp [Run.isReturned])
  | fault => rw [h1] at e1; exact absurd e1.1 (by simp [Run.isReturned])
  | returned r1 =>
    cases h2 : Sample.tessellator.prepare Sample.estimators 1 Sample.target
        [(SkMatrix.I, pathOf [Sample.quadContour])] 2 with
    | unfinished r => rw [h2] at e2; exact absurd e2.1 (by simp [Run.isReturned])
    | fault => rw [h2] at e2; exact absurd e2.1 (by simp [Run.isReturned])
    | returned r2 =>
      have h := C20_static_buffer_requests_are_batch_independent Sample.estimators 1 1
        Sample.tessellator Sample.target _ _ 2 2 rfl (by decide) (by decide) r1 r2 h1 h2
      rw [h1] at e1
      rw [h2] at e2
      refine ⟨r1, r2, rfl, rfl, h.2.1, h.2.2.1, h.2.2.2.1, ?_, ?_⟩
      · simpa [Run.state?] using e1.2
      · simpa [Run.state?] using e2.2

/-! ### Two runs that differ in their chunk builders only -/

theorem Run.map_eq_cases {σ τ : Type} (f : σ → τ) {r r' : Run σ} (h : r.map f = r'.map f) :
    (∃ s s', r = Run.returned s ∧ r' = Run.returned s' ∧ f s = f s') ∨
    (∃ s s', r = Run.unfinished s ∧ r' = Run.unfinished s' ∧ f s = f s') ∨
    (r = Run.fault ∧ r' = Run.fault) := by
  cases r <;> cases r' <;> simp [Run.map] at h ⊢ <;> exact h

theorem WedgeWriter.core_eq {w w' : WedgeWriter} (h : w.core = w'.core) :
    w.fTotalVectorXform = w'.fTotalVectorXform ∧ w.fPathXform = w'.fPathXform ∧
    w.fMaxSegments_pow2 = w'.fMaxSegments_pow2 ∧ w.fMaxSegments_pow4 = w'.fMaxSegments_pow4 ∧
    w.fNumFixedSegments_pow4 = w'.fNumFixedSegments_pow4 := by
  simpa [WedgeWriter.core] using h

theorem WedgeWriter.writeQuadraticWedge_core (E : Estimators) (fuel : Nat) (w w' : WedgeWriter)
    (shaderCaps : GrShaderCaps) (p : QuadPts) (midpoint : SkPoint) (h : w.core = w'.core) :
    (writeQuadraticWedge E fuel w shaderCaps p midpoint).map WedgeWriter.core
      = (writeQuadraticWedge E fuel w' shaderCaps p midpoint).map WedgeWriter.core := by
  induction fuel generalizing w w' p with
  | zero => simp [writeQuadraticWedge, Run.map, h]
  | succ fuel ih =>
    obtain ⟨h1, h2, h3, h4, h5⟩ := WedgeWriter.core_eq h
    rw [writeQuadraticWedge, writeQuadraticWedge]
    simp only [← h1, ← h4]
    split
    · have e := ih w w' (SkChopQuadAtHalf p).1 h
      rcases Run.map_eq_cases _ e with ⟨s, s', e1, e2, e3⟩ | ⟨s, s', e1, e2, e3⟩ | ⟨e1, e2⟩
      · rw [e1, e2]; exact ih s s' _ e3
      · rw [e1, e2]; simp [Run.map, e3]
      · rw [e1, e2]
    · simp [Run.map, WedgeWriter.core, h1, h2, h3, h4, h5]

theorem WedgeWriter.writeCubicWedge_core (E : Estimators) (fuel : Nat) (w w' : WedgeWriter)
    (shaderCaps : GrShaderCaps) (p : CubicPts) (midpoint : SkPoint) (h : w.core = w'.core) :
    (writeCubicWedge E fuel w shaderCaps p midpoint).map WedgeWriter.core
      = (writeCubicWedge E fuel w' shaderCaps p midpoint).map WedgeWriter.core := by
  induction fuel generalizing w w' p with
  | zero => simp [writeCubicWedge, Run.map, h]
  | succ fuel ih =>
    obtain ⟨h1, h2, h3, h4, h5⟩ := WedgeWriter.core_eq h
    rw [writeCubicWedge, writeCubicWedge]
    simp only [← h1, ← h4]
    split
    · have e := ih w w' (SkChopCubicAtHalf p).1 h
      rcases Run.map_eq_cases _ e with ⟨s, s', e1, e2, e3⟩ | ⟨s, s', e1, e2, e3⟩ | ⟨e1, e2⟩
      · rw [e1, e2]; exact ih s s' _ e3
      · rw [e1, e2]; simp [Run.map, e3]
      · rw [e1, e2]
    · simp [Run.map, WedgeWriter.core, h1, h2, h3, h4, h5]

theorem WedgeWriter.writeConicWedge_core (E : Estimators) (fuel : Nat) (w w' : WedgeWriter)
    (shaderCaps : GrShaderCaps) (p : QuadPts) (wt : ℚ) (midpoint : SkPoint)
    (h : w.core = w'.core) :
    (writeConicWedge E fuel w shaderCaps p wt midpoint).map WedgeWriter.core
      = (writeConicWedge E fuel w' shaderCaps p wt midpoint).map WedgeWriter.core := by
  induction fuel generalizing w w' p wt with
  | zero => simp [writeConicWedge, Run.map, h]
  | succ fuel ih =>
    obtain ⟨h1, h2, h3, h4, h5⟩ := WedgeWriter.core_eq h
    rw [writeConicWedge, writeConicWedge]
    simp only [← h1, ← h3]
    split
    · cases hc : E.chopAt ⟨p, wt⟩ (1 / 2) with
      | none => simp [Run.map, h]
      | some chops =>
        simp only
        have e := ih w w' chops.1.fPts chops.1.fW h
        rcases Run.map_eq_cases _ e with ⟨s, s', e1, e2, e3⟩ | ⟨s, s', e1, e2, e3⟩ | ⟨e1, e2⟩
        · rw [e1, e2]; exact ih s s' _ _ e3
        · rw [e1, e2]; simp [Run.map, e3]
        · rw [e1, e2]
    · simp [Run.map, WedgeWriter.core, h1, h2, h3, h4, h5]

theorem writeFlatWedge_core (w : WedgeWriter) (shaderCaps : GrShaderCaps)
    (p0 p1 midpoint : SkPoint) : (w.writeFlatWedge shaderCaps p0 p1 midpoint).core = w.core :=
  rfl

theorem writeElem_core (E : Estimators) (fuel : Nat) (shaderCaps : GrShaderCaps)
    (midpoint : SkPoint) (c c' : ContourLocals) (e : PathElem) (h : c.core = c'.core) :
    (writeElem E fuel shaderCaps midpoint c e).map ContourLocals.core
      = (writeElem E fuel shaderCaps midpoint c' e).map ContourLocals.core := by
  have h' := h
  simp only [ContourLocals.core, Prod.mk.injEq] at h'
  obtain ⟨hw, hs, hl⟩ := h'
  cases e with
  | kMove p => simp [writeElem, Run.map, ContourLocals.core, hw]
  | kClose => simp [writeElem, Run.map, h]
  | kLine p0 p1 =>
    simp [writeElem, Run.map, ContourLocals.core, writeFlatWedge_core, hw, hs]
  | kQuad pts =>
    rw [writeElem, writeElem]
    have e := WedgeWriter.writeQuadraticWedge_core E fuel c.wedgeWriter c'.wedgeWriter
      shaderCaps pts midpoint hw
    rcases Run.map_eq_cases _ e with ⟨s, s', e1, e2, e3⟩ | ⟨s, s', e1, e2, e3⟩ | ⟨e1, e2⟩
    · rw [e1, e2]; simp [Run.map, ContourLocals.core, e3, hs]
    · rw [e1, e2]; simp [Run.map, ContourLocals.core, e3, hs, hl]
    · rw [e1, e2]
  | kConic pts wt =>
    rw [writeElem, writeElem]
    have e := WedgeWriter.writeConicWedge_core E fuel c.wedgeWriter c'.wedgeWriter
      shaderCaps pts wt midpoint hw
    rcases Run.map_eq_cases _ e with ⟨s, s', e1, e2, e3⟩ | ⟨s, s', e1, e2, e3⟩ | ⟨e1, e2⟩
    · rw [e1, e2]; simp [Run.map, ContourLocals.core, e3, hs]
    · rw [e1, e2]; simp [Run.map, ContourLocals.core, e3, hs, hl]
    · rw [e1, e2]
  | kCubic pts =>
    rw [writeElem, writeElem]
    have e := WedgeWriter.writeCubicWedge_core E fuel c.wedgeWriter c'.wedgeWriter
      shaderCaps pts midpoint hw
    rcases Run.map_eq_cases _ e with ⟨s, s', e1, e2, e3⟩ | ⟨s, s', e1, e2, e3⟩ | ⟨e1, e2⟩
    · rw [e1, e2]; simp [Run.map, ContourLocals.core, e3, hs]
    · rw [e1, e2]; simp [Run.map, ContourLocals.core, e3, hs, hl]
    · rw [e1, e2]

theorem writeElems_core (E : Estimators) (fuel : Nat) (shaderCaps : GrShaderCaps)
    (midpoint : SkPoint) (es : List PathElem) (c c' : ContourLocals) (h : c.core = c'.core) :
    (writeElems E fuel shaderCaps midpoint es c).map ContourLocals.core
      = (writeElems E fuel shaderCaps midpoint es c').map ContourLocals.core := by
  induction es generalizing c c' with
  | nil => simp [writeElems, Run.map, h]
  | cons e es ih =>
    rw [writeElems, writeElems]
    rcases Run.map_eq_cases _ (writeElem_core E fuel shaderCaps midpoint c c' e h) with
      ⟨s, s', e1, e2, e3⟩ | ⟨s, s', e1, e2, e3⟩ | ⟨e1, e2⟩
    · rw [e1, e2]; exact ih s s' e3
    · rw [e1, e2]; simp [Run.map, e3]
    · rw [e1, e2]

theorem closeContour_core (shaderCaps : GrShaderCaps) (midpoint : SkPoint)
    (c c' : ContourLocals) (h : c.core = c'.core) :
    (closeContour shaderCaps midpoint c).core = (closeContour shaderCaps midpoint c').core := by
  simp only [ContourLocals.core, Prod.mk.injEq] at h
  obtain ⟨hw, hs, hl⟩ := h
  unfold closeContour
  rw [hs, hl]
  split
  · rw [writeFlatWedge_core, writeFlatWedge_core, hw]
  · exact hw

theorem prepareContour_core (E : Estimators) (fuel : Nat) (shaderCaps : GrShaderCaps)
    (parser : MidpointContourParser) (w w' : WedgeWriter) (h : w.core = w'.core) :
    (prepareContour E fuel shaderCaps parser w).map WedgeWriter.core
      = (prepareContour E fuel shaderCaps parser w').map WedgeWriter.core := by
  obtain ⟨-, h2, -, -, -⟩ := WedgeWriter.core_eq h
  unfold prepareContour
  simp only [h2]
  cases parser.currentContour with
  | none => rfl
  | some elems =>
    simp only
    have hc : (ContourLocals.mk w ⟨0, 0⟩ ⟨0, 0⟩).core = (ContourLocals.mk w' ⟨0, 0⟩ ⟨0, 0⟩).core := by
      simp [ContourLocals.core, h]
    rcases Run.map_eq_cases _ (writeElems_core E fuel shaderCaps
        (w'.fPathXform.mapPoint parser.currentMidpoint) elems _ _ hc) with
      ⟨s, s', e1, e2, e3⟩ | ⟨s, s', e1, e2, e3⟩ | ⟨e1, e2⟩
    · rw [e1, e2]; simp [Run.map, closeContour_core _ _ s s' e3]
    · rw [e1, e2]
      simp only [ContourLocals.core, Prod.mk.injEq] at e3
      simp [Run.map, e3.1]
    · rw [e1, e2]

theorem contourLoop_core (E : Estimators) (fuel : Nat) (shaderCaps : GrShaderCaps) (n : Nat)
    (parser : MidpointContourParser) (w w' : WedgeWriter) (h : w.core = w'.core) :
    (contourLoop E fuel shaderCaps n parser w).map WedgeWriter.core
      = (contourLoop E fuel shaderCaps n parser w').map WedgeWriter.core := by
  induction n generalizing parser w w' with
  | zero =>
    rw [contourLoop, contourLoop]
    rcases parser.parseNextContour with _ | ⟨b, s1⟩
    · rfl
    · cases b <;> simp [Run.map, h]
  | succ n ih =>
    rw [contourLoop, contourLoop]
    rcases parser.parseNextContour with _ | ⟨b, s1⟩
    · rfl
    · cases b
      · simp [Run.map, h]
      · simp only
        rcases Run.map_eq_cases _ (prepareContour_core E fuel shaderCaps s1 w w' h) with
          ⟨s, s', e1, e2, e3⟩ | ⟨s, s', e1, e2, e3⟩ | ⟨e1, e2⟩
        · rw [e1, e2]; exact ih s1 s s' e3
        · rw [e1, e2]; simp [Run.map, e3]
        · rw [e1, e2]

theorem WedgeWriter.tracked_of_core {w w' : WedgeWriter} (h : w.core = w'.core) :
    w.tracked = w'.tracked := by
  obtain ⟨-, -, h3, h4, h5⟩ := WedgeWriter.core_eq h
  simp [WedgeWriter.tracked, h3, h4, h5]

theorem WedgeWriter.core_setMatrices {w w' : WedgeWriter} (h : w.tracked = w'.tracked)
    (shaderMatrix pathMatrix : SkMatrix) :
    (w.setMatrices shaderMatrix pathMatrix).core = (w'.setMatrices shaderMatrix pathMatrix).core := by
  simp only [WedgeWriter.tracked, Prod.mk.injEq] at h
  simp [WedgeWriter.setMatrices, WedgeWriter.core, h]

theorem pathLoop_tracked (E : Estimators) (fuel : Nat) (shaderCaps : GrShaderCaps)
    (viewMatrix : SkMatrix) (batch : List (SkMatrix × SkPath)) (w w' : WedgeWriter)
    (h : w.tracked = w'.tracked) :
    (pathLoop E fuel shaderCaps viewMatrix batch w).map WedgeWriter.tracked
      = (pathLoop E fuel shaderCaps viewMatrix batch w').map WedgeWriter.tracked := by
  induction batch generalizing w w' with
  | nil => simp [pathLoop, Run.map, h]
  | cons mp batch ih =>
    obtain ⟨m, path⟩ := mp
    rw [pathLoop, pathLoop]
    rcases Run.map_eq_cases _ (contourLoop_core E fuel shaderCaps path.fVerbs.length
        (MidpointContourParser.mk0 path) _ _ (WedgeWriter.core_setMatrices h viewMatrix m)) with
      ⟨s, s', e1, e2, e3⟩ | ⟨s, s', e1, e2, e3⟩ | ⟨e1, e2⟩
    · rw [e1, e2]; exact ih s s' (WedgeWriter.tracked_of_core e3)
    · rw [e1, e2]; simp [Run.map, WedgeWriter.tracked_of_core e3]
    · rw [e1, e2]

/-! ### Paths of Moves, Lines and Closes -/

theorem prims_of_isFlat (cs : List Contour) (h : (pathOf cs).IsFlat) :
    ∀ c ∈ cs, ∀ pr ∈ c.prims, (∃ p1, pr = Prim.line p1) ∨ pr = Prim.close := by
  intro c hc pr hpr
  have hv : pr.verb ∈ (pathOf cs).fVerbs := by
    simp only [pathOf, List.mem_flatMap]
    exact ⟨c, hc, by simp only [Contour.verbs, List.mem_cons, List.mem_map]; exact Or.inr ⟨pr, hpr, rfl⟩⟩
  have := h pr.verb hv
  cases pr with
  | line p1 => exact Or.inl ⟨p1, rfl⟩
  | close => exact Or.inr rfl
  | quad p1 p2 => simp [Prim.verb] at this
  | conic p1 p2 wt => simp [Prim.verb] at this
  | cubic p1 p2 p3 => simp [Prim.verb] at this

theorem writeElems_flat (E : Estimators) (fuel : Nat) (shaderCaps : GrShaderCaps)
    (midpoint : SkPoint) (prims : List Prim) (last : SkPoint) (c : ContourLocals)
    (h : ∀ pr ∈ prims, (∃ p1, pr = Prim.line p1) ∨ pr = Prim.close) :
    ∃ c1, writeElems E fuel shaderCaps midpoint (primElems last prims) c = Run.returned c1 ∧
      c1.wedgeWriter.core = c.wedgeWriter.core := by
  induction prims generalizing last c with
  | nil => exact ⟨c, rfl, rfl⟩
  | cons pr prims ih =>
    have hrest : ∀ q ∈ prims, (∃ p1, q = Prim.line p1) ∨ q = Prim.close :=
      fun q hq => h q (by simp [hq])
    rcases h pr (by simp) with ⟨p1, rfl⟩ | rfl
    · obtain ⟨c1, e1, e2⟩ := ih ((Prim.line p1).endPoint?.getD last)
        { c with
          wedgeWriter := c.wedgeWriter.writeFlatWedge shaderCaps last p1 midpoint
          lastPoint := p1 } hrest
      refine ⟨c1, ?_, e2.trans (writeFlatWedge_core _ _ _ _ _)⟩
      rw [primElems, writeElems]
      simp only [Prim.elem, writeElem]
      exact e1
    · obtain ⟨c1, e1, e2⟩ := ih (Prim.close.endPoint?.getD last) c hrest
      refine ⟨c1, ?_, e2⟩
      rw [primElems, writeElems]
      simp only [Prim.elem, writeElem]
      exact e1

theorem prepareContour_flat (E : Estimators) (fuel : Nat) (shaderCaps : GrShaderCaps)
    (s1 : MidpointContourParser) (w : WedgeWriter) (done rest : List Contour) (c : Contour)
    (hy : s1.Yielded done c rest)
    (h : ∀ pr ∈ c.prims, (∃ p1, pr = Prim.line p1) ∨ pr = Prim.close) :
    ∃ w2, prepareContour E fuel shaderCaps s1 w = Run.returned w2 ∧ w2.core = w.core := by
  have hcur := currentContour_yielded s1 done rest c hy
  obtain ⟨c1, e1, e2⟩ := writeElems_flat E fuel shaderCaps
    (w.fPathXform.mapPoint s1.currentMidpoint) c.prims c.start ⟨w, c.start, c.start⟩ h
  refine ⟨closeContour shaderCaps (w.fPathXform.mapPoint s1.currentMidpoint) c1, ?_, ?_⟩
  · simp only [prepareContour, hcur, Contour.elems, writeElems, writeElem, e1]
  · unfold closeContour
    split
    · rw [writeFlatWedge_core]; exact e2
    · exact e2

theorem contourLoop_flat (E : Estimators) (fuel : Nat) (shaderCaps : GrShaderCaps)
    (n : Nat) (rest : List Contour) (s : MidpointContourParser) (w : WedgeWriter)
    (done : List Contour) (h : s.AtBoundary done rest)
    (hflat : ∀ c ∈ rest, ∀ pr ∈ c.prims, (∃ p1, pr = Prim.line p1) ∨ pr = Prim.close)
    (hn : (rest.filter Contour.hasGeometry).length ≤ n) :
    ∃ w1, contourLoop E fuel shaderCaps n s w = Run.returned w1 ∧ w1.core = w.core := by
  induction n generalizing rest s w done with
  | zero =>
    have hall : ∀ c ∈ rest, c.hasGeometry = false := by
      intro c hc
      by_contra hg
      have : c ∈ rest.filter Contour.hasGeometry := List.mem_filter.mpr ⟨hc, by simpa using hg⟩
      have hlen : (rest.filter Contour.hasGeometry).length = 0 := by omega
      rw [List.length_eq_zero] at hlen
      rw [hlen] at this
      cases this
    obtain ⟨s1, hs1⟩ := MidpointContourParser.parseNextContour_done s done rest h hall
    exact ⟨w, by simp [contourLoop, hs1], rfl⟩
  | succ n ih =>
    rcases split_at_geometry rest with hall | ⟨junk, c, rest1, hsplit, hjunk, hc⟩
    · obtain ⟨s1, hs1⟩ := MidpointContourParser.parseNextContour_done s done rest h hall
      exact ⟨w, by simp [contourLoop, hs1], rfl⟩
    · subst hsplit
      obtain ⟨s1, h1, h2, -, -⟩ :=
        MidpointContourParser.parseNextContour_yield s done junk rest1 c h hjunk hc
      obtain ⟨w2, e1, e2⟩ := prepareContour_flat E fuel shaderCaps s1 w _ _ c h2
        (hflat c (by simp))
      have hn1 : (rest1.filter Contour.hasGeometry).length ≤ n := by
        have hj : junk.filter Contour.hasGeometry = [] := by
          rw [List.filter_eq_nil_iff]
          intro j hj
          simp [hjunk j hj]
        rw [List.filter_append, hj, List.nil_append, List.filter_cons_of_pos hc] at hn
        simpa using hn
      obtain ⟨w1, f1, f2⟩ := ih rest1 s1 w2 (done ++ junk ++ [c]) h2.atBoundary
        (fun c1 hc1 => hflat c1 (by simp [hc1])) hn1
      exact ⟨w1, by simp [contourLoop, h1, e1, f1], f2.trans e2⟩

theorem pathLoop_cons_flat (E : Estimators) (fuel : Nat) (shaderCaps : GrShaderCaps)
    (viewMatrix pathMatrix : SkMatrix) (cs : List Contour) (post : List (SkMatrix × SkPath))
    (w : WedgeWriter) (h : (pathOf cs).IsFlat) :
    ∃ w2, pathLoop E fuel shaderCaps viewMatrix ((pathMatrix, pathOf cs) :: post) w
        = pathLoop E fuel shaderCaps viewMatrix post w2 ∧ w2.tracked = w.tracked := by
  obtain ⟨w2, e1, e2⟩ := contourLoop_flat E fuel shaderCaps (pathOf cs).fVerbs.length cs
    (MidpointContourParser.mk0 (pathOf cs)) (w.setMatrices viewMatrix pathMatrix) []
    (MidpointContourParser.atBoundary_mk0 cs) (prims_of_isFlat cs h)
    (length_filter_hasGeometry_le cs)
  refine ⟨w2, ?_, ?_⟩
  · rw [pathLoop]
    simp only [e1]
  · exact (WedgeWriter.tracked_of_core e2).trans rfl

theorem pathLoop_append (E : Estimators) (fuel : Nat) (shaderCaps : GrShaderCaps)
    (viewMatrix : SkMatrix) (pre post : List (SkMatrix × SkPath)) (w : WedgeWriter) :
    pathLoop E fuel shaderCaps viewMatrix (pre ++ post) w
      = (pathLoop E fuel shaderCaps viewMatrix pre w).andThen
          (pathLoop E fuel shaderCaps viewMatrix post) := by
  induction pre generalizing w with
  | nil => rfl
  | cons mp pre ih =>
    obtain ⟨m, path⟩ := mp
    rw [List.cons_append, pathLoop, pathLoop]
    cases contourLoop E fuel shaderCaps path.fVerbs.length (MidpointContourParser.mk0 path)
        (w.setMatrices viewMatrix m) with
    | returned w2 => exact ih w2
    | unfinished w2 => rfl
    | fault => rfl

theorem pathLoop_insert_flat (E : Estimators) (fuel : Nat) (shaderCaps : GrShaderCaps)
    (viewMatrix pathMatrix : SkMatrix) (cs : List Contour) (pre post : List (SkMatrix × SkPath))
    (w w' : WedgeWriter) (h : (pathOf cs).IsFlat) (hw : w'.tracked = w.tracked) :
    (pathLoop E fuel shaderCaps viewMatrix (pre ++ (pathMatrix, pathOf cs) :: post) w').map
        WedgeWriter.tracked
      = (pathLoop E fuel shaderCaps viewMatrix (pre ++ post) w).map WedgeWriter.tracked := by
  rw [pathLoop_append, pathLoop_append]
  rcases Run.map_eq_cases _ (pathLoop_tracked E fuel shaderCaps viewMatrix pre w' w hw) with
    ⟨s, s', e1, e2, e3⟩ | ⟨s, s', e1, e2, e3⟩ | ⟨e1, e2⟩
  · rw [e1, e2]
    simp only [Run.andThen]
    obtain ⟨w2, f1, f2⟩ := pathLoop_cons_flat E fuel shaderCaps viewMatrix pathMatrix cs post s h
    rw [f1]
    exact pathLoop_tracked E fuel shaderCaps viewMatrix post w2 s' (f2.trans e3)
  · rw [e1, e2]; simp [Run.andThen, Run.map, e3]
  · rw [e1, e2]; rfl

theorem pathLoop_flat (E : Estimators) (fuel : Nat) (shaderCaps : GrShaderCaps)
    (viewMatrix : SkMatrix) (batch : List (SkMatrix × List Contour)) (w : WedgeWriter)
    (h : ∀ mp ∈ batch, (pathOf mp.2).IsFlat) :
    ∃ w1, pathLoop E fuel shaderCaps viewMatrix (drawListOf batch) w = Run.returned w1 ∧
      w1.tracked = w.tracked := by
  induction batch generalizing w with
  | nil => exact ⟨w, rfl, rfl⟩
  | cons mp batch ih =>
    obtain ⟨m, cs⟩ := mp
    obtain ⟨w2, f1, f2⟩ := pathLoop_cons_flat E fuel shaderCaps viewMatrix m cs
      (drawListOf batch) w (h (m, cs) (by simp))
    obtain ⟨w1, g1, g2⟩ := ih w2 (fun mp hmp => h mp (by simp [hmp]))
    exact ⟨w1, f1.trans g1, g2.trans f2⟩

theorem prepareWedges_of_pos (E : Estimators) (fuel : Nat) (t : PathWedgeTessellator)
    (target : GrMeshDrawTarget) (pathDrawList : List (SkMatrix × SkPath))
    (totalCombinedPathVerbCnt : Nat) (hn : 0 < totalCombinedPathVerbCnt) :
    ∃ w0, t.prepareWedges E fuel target pathDrawList totalCombinedPathVerbCnt
        = some (pathLoop E fuel target.shaderCaps t.fShader.viewMatrix pathDrawList w0) ∧
      w0.tracked = (WedgeWriter.mk0 target.makeVertexSpaceAtLeast [] 0 0
        (t.maxSegments target)).tracked := by
  have halloc : ¬ (MaxCombinedFanEdgesInPathDrawList totalCombinedPathVerbCnt * 5 + 3) / 4
      = 0 := by
    unfold MaxCombinedFanEdgesInPathDrawList
    omega
  exact ⟨WedgeWriter.mk0 target.makeVertexSpaceAtLeast t.fVertexChunkArray
      (if t.fShader.willUseTessellationShaders then t.fShader.vertexStride * 5
        else t.fShader.instanceStride)
      ((MaxCombinedFanEdgesInPathDrawList totalCombinedPathVerbCnt * 5 + 3) / 4)
      (t.maxSegments target),
    by simp only [PathWedgeTessellator.prepareWedges, halloc, if_false,
      PathWedgeTessellator.maxSegments], rfl⟩

theorem fixedIndexCount_of_tracked (t t' : PathWedgeTessellator) (target : GrMeshDrawTarget)
    (w w' : WedgeWriter) (hs : t'.fShader = t.fShader)
    (hi : t'.fFixedIndexCount = t.fFixedIndexCount) (h : w'.tracked = w.tracked) :
    (PathWedgeTessellator.prepareFixedCount t' target w').1.fFixedIndexCount
      = (PathWedgeTessellator.prepareFixedCount t target w).1.fFixedIndexCount := by
  simp only [WedgeWriter.tracked, Prod.mk.injEq] at h
  unfold PathWedgeTessellator.prepareFixedCount PathWedgeTessellator.nextlog16Argument
    WedgeWriter.numFixedSegments_pow4
  rw [hs, h.2.2]
  split
  · rfl
  · exact hi

/-- C19 (amended): let the batch `pre ++ post` and the batch with the well-formed path
`pathOf cs` of Moves, Lines and Closes inserted between `pre` and `post` both come with a
non-zero total verb count. Then `prepare` ends the same way on both (it returns on both, or on
neither) with the same `fFixedIndexCount`; when its loop over the paths returns on the first
batch it returns on the second with the same tracked maximum and the same fixed resolve level;
and on a batch made only of such paths the loop returns with the tracked maximum at its initial
value 1. -/
theorem C19_inserting_flat_path_keeps_tracked_maximum (E : Estimators) (fuel : Nat)
    (t : PathWedgeTessellator) (target : GrMeshDrawTarget) (pre post : List (SkMatrix × SkPath))
    (pathMatrix : SkMatrix) (cs : List Contour) (n n' : Nat)
    (hflat : (pathOf cs).IsFlat) (hn : 0 < n) (hn' : 0 < n') :
    (t.prepare E fuel target (pre ++ (pathMatrix, pathOf cs) :: post) n').map
        (fun r => r.1.fFixedIndexCount)
      = (t.prepare E fuel target (pre ++ post) n).map (fun r => r.1.fFixedIndexCount) ∧
    (∀ w, t.preparedWriter E fuel target (pre ++ post) n = some w →
      ∃ w', t.preparedWriter E fuel target (pre ++ (pathMatrix, pathOf cs) :: post) n'
          = some w' ∧
        w'.fNumFixedSegments_pow4 = w.fNumFixedSegments_pow4 ∧
        wangs_formula.nextlog16 (PathWedgeTessellator.nextlog16Argument w')
          = wangs_formula.nextlog16 (PathWedgeTessellator.nextlog16Argument w)) ∧
    (∀ batch : List (SkMatrix × List Contour), (∀ mp ∈ batch, (pathOf mp.2).IsFlat) →
      ∃ w, t.preparedWriter E fuel target (drawListOf batch) n = some w ∧
        w.fNumFixedSegments_pow4 = 1) := by
  obtain ⟨w0, e0, t0⟩ := prepareWedges_of_pos E fuel t target (pre ++ post) n hn
  obtain ⟨w0', e0', t0'⟩ := prepareWedges_of_pos E fuel t target
    (pre ++ (pathMatrix, pathOf cs) :: post) n' hn'
  have hrel := pathLoop_insert_flat E fuel target.shaderCaps t.fShader.viewMatrix pathMatrix cs
    pre post w0 w0' hflat (t0'.trans t0.symm)
  refine ⟨?_, ?_, ?_⟩
  · unfold PathWedgeTessellator.prepare
    rw [e0, e0']
    rcases Run.map_eq_cases _ hrel with ⟨s, s', e1, e2, e3⟩ | ⟨s, s', e1, e2, e3⟩ | ⟨e1, e2⟩
    · rw [e1, e2]
      simp only [Run.map, Run.returned.injEq]
      exact fixedIndexCount_of_tracked _ _ target s' s rfl rfl e3
    · rw [e1, e2]; rfl
    · rw [e1, e2]
  · intro w hw
    unfold PathWedgeTessellator.preparedWriter at hw ⊢
    rw [e0] at hw
    rw [e0']
    rcases Run.map_eq_cases _ hrel with ⟨s, s', e1, e2, e3⟩ | ⟨s, s', e1, e2, e3⟩ | ⟨e1, e2⟩
    · rw [e2] at hw
      simp only [Option.some.injEq] at hw
      subst hw
      simp only [WedgeWriter.tracked, Prod.mk.injEq] at e3
      refine ⟨s, by rw [e1], e3.2.2, ?_⟩
      unfold PathWedgeTessellator.nextlog16Argument WedgeWriter.numFixedSegments_pow4
      rw [e3.2.2]
    · rw [e2] at hw; simp at hw
    · rw [e2] at hw; simp at hw
  · intro batch hb
    obtain ⟨w1, e1, t1⟩ := prepareWedges_of_pos E fuel t target (drawListOf batch) n hn
    obtain ⟨w, f1, f2⟩ := pathLoop_flat E fuel target.shaderCaps t.fShader.viewMatrix batch w1 hb
    refine ⟨w, ?_, ?_⟩
    · unfold PathWedgeTessellator.preparedWriter
      rw [e1, f1]
    · have := f2.trans t1
      simp only [WedgeWriter.tracked, Prod.mk.injEq] at this
      exact this.2.2

/-- C19 (amended) on the batch of the quadratic `M(0,0) Q(0,0)(4,1/2)` alone, with 2 verbs, and
with the line-only path `M(0,0) L(1,0)` inserted after it, with 4 verbs: `prepare` returns on
both with `fFixedIndexCount = 6`. -/
theorem C19_flat_path_after_quadratic :
    (pathOf [Sample.openContour]).IsFlat ∧ (0 < 2) ∧ (0 < 4) ∧
    (Sample.tessellator.prepare Sample.estimators 1 Sample.target
        ([(SkMatrix.I, pathOf [Sample.quadContour])]
          ++ (SkMatrix.I, pathOf [Sample.openContour]) :: []) 4).map
        (fun r => r.1.fFixedIndexCount)
      = (Sample.tessellator.prepare Sample.estimators 1 Sample.target
          ([(SkMatrix.I, pathOf [Sample.quadContour])] ++ []) 2).map
          (fun r => r.1.fFixedIndexCount) ∧
    ((Sample.tessellator.prepare Sample.estimators 1 Sample.target
        ([(SkMatrix.I, pathOf [Sample.quadContour])] ++ []) 2).state?.map
          fun r => (r.1.fFixedIndexCount, r.1.patches.length)) = some (6, 2) ∧
    ((Sample.tessellator.prepare Sample.estimators 1 Sample.target
        ([(SkMatrix.I, pathOf [Sample.quadContour])]
          ++ (SkMatrix.I, pathOf [Sample.openContour]) :: []) 4).state?.map
          fun r => (r.1.fFixedIndexCount, r.1.patches.length)) = some (6, 4) := by
  have hflat : (pathOf [Sample.openContour]).IsFlat := by
    unfold SkPath.IsFlat
    decide
  exact ⟨hflat, by decide, by decide,
    (C19_inserting_flat_path_keeps_tracked_maximum Sample.estimators 1 Sample.tessellator
      Sample.target [(SkMatrix.I, pathOf [Sample.quadContour])] [] SkMatrix.I
      [Sample.openContour] 2 4 hflat (by decide) (by decide)).1,
    by decide!, by decide!⟩

/-- C19 as stated fails on the empty batch: with no path the total verb count is 0, `prepare`
returns before it makes a writer and leaves `fFixedIndexCount` as it was (0 in the sample
tessellator); with the line-only path `M(0,0) L(1,0)` inserted the total verb count is 2 and
`prepare`, in fixed-count mode, derives the resolve level 0 from the tracked maximum 1 and sets
`fFixedIndexCount` to 3. -/
theorem C19_empty_batch_changes_index_count :
    (pathOf [Sample.openContour]).IsFlat ∧
    (pathOf [Sample.openContour]).fVerbs.length = 2 ∧
    Sample.tessellator.prepare Sample.estimators 1 Sample.target ([] ++ []) 0
      = Run.returned (Sample.tessellator, Sample.target) ∧
    Sample.tessellator.fFixedIndexCount = 0 ∧
    (Sample.tessellator.prepare Sample.estimators 1 Sample.target
        ([] ++ (SkMatrix.I, pathOf [Sample.openContour]) :: []) 2).isReturned = true ∧
    ((Sample.tessellator.prepare Sample.estimators 1 Sample.target
        ([] ++ (SkMatrix.I, pathOf [Sample.openContour]) :: []) 2).state?.map
          fun r => r.1.fFixedIndexCount) = some 3 := by
  refine ⟨?_, rfl, rfl, rfl, by decide!, by decide!⟩
  unfold SkPath.IsFlat
  decide

/-! ### The allocation count -/

theorem wrapInt32_of_range (x : Int) (h1 : -2147483648 ≤ x) (h2 : x < 2147483648) :
    wrapInt32 x = x := by
  unfold wrapInt32
  omega

/-- C21: for every wedge bound `n ≥ 0` with `5 n + 3` representable as a 32-bit `int`,
`wedgeAllocCount = (5 n + 3) / 4` equals `ceil(5 n / 4) = n + ceil(n / 4)`, is at least `n`
and is 0 exactly when `n = 0`; in that range the 32-bit computation agrees with the same
expression over the natural numbers. -/
theorem C21_wedgeAllocCount_is_ceil (n : Int) (h0 : 0 ≤ n) (h : n * 5 + 3 ≤ 2147483647) :
    PathWedgeTessellator.wedgeAllocCount n = ⌈(5 * n : ℚ) / 4⌉ ∧
    PathWedgeTessellator.wedgeAllocCount n = n + ⌈(n : ℚ) / 4⌉ ∧
    n ≤ PathWedgeTessellator.wedgeAllocCount n ∧
    (PathWedgeTessellator.wedgeAllocCount n = 0 ↔ n = 0) ∧
    PathWedgeTessellator.wedgeAllocCount n = (((n.toNat * 5 + 3) / 4 : Nat) : Int) := by
  have hw : PathWedgeTessellator.wedgeAllocCount n = (n * 5 + 3) / 4 := by
    unfold PathWedgeTessellator.wedgeAllocCount
    rw [wrapInt32_of_range (n * 5) (by omega) (by omega),
      wrapInt32_of_range (n * 5 + 3) (by omega) (by omega),
      Int.tdiv_eq_ediv (by omega) (by omega)]
  have hq1 : 4 * ((n * 5 + 3) / 4) ≤ n * 5 + 3 := by omega
  have hq2 : n * 5 + 3 < 4 * ((n * 5 + 3) / 4) + 4 := by omega
  refine ⟨?_, ?_, ?_, ?_, ?_⟩
  · rw [hw, eq_comm, Int.ceil_eq_iff]
    have c1 : ((4 * ((n * 5 + 3) / 4) : ℤ) : ℚ) ≤ ((n * 5 + 3 : ℤ) : ℚ) := by exact_mod_cast hq1
    have c2 : ((n * 5 + 3 + 1 : ℤ) : ℚ) ≤ ((4 * ((n * 5 + 3) / 4) + 4 : ℤ) : ℚ) := by
      exact_mod_cast hq2
    push_cast at c1 c2 ⊢
    constructor <;> linarith
  · rw [hw]
    have : ⌈(n : ℚ) / 4⌉ = (n + 3) / 4 := by
      rw [Int.ceil_eq_iff]
      have d1 : ((4 * ((n + 3) / 4) : ℤ) : ℚ) ≤ ((n + 3 : ℤ) : ℚ) := by
        exact_mod_cast (by omega : 4 * ((n + 3) / 4) ≤ n + 3)
      have d2 : ((n + 3 + 1 : ℤ) : ℚ) ≤ ((4 * ((n + 3) / 4) + 4 : ℤ) : ℚ) := by
        exact_mod_cast (by omega : n + 3 + 1 ≤ 4 * ((n + 3) / 4) + 4)
      push_cast at d1 d2 ⊢
      constructor <;> linarith
    rw [this]
    omega
  · rw [hw]; omega
  · rw [hw]; omega
  · rw [hw]
    have : ((n.toNat : ℕ) : ℤ) = n := Int.toNat_of_nonneg h0
    omega

/-- C21 at `n = 5`: `(5 * 5 + 3) / 4 = 7 = ceil(25 / 4) = 5 + ceil(5 / 4)`. -/
theorem C21_wedgeAllocCount_of_five :
    (0 : Int) ≤ 5 ∧ (5 : Int) * 5 + 3 ≤ 2147483647 ∧
    PathWedgeTessellator.wedgeAllocCount 5 = 7 ∧
    PathWedgeTessellator.wedgeAllocCount 5 = ⌈(5 * (5 : Int) : ℚ) / 4⌉ ∧
    PathWedgeTessellator.wedgeAllocCount 5 = 5 + ⌈((5 : Int) : ℚ) / 4⌉ :=
  ⟨by decide, by decide, by decide,
    (C21_wedgeAllocCount_is_ceil 5 (by decide) (by decide)).1,
    (C21_wedgeAllocCount_is_ceil 5 (by decide) (by decide)).2.1⟩

/-! ### The draws of `draw` -/

theorem foldl_append_calls (f : GrVertexChunk → List FlushCall) (chunks : List GrVertexChunk)
    (fs : List FlushCall) :
    chunks.foldl (fun fs chunk => fs ++ f chunk) fs = fs ++ chunks.flatMap f := by
  induction chunks generalizing fs with
  | nil => simp
  | cons c cs ih => simp [List.foldl_cons, ih, List.flatMap_cons, List.append_assoc]

/-- C22: `draw` adds, for each vertex chunk in turn, one `bindBuffers` and one draw. In
hardware-tessellation mode the chunk's buffer is bound as the vertex buffer and the draw is
`draw(chunk.fCount * 5, chunk.fBase * 5)`; in fixed-count mode the shared index and vertex
buffers are bound with the chunk's buffer as the instance buffer and the draw is
`drawIndexedInstanced(fFixedIndexCount, 0, chunk.fCount, chunk.fBase, 0)`. There are as many
draws as chunks, and in hardware-tessellation mode the patch stride `prepare` gives its writer
is `5 * vertexStride`. -/
theorem C22_draw_one_draw_per_chunk (t : PathWedgeTessellator) (flushState : List FlushCall) :
    t.draw flushState = flushState ++ t.fVertexChunkArray.flatMap (fun chunk =>
      if t.fShader.willUseTessellationShaders then
        [FlushCall.bindBuffers none none (some chunk.fBuffer),
         FlushCall.draw (chunk.fCount * 5) (chunk.fBase * 5)]
      else
        [FlushCall.bindBuffers t.fFixedCountIndexBuffer (some chunk.fBuffer)
           t.fFixedCountVertexBuffer,
         FlushCall.drawIndexedInstanced t.fFixedIndexCount 0 chunk.fCount chunk.fBase 0]) ∧
    ((t.draw []).filter FlushCall.isDraw).length = t.fVertexChunkArray.length ∧
    ∀ (E : Estimators) (fuel : Nat) (target : GrMeshDrawTarget)
      (pathDrawList : List (SkMatrix × SkPath)) (totalCombinedPathVerbCnt : Nat)
      (run : Run WedgeWriter),
      t.fShader.willUseTessellationShaders = true →
      t.prepareWedges E fuel target pathDrawList totalCombinedPathVerbCnt = some run →
      run = pathLoop E fuel target.shaderCaps t.fShader.viewMatrix pathDrawList
        (WedgeWriter.mk0 target.makeVertexSpaceAtLeast t.fVertexChunkArray
          (t.fShader.vertexStride * 5)
          ((MaxCombinedFanEdgesInPathDrawList totalCombinedPathVerbCnt * 5 + 3) / 4)
          target.shaderCaps.maxTessellationSegments) := by
  have hdraw : t.draw flushState = flushState ++ t.fVertexChunkArray.flatMap (fun chunk =>
      if t.fShader.willUseTessellationShaders then
        [FlushCall.bindBuffers none none (some chunk.fBuffer),
         FlushCall.draw (chunk.fCount * 5) (chunk.fBase * 5)]
      else
        [FlushCall.bindBuffers t.fFixedCountIndexBuffer (some chunk.fBuffer)
           t.fFixedCountVertexBuffer,
         FlushCall.drawIndexedInstanced t.fFixedIndexCount 0 chunk.fCount chunk.fBase 0]) := by
    unfold PathWedgeTessellator.draw
    split
    · simp only [List.append_assoc, List.singleton_append]
      exact foldl_append_calls _ _ _
    · simp only [List.append_assoc, List.singleton_append]
      exact foldl_append_calls _ _ _
  have hcount : ∀ (fs : List FlushCall),
      ((t.draw fs).filter FlushCall.isDraw).length
        = (fs.filter FlushCall.isDraw).length + t.fVertexChunkArray.length := by
    intro fs
    unfold PathWedgeTessellator.draw
    split
    · induction t.fVertexChunkArray generalizing fs with
      | nil => simp
      | cons c cs ih =>
        rw [List.foldl_cons, ih]
        simp [List.filter_append, FlushCall.isDraw]
        omega
    · induction t.fVertexChunkArray generalizing fs with
      | nil => simp
      | cons c cs ih =>
        rw [List.foldl_cons, ih]
        simp [List.filter_append, FlushCall.isDraw]
        omega
  refine ⟨hdraw, by simpa using hcount [], ?_⟩
  intro E fuel target pathDrawList n run htess hrun
  unfold PathWedgeTessellator.prepareWedges at hrun
  simp only [htess, if_true] at hrun
  split at hrun
  · cases hrun
  · exact (Option.some.inj hrun).symm

/-! ### Moves within one call of `parseNextContour` -/

/-- C24 (amended): within one call of `parseNextContour` on a well-formed path, every Move met
before a Line, Quad, Conic or Cubic of that call (the Moves of the contours `junk`, then the
Move of `c`) seeds the midpoint accumulator anew and restarts the contour there, so that the
contour exposed starts at the last of them, the Move of `c`, and the accumulator holds the
sample points of `c` alone; the first Move met after geometry ends the contour: the call
returns true with that Move, the first verb of `rest`, left unconsumed. -/
theorem C24_moves_before_geometry_reseed (s : MidpointContourParser)
    (done junk rest : List Contour) (c : Contour)
    (h : s.AtBoundary done (junk ++ c :: rest))
    (hjunk : ∀ j ∈ junk, j.hasGeometry = false) (hc : c.hasGeometry = true) :
    ∃ s1, s.parseNextContour = some (true, s1) ∧
      s1.fVerbs = ((done ++ junk).flatMap Contour.verbs).length ∧
      s1.currentVerbs = c.verbs ∧
      s1.fMidpoint = c.midpointSum ∧ s1.fMidpointWeight = c.endPoints.length + 1 ∧
      s1.remainingVerbs = rest.flatMap Contour.verbs := by
  obtain ⟨s1, h1, hy, h3, h4⟩ :=
    MidpointContourParser.parseNextContour_yield s done junk rest c h hjunk hc
  exact ⟨s1, h1, hy.verbs, hy.currentVerbs, h3, h4, hy.atBoundary.drop_verbs⟩

/-- C24 (amended) on the path of `test_winding_merged_to_zero`: the first call meets the Move
to `(20,80)` and then the Move to `(70,-1/1000000)` before any geometry; the contour exposed
starts at the second Move and the third Move is left unconsumed. -/
theorem C24_moves_of_merged_to_zero :
    ∃ s1, (MidpointContourParser.mk0 (pathOf Sample.mergedToZero)).parseNextContour
        = some (true, s1) ∧
      s1.fVerbs = 1 ∧
      s1.currentVerbs
        = [SkPathVerb.kMove, SkPathVerb.kLine, SkPathVerb.kLine, SkPathVerb.kLine] ∧
      s1.remainingVerbs = [SkPathVerb.kMove, SkPathVerb.kLine, SkPathVerb.kLine] := by
  obtain ⟨s1, h1, h2, h3, -, -, h6⟩ := C24_moves_before_geometry_reseed
    (MidpointContourParser.mk0 (pathOf Sample.mergedToZero)) []
    [⟨⟨20, 80⟩, []⟩]
    [⟨⟨50, 50⟩, [Prim.line ⟨50, -50⟩, Prim.line ⟨10, 50⟩]⟩]
    ⟨⟨70, -1 / 1000000⟩, [Prim.line ⟨70, 0⟩, Prim.line ⟨60, -30⟩, Prim.line ⟨40, 20⟩]⟩
    (MidpointContourParser.atBoundary_mk0 Sample.mergedToZero) (by decide) (by decide)
  exact ⟨s1, h1, h2, h3, h6⟩

/-- C24 as stated fails on the path of `test_winding_merged_to_zero`, whose first two verbs
are Moves: the second Move met in the first call does not end the contour. The call goes on
past it to verb 5, the contour it exposes starts at verb 1, the second Move, and the midpoint
accumulator is seeded by the second Move: it holds `(70,-1/1000000) + (70,0) + (60,-30) +
(40,20)` with weight 4. -/
theorem C24_second_move_reseeds :
    (pathOf Sample.mergedToZero).fVerbs.take 2 = [SkPathVerb.kMove, SkPathVerb.kMove] ∧
    ((MidpointContourParser.mk0 (pathOf Sample.mergedToZero)).parseNextContour.map fun r =>
        (r.1, r.2.fVerbs, r.2.fVerbs + r.2.fVerbsIdx, r.2.fMidpoint, r.2.fMidpointWeight))
      = some (true, 1, 5, ⟨240, -10000001 / 1000000⟩, 4) := by
  decide!

/-! ### The reads of `parseNextContour` -/

/-- A verb array that starts with a Move, with exactly the points and weights it requires, is
the array of a sequence of contours. -/
theorem exists_contours_of_exact (vs : List SkPathVerb) :
    ∀ (pts : List SkPoint) (wts : List ℚ), vs ≠ [] → vs.head? = some SkPathVerb.kMove →
      pts.length = (vs.map SkPathVerb.numPoints).sum →
      wts.length = (vs.map SkPathVerb.numWeights).sum →
      ∃ cs : List Contour, cs ≠ [] ∧ cs.flatMap Contour.verbs = vs ∧
        cs.flatMap Contour.points = pts ∧ cs.flatMap Contour.weights = wts := by
  induction vs using List.reverseRecOn with
  | nil => intro pts wts h; exact absurd rfl h
  | append_singleton vs v ih =>
    intro pts wts _ hhead hp hw
    simp only [List.map_append, List.sum_append, List.map_cons, List.map_nil, List.sum_cons,
      List.sum_nil, add_zero] at hp hw
    by_cases hvs : vs = []
    · subst hvs
      simp only [List.nil_append, List.head?_cons, Option.some.injEq] at hhead
      subst hhead
      simp only [List.map_nil, List.sum_nil, zero_add, SkPathVerb.numPoints,
        SkPathVerb.numWeights] at hp hw
      obtain ⟨p, rfl⟩ := List.length_eq_one.mp hp
      rw [List.length_eq_zero] at hw
      subst hw
      exact ⟨[⟨p, []⟩], by simp, by simp [Contour.verbs], by simp [Contour.points],
        by simp [Contour.weights]⟩
    · have hhead' : vs.head? = some SkPathVerb.kMove := by
        cases vs with
        | nil => exact absurd rfl hvs
        | cons a l => simpa using hhead
      set np := (vs.map SkPathVerb.numPoints).sum with hnp
      set nw := (vs.map SkPathVerb.numWeights).sum with hnw
      obtain ⟨cs, hne, e1, e2, e3⟩ := ih (pts.take np) (wts.take nw) hvs hhead'
        (by rw [List.length_take]; omega) (by rw [List.length_take]; omega)
      have hpl : (pts.drop np).length = v.numPoints := by rw [List.length_drop]; omega
      have hwl : (wts.drop nw).length = v.numWeights := by rw [List.length_drop]; omega
      have hpts : pts = pts.take np ++ pts.drop np := (List.take_append_drop np pts).symm
      have hwts : wts = wts.take nw ++ wts.drop nw := (List.take_append_drop nw wts).symm
      obtain ⟨init, c, rfl⟩ : ∃ init c, cs = init ++ [c] :=
        ⟨cs.dropLast, cs.getLast hne, (List.dropLast_append_getLast hne).symm⟩
      have key : ∀ pr : Prim, pr.verb = v → pr.points = pts.drop np →
          pr.weights = wts.drop nw →
          ∃ cs : List Contour, cs ≠ [] ∧ cs.flatMap Contour.verbs = vs ++ [v] ∧
            cs.flatMap Contour.points = pts ∧ cs.flatMap Contour.weights = wts := by
        intro pr h1 h2 h3
        refine ⟨init ++ [⟨c.start, c.prims ++ [pr]⟩], by simp, ?_, ?_, ?_⟩
        · rw [← e1]
          simp [List.flatMap_append, Contour.verbs, h1]
        · rw [hpts, ← e2]
          simp [List.flatMap_append, Contour.points, h2]
        · rw [hwts, ← e3]
          simp [List.flatMap_append, Contour.weights, h3]
      cases v with
      | kMove =>
        simp only [SkPathVerb.numPoints, SkPathVerb.numWeights] at hpl hwl
        obtain ⟨p, hp1⟩ := List.length_eq_one.mp hpl
        rw [List.length_eq_zero] at hwl
        refine ⟨init ++ [c] ++ [⟨p, []⟩], by simp, ?_, ?_, ?_⟩
        · rw [List.flatMap_append, e1]; simp [Contour.verbs]
        · have hfin : pts.take np ++ [p] = pts := by rw [← hp1]; exact List.take_append_drop _ _
          rw [List.flatMap_append, e2]
          simpa [Contour.points] using hfin
        · have hfin : wts.take nw = wts := by
            have := List.take_append_drop nw wts
            rw [hwl, List.append_nil] at this
            exact this
          rw [List.flatMap_append, e3]
          simpa [Contour.weights] using hfin
      | kLine =>
        simp only [SkPathVerb.numPoints, SkPathVerb.numWeights] at hpl hwl
        obtain ⟨p, hp1⟩ := List.length_eq_one.mp hpl
        rw [List.length_eq_zero] at hwl
        exact key (Prim.line p) rfl (by rw [hp1]; rfl) (by rw [hwl]; rfl)
      | kQuad =>
        simp only [SkPathVerb.numPoints, SkPathVerb.numWeights] at hpl hwl
        obtain ⟨p, q, hp1⟩ := List.length_eq_two.mp hpl
        rw [List.length_eq_zero] at hwl
        exact key (Prim.quad p q) rfl (by rw [hp1]; rfl) (by rw [hwl]; rfl)
      | kConic =>
        simp only [SkPathVerb.numPoints, SkPathVerb.numWeights] at hpl hwl
        obtain ⟨p, q, hp1⟩ := List.length_eq_two.mp hpl
        obtain ⟨w, hw1⟩ := List.length_eq_one.mp hwl
        exact key (Prim.conic p q w) rfl (by rw [hp1]; rfl) (by rw [hw1]; rfl)
      | kCubic =>
        simp only [SkPathVerb.numPoints, SkPathVerb.numWeights] at hpl hwl
        obtain ⟨p, q, r, hp1⟩ := List.length_eq_three.mp hpl
        rw [List.length_eq_zero] at hwl
        exact key (Prim.cubic p q r) rfl (by rw [hp1]; rfl) (by rw [hwl]; rfl)
      | kClose =>
        simp only [SkPathVerb.numPoints, SkPathVerb.numWeights] at hpl hwl
        rw [List.length_eq_zero] at hpl hwl
        exact key Prim.close rfl (by rw [hpl]; rfl) (by rw [hwl]; rfl)

theorem exists_pathOf_of_exact (path : SkPath) (h : path.HasExactArrays) :
    ∃ cs, path = pathOf cs := by
  obtain ⟨h1, h2, h3⟩ := h
  have hne : path.fVerbs ≠ [] := by
    intro h0
    rw [h0] at h1
    cases h1
  obtain ⟨cs, -, e1, e2, e3⟩ := exists_contours_of_exact path.fVerbs path.fPts
    path.fConicWeights hne h1 h2 h3
  refine ⟨cs, ?_⟩
  cases path
  simp only [pathOf] at *
  rw [e1, e2, e3]

theorem length_filterMap_endPoint_pos (prims : List Prim)
    (h : prims.any Prim.isGeometry = true) : 1 ≤ (prims.filterMap Prim.endPoint?).length := by
  induction prims with
  | nil => simp at h
  | cons pr prs ih =>
    cases hp : pr.endPoint? with
    | some e => simp [List.filterMap_cons, hp]
    | none =>
      have : prs.any Prim.isGeometry = true := by
        simpa [List.any_cons, Prim.isGeometry, hp] using h
      simpa [List.filterMap_cons, hp] using ih this

theorem Contour.endPoints_pos (c : Contour) (h : c.hasGeometry = true) :
    1 ≤ c.endPoints.length :=
  length_filterMap_endPoint_pos c.prims h

/-- C29: for every path whose verb array starts with a Move and whose point and conic-weight
arrays hold exactly the points and weights its verbs require, every call of `parseNextContour`
on a state reached by earlier calls returns a flag and a state: none of its reads
(`fVerbs[fVerbsIdx]`, `fPoints[fPtsIdx]` at a seeding Move, `fPoints[fPtsIdx - 1]` after a
geometry verb) falls outside the arrays of the path. Whenever the flag is true
`fMidpointWeight >= 2`, so that `currentMidpoint` does not divide by zero. -/
theorem C29_reads_in_bounds_and_weight_positive (path : SkPath) (h : path.HasExactArrays)
    (s : MidpointContourParser)
    (hr : MidpointContourParser.ReachedFrom (MidpointContourParser.mk0 path) s) :
    ∃ flag s1, s.parseNextContour = some (flag, s1) ∧
      (flag = true → 2 ≤ s1.fMidpointWeight ∧ (s1.fMidpointWeight : ℚ) ≠ 0) := by
  obtain ⟨cs, rfl⟩ := exists_pathOf_of_exact path h
  obtain ⟨done, rest, hb, -, -⟩ :=
    hr.stays_at_boundary (MidpointContourParser.atBoundary_mk0 cs)
  rcases split_at_geometry rest with hall | ⟨junk, c, rest1, hsplit, hjunk, hc⟩
  · obtain ⟨s1, h1, -⟩ :=
      MidpointContourParser.parseNextContour_done_atBoundary s done rest hb hall
    exact ⟨false, s1, h1, fun hf => by cases hf⟩
  · subst hsplit
    obtain ⟨s1, h1, -, -, h4⟩ :=
      MidpointContourParser.parseNextContour_yield s done junk rest1 c hb hjunk hc
    have hpos := Contour.endPoints_pos c hc
    refine ⟨true, s1, h1, fun _ => ⟨by omega, ?_⟩⟩
    rw [h4]
    exact_mod_cast (by omega : c.endPoints.length + 1 ≠ 0)

/-- C29 on the path `M(0,0) L(1,0) Q(1,1)(0,1) Close` given by its raw arrays: the first call
returns true with `fMidpointWeight = 3`. -/
theorem C29_reads_of_raw_path :
    Sample.rawPath.HasExactArrays ∧
    MidpointContourParser.ReachedFrom (MidpointContourParser.mk0 Sample.rawPath)
      (MidpointContourParser.mk0 Sample.rawPath) ∧
    (∃ flag s1, (MidpointContourParser.mk0 Sample.rawPath).parseNextContour
        = some (flag, s1) ∧
      (flag = true → 2 ≤ s1.fMidpointWeight ∧ (s1.fMidpointWeight : ℚ) ≠ 0)) ∧
    ((MidpointContourParser.mk0 Sample.rawPath).parseNextContour.map fun r =>
        (r.1, r.2.fMidpointWeight)) = some (true, 3) := by
  have hx : Sample.rawPath.HasExactArrays := ⟨rfl, rfl, rfl⟩
  exact ⟨hx, MidpointContourParser.ReachedFrom.start,
    C29_reads_in_bounds_and_weight_positive Sample.rawPath hx _
      MidpointContourParser.ReachedFrom.start,
    by decide!⟩

/-! ### The range of the tracked maximum -/

theorem foldl_max_bounds (es : List ℚ) (x B : ℚ) (hx : x ≤ B) (hes : ∀ e ∈ es, e ≤ B) :
    x ≤ es.foldl (fun x e => max e x) x ∧ es.foldl (fun x e => max e x) x ≤ B := by
  induction es generalizing x with
  | nil => exact ⟨le_refl x, hx⟩
  | cons e es ih =>
    have h1 := ih (max e x) (max_le (hes e (by simp)) hx) (fun e1 he1 => hes e1 (by simp [he1]))
    exact ⟨le_trans (le_max_right e x) h1.1, h1.2⟩

theorem WedgeWriter.bounded_after {M : Nat} {w : WedgeWriter} (h : w.Bounded M)
    (ps : List Patch) (es : List ℚ) (hes : ∀ e ∈ es, e ≤ (M : ℚ) ^ 4) :
    (w.after ps es).Bounded M ∧
    w.fNumFixedSegments_pow4 ≤ (w.after ps es).fNumFixedSegments_pow4 := by
  obtain ⟨h1, h2⟩ := foldl_max_bounds es w.fNumFixedSegments_pow4 _ h.upper hes
  exact ⟨⟨h.pow2, h.pow4, le_trans h.lower h1, h2⟩, h1⟩

theorem WedgeWriter.call_bounded (E : Estimators)
    (hE : ∀ p wt m, 0 ≤ E.conic_pow2 kTessellationPrecision p wt m) (fuel : Nat)
    (shaderCaps : GrShaderCaps) (M : Nat) (w : WedgeWriter) (c : WriterCall) (w1 : WedgeWriter)
    (hb : w.Bounded M) (h : (w.call E fuel shaderCaps c).state? = some w1) :
    w1.Bounded M ∧ w.fNumFixedSegments_pow4 ≤ w1.fNumFixedSegments_pow4 := by
  cases c with
  | setMatrices a b =>
    simp only [call, Run.state?, Option.some.injEq] at h
    subst h
    exact ⟨⟨hb.pow2, hb.pow4, hb.lower, hb.upper⟩, le_refl _⟩
  | writeFlatWedge p0 p1 midpoint =>
    simp only [call, Run.state?, Option.some.injEq] at h
    subst h
    exact ⟨⟨hb.pow2, hb.pow4, hb.lower, hb.upper⟩, le_refl _⟩
  | writeQuadraticWedge p midpoint =>
    obtain ⟨l, hl, hle⟩ := writeQuadraticWedge_leaves E fuel w shaderCaps p midpoint w1 h
    subst hl
    apply WedgeWriter.bounded_after hb
    intro e he
    obtain ⟨q, hq, rfl⟩ := List.mem_map.mp he
    rw [← hb.pow4]
    exact hle q hq
  | writeCubicWedge p midpoint =>
    obtain ⟨l, hl, hle⟩ := writeCubicWedge_leaves E fuel w shaderCaps p midpoint w1 h
    subst hl
    apply WedgeWriter.bounded_after hb
    intro e he
    obtain ⟨q, hq, rfl⟩ := List.mem_map.mp he
    rw [← hb.pow4]
    exact hle q hq
  | writeConicWedge p wt midpoint =>
    obtain ⟨l, hl, hle⟩ := writeConicWedge_leaves E fuel w shaderCaps p wt midpoint w1 h
    subst hl
    apply WedgeWriter.bounded_after hb
    intro e he
    obtain ⟨q, hq, rfl⟩ := List.mem_map.mp he
    have h1 := hle q hq
    rw [hb.pow2] at h1
    have h0 := hE q.fPts q.fW w.fTotalVectorXform
    have : (M : ℚ) ^ 4 = (M : ℚ) ^ 2 * (M : ℚ) ^ 2 := by ring
    rw [this]
    exact mul_le_mul h1 h1 h0 (le_trans h0 h1)

theorem WedgeWriter.calls_bounded (E : Estimators)
    (hE : ∀ p wt m, 0 ≤ E.conic_pow2 kTessellationPrecision p wt m) (fuel : Nat)
    (shaderCaps : GrShaderCaps) (M : Nat) (cs : List WriterCall) (w w1 : WedgeWriter)
    (hb : w.Bounded M) (h : (calls E fuel shaderCaps cs w).state? = some w1) :
    w1.Bounded M ∧ w.fNumFixedSegments_pow4 ≤ w1.fNumFixedSegments_pow4 := by
  induction cs generalizing w with
  | nil =>
    simp only [calls, Run.state?, Option.some.injEq] at h
    subst h
    exact ⟨hb, le_refl _⟩
  | cons c cs ih =>
    rw [calls] at h
    cases hr : w.call E fuel shaderCaps c with
    | fault => rw [hr] at h; simp [Run.state?] at h
    | unfinished wa =>
      rw [hr] at h
      simp only [Run.state?, Option.some.injEq] at h
      subst h
      exact WedgeWriter.call_bounded E hE fuel shaderCaps M w c wa hb (by rw [hr]; rfl)
    | returned wa =>
      rw [hr] at h
      obtain ⟨b1, l1⟩ := WedgeWriter.call_bounded E hE fuel shaderCaps M w c wa hb
        (by rw [hr]; rfl)
      obtain ⟨b2, l2⟩ := ih wa b1 h
      exact ⟨b2, le_trans l1 l2⟩

theorem wangs_formula.nextlog16From_le (x : ℚ) (steps L K : Nat) (hLK : L ≤ K)
    (hK : x ≤ (16 : ℚ) ^ K) : wangs_formula.nextlog16From x steps L ≤ K := by
  induction steps generalizing L with
  | zero => simpa [wangs_formula.nextlog16From] using hLK
  | succ steps ih =>
    rw [wangs_formula.nextlog16From]
    split
    · exact hLK
    · rename_i hn
      have hne : L ≠ K := by
        intro h
        subst h
        exact hn hK
      exact ih (L + 1) (by omega)

theorem wangs_formula.nextlog16From_spec (x : ℚ) (steps L : Nat)
    (h : x ≤ (16 : ℚ) ^ (L + steps)) :
    x ≤ (16 : ℚ) ^ wangs_formula.nextlog16From x steps L := by
  induction steps generalizing L with
  | zero => simpa [wangs_formula.nextlog16From] using h
  | succ steps ih =>
    rw [wangs_formula.nextlog16From]
    split
    · assumption
    · exact ih (L + 1) (by rw [show L + 1 + steps = L + (steps + 1) by omega]; exact h)

theorem le_rat_ceil (x : ℚ) : x ≤ ((Rat.ceil x : ℤ) : ℚ) := by
  unfold Rat.ceil
  split
  · rename_i h
    have h1 := Rat.num_div_den x
    rw [h] at h1
    simp at h1
    rw [h1]
  · have h1 := Int.lt_floor_add_one x
    rw [Rat.floor_def] at h1
    push_cast
    exact h1.le

theorem wangs_formula.nextlog16_spec (x : ℚ) : x ≤ (16 : ℚ) ^ wangs_formula.nextlog16 x := by
  unfold wangs_formula.nextlog16
  apply wangs_formula.nextlog16From_spec
  rw [zero_add]
  have h1 : x ≤ ((Rat.ceil x : ℤ) : ℚ) := le_rat_ceil x
  have h2 : ((Rat.ceil x : ℤ) : ℚ) ≤ (((Rat.ceil x).toNat : ℕ) : ℚ) := by
    exact_mod_cast Int.self_le_toNat (Rat.ceil x)
  have h3 : (((Rat.ceil x).toNat : ℕ) : ℚ) ≤ (16 : ℚ) ^ (Rat.ceil x).toNat := by
    exact_mod_cast (Nat.lt_pow_self (by norm_num : 1 < 16) (Rat.ceil x).toNat).le
  linarith

theorem wangs_formula.nextlog16_mono {x y : ℚ} (h : x ≤ y) :
    wangs_formula.nextlog16 x ≤ wangs_formula.nextlog16 y := by
  unfold wangs_formula.nextlog16
  exact wangs_formula.nextlog16From_le x _ 0 _ (Nat.zero_le _)
    (le_trans h (wangs_formula.nextlog16_spec y))

theorem nextlog16Argument_le (w : WedgeWriter) (h : 0 ≤ w.fNumFixedSegments_pow4) :
    PathWedgeTessellator.nextlog16Argument w ≤ w.fNumFixedSegments_pow4 := by
  unfold PathWedgeTessellator.nextlog16Argument WedgeWriter.numFixedSegments_pow4
  rw [if_pos h]
  have := Int.floor_le w.fNumFixedSegments_pow4
  simpa using this

/-- C25: for a writer constructed with `maxSegments = M >= 1`, a conic estimator that is never
negative (the quadratic and cubic estimators may be any) and any sequence of `setMatrices` and
`write*Wedge` calls, at every state the sequence reaches, returned or stopped inside a chop,
`1 <= fNumFixedSegments_pow4 <= M ^ 4`; further calls never lower the tracked value; and the
resolve level `prepare` would derive from it is at most `nextlog16(M ^ 4)`, the level of `M`
segments. -/
theorem C25_tracked_maximum_stays_in_range (E : Estimators)
    (hE : ∀ p wt m, 0 ≤ E.conic_pow2 kTessellationPrecision p wt m) (fuel : Nat)
    (shaderCaps : GrShaderCaps) (target : Nat → Nat → Option (Nat × Nat × Nat))
    (vertexChunkArray : List GrVertexChunk) (patchStride initialPatchAllocCount M : Nat)
    (hM : 1 ≤ M) (cs1 cs2 : List WriterCall) :
    ∀ w1 w2, WedgeWriter.calls E fuel shaderCaps cs1
        (WedgeWriter.mk0 target vertexChunkArray patchStride initialPatchAllocCount M)
          = Run.returned w1 →
      (WedgeWriter.calls E fuel shaderCaps cs2 w1).state? = some w2 →
      1 ≤ w2.fNumFixedSegments_pow4 ∧ w2.fNumFixedSegments_pow4 ≤ (M : ℚ) ^ 4 ∧
      w1.fNumFixedSegments_pow4 ≤ w2.fNumFixedSegments_pow4 ∧
      wangs_formula.nextlog16 (PathWedgeTessellator.nextlog16Argument w2)
        ≤ wangs_formula.nextlog16 ((M : ℚ) ^ 4) := by
  intro w1 w2 h1 h2
  obtain ⟨b2, b4⟩ := WedgeWriter.mk0_budget target vertexChunkArray patchStride
    initialPatchAllocCount M
  have hM1 : (1 : ℚ) ≤ (M : ℚ) ^ 4 := by
    have : (1 : ℚ) ≤ (M : ℚ) := by exact_mod_cast hM
    exact one_le_pow₀ this
  have hb0 : (WedgeWriter.mk0 target vertexChunkArray patchStride initialPatchAllocCount
      M).Bounded M := ⟨b2, b4, le_refl _, hM1⟩
  obtain ⟨hb1, -⟩ := WedgeWriter.calls_bounded E hE fuel shaderCaps M cs1 _ w1 hb0
    (by rw [h1]; rfl)
  obtain ⟨hb2, hle⟩ := WedgeWriter.calls_bounded E hE fuel shaderCaps M cs2 w1 w2 hb1 h2
  refine ⟨hb2.lower, hb2.upper, hle, wangs_formula.nextlog16_mono ?_⟩
  exact le_trans (nextlog16Argument_le w2 (le_trans zero_le_one hb2.lower)) hb2.upper

/-- C25 on the sample writer (`M = 2`) after the quadratic `(0,0) (0,0) (4,1/2)`, which is
chopped once: the tracked maximum is `65/64`, within `[1, 16]`. -/
theorem C25_tracked_maximum_sample :
    (∀ p wt m, 0 ≤ Sample.estimators.conic_pow2 kTessellationPrecision p wt m) ∧ (1 ≤ 2) ∧
    ∃ w2, (WedgeWriter.calls Sample.estimators 2 Sample.caps
        [WriterCall.writeQuadraticWedge ⟨⟨0, 0⟩, ⟨0, 0⟩, ⟨4, 1 / 2⟩⟩ ⟨0, 0⟩]
        Sample.writer).state? = some w2 ∧
      w2.fNumFixedSegments_pow4 = 65 / 64 ∧
      1 ≤ w2.fNumFixedSegments_pow4 ∧ w2.fNumFixedSegments_pow4 ≤ ((2 : Nat) : ℚ) ^ 4 := by
  have hE : ∀ p wt m, 0 ≤ Sample.estimators.conic_pow2 kTessellationPrecision p wt m :=
    fun _ _ _ => le_refl _
  refine ⟨hE, by decide, ?_⟩
  cases hw : (WedgeWriter.calls Sample.estimators 2 Sample.caps
      [WriterCall.writeQuadraticWedge ⟨⟨0, 0⟩, ⟨0, 0⟩, ⟨4, 1 / 2⟩⟩ ⟨0, 0⟩]
      Sample.writer).state? with
  | none =>
    have : (WedgeWriter.calls Sample.estimators 2 Sample.caps
      [WriterCall.writeQuadraticWedge ⟨⟨0, 0⟩, ⟨0, 0⟩, ⟨4, 1 / 2⟩⟩ ⟨0, 0⟩]
      Sample.writer).state?.isSome = true := by decide!
    rw [hw] at this
    cases this
  | some w2 =>
    have hval : ((WedgeWriter.calls Sample.estimators 2 Sample.caps
        [WriterCall.writeQuadraticWedge ⟨⟨0, 0⟩, ⟨0, 0⟩, ⟨4, 1 / 2⟩⟩ ⟨0, 0⟩]
        Sample.writer).state?.map fun w => w.fNumFixedSegments_pow4) = some (65 / 64) := by
      decide!
    rw [hw] at hval
    have h := C25_tracked_maximum_stays_in_range Sample.estimators hE 2 Sample.caps
      Sample.roomyTarget [] 1 4 2 (by decide) []
      [WriterCall.writeQuadraticWedge ⟨⟨0, 0⟩, ⟨0, 0⟩, ⟨4, 1 / 2⟩⟩ ⟨0, 0⟩] Sample.writer w2 rfl hw
    exact ⟨w2, rfl, by simpa using hval, h.1, h.2.1⟩

/-! ### The wedge count against the verb count -/

theorem prepareContour_length_le (E : Estimators) (fuel : Nat) (shaderCaps : GrShaderCaps)
    (s : MidpointContourParser) (w : WedgeWriter) (done junk rest : List Contour) (c : Contour)
    (h : s.AtBoundary done (junk ++ c :: rest)) (hjunk : ∀ j ∈ junk, j.hasGeometry = false)
    (hc : c.hasGeometry = true)
    (hb : ∀ e ∈ c.elems, e.withinBudget E w.fTotalVectorXform w.fMaxSegments_pow2
      w.fMaxSegments_pow4) :
    ∃ s1 w2, s.parseNextContour = some (true, s1) ∧ s1.AtBoundary (done ++ junk ++ [c]) rest ∧
      prepareContour E (fuel + 1) shaderCaps s1 w = Run.returned w2 ∧
      (∃ new, w2.patches = w.patches ++ new ∧ new.length ≤ c.verbs.length) ∧ w.Kept w2 := by
  obtain ⟨s1, h1, hy, -, -⟩ :=
    MidpointContourParser.parseNextContour_yield s done junk rest c h hjunk hc
  have hcur := currentContour_yielded s1 _ _ c hy
  obtain ⟨cl, hcl, hw⟩ := writeElems_of_withinBudget E fuel shaderCaps
    (w.fPathXform.mapPoint s1.currentMidpoint) c.elems ⟨w, ⟨0, 0⟩, ⟨0, 0⟩⟩ hb
  have hkept := writeElems_kept E (fuel + 1) shaderCaps _ c.elems _ cl (by rw [hcl]; rfl)
  obtain ⟨new1, hn1, hsub⟩ := GrVertexChunkBuilder.patches_foldl_appendVertex w.fChunker
    (c.elems.filterMap (PathElem.wedge? w.fPathXform shaderCaps
      (w.fPathXform.mapPoint s1.currentMidpoint)))
  have hp1 : cl.wedgeWriter.patches = w.patches ++ new1 := by
    rw [hw]
    exact hn1
  have hlen1 : new1.length ≤ c.prims.length := by
    refine le_trans hsub.length_le ?_
    rw [Contour.elems, List.filterMap_cons]
    simp only [PathElem.wedge?]
    rw [length_wedges_primElems]
    exact List.length_filterMap_le _ _
  have hverbs : c.verbs.length = c.prims.length + 1 := by simp [Contour.verbs]
  refine ⟨s1, closeContour shaderCaps (w.fPathXform.mapPoint s1.currentMidpoint) cl, h1,
    hy.atBoundary, by simp only [prepareContour, hcur, hcl], ?_, ?_⟩
  · unfold closeContour
    split
    · rcases GrVertexChunkBuilder.patches_appendVertex cl.wedgeWriter.fChunker
        (WedgeWriter.flatPatch cl.wedgeWriter.fPathXform shaderCaps
          (w.fPathXform.mapPoint s1.currentMidpoint) cl.lastPoint cl.startPoint) with hp | hp
      · exact ⟨new1, hp.trans hp1, by omega⟩
      · refine ⟨new1 ++ [WedgeWriter.flatPatch cl.wedgeWriter.fPathXform shaderCaps
            (w.fPathXform.mapPoint s1.currentMidpoint) cl.lastPoint cl.startPoint], ?_, ?_⟩
        · rw [← List.append_assoc, ← hp1]
          exact hp
        · rw [List.length_append, List.length_singleton]
          omega
    · exact ⟨new1, hp1, by omega⟩
  · unfold closeContour
    split
    · exact hkept.trans (WedgeWriter.kept_after cl.wedgeWriter [_] [])
    · exact hkept

theorem contourLoop_length_le (E : Estimators) (fuel : Nat) (shaderCaps : GrShaderCaps)
    (n : Nat) (rest : List Contour) (s : MidpointContourParser) (w : WedgeWriter)
    (done : List Contour) (h : s.AtBoundary done rest)
    (hb : ∀ c ∈ rest, ∀ e ∈ c.elems, e.withinBudget E w.fTotalVectorXform w.fMaxSegments_pow2
      w.fMaxSegments_pow4)
    (hn : (rest.filter Contour.hasGeometry).length ≤ n) :
    ∃ w1, contourLoop E (fuel + 1) shaderCaps n s w = Run.returned w1 ∧
      (∃ new, w1.patches = w.patches ++ new ∧
        new.length ≤ (rest.flatMap Contour.verbs).length) ∧
      w.Kept w1 := by
  induction n generalizing rest s w done with
  | zero =>
    have hall : ∀ c ∈ rest, c.hasGeometry = false := by
      intro c hc
      by_contra hg
      have : c ∈ rest.filter Contour.hasGeometry := List.mem_filter.mpr ⟨hc, by simpa using hg⟩
      have hlen : (rest.filter Contour.hasGeometry).length = 0 := by omega
      rw [List.length_eq_zero] at hlen
      rw [hlen] at this
      cases this
    obtain ⟨s1, hs1⟩ := MidpointContourParser.parseNextContour_done s done rest h hall
    exact ⟨w, by simp [contourLoop, hs1], ⟨[], by simp, by simp⟩, WedgeWriter.Kept.refl w⟩
  | succ n ih =>
    rcases split_at_geometry rest with hall | ⟨junk, c, rest1, hsplit, hjunk, hc⟩
    · obtain ⟨s1, hs1⟩ := MidpointContourParser.parseNextContour_done s done rest h hall
      exact ⟨w, by simp [contourLoop, hs1], ⟨[], by simp, by simp⟩, WedgeWriter.Kept.refl w⟩
    · subst hsplit
      obtain ⟨s1, w2, h1, h2, h3, ⟨new1, p1, l1⟩, h5⟩ := prepareContour_length_le E fuel
        shaderCaps s w done junk rest1 c h hjunk hc (hb c (by simp))
      have hb1 : ∀ c1 ∈ rest1, ∀ e ∈ c1.elems, e.withinBudget E w2.fTotalVectorXform
          w2.fMaxSegments_pow2 w2.fMaxSegments_pow4 := by
        intro c1 hc1 e he
        rw [h5.total, h5.pow2, h5.pow4]
        exact hb c1 (by simp [hc1]) e he
      have hn1 : (rest1.filter Contour.hasGeometry).length ≤ n := by
        have hj : junk.filter Contour.hasGeometry = [] := by
          rw [List.filter_eq_nil_iff]
          intro j hj
          simp [hjunk j hj]
        rw [List.filter_append, hj, List.nil_append, List.filter_cons_of_pos hc] at hn
        simpa using hn
      obtain ⟨w1, e1, ⟨new2, p2, l2⟩, e3⟩ := ih rest1 s1 w2 (done ++ junk ++ [c]) h2 hb1 hn1
      refine ⟨w1, by simp [contourLoop, h1, h3, e1], ⟨new1 ++ new2, ?_, ?_⟩, h5.trans e3⟩
      · rw [p2, p1, List.append_assoc]
      · simp only [List.flatMap_append, List.flatMap_cons, List.length_append]
        omega

theorem pathLoop_length_le (E : Estimators) (fuel : Nat) (shaderCaps : GrShaderCaps)
    (viewMatrix : SkMatrix) (batch : List (SkMatrix × List Contour)) (w : WedgeWriter)
    (hb : ∀ mp ∈ batch, ∀ c ∈ mp.2, ∀ e ∈ c.elems,
      e.withinBudget E (SkMatrix.setConcat viewMatrix mp.1) w.fMaxSegments_pow2
        w.fMaxSegments_pow4) :
    ∃ w1, pathLoop E (fuel + 1) shaderCaps viewMatrix (drawListOf batch) w = Run.returned w1 ∧
      ∃ new, w1.patches = w.patches ++ new ∧
        new.length ≤ ((drawListOf batch).map fun mp => mp.2.fVerbs.length).sum := by
  induction batch generalizing w with
  | nil => exact ⟨w, rfl, [], by simp, by simp⟩
  | cons mp batch ih =>
    obtain ⟨m, cs⟩ := mp
    obtain ⟨w2, e1, ⟨new1, p1, l1⟩, e3⟩ := contourLoop_length_le E fuel shaderCaps
      (pathOf cs).fVerbs.length cs (MidpointContourParser.mk0 (pathOf cs))
      (w.setMatrices viewMatrix m) [] (MidpointContourParser.atBoundary_mk0 cs)
      (fun c hc e he => hb (m, cs) (by simp) c hc e he) (length_filter_hasGeometry_le cs)
    obtain ⟨w1, f1, new2, p2, l2⟩ := ih w2 (by
      intro mp hmp c hc e he
      rw [e3.pow2, e3.pow4]
      exact hb mp (by simp [hmp]) c hc e he)
    refine ⟨w1, ?_, new1 ++ new2, ?_, ?_⟩
    · simp only [drawListOf, List.map_cons, pathLoop, e1]
      exact f1
    · rw [p2, p1, List.append_assoc]
      rfl
    · simp only [drawListOf, List.map_cons, List.sum_cons, List.length_append] at l2 ⊢
      have : (pathOf cs).fVerbs.length = (cs.flatMap Contour.verbs).length := rfl
      omega

/-- C28: for every batch of well-formed paths none of whose primitives is chopped, announced
with its total verb count, `prepare` returns and the number of wedges it has added to the
chunks, closing wedges included, is at most that total verb count, which is at most the wedge
allocation count `(5 n + 3) / 4` computed from it. -/
theorem C28_wedge_count_at_most_verb_count (E : Estimators) (fuel : Nat)
    (t : PathWedgeTessellator) (target : GrMeshDrawTarget)
    (batch : List (SkMatrix × List Contour))
    (hb : ∀ mp ∈ batch, ∀ c ∈ mp.2, ∀ e ∈ c.elems,
      e.withinBudget E (SkMatrix.setConcat t.fShader.viewMatrix mp.1)
        ((t.maxSegments target : ℚ) ^ 2) ((t.maxSegments target : ℚ) ^ 4)) :
    ∃ new, t.preparedPatches E (fuel + 1) target (drawListOf batch)
        ((drawListOf batch).map fun mp => mp.2.fVerbs.length).sum = some (t.patches ++ new) ∧
      new.length ≤ ((drawListOf batch).map fun mp => mp.2.fVerbs.length).sum ∧
      ((drawListOf batch).map fun mp => mp.2.fVerbs.length).sum
        ≤ (MaxCombinedFanEdgesInPathDrawList
            ((drawListOf batch).map fun mp => mp.2.fVerbs.length).sum * 5 + 3) / 4 := by
  generalize hN : ((drawListOf batch).map fun mp => mp.2.fVerbs.length).sum = N
  have hge : N ≤ (MaxCombinedFanEdgesInPathDrawList N * 5 + 3) / 4 := by
    unfold MaxCombinedFanEdgesInPathDrawList
    omega
  by_cases hzero : (MaxCombinedFanEdgesInPathDrawList N * 5 + 3) / 4 = 0
  · refine ⟨[], ?_, by simp, hge⟩
    unfold PathWedgeTessellator.preparedPatches PathWedgeTessellator.prepare
      PathWedgeTessellator.prepareWedges
    simp only [hzero, if_true, List.append_nil]
  · obtain ⟨b2, b4⟩ := WedgeWriter.mk0_budget target.makeVertexSpaceAtLeast t.fVertexChunkArray
      (if t.fShader.willUseTessellationShaders then t.fShader.vertexStride * 5
        else t.fShader.instanceStride)
      ((MaxCombinedFanEdgesInPathDrawList N * 5 + 3) / 4) (t.maxSegments target)
    obtain ⟨w1, e1, new, e2, e3⟩ := pathLoop_length_le E fuel target.shaderCaps
      t.fShader.viewMatrix batch
      (WedgeWriter.mk0 target.makeVertexSpaceAtLeast t.fVertexChunkArray
        (if t.fShader.willUseTessellationShaders then t.fShader.vertexStride * 5
          else t.fShader.instanceStride)
        ((MaxCombinedFanEdgesInPathDrawList N * 5 + 3) / 4) (t.maxSegments target))
      (by rw [b2, b4]; exact hb)
    have hw : PathWedgeTessellator.prepareWedges E (fuel + 1) t target (drawListOf batch) N
        = some (Run.returned w1) := by
      unfold PathWedgeTessellator.prepareWedges
      simp only [hzero, if_false]
      rw [← e1]
      rfl
    refine ⟨new, ?_, by rw [hN] at e3; exact e3, hge⟩
    unfold PathWedgeTessellator.preparedPatches PathWedgeTessellator.prepare
    rw [hw]
    simp only [PathWedgeTessellator.patches, prepareFixedCount_patches]
    rw [show w1.fChunker.fChunks.flatMap GrVertexChunk.fPatches = w1.patches from rfl, e2]
    rfl

/-- C28 on the two squares of `test_hole`, eight verbs: `prepare` adds eight wedges. -/
theorem C28_wedge_count_hole :
    ∃ new, Sample.tessellator.preparedPatches Sample.estimators 1 Sample.target
        (drawListOf [(SkMatrix.I, Sample.hole)]) 8 = some (Sample.tessellator.patches ++ new) ∧
      new.length ≤ 8 ∧ new.length = 8 := by
  obtain ⟨new, h1, h2, -⟩ := C28_wedge_count_at_most_verb_count Sample.estimators 0
    Sample.tessellator Sample.target [(SkMatrix.I, Sample.hole)] (by
      intro mp hmp c hc e he
      simp only [List.mem_singleton] at hmp
      subst hmp
      simp only [Sample.hole, List.mem_cons, List.mem_singleton, List.not_mem_nil, or_false] at hc
      rcases hc with rfl | rfl <;>
        simp [Contour.elems, primElems, Prim.elem, Prim.endPoint?] at he <;>
        rcases he with rfl | rfl | rfl | rfl <;> trivial)
  have h8 : ((drawListOf [(SkMatrix.I, Sample.hole)]).map fun mp => mp.2.fVerbs.length).sum
      = 8 := by decide
  rw [h8] at h1 h2
  refine ⟨new, h1, h2, ?_⟩
  have hv : (Sample.tessellator.preparedPatches Sample.estimators 1 Sample.target
      (drawListOf [(SkMatrix.I, Sample.hole)]) 8).map List.length = some 8 := by decide!
  rw [h1] at hv
  simpa [Sample.tessellator, PathWedgeTessellator.patches] using hv

/-! ### Chains of patches -/

theorem Patch.chain_append {a b c : SkPoint} {xs ys : List Patch} (h1 : Patch.Chain a xs b)
    (h2 : Patch.Chain b ys c) : Patch.Chain a (xs ++ ys) c := by
  induction xs generalizing a with
  | nil =>
    simp only [Patch.Chain] at h1
    subst h1
    exact h2
  | cons x xs ih => exact ⟨h1.1, ih h1.2⟩

theorem WedgeWriter.writeQuadraticWedge_chain (E : Estimators) (fuel : Nat) (w : WedgeWriter)
    (shaderCaps : GrShaderCaps) (p : QuadPts) (midpoint : SkPoint) (w1 : WedgeWriter)
    (hroom : w.fChunker.Roomy)
    (h : writeQuadraticWedge E fuel w shaderCaps p midpoint = Run.returned w1) :
    w1.fChunker.Roomy ∧
    ∃ new, w1.patches = w.patches ++ new ∧ new ≠ [] ∧ Patch.Chain p.p0 new p.p2 := by
  induction fuel generalizing w p w1 with
  | zero => simp [writeQuadraticWedge] at h
  | succ fuel ih =>
    rw [writeQuadraticWedge] at h
    split at h
    · dsimp only at h
      cases h1 : writeQuadraticWedge E fuel w shaderCaps (SkChopQuadAtHalf p).1 midpoint with
      | fault => rw [h1] at h; simp at h
      | unfinished wa => rw [h1] at h; simp at h
      | returned wa =>
        rw [h1] at h
        obtain ⟨ra, na, pa, nea, ca⟩ := ih w _ wa hroom h1
        obtain ⟨rb, nb, pb, -, cb⟩ := ih wa _ w1 ra h
        refine ⟨rb, na ++ nb, by rw [pb, pa, List.append_assoc], by simp [nea], ?_⟩
        exact Patch.chain_append ca cb
    · simp only [Run.returned.injEq] at h
      subst h
      have hp := GrVertexChunkBuilder.Roomy.appendVertex hroom
        (quadPatch w.fPathXform shaderCaps midpoint p)
      exact ⟨hp.2, [quadPatch w.fPathXform shaderCaps midpoint p], hp.1, by simp,
        ⟨rfl, rfl⟩⟩

theorem WedgeWriter.writeCubicWedge_chain (E : Estimators) (fuel : Nat) (w : WedgeWriter)
    (shaderCaps : GrShaderCaps) (p : CubicPts) (midpoint : SkPoint) (w1 : WedgeWriter)
    (hroom : w.fChunker.Roomy)
    (h : writeCubicWedge E fuel w shaderCaps p midpoint = Run.returned w1) :
    w1.fChunker.Roomy ∧
    ∃ new, w1.patches = w.patches ++ new ∧ new ≠ [] ∧ Patch.Chain p.p0 new p.p3 := by
  induction fuel generalizing w p w1 with
  | zero => simp [writeCubicWedge] at h
  | succ fuel ih =>
    rw [writeCubicWedge] at h
    split at h
    · dsimp only at h
      cases h1 : writeCubicWedge E fuel w shaderCaps (SkChopCubicAtHalf p).1 midpoint with
      | fault => rw [h1] at h; simp at h
      | unfinished wa => rw [h1] at h; simp at h
      | returned wa =>
        rw [h1] at h
        obtain ⟨ra, na, pa, nea, ca⟩ := ih w _ wa hroom h1
        obtain ⟨rb, nb, pb, -, cb⟩ := ih wa _ w1 ra h
        refine ⟨rb, na ++ nb, by rw [pb, pa, List.append_assoc], by simp [nea], ?_⟩
        exact Patch.chain_append ca cb
    · simp only [Run.returned.injEq] at h
      subst h
      have hp := GrVertexChunkBuilder.Roomy.appendVertex hroom
        (cubicPatch w.fPathXform shaderCaps midpoint p)
      exact ⟨hp.2, [cubicPatch w.fPathXform shaderCaps midpoint p], hp.1, by simp,
        ⟨rfl, rfl⟩⟩

/-- C27 (amended): on a target with room, for every quadratic or cubic that
`writeQuadraticWedge` / `writeCubicWedge` chops and finishes writing, the patches emitted for
it are those of the first half followed by those of the second half, neither empty; the first
patch starts at the first control point of the curve, each patch starts at the end point of
the one before, and the last patch ends at the last control point of the curve. -/
theorem C27_chopped_patches_in_parameter_order (E : Estimators) (fuel : Nat) (w : WedgeWriter)
    (shaderCaps : GrShaderCaps) (midpoint : SkPoint) (hroom : w.fChunker.Roomy) :
    (∀ (p : QuadPts) (w1 : WedgeWriter),
      E.quadratic_pow4 kTessellationPrecision p w.fTotalVectorXform > w.fMaxSegments_pow4 →
      WedgeWriter.writeQuadraticWedge E (fuel + 1) w shaderCaps p midpoint = Run.returned w1 →
      ∃ wa first second,
        WedgeWriter.writeQuadraticWedge E fuel w shaderCaps (SkChopQuadAtHalf p).1 midpoint
          = Run.returned wa ∧
        wa.patches = w.patches ++ first ∧
        WedgeWriter.writeQuadraticWedge E fuel wa shaderCaps (SkChopQuadAtHalf p).2 midpoint
          = Run.returned w1 ∧
        w1.patches = w.patches ++ (first ++ second) ∧ first ≠ [] ∧ second ≠ [] ∧
        Patch.Chain p.p0 first (SkChopQuadAtHalf p).2.p0 ∧
        Patch.Chain (SkChopQuadAtHalf p).2.p0 second p.p2 ∧
        Patch.Chain p.p0 (first ++ second) p.p2) ∧
    (∀ (p : CubicPts) (w1 : WedgeWriter),
      E.cubic_pow4 kTessellationPrecision p w.fTotalVectorXform > w.fMaxSegments_pow4 →
      WedgeWriter.writeCubicWedge E (fuel + 1) w shaderCaps p midpoint = Run.returned w1 →
      ∃ wa first second,
        WedgeWriter.writeCubicWedge E fuel w shaderCaps (SkChopCubicAtHalf p).1 midpoint
          = Run.returned wa ∧
        wa.patches = w.patches ++ first ∧
        WedgeWriter.writeCubicWedge E fuel wa shaderCaps (SkChopCubicAtHalf p).2 midpoint
          = Run.returned w1 ∧
        w1.patches = w.patches ++ (first ++ second) ∧ first ≠ [] ∧ second ≠ [] ∧
        Patch.Chain p.p0 first (SkChopCubicAtHalf p).2.p0 ∧
        Patch.Chain (SkChopCubicAtHalf p).2.p0 second p.p3 ∧
        Patch.Chain p.p0 (first ++ second) p.p3) := by
  constructor
  · intro p w1 hover h
    rw [WedgeWriter.writeQuadraticWedge] at h
    simp only [hover, if_true] at h
    cases h1 : WedgeWriter.writeQuadraticWedge E fuel w shaderCaps (SkChopQuadAtHalf p).1
        midpoint with
    | fault => rw [h1] at h; simp at h
    | unfinished wa => rw [h1] at h; simp at h
    | returned wa =>
      rw [h1] at h
      obtain ⟨ra, na, pa, nea, ca⟩ :=
        WedgeWriter.writeQuadraticWedge_chain E fuel w shaderCaps _ midpoint wa hroom h1
      obtain ⟨-, nb, pb, neb, cb⟩ :=
        WedgeWriter.writeQuadraticWedge_chain E fuel wa shaderCaps _ midpoint w1 ra h
      have ca' : Patch.Chain p.p0 na (SkChopQuadAtHalf p).2.p0 := ca
      have cb' : Patch.Chain (SkChopQuadAtHalf p).2.p0 nb p.p2 := cb
      exact ⟨wa, na, nb, rfl, pa, h, by rw [pb, pa, List.append_assoc], nea, neb, ca', cb',
        Patch.chain_append ca' cb'⟩
  · intro p w1 hover h
    rw [WedgeWriter.writeCubicWedge] at h
    simp only [hover, if_true] at h
    cases h1 : WedgeWriter.writeCubicWedge E fuel w shaderCaps (SkChopCubicAtHalf p).1
        midpoint with
    | fault => rw [h1] at h; simp at h
    | unfinished wa => rw [h1] at h; simp at h
    | returned wa =>
      rw [h1] at h
      obtain ⟨ra, na, pa, nea, ca⟩ :=
        WedgeWriter.writeCubicWedge_chain E fuel w shaderCaps _ midpoint wa hroom h1
      obtain ⟨-, nb, pb, neb, cb⟩ :=
        WedgeWriter.writeCubicWedge_chain E fuel wa shaderCaps _ midpoint w1 ra h
      have ca' : Patch.Chain p.p0 na (SkChopCubicAtHalf p).2.p0 := ca
      have cb' : Patch.Chain (SkChopCubicAtHalf p).2.p0 nb p.p3 := cb
      exact ⟨wa, na, nb, rfl, pa, h, by rw [pb, pa, List.append_assoc], nea, neb, ca', cb',
        Patch.chain_append ca' cb'⟩

/-- C27 (amended) on the sample writer (fourth-power budget 16, target with room) and the
quadratic `(0,0) (0,0) (4,1/2)` of estimate `65/4`: it is chopped once, and the two patches
written lead from `(0,0)` over `(1,1/8)` to `(4,1/2)`. -/
theorem C27_chopped_quadratic_sample :
    Sample.writer.fChunker.Roomy ∧
    Sample.estimators.quadratic_pow4 kTessellationPrecision ⟨⟨0, 0⟩, ⟨0, 0⟩, ⟨4, 1 / 2⟩⟩
      Sample.writer.fTotalVectorXform > Sample.writer.fMaxSegments_pow4 ∧
    ∃ w1 first second,
      WedgeWriter.writeQuadraticWedge Sample.estimators (1 + 1) Sample.writer Sample.caps
        ⟨⟨0, 0⟩, ⟨0, 0⟩, ⟨4, 1 / 2⟩⟩ ⟨2, 1 / 4⟩ = Run.returned w1 ∧
      w1.patches = Sample.writer.patches ++ (first ++ second) ∧
      first ≠ [] ∧ second ≠ [] ∧
      Patch.Chain ⟨0, 0⟩ (first ++ second) ⟨4, 1 / 2⟩ ∧
      w1.patches.map (fun patch => (patch.fGeometry.startPoint, patch.fGeometry.endPoint))
        = [(⟨0, 0⟩, ⟨1, 1 / 8⟩), (⟨1, 1 / 8⟩, ⟨4, 1 / 2⟩)] := by
  have hover : Sample.estimators.quadratic_pow4 kTessellationPrecision
      ⟨⟨0, 0⟩, ⟨0, 0⟩, ⟨4, 1 / 2⟩⟩ Sample.writer.fTotalVectorXform
        > Sample.writer.fMaxSegments_pow4 := by decide!
  refine ⟨Sample.writer_roomy, hover, ?_⟩
  cases hr : WedgeWriter.writeQuadraticWedge Sample.estimators (1 + 1) Sample.writer Sample.caps
      ⟨⟨0, 0⟩, ⟨0, 0⟩, ⟨4, 1 / 2⟩⟩ ⟨2, 1 / 4⟩ with
  | fault =>
    have : (WedgeWriter.writeQuadraticWedge Sample.estimators (1 + 1) Sample.writer Sample.caps
      ⟨⟨0, 0⟩, ⟨0, 0⟩, ⟨4, 1 / 2⟩⟩ ⟨2, 1 / 4⟩).isReturned = true := by decide!
    rw [hr] at this
    cases this
  | unfinished wa =>
    have : (WedgeWriter.writeQuadraticWedge Sample.estimators (1 + 1) Sample.writer Sample.caps
      ⟨⟨0, 0⟩, ⟨0, 0⟩, ⟨4, 1 / 2⟩⟩ ⟨2, 1 / 4⟩).isReturned = true := by decide!
    rw [hr] at this
    cases this
  | returned w1 =>
    obtain ⟨wa, first, second, -, -, -, h4, h5, h6, -, -, h9⟩ :=
      (C27_chopped_patches_in_parameter_order Sample.estimators 1 Sample.writer Sample.caps
        ⟨2, 1 / 4⟩ Sample.writer_roomy).1 ⟨⟨0, 0⟩, ⟨0, 0⟩, ⟨4, 1 / 2⟩⟩ w1 hover hr
    have hv : ((WedgeWriter.writeQuadraticWedge Sample.estimators (1 + 1) Sample.writer
        Sample.caps ⟨⟨0, 0⟩, ⟨0, 0⟩, ⟨4, 1 / 2⟩⟩ ⟨2, 1 / 4⟩).state?.map fun w =>
          w.patches.map
            (fun patch => (patch.fGeometry.startPoint, patch.fGeometry.endPoint)))
        = some [(⟨0, 0⟩, ⟨1, 1 / 8⟩), (⟨1, 1 / 8⟩, ⟨4, 1 / 2⟩)] := by decide!
    rw [hr] at hv
    exact ⟨w1, first, second, rfl, h4, h5, h6, h9, by simpa [Run.state?] using hv⟩

/-- C27 as stated fails on a target with room for one patch only: the quadratic
`(0,0) (0,0) (4,1/2)` is chopped once, `writeQuadraticWedge` returns, and the only patch
emitted for it is the first half, which ends at `(1,1/8)` and not at the last control point
`(4,1/2)` of the curve. -/
theorem C27_last_patch_missing_without_room :
    Sample.estimators.quadratic_pow4 kTessellationPrecision ⟨⟨0, 0⟩, ⟨0, 0⟩, ⟨4, 1 / 2⟩⟩
      Sample.writerOneRoom.fTotalVectorXform > Sample.writerOneRoom.fMaxSegments_pow4 ∧
    (WedgeWriter.writeQuadraticWedge Sample.estimators 2 Sample.writerOneRoom Sample.caps
      ⟨⟨0, 0⟩, ⟨0, 0⟩, ⟨4, 1 / 2⟩⟩ ⟨2, 1 / 4⟩).isReturned = true ∧
    ((WedgeWriter.writeQuadraticWedge Sample.estimators 2 Sample.writerOneRoom Sample.caps
        ⟨⟨0, 0⟩, ⟨0, 0⟩, ⟨4, 1 / 2⟩⟩ ⟨2, 1 / 4⟩).state?.map fun w =>
          w.patches.map
            (fun patch => (patch.fGeometry.startPoint, patch.fGeometry.endPoint)))
      = some [(⟨0, 0⟩, ⟨1, 1 / 8⟩)] := by
  decide!

theorem WedgeWriter.writeConicWedge_chain (E : Estimators) (fuel : Nat) (w : WedgeWriter)
    (shaderCaps : GrShaderCaps) (p : QuadPts) (wt : ℚ) (midpoint : SkPoint) (w1 : WedgeWriter)
    (m : SkMatrix) (B : ℚ) (hm : w.fTotalVectorXform = m) (hB : w.fMaxSegments_pow2 = B)
    (hroom : w.fChunker.Roomy) (hjoin : E.ChopJoins) (hsucc : E.ChopSucceeds m B)
    (h : writeConicWedge E fuel w shaderCaps p wt midpoint = Run.returned w1) :
    w1.fChunker.Roomy ∧
    ∃ new, w1.patches = w.patches ++ new ∧ new ≠ [] ∧ Patch.Chain p.p0 new p.p2 := by
  induction fuel generalizing w p wt w1 with
  | zero => simp [writeConicWedge] at h
  | succ fuel ih =>
    rw [writeConicWedge] at h
    by_cases hover : E.conic_pow2 kTessellationPrecision p wt w.fTotalVectorXform
        > w.fMaxSegments_pow2
    · simp only [hover, if_true] at h
      cases hc : E.chopAt ⟨p, wt⟩ (1 / 2) with
      | none =>
        rw [hm, hB] at hover
        exact absurd hc (hsucc p wt hover)
      | some chops =>
        rw [hc] at h
        simp only at h
        obtain ⟨j1, j2, j3⟩ := hjoin ⟨p, wt⟩ chops.1 chops.2 hc
        cases h1 : writeConicWedge E fuel w shaderCaps chops.1.fPts chops.1.fW midpoint with
        | fault => rw [h1] at h; simp at h
        | unfinished wa => rw [h1] at h; simp at h
        | returned wa =>
          rw [h1] at h
          simp only at h
          obtain ⟨s1, -, s3, -, -⟩ := writeConicWedge_state E fuel w shaderCaps chops.1.fPts
            chops.1.fW midpoint wa (by rw [h1]; rfl)
          obtain ⟨ra, na, pa, nea, ca⟩ := ih w _ _ wa hm hB hroom h1
          obtain ⟨rb, nb, pb, -, cb⟩ := ih wa _ _ w1 (s1.trans hm) (s3.trans hB) ra h
          refine ⟨rb, na ++ nb, by rw [pb, pa, List.append_assoc], by simp [nea], ?_⟩
          rw [j1, j2] at ca
          rw [j3] at cb
          exact Patch.chain_append ca cb
    · simp only [hover, if_false, Run.returned.injEq] at h
      subst h
      have hp := GrVertexChunkBuilder.Roomy.appendVertex hroom
        (conicPatch w.fPathXform shaderCaps midpoint ⟨p, wt⟩)
      exact ⟨hp.2, [conicPatch w.fPathXform shaderCaps midpoint ⟨p, wt⟩], hp.1, by simp,
        ⟨rfl, rfl⟩⟩

theorem writeElem_chain (E : Estimators) (fuel : Nat) (shaderCaps : GrShaderCaps)
    (midpoint : SkPoint) (c ca : ContourLocals) (pr : Prim)
    (hroom : c.wedgeWriter.fChunker.Roomy) (hjoin : E.ChopJoins)
    (hsucc : E.ChopSucceeds c.wedgeWriter.fTotalVectorXform c.wedgeWriter.fMaxSegments_pow2)
    (h : writeElem E fuel shaderCaps midpoint c (pr.elem c.lastPoint) = Run.returned ca) :
    ca.wedgeWriter.fChunker.Roomy ∧ ca.startPoint = c.startPoint ∧
    ca.lastPoint = pr.endPoint?.getD c.lastPoint ∧
    ∃ new, ca.wedgeWriter.patches = c.wedgeWriter.patches ++ new ∧
      Patch.Chain c.lastPoint new ca.lastPoint ∧ (pr.isGeometry = true → new ≠ []) := by
  cases pr with
  | line p1 =>
    simp only [Prim.elem, writeElem, Run.returned.injEq] at h
    subst h
    obtain ⟨h1, h2⟩ := WedgeWriter.roomy_writeFlatWedge hroom shaderCaps c.lastPoint p1 midpoint
    exact ⟨h2, rfl, rfl, [_], h1, ⟨rfl, rfl⟩, fun _ => by simp⟩
  | close =>
    simp only [Prim.elem, writeElem, Run.returned.injEq] at h
    subst h
    exact ⟨hroom, rfl, rfl, [], by simp, rfl, fun hg => by simp [Prim.isGeometry, Prim.endPoint?] at hg⟩
  | quad p1 p2 =>
    simp only [Prim.elem, writeElem] at h
    cases hr : WedgeWriter.writeQuadraticWedge E fuel c.wedgeWriter shaderCaps
        ⟨c.lastPoint, p1, p2⟩ midpoint with
    | fault => rw [hr] at h; simp at h
    | unfinished wa => rw [hr] at h; simp at h
    | returned wa =>
      rw [hr] at h
      simp only [Run.returned.injEq] at h
      subst h
      obtain ⟨r1, new, e1, e2, e3⟩ := WedgeWriter.writeQuadraticWedge_chain E fuel
        c.wedgeWriter shaderCaps _ midpoint wa hroom hr
      exact ⟨r1, rfl, rfl, new, e1, e3, fun _ => e2⟩
  | cubic p1 p2 p3 =>
    simp only [Prim.elem, writeElem] at h
    cases hr : WedgeWriter.writeCubicWedge E fuel c.wedgeWriter shaderCaps
        ⟨c.lastPoint, p1, p2, p3⟩ midpoint with
    | fault => rw [hr] at h; simp at h
    | unfinished wa => rw [hr] at h; simp at h
    | returned wa =>
      rw [hr] at h
      simp only [Run.returned.injEq] at h
      subst h
      obtain ⟨r1, new, e1, e2, e3⟩ := WedgeWriter.writeCubicWedge_chain E fuel
        c.wedgeWriter shaderCaps _ midpoint wa hroom hr
      exact ⟨r1, rfl, rfl, new, e1, e3, fun _ => e2⟩
  | conic p1 p2 wt =>
    simp only [Prim.elem, writeElem] at h
    cases hr : WedgeWriter.writeConicWedge E fuel c.wedgeWriter shaderCaps
        ⟨c.lastPoint, p1, p2⟩ wt midpoint with
    | fault => rw [hr] at h; simp at h
    | unfinished wa => rw [hr] at h; simp at h
    | returned wa =>
      rw [hr] at h
      simp only [Run.returned.injEq] at h
      subst h
      obtain ⟨r1, new, e1, e2, e3⟩ := WedgeWriter.writeConicWedge_chain E fuel
        c.wedgeWriter shaderCaps _ wt midpoint wa _ _ rfl rfl hroom hjoin hsucc hr
      exact ⟨r1, rfl, rfl, new, e1, e3, fun _ => e2⟩

theorem writeElems_chain (E : Estimators) (fuel : Nat) (shaderCaps : GrShaderCaps)
    (midpoint : SkPoint) (prims : List Prim) (c c1 : ContourLocals)
    (hroom : c.wedgeWriter.fChunker.Roomy) (hjoin : E.ChopJoins)
    (hsucc : E.ChopSucceeds c.wedgeWriter.fTotalVectorXform c.wedgeWriter.fMaxSegments_pow2)
    (h : writeElems E fuel shaderCaps midpoint (primElems c.lastPoint prims) c
      = Run.returned c1) :
    c1.wedgeWriter.fChunker.Roomy ∧ c1.startPoint = c.startPoint ∧
    ∃ new, c1.wedgeWriter.patches = c.wedgeWriter.patches ++ new ∧
      Patch.Chain c.lastPoint new c1.lastPoint ∧
      (prims.any Prim.isGeometry = true → new ≠ []) := by
  induction prims generalizing c with
  | nil =>
    simp only [primElems, writeElems, Run.returned.injEq] at h
    subst h
    exact ⟨hroom, rfl, [], by simp, rfl, fun hg => by simp at hg⟩
  | cons pr prims ih =>
    rw [primElems, writeElems] at h
    cases hr : writeElem E fuel shaderCaps midpoint c (pr.elem c.lastPoint) with
    | fault => rw [hr] at h; simp at h
    | unfinished ca => rw [hr] at h; simp at h
    | returned ca =>
      rw [hr] at h
      simp only at h
      obtain ⟨r1, s1, l1, new1, p1, ch1, ne1⟩ :=
        writeElem_chain E fuel shaderCaps midpoint c ca pr hroom hjoin hsucc hr
      have hk := writeElem_kept E fuel shaderCaps midpoint c _ ca (by rw [hr]; rfl)
      rw [← l1] at h
      obtain ⟨r2, s2, new2, p2, ch2, ne2⟩ := ih ca r1 (by rw [hk.total, hk.pow2]; exact hsucc) h
      refine ⟨r2, s2.trans s1, new1 ++ new2, by rw [p2, p1, List.append_assoc],
        Patch.chain_append ch1 ch2, ?_⟩
      intro hg
      rw [List.any_cons, Bool.or_eq_true] at hg
      rcases hg with hg | hg
      · simp [ne1 hg]
      · simp [ne2 hg]

/-- C26 (amended): on a target with room, with a conic chop that never fails on a conic over
budget and whose halves join up, for every contour with geometry of a well-formed path: once
the iteration of the contour loop of `prepare` has returned, the wedges it has written for the
contour are not empty and form a closed chain; the first starts at the Move point, each starts
at the end point of the one before (sub-curves of chopped curves included), and the last, the
closing wedge when one is needed, ends at the Move point. -/
theorem C26_wedges_form_closed_chain (E : Estimators) (fuel : Nat) (shaderCaps : GrShaderCaps)
    (s : MidpointContourParser) (w : WedgeWriter) (done junk rest : List Contour) (c : Contour)
    (h : s.AtBoundary done (junk ++ c :: rest)) (hjunk : ∀ j ∈ junk, j.hasGeometry = false)
    (hc : c.hasGeometry = true) (hroom : w.fChunker.Roomy) (hjoin : E.ChopJoins)
    (hsucc : E.ChopSucceeds w.fTotalVectorXform w.fMaxSegments_pow2) :
    ∃ s1, s.parseNextContour = some (true, s1) ∧
      ∀ w2, prepareContour E fuel shaderCaps s1 w = Run.returned w2 →
        ∃ new, w2.patches = w.patches ++ new ∧ new ≠ [] ∧ Patch.Chain c.start new c.start := by
  obtain ⟨s1, h1, hy, -, -⟩ :=
    MidpointContourParser.parseNextContour_yield s done junk rest c h hjunk hc
  refine ⟨s1, h1, fun w2 hw2 => ?_⟩
  have hcur := currentContour_yielded s1 _ _ c hy
  simp only [prepareContour, hcur, Contour.elems, writeElems, writeElem] at hw2
  cases hr : writeElems E fuel shaderCaps (w.fPathXform.mapPoint s1.currentMidpoint)
      (primElems c.start c.prims) ⟨w, c.start, c.start⟩ with
  | fault => rw [hr] at hw2; simp at hw2
  | unfinished cl => rw [hr] at hw2; simp at hw2
  | returned cl =>
    rw [hr] at hw2
    simp only [Run.returned.injEq] at hw2
    subst hw2
    obtain ⟨r1, s1e, new, p1, ch, ne⟩ := writeElems_chain E fuel shaderCaps _ c.prims
      ⟨w, c.start, c.start⟩ cl hroom hjoin hsucc hr
    have hne : new ≠ [] := ne hc
    have hs : cl.startPoint = c.start := s1e
    have hch : Patch.Chain c.start new cl.lastPoint := ch
    have hp : cl.wedgeWriter.patches = w.patches ++ new := p1
    unfold closeContour
    split
    · obtain ⟨f1, -⟩ := WedgeWriter.roomy_writeFlatWedge r1 shaderCaps cl.lastPoint
        cl.startPoint (w.fPathXform.mapPoint s1.currentMidpoint)
      refine ⟨new ++ [WedgeWriter.flatPatch cl.wedgeWriter.fPathXform shaderCaps
        (w.fPathXform.mapPoint s1.currentMidpoint) cl.lastPoint cl.startPoint], ?_, by simp, ?_⟩
      · rw [f1, hp, List.append_assoc]
      · exact Patch.chain_append hch ⟨rfl, hs⟩
    · rename_i heq
      have hl : cl.lastPoint = c.start := by
        have : cl.lastPoint = cl.startPoint := by simpa using heq
        exact this.trans hs
      rw [hl] at hch
      exact ⟨new, hp, hne, hch⟩

/-- C26 (amended) on the contour `M(0,0) Q(0,0)(4,1/2)` and the sample writer (fourth-power
budget 16, target with room): the quadratic is chopped once and the three wedges written lead
from `(0,0)` over `(1,1/8)` and `(4,1/2)` back to `(0,0)`. -/
theorem C26_closed_chain_of_chopped_quadratic :
    Sample.quadContour.hasGeometry = true ∧ Sample.writer.fChunker.Roomy ∧
    Sample.estimators.ChopJoins ∧
    Sample.estimators.ChopSucceeds Sample.writer.fTotalVectorXform
      Sample.writer.fMaxSegments_pow2 ∧
    (∃ s1, (MidpointContourParser.mk0 (pathOf [Sample.quadContour])).parseNextContour
        = some (true, s1) ∧
      ∀ w2, prepareContour Sample.estimators 2 Sample.caps s1 Sample.writer = Run.returned w2 →
        ∃ new, w2.patches = Sample.writer.patches ++ new ∧ new ≠ [] ∧
          Patch.Chain Sample.quadContour.start new Sample.quadContour.start) ∧
    ((MidpointContourParser.mk0 (pathOf [Sample.quadContour])).parseNextContour.bind fun r =>
        (match prepareContour Sample.estimators 2 Sample.caps r.2 Sample.writer with
          | Run.returned w2 => some (w2.patches.map fun patch =>
              (patch.fGeometry.startPoint, patch.fGeometry.endPoint))
          | _ => none))
      = some [(⟨0, 0⟩, ⟨1, 1 / 8⟩), (⟨1, 1 / 8⟩, ⟨4, 1 / 2⟩), (⟨4, 1 / 2⟩, ⟨0, 0⟩)] := by
  have hjoin : Sample.estimators.ChopJoins := by
    intro k a b hk
    simp [Sample.estimators, wangsEstimators] at hk
  have hsucc : Sample.estimators.ChopSucceeds Sample.writer.fTotalVectorXform
      Sample.writer.fMaxSegments_pow2 := by
    intro q wt hq
    exfalso
    have h4 : Sample.writer.fMaxSegments_pow2 = 4 := by decide!
    rw [h4] at hq
    simp [Sample.estimators, wangsEstimators] at hq
    linarith
  exact ⟨by decide, Sample.writer_roomy, hjoin, hsucc,
    C26_wedges_form_closed_chain Sample.estimators 2 Sample.caps
      (MidpointContourParser.mk0 (pathOf [Sample.quadContour])) Sample.writer [] [] []
      Sample.quadContour (MidpointContourParser.atBoundary_mk0 _) (by simp) (by decide)
      Sample.writer_roomy hjoin hsucc,
    by decide!⟩

/-- C26 as stated fails on a target with room for one patch only: for the contour
`M(0,0) L(1,0)` the Line, its only primitive, is emitted, `prepare` returns, and the closing
wedge is not written; the one wedge emitted ends at `(1,0)`, not at the Move point `(0,0)`. -/
theorem C26_chain_left_open_without_room :
    Sample.openContour.start = ⟨0, 0⟩ ∧
    PathWedgeTessellator.preparedPatches Sample.estimators 1 Sample.tessellator
      Sample.targetOneRoom [(SkMatrix.I, pathOf [Sample.openContour])] 2
      = some [⟨SkMatrix.I, PatchGeometry.mapLineToCubic ⟨0, 0⟩ ⟨1, 0⟩, ⟨1 / 2, 0⟩,
          some CurveType.kCubicCurveType⟩] ∧
    ¬ Patch.Chain Sample.openContour.start
      [⟨SkMatrix.I, PatchGeometry.mapLineToCubic ⟨0, 0⟩ ⟨1, 0⟩, ⟨1 / 2, 0⟩,
          some CurveType.kCubicCurveType⟩] Sample.openContour.start := by
  refine ⟨rfl, by decide!, ?_⟩
  intro hch
  have h2 := hch.2
  simp [Patch.Chain, PatchGeometry.endPoint, Sample.openContour] at h2

/-! ### The parser in binary32 -/

namespace binary32

namespace MidpointContourParser

theorem parseLoop_prim_binary32 (s : MidpointContourParser) (pr : Prim) (k : Nat) (hg : Bool)
    (restV : List SkPathVerb) (restP : List skgpu.SkPoint)
    (hv : s.fPath.fVerbs.drop (s.fVerbs + s.fVerbsIdx) = pr.verb :: restV)
    (hp : s.fPath.fPts.drop (s.fPoints + s.fPtsIdx) = pr.points ++ restP)
    (hn : s.fVerbs + s.fNumRemainingVerbs = s.fPath.fVerbs.length) :
    parseLoop (k + 1) hg s = parseLoop k (hg || pr.isGeometry) (s.over1 pr) := by
  have hlt : s.fVerbsIdx < s.fNumRemainingVerbs := by
    have := skgpu.MidpointContourParser.lt_length_of_drop_eq_cons hv
    omega
  have hverb : s.verbAt s.fVerbsIdx = some pr.verb :=
    skgpu.MidpointContourParser.getElem?_of_drop_eq_cons hv
  cases pr with
  | close =>
    simp [parseLoop, hlt, hverb, Prim.verb, over1, nextVerb, Prim.points, Prim.weights,
      Prim.endPoint?, Prim.isGeometry]
  | line p1 =>
    have h0 : s.fPath.fPts[s.fPoints + s.fPtsIdx]? = some p1 := by
      have := skgpu.MidpointContourParser.getElem?_of_drop_eq_append (i := 0) hp
        (by simp [Prim.points])
      simpa [Prim.points] using this
    simp [parseLoop, hlt, hverb, Prim.verb, over1, nextVerb, Prim.points, Prim.weights,
      Prim.endPoint?, Prim.isGeometry, accumulate, pointAt, h0]
  | quad p1 p2 =>
    have h0 : s.fPath.fPts[s.fPoints + (s.fPtsIdx + 1)]? = some p2 := by
      have := skgpu.MidpointContourParser.getElem?_of_drop_eq_append (i := 1) hp
        (by simp [Prim.points])
      simpa [Prim.points, Nat.add_assoc] using this
    simp [parseLoop, hlt, hverb, Prim.verb, over1, nextVerb, Prim.points, Prim.weights,
      Prim.endPoint?, Prim.isGeometry, accumulate, pointAt, h0]
  | conic p1 p2 w =>
    have h0 : s.fPath.fPts[s.fPoints + (s.fPtsIdx + 1)]? = some p2 := by
      have := skgpu.MidpointContourParser.getElem?_of_drop_eq_append (i := 1) hp
        (by simp [Prim.points])
      simpa [Prim.points, Nat.add_assoc] using this
    simp [parseLoop, hlt, hverb, Prim.verb, over1, nextVerb, Prim.points, Prim.weights,
      Prim.endPoint?, Prim.isGeometry, accumulate, pointAt, h0]
  | cubic p1 p2 p3 =>
    have h0 : s.fPath.fPts[s.fPoints + (s.fPtsIdx + 2)]? = some p3 := by
      have := skgpu.MidpointContourParser.getElem?_of_drop_eq_append (i := 2) hp
        (by simp [Prim.points])
      simpa [Prim.points, Nat.add_assoc] using this
    simp [parseLoop, hlt, hverb, Prim.verb, over1, nextVerb, Prim.points, Prim.weights,
      Prim.endPoint?, Prim.isGeometry, accumulate, pointAt, h0]

theorem parseLoop_move_binary32 (s : MidpointContourParser) (pt : skgpu.SkPoint) (k : Nat)
    (restV : List SkPathVerb) (restP : List skgpu.SkPoint)
    (hv : s.fPath.fVerbs.drop (s.fVerbs + s.fVerbsIdx) = SkPathVerb.kMove :: restV)
    (hp : s.fPath.fPts.drop (s.fPoints + s.fPtsIdx) = pt :: restP)
    (hn : s.fVerbs + s.fNumRemainingVerbs = s.fPath.fVerbs.length) :
    parseLoop (k + 1) false s = parseLoop k false (s.seeded pt) := by
  have hlt : s.fVerbsIdx < s.fNumRemainingVerbs := by
    have := skgpu.MidpointContourParser.lt_length_of_drop_eq_cons hv
    omega
  have hverb : s.verbAt s.fVerbsIdx = some SkPathVerb.kMove :=
    skgpu.MidpointContourParser.getElem?_of_drop_eq_cons hv
  have hpt : s.pointAt s.fPtsIdx = some pt :=
    skgpu.MidpointContourParser.getElem?_of_drop_eq_cons hp
  simp [parseLoop, hlt, hverb, hpt, seeded, advance, nextVerb]

theorem parseLoop_move_geometry_binary32 (s : MidpointContourParser) (k : Nat)
    (restV : List SkPathVerb)
    (hv : s.fPath.fVerbs.drop (s.fVerbs + s.fVerbsIdx) = SkPathVerb.kMove :: restV)
    (hn : s.fVerbs + s.fNumRemainingVerbs = s.fPath.fVerbs.length) :
    parseLoop (k + 1) true s = some (true, s) := by
  have hlt : s.fVerbsIdx < s.fNumRemainingVerbs := by
    have := skgpu.MidpointContourParser.lt_length_of_drop_eq_cons hv
    omega
  have hverb : s.verbAt s.fVerbsIdx = some SkPathVerb.kMove :=
    skgpu.MidpointContourParser.getElem?_of_drop_eq_cons hv
  simp [parseLoop, hlt, hverb]

theorem parseLoop_end_binary32 (s : MidpointContourParser) (k : Nat) (hg : Bool)
    (hend : s.fPath.fVerbs.length ≤ s.fVerbs + s.fVerbsIdx)
    (hn : s.fVerbs + s.fNumRemainingVerbs = s.fPath.fVerbs.length) :
    parseLoop k hg s = some (hg, s) := by
  have hge : ¬ s.fVerbsIdx < s.fNumRemainingVerbs := by omega
  cases k <;> simp [parseLoop, hge]

/-- The parser state after the loop of `parseNextContour` ran over the primitives `prims`. -/
theorem over_fields_binary32 (prims : List Prim) (s : MidpointContourParser) :
    (prims.foldl over1 s).fPath = s.fPath ∧
    (prims.foldl over1 s).fVerbs = s.fVerbs ∧
    (prims.foldl over1 s).fNumRemainingVerbs = s.fNumRemainingVerbs ∧
    (prims.foldl over1 s).fVerbsIdx = s.fVerbsIdx + prims.length ∧
    (prims.foldl over1 s).fPoints = s.fPoints ∧
    (prims.foldl over1 s).fPtsIdx = s.fPtsIdx + (prims.flatMap Prim.points).length ∧
    (prims.foldl over1 s).fWeights = s.fWeights ∧
    (prims.foldl over1 s).fWtsIdx = s.fWtsIdx + (prims.flatMap Prim.weights).length ∧
    (prims.foldl over1 s).fMidpoint
      = (prims.filterMap Prim.endPoint?).foldl SkPoint.addPoint s.fMidpoint ∧
    (prims.foldl over1 s).fMidpointWeight
      = s.fMidpointWeight + (prims.filterMap Prim.endPoint?).length := by
  induction prims generalizing s with
  | nil => simp
  | cons pr prims ih =>
    obtain ⟨h1, h2, h3, h4, h5, h6, h7, h8, h9, h10⟩ := ih (s.over1 pr)
    simp only [List.foldl_cons]
    refine ⟨by rw [h1]; rfl, by rw [h2]; rfl, by rw [h3]; rfl, ?_, by rw [h5]; rfl, ?_,
      by rw [h7]; rfl, ?_, ?_, ?_⟩
    · rw [h4]; simp [over1]; omega
    · rw [h6]; simp [over1]; omega
    · rw [h8]; simp [over1]; omega
    · rw [h9]
      cases pr <;> simp [over1, Prim.endPoint?]
    · rw [h10]
      cases pr <;> simp [over1, Prim.endPoint?, Prim.isGeometry] <;> omega

theorem parseLoop_prims_binary32 (prims : List Prim) (s : MidpointContourParser) (k : Nat)
    (hg : Bool) (restV : List SkPathVerb) (restP : List skgpu.SkPoint)
    (hv : s.fPath.fVerbs.drop (s.fVerbs + s.fVerbsIdx) = prims.map Prim.verb ++ restV)
    (hp : s.fPath.fPts.drop (s.fPoints + s.fPtsIdx) = prims.flatMap Prim.points ++ restP)
    (hn : s.fVerbs + s.fNumRemainingVerbs = s.fPath.fVerbs.length) :
    parseLoop (prims.length + k) hg s
      = parseLoop k (hg || prims.any Prim.isGeometry) (prims.foldl over1 s) := by
  induction prims generalizing s hg with
  | nil => simp
  | cons pr prims ih =>
    have hstep := parseLoop_prim_binary32 s pr (prims.length + k) hg
      (prims.map Prim.verb ++ restV)
      (prims.flatMap Prim.points ++ restP) (by simpa using hv)
      (by simpa [List.flatMap_cons, List.append_assoc] using hp) hn
    have hv1 : (s.over1 pr).fPath.fVerbs.drop ((s.over1 pr).fVerbs + (s.over1 pr).fVerbsIdx)
        = prims.map Prim.verb ++ restV := by
      have : (s.over1 pr).fVerbs + (s.over1 pr).fVerbsIdx = (s.fVerbs + s.fVerbsIdx) + 1 := by
        simp [over1]; omega
      rw [this, ← List.drop_drop]
      show List.drop 1 (List.drop (s.fVerbs + s.fVerbsIdx) s.fPath.fVerbs) = _
      rw [hv]; simp
    have hp1 : (s.over1 pr).fPath.fPts.drop ((s.over1 pr).fPoints + (s.over1 pr).fPtsIdx)
        = prims.flatMap Prim.points ++ restP := by
      have : (s.over1 pr).fPoints + (s.over1 pr).fPtsIdx
          = (s.fPoints + s.fPtsIdx) + pr.points.length := by
        simp [over1]; omega
      rw [this, ← List.drop_drop]
      show List.drop pr.points.length (List.drop (s.fPoints + s.fPtsIdx) s.fPath.fPts) = _
      rw [hp]; simp [List.flatMap_cons, List.append_assoc]
    have hn1 : (s.over1 pr).fVerbs + (s.over1 pr).fNumRemainingVerbs
        = (s.over1 pr).fPath.fVerbs.length := hn
    have := ih (s.over1 pr) (hg || pr.isGeometry) hv1 hp1 hn1
    have hlen : (pr :: prims).length + k = (prims.length + k) + 1 := by simp; omega
    rw [hlen, hstep, this]
    simp [Bool.or_assoc]

/-- One contour: from the boundary before `c`, the loop of `parseNextContour` seeds the midpoint
at the Move of `c` and runs over its primitives, adding in binary32. -/
theorem parseLoop_contour_binary32 (s : MidpointContourParser) (done rest : List Contour)
    (c : Contour) (k : Nat) (h : s.cursors.AtBoundary done (c :: rest)) :
    parseLoop (c.verbs.length + k) false s
        = parseLoop k c.hasGeometry (c.prims.foldl over1 (s.seeded c.start)) ∧
      (c.prims.foldl over1 (s.seeded c.start)).cursors.Yielded done c rest ∧
      (c.prims.foldl over1 (s.seeded c.start)).fMidpoint = c.midpointSum32 ∧
      (c.prims.foldl over1 (s.seeded c.start)).fMidpointWeight = c.endPoints.length + 1 := by
  have hv : s.fPath.fVerbs.drop (s.fVerbs + s.fVerbsIdx) = (c :: rest).flatMap Contour.verbs :=
    h.drop_verbs
  have hp : s.fPath.fPts.drop (s.fPoints + s.fPtsIdx) = (c :: rest).flatMap Contour.points :=
    h.drop_points
  have hn : s.fVerbs + s.fNumRemainingVerbs = s.fPath.fVerbs.length := h.length_verbs
  have hv0 : s.fPath.fVerbs.drop (s.fVerbs + s.fVerbsIdx)
      = SkPathVerb.kMove :: (c.prims.map Prim.verb ++ rest.flatMap Contour.verbs) := by
    rw [hv]; simp [Contour.verbs]
  have hp0 : s.fPath.fPts.drop (s.fPoints + s.fPtsIdx)
      = c.start :: (c.prims.flatMap Prim.points ++ rest.flatMap Contour.points) := by
    rw [hp]; simp [Contour.points]
  have hlt := skgpu.MidpointContourParser.lt_length_of_drop_eq_cons hv0
  have hmove := parseLoop_move_binary32 s c.start (c.prims.length + k) _ _ hv0 hp0 hn
  have hv1 : (s.seeded c.start).fPath.fVerbs.drop
      ((s.seeded c.start).fVerbs + (s.seeded c.start).fVerbsIdx)
      = c.prims.map Prim.verb ++ rest.flatMap Contour.verbs := by
    show List.drop (s.fVerbs + s.fVerbsIdx + 1) s.fPath.fVerbs = _
    rw [← List.drop_drop, hv0]; simp
  have hp1 : (s.seeded c.start).fPath.fPts.drop
      ((s.seeded c.start).fPoints + (s.seeded c.start).fPtsIdx)
      = c.prims.flatMap Prim.points ++ rest.flatMap Contour.points := by
    show List.drop (s.fPoints + s.fPtsIdx + 1) s.fPath.fPts = _
    rw [← List.drop_drop, hp0]; simp
  have hn1 : (s.seeded c.start).fVerbs + (s.seeded c.start).fNumRemainingVerbs
      = (s.seeded c.start).fPath.fVerbs.length := by
    show s.fVerbs + s.fVerbsIdx + (s.fNumRemainingVerbs - s.fVerbsIdx) = s.fPath.fVerbs.length
    omega
  have hprims := parseLoop_prims_binary32 c.prims (s.seeded c.start) k false _ _ hv1 hp1 hn1
  obtain ⟨f1, f2, f3, f4, f5, f6, f7, f8, f9, f10⟩ :=
    over_fields_binary32 c.prims (s.seeded c.start)
  have hpath : s.fPath = pathOf (done ++ c :: rest) := h.path
  have hverbs : s.fVerbs + s.fVerbsIdx = (done.flatMap Contour.verbs).length := h.verbs
  have hpoints : s.fPoints + s.fPtsIdx = (done.flatMap Contour.points).length := h.points
  have hweights : s.fWeights + s.fWtsIdx = (done.flatMap Contour.weights).length := h.weights
  have hrem : s.fVerbs + s.fNumRemainingVerbs
      = ((done ++ c :: rest).flatMap Contour.verbs).length := h.remaining
  refine ⟨?_, ?_, ?_, ?_⟩
  · have hlen : c.verbs.length + k = (c.prims.length + k) + 1 := by
      simp [Contour.verbs]; omega
    rw [hlen, hmove, hprims]
    simp [Contour.hasGeometry]
  · refine ⟨?_, ?_, ?_, ?_, ?_, ?_, ?_, ?_⟩
    · show (c.prims.foldl over1 (s.seeded c.start)).fPath = _
      rw [f1]; exact hpath
    · show (c.prims.foldl over1 (s.seeded c.start)).fVerbs = _
      rw [f2]; exact hverbs
    · show (c.prims.foldl over1 (s.seeded c.start)).fVerbsIdx = _
      rw [f4]; simp [seeded, Contour.verbs]; omega
    · show (c.prims.foldl over1 (s.seeded c.start)).fPoints = _
      rw [f5]; exact hpoints
    · show (c.prims.foldl over1 (s.seeded c.start)).fPtsIdx = _
      rw [f6]; simp [seeded, Contour.points]; omega
    · show (c.prims.foldl over1 (s.seeded c.start)).fWeights = _
      rw [f7]; exact hweights
    · show (c.prims.foldl over1 (s.seeded c.start)).fWtsIdx = _
      rw [f8]; simp [seeded, Contour.weights]
    · show (c.prims.foldl over1 (s.seeded c.start)).fVerbs
        + (c.prims.foldl over1 (s.seeded c.start)).fNumRemainingVerbs = _
      rw [f2, f3]
      show s.fVerbs + s.fVerbsIdx + (s.fNumRemainingVerbs - s.fVerbsIdx) = _
      rw [← hrem]; omega
  · rw [f9]; rfl
  · rw [f10]; simp [seeded, Contour.endPoints]; omega

/-- Contours without geometry are run through without a return. -/
theorem parseLoop_junk_binary32 (junk : List Contour) (s : MidpointContourParser)
    (done tail : List Contour) (k : Nat) (h : s.cursors.AtBoundary done (junk ++ tail))
    (hjunk : ∀ j ∈ junk, j.hasGeometry = false) :
    ∃ s1, parseLoop ((junk.flatMap Contour.verbs).length + k) false s = parseLoop k false s1 ∧
      s1.cursors.AtBoundary (done ++ junk) tail := by
  induction junk generalizing s done with
  | nil => exact ⟨s, by simp, by simpa using h⟩
  | cons j junk ih =>
    have hj : j.hasGeometry = false := hjunk j (by simp)
    obtain ⟨h1, h2, -, -⟩ := parseLoop_contour_binary32 s done (junk ++ tail) j
      ((junk.flatMap Contour.verbs).length + k) (by simpa using h)
    have hb := h2.atBoundary
    obtain ⟨s1, hs1, hb1⟩ := ih (j.prims.foldl over1 (s.seeded j.start)) (done ++ [j]) hb
      (fun x hx => hjunk x (by simp [hx]))
    refine ⟨s1, ?_, by simpa using hb1⟩
    rw [← hs1, ← hj, ← h1]
    congr 1
    simp [List.flatMap_cons]; omega

/-- A call of `parseNextContour` at a boundary followed by contours without geometry and then a
contour `c` with geometry returns true, with the midpoint accumulator holding the binary32 sum
of the sample points of `c`. -/
theorem parseNextContour_yield_binary32 (s : MidpointContourParser)
    (done junk rest : List Contour)
    (c : Contour) (h : s.cursors.AtBoundary done (junk ++ c :: rest))
    (hjunk : ∀ j ∈ junk, j.hasGeometry = false) (hc : c.hasGeometry = true) :
    ∃ s1, s.parseNextContour = some (true, s1) ∧ s1.cursors.Yielded (done ++ junk) c rest ∧
      s1.fMidpoint = c.midpointSum32 ∧ s1.fMidpointWeight = c.endPoints.length + 1 := by
  unfold parseNextContour
  have hfuel : s.fNumRemainingVerbs - s.fVerbsIdx
      = ((junk ++ c :: rest).flatMap Contour.verbs).length := h.fuel
  rw [hfuel]
  obtain ⟨s1, hs1, hb1⟩ := parseLoop_junk_binary32 junk s done (c :: rest)
    (c.verbs.length + (rest.flatMap Contour.verbs).length) h hjunk
  obtain ⟨h1, h2, h3, h4⟩ := parseLoop_contour_binary32 s1 (done ++ junk) rest c
    (rest.flatMap Contour.verbs).length hb1
  refine ⟨c.prims.foldl over1 (s1.seeded c.start), ?_, h2, h3, h4⟩
  have hlen : ((junk ++ c :: rest).flatMap Contour.verbs).length
      = (junk.flatMap Contour.verbs).length
        + (c.verbs.length + (rest.flatMap Contour.verbs).length) := by
    simp [List.flatMap_append, List.flatMap_cons]
  rw [hlen, hs1, h1, hc]
  have hb2 := h2.atBoundary
  have hlv : (c.prims.foldl over1 (s1.seeded c.start)).fVerbs
      + (c.prims.foldl over1 (s1.seeded c.start)).fNumRemainingVerbs
      = (c.prims.foldl over1 (s1.seeded c.start)).fPath.fVerbs.length := hb2.length_verbs
  have hv : (c.prims.foldl over1 (s1.seeded c.start)).fPath.fVerbs.drop
      ((c.prims.foldl over1 (s1.seeded c.start)).fVerbs
        + (c.prims.foldl over1 (s1.seeded c.start)).fVerbsIdx)
      = rest.flatMap Contour.verbs := hb2.drop_verbs
  cases rest with
  | nil =>
    apply parseLoop_end_binary32 _ _ _ _ hlv
    have := hv
    simp at this
    omega
  | cons c2 rest2 =>
    have hlen2 : ((c2 :: rest2).flatMap Contour.verbs).length
        = (c2.prims.length + (rest2.flatMap Contour.verbs).length) + 1 := by
      simp only [List.flatMap_cons, Contour.verbs, List.length_append, List.length_cons,
        List.length_map]
      omega
    rw [hlen2]
    exact parseLoop_move_geometry_binary32 _ _
      (c2.prims.map Prim.verb ++ rest2.flatMap Contour.verbs)
      (by rw [hv]; simp [List.flatMap_cons, Contour.verbs]) hlv

theorem atBoundary_mk0_binary32 (cs : List Contour) :
    (mk0 (pathOf cs)).cursors.AtBoundary [] cs where
  path := rfl
  verbs := rfl
  points := rfl
  weights := rfl
  remaining := by simp [mk0, cursors, pathOf]

/-- When no partial sum rounds, the binary32 accumulator holds the exact sum. -/
theorem foldl_addPoint_exact (es : List skgpu.SkPoint) (m : skgpu.SkPoint)
    (hx : ∀ k, 1 ≤ k → k ≤ es.length →
      Binary32.IsExact (m.fX + ((es.take k).map skgpu.SkPoint.fX).sum))
    (hy : ∀ k, 1 ≤ k → k ≤ es.length →
      Binary32.IsExact (m.fY + ((es.take k).map skgpu.SkPoint.fY).sum)) :
    es.foldl SkPoint.addPoint (SkPoint.ofPoint m)
      = ⟨Binary32.finite (m.fX + (es.map skgpu.SkPoint.fX).sum),
         Binary32.finite (m.fY + (es.map skgpu.SkPoint.fY).sum)⟩ := by
  induction es generalizing m with
  | nil => simp [SkPoint.ofPoint]
  | cons e es ih =>
    have h1x := hx 1 (le_refl 1) (by simp)
    have h1y := hy 1 (le_refl 1) (by simp)
    simp only [List.take_succ_cons, List.take_zero, List.map_cons, List.map_nil, List.sum_cons,
      List.sum_nil, add_zero] at h1x h1y
    have hstep : SkPoint.addPoint (SkPoint.ofPoint m) e
        = SkPoint.ofPoint ⟨m.fX + e.fX, m.fY + e.fY⟩ := by
      show (⟨Binary32.round (m.fX + e.fX), Binary32.round (m.fY + e.fY)⟩ : SkPoint) = _
      rw [h1x, h1y]
      rfl
    rw [List.foldl_cons, hstep, ih]
    · simp [add_assoc]
    · intro k hk1 hk2
      have := hx (k + 1) (by omega) (by simp; omega)
      simpa [add_assoc] using this
    · intro k hk1 hk2
      have := hy (k + 1) (by omega) (by simp; omega)
      simpa [add_assoc] using this

end MidpointContourParser

end binary32

/-- C1 (amended): for every contour with geometry of a well-formed path, the call of
`parseNextContour` that yields it (started at the boundary before it, possibly after contours
without geometry) returns true, and `currentMidpoint()` is then what binary32 arithmetic
makes of `(m + e_1 + ... + e_n) * (1.f / (n + 1))`: the Move point `m` and the end points
`e_1 .. e_n` of the Line, Quad, Conic and Cubic verbs added in verb order, each sum, the
quotient and the product rounded; Close verbs and interior control points add nothing. When
none of these operations rounds, that is the mean `(m + e_1 + ... + e_n) / (n + 1)`. -/
theorem C1_currentMidpoint_is_rounded_mean (s : binary32.MidpointContourParser)
    (done junk rest : List Contour) (c : Contour)
    (h : s.cursors.AtBoundary done (junk ++ c :: rest))
    (hjunk : ∀ j ∈ junk, j.hasGeometry = false) (hc : c.hasGeometry = true) :
    ∃ s1, s.parseNextContour = some (true, s1) ∧
      s1.currentMidpoint = c.midpointSum32.scale
        ((Binary32.finite 1).div (Binary32.ofInt ((c.endPoints.length + 1 : Nat) : Int))) ∧
      (c.MidpointIsExact → s1.currentMidpoint =
        ⟨Binary32.finite
          ((c.start.fX + (c.endPoints.map SkPoint.fX).sum) / ((c.endPoints.length : ℚ) + 1)),
         Binary32.finite
          ((c.start.fY + (c.endPoints.map SkPoint.fY).sum)
            / ((c.endPoints.length : ℚ) + 1))⟩) := by
  obtain ⟨s1, h1, -, h3, h4⟩ :=
    binary32.MidpointContourParser.parseNextContour_yield_binary32 s done junk rest c h hjunk hc
  have hmid : s1.currentMidpoint = c.midpointSum32.scale
      ((Binary32.finite 1).div (Binary32.ofInt ((c.endPoints.length + 1 : Nat) : Int))) := by
    unfold binary32.MidpointContourParser.currentMidpoint
    rw [h3, h4]
  refine ⟨s1, h1, hmid, ?_⟩
  intro hex
  rw [hmid, Contour.midpointSum32,
    binary32.MidpointContourParser.foldl_addPoint_exact c.endPoints c.start hex.sumX hex.sumY]
  have hcount : Binary32.ofInt ((c.endPoints.length + 1 : Nat) : Int)
      = Binary32.finite ((((c.endPoints.length + 1 : Nat) : Int) : ℚ)) := hex.count
  have hne : ((((c.endPoints.length + 1 : Nat) : Int) : ℚ)) ≠ 0 := by
    push_cast
    positivity
  have hrec : (Binary32.finite 1).div (Binary32.finite ((((c.endPoints.length + 1 : Nat) : Int) : ℚ)))
      = Binary32.finite (1 / ((((c.endPoints.length + 1 : Nat) : Int) : ℚ))) := by
    have hdiv : (Binary32.finite 1).div
        (Binary32.finite ((((c.endPoints.length + 1 : Nat) : Int) : ℚ)))
        = Binary32.round (1 / ((((c.endPoints.length + 1 : Nat) : Int) : ℚ))) := by
      simp only [Binary32.div, if_neg hne]
    rw [hdiv]
    exact hex.reciprocal
  rw [hcount, hrec]
  have hX := hex.meanX
  have hY := hex.meanY
  unfold Binary32.IsExact at hX hY
  show (⟨Binary32.round _, Binary32.round _⟩ : binary32.SkPoint) = _
  rw [hX, hY]
  have hcast : ((((c.endPoints.length + 1 : Nat) : Int) : ℚ)) = (c.endPoints.length : ℚ) + 1 := by
    push_cast
    rfl
  rw [hcast]
  simp [div_eq_mul_inv]

/-- On the square `M(0,0) L(10,0) L(10,10) L(0,10)` no operation behind the midpoint rounds:
the sums are 10, 20, 20 and 0, 10, 20, the count is 4, its reciprocal 1/4 and the mean 5. -/
theorem midpointIsExact_square :
    Contour.MidpointIsExact
      ⟨⟨0, 0⟩, [Prim.line ⟨10, 0⟩, Prim.line ⟨10, 10⟩, Prim.line ⟨0, 10⟩]⟩ where
  sumX := by
    intro k h1 h2
    have h3 : k ≤ 3 := h2
    interval_cases k <;> unfold Binary32.IsExact <;> decide!
  sumY := by
    intro k h1 h2
    have h3 : k ≤ 3 := h2
    interval_cases k <;> unfold Binary32.IsExact <;> decide!
  count := by unfold Binary32.IsExact; decide!
  reciprocal := by unfold Binary32.IsExact; decide!
  meanX := by unfold Binary32.IsExact; decide!
  meanY := by unfold Binary32.IsExact; decide!

/-- C1 (amended), on the square `M(0,0) L(10,0) L(10,10) L(0,10)`: no operation rounds and the
midpoint is `(5,5)`. -/
theorem C1_currentMidpoint_square :
    ∃ s1, (binary32.MidpointContourParser.mk0 (pathOf
        [⟨⟨0, 0⟩, [Prim.line ⟨10, 0⟩, Prim.line ⟨10, 10⟩, Prim.line ⟨0, 10⟩]⟩])).parseNextContour
        = some (true, s1) ∧
      s1.currentMidpoint = ⟨Binary32.finite 5, Binary32.finite 5⟩ := by
  obtain ⟨s1, h1, -, h3⟩ := C1_currentMidpoint_is_rounded_mean
    (binary32.MidpointContourParser.mk0 (pathOf
      [⟨⟨0, 0⟩, [Prim.line ⟨10, 0⟩, Prim.line ⟨10, 10⟩, Prim.line ⟨0, 10⟩]⟩])) [] [] []
    ⟨⟨0, 0⟩, [Prim.line ⟨10, 0⟩, Prim.line ⟨10, 10⟩, Prim.line ⟨0, 10⟩]⟩
    (binary32.MidpointContourParser.atBoundary_mk0_binary32 _) (by simp) (by decide)
  refine ⟨s1, h1, ?_⟩
  rw [h3 midpointIsExact_square]
  decide!

/-- C1 as stated fails. On the triangle `M(0,0) L(5,0) L(0,5)` the accumulator holds `(5,5)`
and the weight is 3, and `currentMidpoint()` is `5 * fl(1/3) = 6990507/4194304` in each
coordinate, which is neither the mean `5/3` nor the binary32 value nearest to it,
`13981013/8388608`. On `M(2^127,0) L(2^127,0)` the sum overflows and the midpoint has an
infinite coordinate, while the mean `2^127` is a binary32 value. -/
theorem C1_midpoint_of_triangle_is_not_mean :
    ((binary32.MidpointContourParser.mk0 (pathOf
        [⟨⟨0, 0⟩, [Prim.line ⟨5, 0⟩, Prim.line ⟨0, 5⟩]⟩])).parseNextContour.map
      fun r => (r.1, r.2.currentMidpoint))
      = some (true, ⟨Binary32.finite (6990507 / 4194304), Binary32.finite (6990507 / 4194304)⟩) ∧
    (6990507 / 4194304 : ℚ) ≠ (0 + 5 + 0) / 3 ∧
    Binary32.round ((0 + 5 + 0) / 3) = Binary32.finite (13981013 / 8388608) ∧
    (6990507 / 4194304 : ℚ) ≠ 13981013 / 8388608 ∧
    ((binary32.MidpointContourParser.mk0 (pathOf
        [⟨⟨2 ^ 127, 0⟩, [Prim.line ⟨2 ^ 127, 0⟩]⟩])).parseNextContour.map
      fun r => (r.1, r.2.currentMidpoint))
      = some (true, ⟨Binary32.inf false, Binary32.finite 0⟩) ∧
    Binary32.round ((2 ^ 127 + 2 ^ 127) / 2) = Binary32.finite (2 ^ 127) := by
  refine ⟨by decide!, by norm_num, by decide!, by norm_num, by decide!, by decide!⟩

/-! ### The chop recursion in binary32 -/

namespace binary32

end binary32

end skgpu
